import Mathlib

/-!
# muyifs data path: a shallow embedding

The per-handle writers and readers of `pkg/fuse` (`normal_read_writer.go`,
`chunk_read_write.go`, `common_read_write.go`) over the object-store interface
of `pkg/backend/objectstorage.go`.

Conventions of the embedding.

* A Go `[]byte` is a `Bytes`: a length and an indexing function that is zero
  outside the length (so two byte slices are equal exactly when they have the
  same length and the same bytes).  All buffers of the program have `len = cap`.
* Go `int`, `int64` and `uint64` values are `Int`; no value of the program gets
  near `2^63`, so wrap-around is not modelled.
* A Go function that mutates its receiver takes the receiver and returns the
  new one.  The backend is an interface value `S : ObjectStorage β` together
  with its state; every call made through it is recorded in `World.log`.
* A run-time panic (slice bounds out of range, index out of range) is the
  result `none`; a Go `error` is an `Error`, `none` standing for `nil`.
-/

namespace Muyifs

/-! ## Byte slices -/

/-- Go byte slice with `len = cap`: `get i` is the byte at index `i`. -/
structure Bytes where
  len : Nat
  get : Nat → UInt8
  canon : ∀ i, len ≤ i → get i = 0

namespace Bytes

/-- Go `make([]byte, n)`: `n` zero bytes. -/
def make (n : Nat) : Bytes := ⟨n, fun _ => 0, fun _ _ => rfl⟩

/-- Byte slice holding the elements of a list. -/
def ofList (l : List UInt8) : Bytes :=
  ⟨l.length, fun i => l.getD i 0, fun _ h => List.getD_eq_default _ _ h⟩

/-- Elements of a byte slice, as a list. -/
def toList (b : Bytes) : List UInt8 := (List.range b.len).map b.get

/-- Go slice expression `b[lo:hi]`; `none` when the bounds are out of range. -/
def slice (b : Bytes) (lo hi : Int) : Option Bytes :=
  if 0 ≤ lo ∧ lo ≤ hi ∧ hi ≤ (b.len : Int) then
    some ⟨(hi - lo).toNat, fun i => if i < (hi - lo).toNat then b.get (lo.toNat + i) else 0,
      fun _ h => if_neg (Nat.not_lt.mpr h)⟩
  else none

/-- Go `copy(dst, src)` on whole slices: the first `min (len dst) (len src)`
bytes of `dst` are overwritten. -/
def copy (dst src : Bytes) : Bytes :=
  ⟨dst.len, fun i => if i < min dst.len src.len then src.get i else dst.get i,
    fun i h => by
      have h1 : ¬ i < min dst.len src.len := by omega
      dsimp only; rw [if_neg h1]; exact dst.canon i h⟩

/-- Go `copy(dst[lo:hi], src)`: the bytes of `dst` from `lo` on are overwritten
by the first `min (hi - lo) (len src)` bytes of `src`; `none` when `dst[lo:hi]`
is out of range. -/
def copyInto (dst : Bytes) (lo hi : Int) (src : Bytes) : Option Bytes :=
  if hb : 0 ≤ lo ∧ lo ≤ hi ∧ hi ≤ (dst.len : Int) then
    some ⟨dst.len,
      fun i => if lo.toNat ≤ i ∧ i < lo.toNat + min (hi - lo).toNat src.len
        then src.get (i - lo.toNat) else dst.get i,
      fun i h => by
        have h1 : ¬ (lo.toNat ≤ i ∧ i < lo.toNat + min (hi - lo).toNat src.len) := by omega
        dsimp only; rw [if_neg h1]; exact dst.canon i h⟩
  else none

/-- Concatenation of two byte slices. -/
def append (a b : Bytes) : Bytes :=
  ⟨a.len + b.len, fun i => if i < a.len then a.get i else b.get (i - a.len),
    fun i h => by
      have h1 : ¬ i < a.len := by omega
      dsimp only; rw [if_neg h1]; exact b.canon (i - a.len) (by omega)⟩

/-- Concatenation of a list of byte slices, in list order. -/
def join : List Bytes → Bytes
  | [] => make 0
  | b :: bs => append b (join bs)

/-- The first `n` bytes of `b` (all of `b` when it is shorter). -/
def take (n : Nat) (b : Bytes) : Bytes :=
  ⟨min n b.len, fun i => if i < min n b.len then b.get i else 0,
    fun _ h => if_neg (Nat.not_lt.mpr h)⟩

end Bytes

/-- Go `error`: `none` is `nil`. -/
abbrev Error := Option String

/-! ## `pkg/backend/objectstorage.go` -/

/-- The struct `backend.Object` (`Mtime` is not used by the data path). -/
structure Object where
  Key : String
  Size : Int
  IsDir : Bool
  Metadata : List (String × String)

/-- The struct `backend.MultipartUpload`. -/
structure MultipartUpload where
  MinPartSize : Int
  MaxCount : Int
  UploadID : String

/-- The struct `backend.Part`. -/
structure Part where
  Num : Int
  Size : Int
  ETag : String
deriving DecidableEq

/-- The methods of the interface `backend.ObjectStorage` that the data path
calls, as functions on a backend state `β`.  `Get` also returns the new
content of the destination buffer. -/
structure ObjectStorage (β : Type) where
  Head : β → String → Except String Object × β
  Get : β → String → Int → Int → Bytes → (Except String Int × Bytes) × β
  Put : β → String → List (String × String) → Bytes → Error × β
  InitiateMultipartUpload : β → String → Except String MultipartUpload × β
  UploadPart : β → String → String → Int → Bytes → Except String Part × β
  AbortUpload : β → String → String → Error × β
  CompleteUpload : β → String → String → List Part → Error × β

/-- One call made through the backend interface. -/
inductive Call where
  | Head (key : String)
  | Get (key : String) (off limit : Int)
  | Put (key : String) (metadata : List (String × String)) (body : Bytes)
  | InitiateMultipartUpload (key : String)
  | UploadPart (key uploadID : String) (num : Int) (body : Bytes)
  | AbortUpload (key uploadID : String)
  | CompleteUpload (key uploadID : String) (parts : List Part)

/-- Entry of the call log: the call and whether it returned an error. -/
structure Event where
  call : Call
  failed : Bool

/-- Whether a call returned an error. -/
def Except.failed {α : Type} : Except String α → Bool
  | .error _ => true
  | .ok _ => false

/-- Backend state together with the calls made so far, oldest first. -/
structure World (β : Type) where
  be : β
  log : List Event

namespace World

variable {β : Type}

/-- Call `Backend.Head(key)`. -/
def Head (S : ObjectStorage β) (w : World β) (key : String) : Except String Object × World β :=
  ((S.Head w.be key).1, ⟨(S.Head w.be key).2, w.log ++ [⟨Call.Head key, Except.failed (S.Head w.be key).1⟩]⟩)

/-- Call `Backend.Get(key, off, limit, buf)`. -/
def Get (S : ObjectStorage β) (w : World β) (key : String) (off limit : Int) (buf : Bytes) :
    (Except String Int × Bytes) × World β :=
  ((S.Get w.be key off limit buf).1,
    ⟨(S.Get w.be key off limit buf).2,
      w.log ++ [⟨Call.Get key off limit, Except.failed (S.Get w.be key off limit buf).1.1⟩]⟩)

/-- Call `Backend.Put(key, metadata, body)`. -/
def Put (S : ObjectStorage β) (w : World β) (key : String) (md : List (String × String))
    (body : Bytes) : Error × World β :=
  ((S.Put w.be key md body).1,
    ⟨(S.Put w.be key md body).2,
      w.log ++ [⟨Call.Put key md body, (S.Put w.be key md body).1.isSome⟩]⟩)

/-- Call `Backend.InitiateMultipartUpload(key)`. -/
def InitiateMultipartUpload (S : ObjectStorage β) (w : World β) (key : String) :
    Except String MultipartUpload × World β :=
  ((S.InitiateMultipartUpload w.be key).1,
    ⟨(S.InitiateMultipartUpload w.be key).2,
      w.log ++ [⟨Call.InitiateMultipartUpload key,
        Except.failed (S.InitiateMultipartUpload w.be key).1⟩]⟩)

/-- Call `Backend.UploadPart(key, uploadID, num, body)`. -/
def UploadPart (S : ObjectStorage β) (w : World β) (key uploadID : String) (num : Int)
    (body : Bytes) : Except String Part × World β :=
  ((S.UploadPart w.be key uploadID num body).1,
    ⟨(S.UploadPart w.be key uploadID num body).2,
      w.log ++ [⟨Call.UploadPart key uploadID num body,
        Except.failed (S.UploadPart w.be key uploadID num body).1⟩]⟩)

/-- Call `Backend.AbortUpload(key, uploadID)`. -/
def AbortUpload (S : ObjectStorage β) (w : World β) (key uploadID : String) : Error × World β :=
  ((S.AbortUpload w.be key uploadID).1,
    ⟨(S.AbortUpload w.be key uploadID).2,
      w.log ++ [⟨Call.AbortUpload key uploadID, (S.AbortUpload w.be key uploadID).1.isSome⟩]⟩)

/-- Call `Backend.CompleteUpload(key, uploadID, parts)`. -/
def CompleteUpload (S : ObjectStorage β) (w : World β) (key uploadID : String)
    (parts : List Part) : Error × World β :=
  ((S.CompleteUpload w.be key uploadID parts).1,
    ⟨(S.CompleteUpload w.be key uploadID parts).2,
      w.log ++ [⟨Call.CompleteUpload key uploadID parts,
        (S.CompleteUpload w.be key uploadID parts).1.isSome⟩]⟩)

end World

/-- Outcome of a step of a method body: `none` is a panic, `some (some e, ..)`
an early `return err`, `some (none, ..)` falls through to the next statement. -/
abbrev Step (σ β : Type) := Option (Error × σ × World β)

/-- Sequencing of two steps: a panic or an error return ends the method. -/
def Step.andThen {σ β : Type} (r : Step σ β) (k : σ → World β → Step σ β) : Step σ β :=
  match r with
  | none => none
  | some (some e, s, wd) => some (some e, s, wd)
  | some (none, s, wd) => k s wd

/-! ## `pkg/fuse/filehandle.go`, `pkg/fuse/normal_read_writer.go` -/

/-- The constant `CacheSize = 1 << 26`. -/
def CacheSize : Int := 67108864

/-- The struct `Chunk`: a deferred write of the normal writer. -/
structure Chunk where
  offset : Int
  buf : Bytes

/-- The struct `WriteCache`. -/
structure WriteCache where
  uploadID : String
  part : List Part
  num : Int
  length : Int
  offset : Int
  errState : Bool
  buf : Bytes
  chunks : List Chunk

/-- The struct `WriterAt` (the backend `fs.Backend` is passed separately). -/
structure WriterAt where
  key : String
  cache : WriteCache

/-- The constructor `NewWriter`. -/
def NewWriter (key : String) : WriterAt :=
  { key := key
    cache :=
      { uploadID := "", part := [], num := 1, length := 0, offset := 0, errState := false
        buf := Bytes.make CacheSize.toNat, chunks := [] } }

/-- First held entry whose offset is `off`, with the list that remains when it
is removed: the scan `for i := 0; i < len(chunks); { if chunks[i].offset ==
off { ...; chunks = append(chunks[:i], chunks[i+1:]...) } i++ }` up to its
first hit.  `key` reads the offset of an entry. -/
def takeFirst {α : Type} (key : α → Int) (off : Int) : List α → Option (α × List α)
  | [] => none
  | c :: cs =>
    if key c = off then some (c, cs)
    else match takeFirst key off cs with
      | none => none
      | some (x, rest) => some (x, c :: rest)

namespace WriterAt

variable {β : Type}

/-- The block `if w.cache.length+uint64(n) > CacheSize { part, err :=
UploadPart(..., w.cache.buf[:w.cache.length]) ... }` of `WriteAt` (lines 68-79
and 95-105) and of `Flush` (lines 133-143). -/
def uploadIfFull (S : ObjectStorage β) (n : Int) (w : WriterAt) (wd : World β) :
    Step WriterAt β :=
  if w.cache.length + n > CacheSize then
    match w.cache.buf.slice 0 w.cache.length with
    | none => none
    | some body =>
      match wd.UploadPart S w.key w.cache.uploadID w.cache.num body with
      | (.error e, wd1) => some (some e, { w with cache := { w.cache with errState := true } }, wd1)
      | (.ok part, wd1) =>
        some (none, { w with cache := { w.cache with
          part := w.cache.part ++ [part], length := 0, num := w.cache.num + 1 } }, wd1)
  else some (none, w, wd)

/-- Append `data` to the part buffer: `copy(buf[length:length+len(data)],
data); length += len(data); offset += len(data)`. -/
def accept (data : Bytes) (w : WriterAt) (wd : World β) : Step WriterAt β :=
  match w.cache.buf.copyInto w.cache.length (w.cache.length + data.len) data with
  | none => none
  | some buf1 =>
    some (none, { w with cache := { w.cache with
      buf := buf1, length := w.cache.length + data.len, offset := w.cache.offset + data.len } }, wd)

/-- The drain loop over `w.cache.chunks` (lines 93-114 of `WriteAt`, lines
131-152 of `Flush`).  Every hit removes an entry and restarts the scan, so
`fuel = len(chunks)` rounds are enough. -/
def drain (S : ObjectStorage β) : Nat → WriterAt → World β → Step WriterAt β
  | 0, w, wd => some (none, w, wd)
  | fuel + 1, w, wd =>
    match takeFirst Chunk.offset w.cache.offset w.cache.chunks with
    | none => some (none, w, wd)
    | some (c, rest) =>
      ((uploadIfFull S c.buf.len w wd).andThen (accept c.buf)).andThen
        (fun w1 wd1 => drain S fuel { w1 with cache := { w1.cache with chunks := rest } } wd1)

/-- The `Init` block of `WriteAt` (lines 55-66). -/
def init (S : ObjectStorage β) (off : Int) (w : WriterAt) (wd : World β) : Step WriterAt β :=
  if off = 0 then
    match wd.InitiateMultipartUpload S w.key with
    | (.error e, wd1) => some (some e, w, wd1)
    | (.ok mu, wd1) =>
      some (none, { w with cache := { w.cache with
        uploadID := mu.UploadID, length := 0, offset := 0, num := 1, part := [] } }, wd1)
  else some (none, w, wd)

/-- Lines 81-91 of `WriteAt`: take the write if it is in order, hold a copy of
it otherwise. -/
def acceptOrHold (p : Bytes) (off : Int) (w : WriterAt) (wd : World β) : Step WriterAt β :=
  if off = w.cache.offset then accept p w wd
  else
    some (none, { w with cache := { w.cache with
      chunks := w.cache.chunks ++ [⟨off, Bytes.copy (Bytes.make p.len) p⟩] } }, wd)

/-- The method `(*WriterAt).WriteAt`; the result is `(n, err)`. -/
def WriteAt (S : ObjectStorage β) (w : WriterAt) (wd : World β) (p : Bytes) (off : Int) :
    Option ((Int × Error) × WriterAt × World β) :=
  if w.cache.errState then some ((0, some "write error"), w, wd)
  else
    match (((init S off w wd).andThen (uploadIfFull S p.len)).andThen
        (acceptOrHold p off)).andThen (fun w1 wd1 => drain S w1.cache.chunks.length w1 wd1) with
    | none => none
    | some (some e, w1, wd1) => some ((0, some e), w1, wd1)
    | some (none, w1, wd1) => some ((p.len, none), w1, wd1)

/-- Lines 154-164 of `Flush`: upload what is left in the part buffer. -/
def lastPart (S : ObjectStorage β) (w : WriterAt) (wd : World β) : Step WriterAt β :=
  if w.cache.length > 0 then
    match w.cache.buf.slice 0 w.cache.length with
    | none => none
    | some body =>
      match wd.UploadPart S w.key w.cache.uploadID w.cache.num body with
      | (.error e, wd1) => some (some e, { w with cache := { w.cache with errState := true } }, wd1)
      | (.ok part, wd1) =>
        some (none, { w with cache := { w.cache with
          part := w.cache.part ++ [part], length := 0, num := 1 } }, wd1)
  else some (none, w, wd)

/-- Lines 166-173 of `Flush`: complete the multipart upload. -/
def complete (S : ObjectStorage β) (w : WriterAt) (wd : World β) : Step WriterAt β :=
  match wd.CompleteUpload S w.key w.cache.uploadID w.cache.part with
  | (some e, wd1) => some (some e, { w with cache := { w.cache with errState := true } }, wd1)
  | (none, wd1) => some (none, w, wd1)

/-- The method `(*WriterAt).Flush`. -/
def Flush (S : ObjectStorage β) (w : WriterAt) (wd : World β) : Step WriterAt β :=
  if w.cache.errState then
    some (some "flush error", w, (wd.AbortUpload S w.key w.cache.uploadID).2)
  else if w.cache.length = 0 ∧ w.cache.chunks.length = 0 then some (none, w, wd)
  else
    ((drain S w.cache.chunks.length w wd).andThen (lastPart S)).andThen (complete S)

/-- The method `(*WriterAt).Release`. -/
def Release (w : WriterAt) : WriterAt :=
  { w with cache := { w.cache with
      uploadID := "", part := [], num := 1, length := 0, chunks := [], errState := false } }

end WriterAt

/-- The struct `ReadCache`. -/
structure ReadCache where
  start : Int
  offset : Int
  size : Int
  buf : Bytes

/-- The struct `ReaderAt`. -/
structure ReaderAt where
  key : String
  errState : Bool
  cache : ReadCache

/-- The constructor `NewReader`. -/
def NewReader (key : String) : ReaderAt :=
  { key := key, errState := false
    cache := { start := 0, offset := 0, size := 0, buf := Bytes.make CacheSize.toNat } }

/-- Result of a `ReadAt`: `(n, err)`, the caller's buffer, the reader and the world. -/
abbrev ReadResult (ρ β : Type) := Option ((Int × Error) × Bytes × ρ × World β)

namespace ReaderAt

variable {β : Type}

/-- Lines 219-227 of `ReadAt`: learn the object size on a read at offset 0. -/
def head (S : ObjectStorage β) (offset : Int) (r : ReaderAt) (wd : World β) : Step ReaderAt β :=
  if offset = 0 then
    match wd.Head S r.key with
    | (.error e, wd1) => some (some e, { r with errState := true }, wd1)
    | (.ok o, wd1) => some (none, { r with cache := { r.cache with size := o.Size } }, wd1)
  else some (none, r, wd)

/-- Lines 251-266 of `ReadAt`: serve the read from the window, or by a ranged
GET into the caller's buffer. -/
def hitOrLoad (S : ObjectStorage β) (r : ReaderAt) (wd : World β) (p : Bytes) (offset : Int) :
    ReadResult ReaderAt β :=
  if offset ≥ r.cache.start ∧ offset + p.len ≤ r.cache.offset then
    match r.cache.buf.slice (offset - r.cache.start) (offset - r.cache.start + p.len) with
    | none => none
    | some s => some ((p.len, none), Bytes.copy p s, r, wd)
  else
    match wd.Get S r.key offset p.len p with
    | ((.error e, p1), wd1) => some ((0, some e), p1, { r with errState := true }, wd1)
    | ((.ok _, p1), wd1) => some ((p.len, none), p1, r, wd1)

/-- Lines 229-266 of `ReadAt`, after the size is known. -/
def serve (S : ObjectStorage β) (r : ReaderAt) (wd : World β) (p : Bytes) (offset : Int) :
    ReadResult ReaderAt β :=
  if offset ≥ r.cache.size then some ((p.len, none), p, r, wd)
  else if offset + p.len > r.cache.offset then
    if r.cache.offset ≥ r.cache.size then
      match r.cache.buf.slice (offset - r.cache.start)
          (offset - r.cache.start + r.cache.offset - offset) with
      | none => none
      | some s => some ((p.len, none), Bytes.copy p s, r, wd)
    else
      match wd.Get S r.key r.cache.offset CacheSize r.cache.buf with
      | ((.error e, buf1), wd1) =>
        some ((0, some e), p, { r with errState := true, cache := { r.cache with buf := buf1 } }, wd1)
      | ((.ok n, buf1), wd1) =>
        hitOrLoad S { r with cache := { r.cache with
          buf := buf1, start := r.cache.offset, offset := r.cache.offset + n } } wd1 p offset
  else hitOrLoad S r wd p offset

/-- The method `(*ReaderAt).ReadAt`. -/
def ReadAt (S : ObjectStorage β) (r : ReaderAt) (wd : World β) (p : Bytes) (offset : Int) :
    ReadResult ReaderAt β :=
  if r.errState then some ((0, some "read is in error state"), p, r, wd)
  else
    match head S offset r wd with
    | none => none
    | some (some e, r1, wd1) => some ((0, some e), p, r1, wd1)
    | some (none, r1, wd1) => serve S r1 wd1 p offset

/-- The method `(*ReaderAt).Release`. -/
def Release (r : ReaderAt) : ReaderAt :=
  { r with errState := false, cache := { r.cache with start := 0, offset := 0, size := 0 } }

end ReaderAt

/-! ## An object store that does not fail -/

/-- Stored object: body and user metadata. -/
structure StoredObject where
  body : Bytes
  metadata : List (String × String)

/-- State of the in-memory store: the objects by key, and the uploaded parts
by upload id and part number. -/
structure MemStore where
  objects : String → Option StoredObject
  parts : String → Int → Option Bytes
  nextID : Nat

namespace MemStore

/-- Bodies of the listed parts of an upload, concatenated in list order;
`none` when a listed part was never uploaded. -/
def assemble (st : MemStore) (uploadID : String) : List Part → Option Bytes
  | [] => some (Bytes.make 0)
  | p :: ps =>
    match st.parts uploadID p.Num, assemble st uploadID ps with
    | some b, some rest => some (Bytes.append b rest)
    | _, _ => none

/-- The bytes that `Get(key, off, limit, ..)` selects from a body: the whole
body when `off <= 0` and `limit <= 0`, from `off` on when `limit <= 0`, and
`[off, off+limit)` otherwise, cut at the end of the body. -/
def range (body : Bytes) (off limit : Int) : Bytes :=
  let lo : Nat := min off.toNat body.len
  let hi : Nat := if limit > 0 then min (off.toNat + limit.toNat) body.len else body.len
  ⟨hi - lo, fun i => if i < hi - lo then body.get (lo + i) else 0,
    fun _ h => if_neg (Nat.not_lt.mpr h)⟩

end MemStore

/-- In-memory object store: `Put` records body and metadata under the key,
`Head` returns size and metadata, `Get` copies the requested byte range into
the buffer, `CompleteUpload` stores the concatenation of the listed parts.
`Head` and `Get` fail on a key that holds no object, `CompleteUpload` on a
part that was never uploaded; every other call succeeds. -/
def memStore : ObjectStorage MemStore where
  Head st key :=
    match st.objects key with
    | none => (.error "NoSuchKey", st)
    | some o => (.ok { Key := key, Size := o.body.len, IsDir := false, Metadata := o.metadata }, st)
  Get st key off limit buf :=
    match st.objects key with
    | none => ((.error "NoSuchKey", buf), st)
    | some o =>
      ((.ok (min buf.len (MemStore.range o.body off limit).len : Nat),
        Bytes.copy buf (MemStore.range o.body off limit)), st)
  Put st key md body :=
    (none, { st with objects := fun k => if k = key then some ⟨body, md⟩ else st.objects k })
  InitiateMultipartUpload st _ :=
    (.ok { MinPartSize := 5242880, MaxCount := 10000, UploadID := toString st.nextID },
      { st with nextID := st.nextID + 1 })
  UploadPart st _ uploadID num body :=
    (.ok { Num := num, Size := 0, ETag := "etag" },
      { st with parts := fun u n => if u = uploadID ∧ n = num then some body else st.parts u n })
  AbortUpload st _ uploadID :=
    (none, { st with parts := fun u n => if u = uploadID then none else st.parts u n })
  CompleteUpload st key uploadID parts :=
    match st.assemble uploadID parts with
    | none => (some "InvalidPart", st)
    | some body =>
      (none, { st with objects := fun k => if k = key then some ⟨body, []⟩ else st.objects k })

/-- The empty store. -/
def MemStore.empty : MemStore := ⟨fun _ => none, fun _ _ => none, 0⟩

/-! ## Write sequences -/

/-- The pieces `segs`, laid end to end from offset `o`: each with its offset. -/
def chain (o : Int) : List Bytes → List (Int × Bytes)
  | [] => []
  | s :: ss => (o, s) :: chain (o + s.len) ss

/-- Held entry of the normal writer as an (offset, bytes) pair. -/
def Chunk.toPair (c : Chunk) : Int × Bytes := (c.offset, c.buf)

/-- A sequence of `WriteAt(p, off)` calls on one normal writer; the results of
the calls are collected in order. -/
def WriterAt.writeAll {β : Type} (S : ObjectStorage β) :
    List (Int × Bytes) → WriterAt → World β → Option (List (Int × Error) × WriterAt × World β)
  | [], w, wd => some ([], w, wd)
  | (off, p) :: rest, w, wd =>
    match w.WriteAt S wd p off with
    | none => none
    | some (r, w1, wd1) =>
      match WriterAt.writeAll S rest w1 wd1 with
      | none => none
      | some (rs, w2, wd2) => some (r :: rs, w2, wd2)

/-- State invariant of the normal writer over the in-memory store: `acc` is the
byte stream accepted so far; it is the concatenation of the uploaded parts and
of the filled prefix of the part buffer. -/
structure NInv (w : WriterAt) (st : MemStore) (acc : Bytes) : Prop where
  err : w.cache.errState = false
  buflen : w.cache.buf.len = CacheSize.toNat
  len0 : 0 ≤ w.cache.length
  lenle : w.cache.length ≤ CacheSize
  off : w.cache.offset = acc.len
  nums : ∀ q ∈ w.cache.part, q.Num < w.cache.num
  data : ∃ pre, st.assemble w.cache.uploadID w.cache.part = some pre ∧
    Bytes.append pre (Bytes.take w.cache.length.toNat w.cache.buf) = acc

/-! ## `pkg/fuse/common_read_write.go`, `pkg/fuse/chunk_read_write.go` -/

/-- The constant `ChunkCacheFixedSize = 1 << 23`. -/
def ChunkCacheFixedSize : Int := 8388608

/-- The constant `ChunkCacheDynamicSize = 1 << 26`. -/
def ChunkCacheDynamicSize : Int := 67108864

/-- The constant `ChunkCacheDynamicReadSize = 1 << 24`. -/
def ChunkCacheDynamicReadSize : Int := 16777216

/-- The constant `MetaKey`. -/
def MetaKey : String := "chunkid"

/-- The struct `ChunkMeta`. -/
structure ChunkMeta where
  Index : Int
  Start : Int
  End : Int
  CompressSize : Int
deriving DecidableEq

/-- The type `ID`, `[sha256.Size]byte`. -/
structure ID where
  bytes : List UInt8
  size : bytes.length = 32

/-- The digit table of `encoding/hex`. -/
def hextable : List Char :=
  ['0', '1', '2', '3', '4', '5', '6', '7', '8', '9', 'a', 'b', 'c', 'd', 'e', 'f']

/-- Two hexadecimal digits of a byte, high nibble first. -/
def hexByte (b : UInt8) : List Char :=
  [hextable.getD (b.toNat / 16) '0', hextable.getD (b.toNat % 16) '0']

/-- Go `hex.EncodeToString`. -/
def EncodeToString (src : List UInt8) : String :=
  String.mk (src.flatMap hexByte)

/-- The method `ID.String`. -/
def ID.String (id : ID) : String := EncodeToString id.bytes

/-- Go `strconv.Itoa`: decimal representation. -/
def Itoa (i : Int) : String := toString i

/-- The interface `compress.Compress`: `Compress(dst, src)` and
`Decompress(dst, src)` return `(n, err)` and the new content of `dst`. -/
structure Codec where
  CompressBound : Int → Int
  Compress : Bytes → Bytes → (Int × Error) × Bytes
  Decompress : Bytes → Bytes → (Int × Error) × Bytes

/-- Library functions used by the chunked data path: `sha256.Sum256`,
`strings.ToLower`, `json.Marshal` and `json.Unmarshal` on `[]ChunkMeta`, and
the content-defined chunker (`chunks b` is the sequence of `chunk.Data`
returned by successive `Next` calls on a chunker reset to read `b`, up to
`io.EOF`). -/
structure Env where
  Sum256 : Bytes → ID
  ToLower : String → String
  Marshal : List ChunkMeta → Bytes
  Unmarshal : Bytes → Option (List ChunkMeta)
  chunks : Bytes → List Bytes

/-- The struct `ExtraCache`: a deferred write of the chunk writer. -/
structure ExtraCache where
  off : Int
  buffer : Bytes

/-- The structs `ChunkWriter` and `ChunkCache`.  `compress` is `none` when
compression is disabled.  `jobs` is not a field of the program: it records
the buffers handed to `dispatchJob`, oldest first. -/
structure ChunkWriter where
  key : String
  index : Nat
  compress : Option Codec
  isError : Bool
  isFixed : Bool
  chunkBuf : Bytes
  offset : Int
  length : Int
  extras : List ExtraCache
  ChunkMetas : List ChunkMeta
  jobs : List Bytes

/-- The constructor `NewChunkWriter`. -/
def NewChunkWriter (key : String) (compress : Option Codec) (isFixed : Bool) : ChunkWriter :=
  { key := key, index := 0, compress := compress, isError := false, isFixed := isFixed
    chunkBuf := if isFixed then Bytes.make ChunkCacheFixedSize.toNat
      else Bytes.make ChunkCacheDynamicSize.toNat
    offset := 0, length := 0, extras := []
    ChunkMetas := [{ Index := 0, Start := 0, End := 0, CompressSize := 0 }]
    jobs := [] }

/-- The method `doCompress` of a codec: `none` is a panic, `error` a codec error. -/
def doCompress (cd : Codec) (buf : Bytes) : Option (Except String Bytes) :=
  if cd.CompressBound buf.len < 0 then none
  else
    match cd.Compress (Bytes.make (cd.CompressBound buf.len).toNat) buf with
    | ((_, some e), _) => some (.error e)
    | ((n, none), tmpBuf) =>
      match tmpBuf.slice 0 n with
      | none => none
      | some data => some (.ok data)

namespace ChunkWriter

variable {β : Type}

/-- The method `uploadKey`. -/
def uploadKey (c : ChunkWriter) : String := c.key ++ "/" ++ Itoa c.index

/-- The block `if c.compress.Enable { data, err := c.doCompress(..) ... } else
{ ... }` of `doFixedUpload` (lines 223-236) and `doDynamicUpload` (lines
282-295): the bytes to store and the value of `compressSize`. -/
def prepare (c : ChunkWriter) (data : Bytes) : Option (Except String (Bytes × Int)) :=
  match c.compress with
  | none => some (.ok (data, data.len))
  | some cd =>
    match doCompress cd data with
    | none => none
    | some (.error e) => some (.error e)
    | some (.ok d) => some (.ok (d, d.len))

/-- The method `checkDuplicate`. -/
def checkDuplicate (E : Env) (S : ObjectStorage β) (c : ChunkWriter) (wd : World β) (id : ID) :
    Bool × World β :=
  match wd.Head S c.uploadKey with
  | (.error _, wd1) => (false, wd1)
  | (.ok o, wd1) => (o.Metadata.any (fun kv => E.ToLower kv.1 = MetaKey ∧ kv.2 = id.String), wd1)

/-- The block `if !c.checkDuplicate(id) { err := Put(c.uploadKey(),
map[string]string{MetaKey: id.String()}, reader) ... }` (lines 238-245 and
297-301), `id` being the hash of the bytes to store. -/
def putChunk (E : Env) (S : ObjectStorage β) (c : ChunkWriter) (wd : World β) (body : Bytes) :
    Error × World β :=
  if (checkDuplicate E S c wd (E.Sum256 body)).1 then
    (none, (checkDuplicate E S c wd (E.Sum256 body)).2)
  else
    (checkDuplicate E S c wd (E.Sum256 body)).2.Put S c.uploadKey
      [(MetaKey, (E.Sum256 body).String)] body

/-- The manifest update of lines 247-255 and 303-310: close the record at
position `index` at offset `pos`, and append the next open record. -/
def commit (c : ChunkWriter) (pos compressSize : Int) : Option ChunkWriter :=
  match c.ChunkMetas.get? c.index with
  | none => none
  | some m =>
    some { c with
      ChunkMetas := c.ChunkMetas.set c.index { m with End := pos, CompressSize := compressSize } ++
        [{ Index := (c.index + 1 : Nat), Start := pos, End := 0, CompressSize := 0 }]
      index := c.index + 1 }

/-- The method `doFixedUpload`. -/
def doFixedUpload (E : Env) (S : ObjectStorage β) (c : ChunkWriter) (wd : World β) :
    Step ChunkWriter β :=
  match c.prepare c.chunkBuf with
  | none => none
  | some (.error e) => some (some e, c, wd)
  | some (.ok (body, compressSize)) =>
    match putChunk E S c wd body with
    | (some e, wd1) => some (some e, { c with isError := true }, wd1)
    | (none, wd1) =>
      match c.commit c.offset compressSize with
      | none => none
      | some c1 => some (none, { c1 with length := 0 }, wd1)

/-- The loop of `doDynamicUpload` (lines 272-311) over the chunks that the
chunker returns; `tmpOff` is the offset of the next chunk. -/
def dynLoop (E : Env) (S : ObjectStorage β) :
    List Bytes → Int → ChunkWriter → World β → Step ChunkWriter β
  | [], _, c, wd => some (none, c, wd)
  | chunk :: rest, tmpOff, c, wd =>
    match c.prepare chunk with
    | none => none
    | some (.error e) => some (some e, c, wd)
    | some (.ok (body, compressSize)) =>
      match putChunk E S c wd body with
      | (some e, wd1) => some (some e, c, wd1)
      | (none, wd1) =>
        match c.commit (tmpOff + chunk.len) compressSize with
        | none => none
        | some c1 => dynLoop E S rest (tmpOff + chunk.len) c1 wd1

/-- The method `doDynamicUpload`. -/
def doDynamicUpload (E : Env) (S : ObjectStorage β) (c : ChunkWriter) (wd : World β) :
    Step ChunkWriter β :=
  match c.chunkBuf.slice 0 c.length with
  | none => none
  | some rd =>
    (dynLoop E S (E.chunks rd) (c.offset - c.length) c wd).andThen
      (fun c1 wd1 => some (none, { c1 with length := 0 }, wd1))

/-- The method `dispatchUpload`. -/
def dispatchUpload (E : Env) (S : ObjectStorage β) (c : ChunkWriter) (wd : World β) :
    Step ChunkWriter β :=
  if c.isFixed then doFixedUpload E S c wd else doDynamicUpload E S c wd

/-- The block `if err := c.dispatchUpload(); err != nil { c.isError = true;
return fmt.Errorf("upload is in error state") }` of `doFixedJob`. -/
def uploadOrFail (E : Env) (S : ObjectStorage β) (c : ChunkWriter) (wd : World β) :
    Step ChunkWriter β :=
  match dispatchUpload E S c wd with
  | none => none
  | some (some _, c1, wd1) => some (some "upload is in error state", { c1 with isError := true }, wd1)
  | some (none, c1, wd1) => some (none, c1, wd1)

/-- The method `doFixedJob`. -/
def doFixedJob (E : Env) (S : ObjectStorage β) (c : ChunkWriter) (wd : World β) (buf : Bytes) :
    Step ChunkWriter β :=
  if buf.len + c.length ≤ ChunkCacheFixedSize then
    match c.chunkBuf.copyInto c.length (c.length + buf.len) buf with
    | none => none
    | some b1 =>
      if c.length + buf.len = ChunkCacheFixedSize then
        uploadOrFail E S
          { c with chunkBuf := b1, offset := c.offset + buf.len, length := c.length + buf.len } wd
      else
        some (none,
          { c with chunkBuf := b1, offset := c.offset + buf.len, length := c.length + buf.len }, wd)
  else
    match buf.slice 0 (ChunkCacheFixedSize - c.length),
        buf.slice (ChunkCacheFixedSize - c.length) buf.len with
    | some front, some back =>
      match c.chunkBuf.copyInto c.length ChunkCacheFixedSize front with
      | none => none
      | some b1 =>
        (uploadOrFail E S
          { c with chunkBuf := b1, offset := c.offset + (ChunkCacheFixedSize - c.length)
                   length := c.length + (ChunkCacheFixedSize - c.length) } wd).andThen
          (fun c1 wd1 =>
            match c1.chunkBuf.copyInto c1.length
                (buf.len - (ChunkCacheFixedSize - c.length)) back with
            | none => none
            | some b2 =>
              some (none,
                { c1 with chunkBuf := b2
                          length := c1.length + (buf.len - (ChunkCacheFixedSize - c.length))
                          offset := c1.offset + (buf.len - (ChunkCacheFixedSize - c.length)) },
                wd1))
    | _, _ => none

/-- The method `doDynamicJob`. -/
def doDynamicJob (E : Env) (S : ObjectStorage β) (c : ChunkWriter) (wd : World β) (buf : Bytes) :
    Step ChunkWriter β :=
  Step.andThen
    (if buf.len + c.length > ChunkCacheDynamicSize then
      match dispatchUpload E S c wd with
      | none => none
      | some (some e, c1, wd1) => some (some e, { c1 with isError := true }, wd1)
      | some (none, c1, wd1) => some (none, c1, wd1)
    else some (none, c, wd))
    (fun c1 wd1 =>
      match c1.chunkBuf.copyInto c1.length (c1.length + buf.len) buf with
      | none => none
      | some b1 =>
        some (none,
          { c1 with chunkBuf := b1, offset := c1.offset + buf.len, length := c1.length + buf.len },
          wd1))

/-- The method `dispatchJob`; the buffer is recorded in `jobs`. -/
def dispatchJob (E : Env) (S : ObjectStorage β) (c : ChunkWriter) (wd : World β) (buf : Bytes) :
    Step ChunkWriter β :=
  if c.isFixed then doFixedJob E S { c with jobs := c.jobs ++ [buf] } wd buf
  else doDynamicJob E S { c with jobs := c.jobs ++ [buf] } wd buf

/-- The drain loop over `c.extras` (lines 163-173 of `WriteAt`, lines 326-336
of `Flush`).  Every hit removes an entry and restarts the scan, so `fuel =
len(extras)` rounds are enough. -/
def drainExtras (E : Env) (S : ObjectStorage β) : Nat → ChunkWriter → World β → Step ChunkWriter β
  | 0, c, wd => some (none, c, wd)
  | fuel + 1, c, wd =>
    match takeFirst ExtraCache.off c.offset c.extras with
    | none => some (none, c, wd)
    | some (e, rest) =>
      (dispatchJob E S c wd e.buffer).andThen
        (fun c1 wd1 => drainExtras E S fuel { c1 with extras := rest } wd1)

/-- The method `(*ChunkWriter).WriteAt`; the result is `(n, err)`. -/
def WriteAt (E : Env) (S : ObjectStorage β) (c : ChunkWriter) (wd : World β) (p : Bytes)
    (off : Int) : Option ((Int × Error) × ChunkWriter × World β) :=
  if c.isError then some ((0, some "upload is in error state"), c, wd)
  else if off = c.offset then
    match dispatchJob E S c wd p with
    | none => none
    | some (err, c1, wd1) => some ((p.len, err), c1, wd1)
  else
    match drainExtras E S (c.extras.length + 1)
        { c with extras := c.extras ++ [⟨off, Bytes.copy (Bytes.make p.len) p⟩] } wd with
    | none => none
    | some (some e, c1, wd1) => some ((0, some e), c1, wd1)
    | some (none, c1, wd1) => some ((p.len, none), c1, wd1)

/-- Lines 338-343 of `Flush`: emit the trailing partial chunk. -/
def lastUpload (E : Env) (S : ObjectStorage β) (c : ChunkWriter) (wd : World β) :
    Step ChunkWriter β :=
  if c.length > 0 then
    match dispatchUpload E S c wd with
    | none => none
    | some (some _, c1, wd1) => some (some "upload is in error state", c1, wd1)
    | some (none, c1, wd1) => some (none, c1, wd1)
  else some (none, c, wd)

/-- Lines 345-349 of `Flush`: serialize the manifest and PUT it. -/
def putManifest (E : Env) (S : ObjectStorage β) (c : ChunkWriter) (wd : World β) :
    Step ChunkWriter β :=
  some ((wd.Put S (c.key ++ "/.meta") [("aa", "bb")] (E.Marshal c.ChunkMetas)).1, c,
    (wd.Put S (c.key ++ "/.meta") [("aa", "bb")] (E.Marshal c.ChunkMetas)).2)

/-- The method `(*ChunkWriter).Flush`. -/
def Flush (E : Env) (S : ObjectStorage β) (c : ChunkWriter) (wd : World β) : Step ChunkWriter β :=
  if c.isError then some (some "upload is in error state", c, wd)
  else if c.length = 0 ∧ c.extras.length = 0 then some (none, c, wd)
  else
    ((drainExtras E S c.extras.length c wd).andThen (lastUpload E S)).andThen (putManifest E S)

/-- The method `(*ChunkWriter).Release`. -/
def Release (c : ChunkWriter) : ChunkWriter :=
  { c with index := 0, isError := false, length := 0, offset := 0, extras := [] }

/-- A sequence of `WriteAt(p, off)` calls on one chunk writer; the results of
the calls are collected in order. -/
def writeAll (E : Env) (S : ObjectStorage β) :
    List (Int × Bytes) → ChunkWriter → World β →
      Option (List (Int × Error) × ChunkWriter × World β)
  | [], c, wd => some ([], c, wd)
  | (off, p) :: rest, c, wd =>
    match c.WriteAt E S wd p off with
    | none => none
    | some (r, c1, wd1) =>
      match writeAll E S rest c1 wd1 with
      | none => none
      | some (rs, c2, wd2) => some (r :: rs, c2, wd2)

/-- A sequence of `WriteAt` calls followed by `Flush`: the results of the
writes, the error of `Flush`, and the final writer and world. -/
def run (E : Env) (S : ObjectStorage β) (ws : List (Int × Bytes)) (c : ChunkWriter)
    (wd : World β) : Option ((List (Int × Error) × Error) × ChunkWriter × World β) :=
  match writeAll E S ws c wd with
  | none => none
  | some (rs, c1, wd1) =>
    match c1.Flush E S wd1 with
    | none => none
    | some (e, c2, wd2) => some ((rs, e), c2, wd2)

end ChunkWriter

/-- Held entry of the chunk writer as an (offset, bytes) pair. -/
def ExtraCache.toPair (e : ExtraCache) : Int × Bytes := (e.off, e.buffer)

/-- The struct `ChunkReadCache`: one slot of the read cache. -/
structure ChunkReadCache where
  buf : Bytes
  start : Int
  offset : Int

/-- The struct `ChunkReader`.  `compress` is `none` when compression is
disabled; `CompressBuf` is the scratch buffer `compress.CompressBuf`. -/
structure ChunkReader where
  key : String
  compress : Option Codec
  CompressBuf : Bytes
  ErrState : Bool
  ChunkMetas : List ChunkMeta
  c : ChunkReadCache
  ec : ChunkReadCache

/-- The constructor `NewChunkReader`. -/
def NewChunkReader (key : String) (compress : Option Codec) (isFixed : Bool) : ChunkReader :=
  { key := key, compress := compress
    CompressBuf :=
      if compress.isSome then
        (if isFixed then Bytes.make ChunkCacheFixedSize.toNat
          else Bytes.make ChunkCacheDynamicReadSize.toNat)
      else Bytes.make 0
    ErrState := false, ChunkMetas := []
    c := { buf := if isFixed then Bytes.make ChunkCacheFixedSize.toNat
                  else Bytes.make ChunkCacheDynamicReadSize.toNat
           start := 0, offset := 0 }
    ec := { buf := if isFixed then Bytes.make ChunkCacheFixedSize.toNat
                   else Bytes.make ChunkCacheDynamicReadSize.toNat
            start := 0, offset := 0 } }

/-- The `for _, v := range c.ChunkMetas` loop of `determinePack` (lines
472-486), from the values of `first, second` on entry. -/
def scanPack (off l : Int) : List ChunkMeta → Int × Int → Int × Int
  | [], fs => fs
  | v :: vs, fs =>
    if v.Start ≥ v.End then scanPack off l vs fs
    else if off ≥ v.End ∨ off < v.Start then scanPack off l vs fs
    else if off ≥ v.Start then
      if off + l ≤ v.End then (v.Index, fs.2)
      else scanPack off l vs (v.Index, v.Index + 1)
    else scanPack off l vs fs

/-- The blocks `if first >= 0 && first < length { if c.ChunkMetas[first].Start
>= c.ChunkMetas[first].End { first = -1 } }` of `determinePack` (lines
488-497), for one of the two indices. -/
def checkPack (metas : List ChunkMeta) (i : Int) : Int :=
  if i ≥ 0 ∧ i < metas.length then
    match metas.get? i.toNat with
    | some m => if m.Start ≥ m.End then -1 else i
    | none => i
  else i

namespace ChunkReader

variable {β : Type}

/-- The method `determinePack`. -/
def determinePack (r : ChunkReader) (off l : Int) : Int × Int :=
  (checkPack r.ChunkMetas (scanPack off l r.ChunkMetas (-1, -1)).1,
    checkPack r.ChunkMetas (scanPack off l r.ChunkMetas (-1, -1)).2)

/-- The method `doBound`. -/
def doBound (r : ChunkReader) (inx : Int) : Int × Int :=
  match r.ChunkMetas.find? (fun v => v.Index = inx) with
  | some v => (v.Start, v.End)
  | none => (0, 0)

/-- The method `doInit`. -/
def doInit (E : Env) (S : ObjectStorage β) (r : ChunkReader) (wd : World β) :
    Step ChunkReader β :=
  match wd.Get S (r.key ++ "/.meta") 0 (-1) (Bytes.make 1048576) with
  | ((.error e, _), wd1) => some (some e, r, wd1)
  | ((.ok n, buf), wd1) =>
    match buf.slice 0 n with
    | none => none
    | some s =>
      match E.Unmarshal s with
      | none => some (some "json: cannot unmarshal", r, wd1)
      | some metas => some (none, { r with ChunkMetas := metas }, wd1)

/-- The method `doDownload`; the result carries the new content of `buf`. -/
def doDownload (S : ObjectStorage β) (r : ChunkReader) (wd : World β) (index : Int)
    (buf : Bytes) : Option (Error × Bytes × ChunkReader × World β) :=
  match r.compress with
  | none =>
    match wd.Get S (r.key ++ "/" ++ Itoa index) 0 (-1) buf with
    | ((.error e, buf1), wd1) => some (some e, buf1, r, wd1)
    | ((.ok _, buf1), wd1) => some (none, buf1, r, wd1)
  | some cd =>
    if index < 0 then none
    else
      match r.ChunkMetas.get? index.toNat with
      | none => none
      | some m =>
        match (if m.CompressSize > r.CompressBuf.len then Bytes.make m.CompressSize.toNat
            else r.CompressBuf).slice 0 m.CompressSize with
        | none => none
        | some s =>
          match wd.Get S (r.key ++ "/" ++ Itoa index) 0 (-1) s with
          | ((.error e, s1), wd1) =>
            some (some e, buf,
              { r with CompressBuf :=
                  Bytes.copy (if m.CompressSize > r.CompressBuf.len
                    then Bytes.make m.CompressSize.toNat else r.CompressBuf) s1 }, wd1)
          | ((.ok _, s1), wd1) =>
            match cd.Decompress buf s1 with
            | ((_, some e), buf1) =>
              some (some e, buf1,
                { r with CompressBuf :=
                    Bytes.copy (if m.CompressSize > r.CompressBuf.len
                      then Bytes.make m.CompressSize.toNat else r.CompressBuf) s1 }, wd1)
            | ((_, none), buf1) =>
              some (none, buf1,
                { r with CompressBuf :=
                    Bytes.copy (if m.CompressSize > r.CompressBuf.len
                      then Bytes.make m.CompressSize.toNat else r.CompressBuf) s1 }, wd1)

/-- Lines 458-466 of `ReadAt`: fetch `second` into the slot `ec` and answer
from the tail of slot `c` followed by the head of slot `ec`. -/
def readTwice (S : ObjectStorage β) (r : ChunkReader) (wd : World β) (p : Bytes) (offset : Int)
    (second : Int) : ReadResult ChunkReader β :=
  match doDownload S r wd second r.ec.buf with
  | none => none
  | some (some e, buf1, r1, wd1) =>
    some ((0, some e), p, { r1 with ErrState := true, ec := { r1.ec with buf := buf1 } }, wd1)
  | some (none, buf1, r1, wd1) =>
    match r1.c.buf.slice (offset - r1.c.start) r1.c.buf.len with
    | none => none
    | some tail =>
      match p.copyInto 0 (r1.c.offset - offset) tail with
      | none => none
      | some p1 =>
        match p1.copyInto (r1.c.offset - offset) p1.len buf1 with
        | none => none
        | some p2 =>
          some ((p.len, none), p2,
            { r1 with ec := { buf := buf1, start := (r1.doBound second).1,
                              offset := (r1.doBound second).2 } }, wd1)

/-- Lines 440-467 of `ReadAt`: the cache-miss path. -/
def readMiss (S : ObjectStorage β) (r : ChunkReader) (wd : World β) (p : Bytes) (offset : Int) :
    ReadResult ChunkReader β :=
  if (r.determinePack offset p.len).1 = -1 then
    some ((0, some "read is in error state"), p, { r with ErrState := true }, wd)
  else
    match doDownload S r wd (r.determinePack offset p.len).1 r.c.buf with
    | none => none
    | some (some e, buf1, r1, wd1) =>
      some ((0, some e), p, { r1 with ErrState := true, c := { r1.c with buf := buf1 } }, wd1)
    | some (none, buf1, r1, wd1) =>
      if (r.determinePack offset p.len).2 = -1 then
        match buf1.slice (offset - (r1.doBound (r.determinePack offset p.len).1).1)
            (offset - (r1.doBound (r.determinePack offset p.len).1).1 + p.len) with
        | none => none
        | some s =>
          some ((p.len, none), Bytes.copy p s,
            { r1 with c := { buf := buf1
                             start := (r1.doBound (r.determinePack offset p.len).1).1
                             offset := (r1.doBound (r.determinePack offset p.len).1).2 } }, wd1)
      else
        readTwice S
          { r1 with c := { buf := buf1
                           start := (r1.doBound (r.determinePack offset p.len).1).1
                           offset := (r1.doBound (r.determinePack offset p.len).1).2 } }
          wd1 p offset (r.determinePack offset p.len).2

/-- Lines 428-467 of `ReadAt`: answer from a slot, or take the miss path. -/
def readCached (S : ObjectStorage β) (r : ChunkReader) (wd : World β) (p : Bytes)
    (offset : Int) : ReadResult ChunkReader β :=
  if offset ≥ r.c.start ∧ offset + p.len ≤ r.c.offset then
    match r.c.buf.slice (offset - r.c.start) (offset - r.c.start + p.len) with
    | none => none
    | some s => some ((p.len, none), Bytes.copy p s, r, wd)
  else if offset ≥ r.ec.start ∧ offset + p.len ≤ r.ec.offset then
    match r.ec.buf.slice (offset - r.ec.start) (offset - r.ec.start + p.len) with
    | none => none
    | some s => some ((p.len, none), Bytes.copy p s, r, wd)
  else readMiss S r wd p offset

/-- The method `(*ChunkReader).ReadAt`. -/
def ReadAt (E : Env) (S : ObjectStorage β) (r : ChunkReader) (wd : World β) (p : Bytes)
    (offset : Int) : ReadResult ChunkReader β :=
  if r.ErrState then some ((0, some "read is in error state"), p, r, wd)
  else if offset = 0 then
    match doInit E S r wd with
    | none => none
    | some (some _, r1, wd1) =>
      some ((0, some "read is in error state"), p, { r1 with ErrState := true }, wd1)
    | some (none, r1, wd1) => readCached S r1 wd1 p offset
  else readCached S r wd p offset

/-- The method `(*ChunkReader).Release`. -/
def Release (r : ChunkReader) : ChunkReader :=
  { r with c := { r.c with start := 0, offset := 0 }, ec := { r.ec with start := 0, offset := 0 }
           ErrState := false }

end ChunkReader

/-! ## Specification vocabulary for the chunk writer -/

/-- Hypotheses of the reassembly argument for a chunk writer over the backend
`S`.  `Good c wd done` is an invariant of the writer and the world when the
buffers `done` have been handed to `dispatchJob`, in that order; it does not
depend on the holding list, and every successful `dispatchJob` of a non-empty
buffer that satisfies `Ok` preserves it.  When `Tot` holds, `dispatchJob`
succeeds on every such buffer. -/
structure Sink {β : Type} (E : Env) (S : ObjectStorage β)
    (Good : ChunkWriter → World β → List Bytes → Prop) (Ok : Bytes → Prop) (Tot : Prop) :
    Prop where
  off : ∀ c wd done, Good c wd done → c.offset = (Bytes.join done).len ∧ c.isError = false
  ext : ∀ c wd done e, Good c wd done → Good { c with extras := e } wd done
  step : ∀ c wd done buf c1 wd1, Good c wd done → 0 < buf.len → Ok buf →
    c.dispatchJob E S wd buf = some (none, c1, wd1) → Good c1 wd1 (done ++ [buf])
  total : Tot → ∀ c wd done buf, Good c wd done → 0 < buf.len → Ok buf →
    ∃ c1 wd1, c.dispatchJob E S wd buf = some (none, c1, wd1)

/-- Manifest records `recs` that are contiguous from offset `s` to offset `e`:
the first starts at `s`, each record has `Start < End` and starts where the
one before it ends, the last ends at `e`, and the index fields count up from
`i`.  For the empty list, `s = e`. -/
def Contig : Int → Int → List ChunkMeta → Int → Prop
  | s, _, [], e => s = e
  | s, i, m :: ms, e => m.Index = i ∧ m.Start = s ∧ m.Start < m.End ∧ Contig m.End (i + 1) ms e

/-- The manifest under construction: closed records that are contiguous from
offset 0 to the start of the buffered bytes, then the open record. -/
def MetasOK (c : ChunkWriter) : Prop :=
  ∃ recs, c.ChunkMetas = recs ++ [⟨c.index, c.offset - c.length, 0, 0⟩] ∧
    recs.length = c.index ∧ Contig 0 0 recs (c.offset - c.length)

/-- The content-defined chunker cuts its input into consecutive non-empty
chunks. -/
def Partitions (E : Env) : Prop :=
  ∀ b, Bytes.join (E.chunks b) = b ∧ ∀ ch ∈ E.chunks b, 0 < ch.len

/-- State invariant of a chunk writer in either mode, after the buffers `done`
have been handed to `dispatchJob`. -/
structure MInv (E : Env) (c : ChunkWriter) (done : List Bytes) : Prop where
  err : c.isError = false
  off : c.offset = (Bytes.join done).len
  len0 : 0 ≤ c.length
  metas : MetasOK c
  part : c.isFixed = false → Partitions E

/-- The (index, start, end) fields of a manifest record. -/
def ChunkMeta.range (m : ChunkMeta) : Int × Int × Int := (m.Index, m.Start, m.End)

/-- The backend never fails a `Put`. -/
def NoPutFails {β : Type} (S : ObjectStorage β) : Prop :=
  ∀ be key md body, (S.Put be key md body).1 = none

/-- The codec, when there is one, compresses every buffer without error and
within the bound it announced. -/
def CodecOK (cmp : Option Codec) : Prop :=
  ∀ cd, cmp = some cd → ∀ buf, ∃ d, doCompress cd buf = some (.ok d)

/-- The (index, start, end) fields of the `i`-th full chunk in fixed mode. -/
def fixedRange (i : Nat) : Int × Int × Int :=
  ((i : Int), (i : Int) * ChunkCacheFixedSize, ((i : Int) + 1) * ChunkCacheFixedSize)

/-- State invariant of a fixed-mode chunk writer after the buffers `done`
have been handed to `dispatchJob`: the chunk buffer holds the bytes of the
open chunk, all closed chunks are full, and the manifest lists them. -/
structure FInv (c : ChunkWriter) (done : List Bytes) : Prop where
  fixed : c.isFixed = true
  err : c.isError = false
  buflen : c.chunkBuf.len = ChunkCacheFixedSize.toNat
  len0 : 0 ≤ c.length
  lenlt : c.length < ChunkCacheFixedSize
  off : c.offset = (Bytes.join done).len
  start : c.offset - c.length = c.index * ChunkCacheFixedSize
  metas : ∃ recs, c.ChunkMetas = recs ++ [⟨c.index, c.index * ChunkCacheFixedSize, 0, 0⟩] ∧
    recs.map ChunkMeta.range = (List.range c.index).map fixedRange ∧
    (c.compress = none → ∀ m ∈ recs, m.CompressSize = ChunkCacheFixedSize)
  jobs : c.jobs = done
  content : ∀ i : Nat, (i : Int) < c.length →
    c.chunkBuf.get i = (Bytes.join done).get (c.index * ChunkCacheFixedSize.toNat + i)
  codec : CodecOK c.compress

/-- What a world invariant `W key compress n B wd` ("the first `n` chunks of
the byte stream `B` are stored") has to satisfy for the fixed-mode writer: it
survives the growth of `B` past the `n` chunks, and a successful
`doFixedUpload` of a buffer that holds chunk `n` of `B` extends it. -/
structure UploadSpec {β : Type} (E : Env) (S : ObjectStorage β)
    (W : String → Option Codec → Nat → Bytes → World β → Prop) : Prop where
  mono : ∀ k cmp n B x wd, W k cmp n B wd → (n : Int) * ChunkCacheFixedSize ≤ B.len →
    W k cmp n (Bytes.append B x) wd
  upload : ∀ (c : ChunkWriter) wd c1 wd1 (B : Bytes), c.isFixed = true →
    c.chunkBuf.len = ChunkCacheFixedSize.toNat → 0 < c.length →
    c.length ≤ ChunkCacheFixedSize →
    (∀ i : Nat, (i : Int) < c.length →
      c.chunkBuf.get i = B.get (c.index * ChunkCacheFixedSize.toNat + i)) →
    (c.index : Int) * ChunkCacheFixedSize + c.length ≤ B.len →
    (c.length = ChunkCacheFixedSize ∨ (c.index : Int) * ChunkCacheFixedSize + c.length = B.len) →
    W c.key c.compress c.index B wd →
    c.doFixedUpload E S wd = some (none, c1, wd1) →
    W c.key c.compress (c.index + 1) B wd1

/-- State invariant of a dynamic-mode chunk writer after the buffers `done`
have been handed to `dispatchJob`. -/
structure DInv (c : ChunkWriter) (done : List Bytes) : Prop where
  dynamic : c.isFixed = false
  err : c.isError = false
  buflen : c.chunkBuf.len = ChunkCacheDynamicSize.toNat
  len0 : 0 ≤ c.length
  lenle : c.length ≤ ChunkCacheDynamicSize
  off : c.offset = (Bytes.join done).len
  index : c.index < c.ChunkMetas.length
  jobs : c.jobs = done
  codec : CodecOK c.compress

/-- The (index, start, end) fields of the `i`-th chunk of a fixed-mode file of
`n` bytes: `(i, i * FIXED_CAP, min ((i + 1) * FIXED_CAP) n)`. -/
def fixedBound (n : Nat) (i : Nat) : Int × Int × Int :=
  ((i : Int), (i : Int) * ChunkCacheFixedSize, min (((i : Int) + 1) * ChunkCacheFixedSize) (n : Int))

/-- The number of chunks of a fixed-mode file of `n` bytes: `n / FIXED_CAP`
rounded up. -/
def fixedCount (n : Nat) : Nat := (n + (ChunkCacheFixedSize.toNat - 1)) / ChunkCacheFixedSize.toNat

/-- The manifest of a fixed-mode writer that holds `n` bytes in all and no
buffered byte: the closed records have the ranges `fixedBound n i` for
`i < fixedCount n` (and, without compression, `CompressSize = FIXED_CAP`), and
the open record starts at `n`. -/
def FixedManifest (c : ChunkWriter) (n : Nat) : Prop :=
  ∃ recs, c.ChunkMetas = recs ++ [⟨(fixedCount n : Nat), (n : Int), 0, 0⟩] ∧
    recs.map ChunkMeta.range = (List.range (fixedCount n)).map (fixedBound n) ∧
    (c.compress = none → ∀ m ∈ recs, m.CompressSize = ChunkCacheFixedSize)

/-- The manifest that the fixed-mode writer without compression leaves for a
file of `n` bytes. -/
def fixedManifest (n : Nat) : List ChunkMeta :=
  (List.range (fixedCount n)).map
      (fun i => ⟨(fixedBound n i).1, (fixedBound n i).2.1, (fixedBound n i).2.2,
        ChunkCacheFixedSize⟩) ++
    [⟨(fixedCount n : Nat), (n : Int), 0, 0⟩]

/-! ## A concrete environment for examples -/

/-- Stand-in digest for examples: the first 32 bytes of the input, padded
with zero bytes. -/
def exampleSum256 (b : Bytes) : ID := ⟨(List.range 32).map b.get, by simp⟩

/-- Eight little-endian bytes of an integer (of its absolute value, below
`2 ^ 64`). -/
def putInt (x : Int) : List UInt8 :=
  (List.range 8).map (fun k => UInt8.ofNat (x.toNat / 256 ^ k % 256))

/-- The integer in the eight little-endian bytes at position `pos`. -/
def readInt (b : Bytes) (pos : Nat) : Int :=
  (((List.range 8).map (fun k => (b.get (pos + k)).toNat * 256 ^ k)).sum : Nat)

/-- Stand-in serializer for examples: 32 bytes per record. -/
def exampleMarshal (ms : List ChunkMeta) : Bytes :=
  Bytes.ofList (ms.flatMap (fun m =>
    putInt m.Index ++ putInt m.Start ++ putInt m.End ++ putInt m.CompressSize))

/-- Inverse of `exampleMarshal` on records with fields in `[0, 2 ^ 64)`. -/
def exampleUnmarshal (b : Bytes) : Option (List ChunkMeta) :=
  if b.len % 32 = 0 then
    some ((List.range (b.len / 32)).map (fun k =>
      ⟨readInt b (32 * k), readInt b (32 * k + 8), readInt b (32 * k + 16),
        readInt b (32 * k + 24)⟩))
  else none

/-- Stand-in chunker for examples: the whole input as one chunk. -/
def exampleChunks (b : Bytes) : List Bytes := if b.len = 0 then [] else [b]

/-- Environment for examples. -/
def exampleEnv : Env :=
  { Sum256 := exampleSum256, ToLower := String.toLower, Marshal := exampleMarshal
    Unmarshal := exampleUnmarshal, chunks := exampleChunks }

/-- Byte slice of `n` copies of the byte `v`. -/
def Bytes.fill (n : Nat) (v : UInt8) : Bytes :=
  ⟨n, fun i => if i < n then v else 0, fun _ h => if_neg (Nat.not_lt.mpr h)⟩

/-- World invariant of the fixed-mode writer without compression over the
in-memory store: the chunk keys `<key>/<i>` with `i < n` hold objects of
`FIXED_CAP` bytes that agree with `B` on `[i * FIXED_CAP, (i + 1) * FIXED_CAP)`
as far as `B` goes, and the chunk keys with `i >= n` hold no object. -/
def Stored (key : String) (cmp : Option Codec) (n : Nat) (B : Bytes) (wd : World MemStore) :
    Prop :=
  cmp = none ∧
  (∀ i : Nat, n ≤ i → wd.be.objects (key ++ "/" ++ Itoa (i : Int)) = none) ∧
  (∀ i : Nat, i < n → ∃ o, wd.be.objects (key ++ "/" ++ Itoa (i : Int)) = some o ∧
    o.body.len = 8388608 ∧
    ∀ j : Nat, j < 8388608 → i * 8388608 + j < B.len → o.body.get j = B.get (i * 8388608 + j))

/-! ## Vocabulary for the error paths -/

/-- Whether a call is an `UploadPart`. -/
def Call.isUploadPart : Call → Bool
  | .UploadPart _ _ _ _ => true
  | _ => false

/-- Whether a call is a `Put`. -/
def Call.isPut : Call → Bool
  | .Put _ _ _ => true
  | _ => false

/-- The event is an `UploadPart` call that returned an error. -/
def Event.failedUploadPart (ev : Event) : Bool := ev.call.isUploadPart && ev.failed

/-- Whether a call is a `CompleteUpload`. -/
def Call.isCompleteUpload : Call → Bool
  | .CompleteUpload _ _ _ => true
  | _ => false

/-- The event is an `UploadPart` or a `CompleteUpload` call that returned an
error. -/
def Event.failedUpload (ev : Event) : Bool :=
  (ev.call.isUploadPart || ev.call.isCompleteUpload) && ev.failed

/-- The event is a `Put` call that returned an error. -/
def Event.failedPut (ev : Event) : Bool := ev.call.isPut && ev.failed

/-- A step of the normal writer started in world `wd` only appends to the call
log; when it falls through, no `UploadPart` or `CompleteUpload` failed in it;
when one failed in it, the writer is left in the error state. -/
def Tracks {β : Type} (wd : World β) (res : Step WriterAt β) : Prop :=
  ∀ e w1 wd1, res = some (e, w1, wd1) →
    ∃ evs, wd1.log = wd.log ++ evs ∧
      (e = none → ∀ ev ∈ evs, ev.failedUpload = false) ∧
      ((∃ ev ∈ evs, ev.failedUpload = true) → w1.cache.errState = true)

/-- The in-memory store with an `UploadPart` that always fails. -/
def partFailStore : ObjectStorage MemStore :=
  { memStore with UploadPart := fun st _ _ _ _ => (.error "upload failed", st) }

/-- The in-memory store with a `Put` that always fails. -/
def putFailStore : ObjectStorage MemStore :=
  { memStore with Put := fun st _ _ _ => (some "put failed", st) }

/-- Writer and world after a `WriteAt` call (unchanged when the call panics). -/
def WriterAt.after {β : Type} (S : ObjectStorage β) (w : WriterAt) (wd : World β) (p : Bytes)
    (off : Int) : WriterAt × World β :=
  match w.WriteAt S wd p off with
  | some (_, w1, wd1) => (w1, wd1)
  | none => (w, wd)

/-- The in-memory store with a `Put` that fails on the manifest key of the
file `f` only. -/
def metaFailStore : ObjectStorage MemStore :=
  { memStore with Put := fun st key md body =>
      if key = "f/.meta" then (some "put failed", st) else memStore.Put st key md body }

/-- The dedup condition in the words of the specification: `Head` on the key
succeeds and the metadata it returns has an entry whose key, lower-cased, is
`chunkid` and whose value is the hexadecimal encoding of `id`. -/
def Duplicate {β : Type} (E : Env) (S : ObjectStorage β) (be : β) (key : String) (id : ID) :
    Prop :=
  ∃ o, (S.Head be key).1 = .ok o ∧
    ∃ kv ∈ o.Metadata, E.ToLower kv.1 = "chunkid" ∧ kv.2 = EncodeToString id.bytes

/-- Every `Put` among the events `evs` is the `Put` of some chunk body under
the key `<key>/<i>` of an index `i >= n`, with the single metadata entry
`chunkid`, the hexadecimal encoding of the hash of the body. -/
def ChunkPuts (E : Env) (key : String) (n : Nat) (evs : List Event) : Prop :=
  ∀ ev ∈ evs, ev.call.isPut = true →
    ∃ (i : Nat) (body : Bytes), n ≤ i ∧
      ev.call = Call.Put (key ++ "/" ++ Itoa (i : Int))
        [("chunkid", EncodeToString (E.Sum256 body).bytes)] body

/-! ## Vocabulary for the part policy of the normal writer -/

/-- The events of successful `UploadPart` calls with the bodies `bs`, numbered
consecutively from `n`. -/
def uploadEvents (key u : String) : Nat → List Bytes → List Event
  | _, [] => []
  | n, b :: bs => ⟨Call.UploadPart key u (n : Int) b, false⟩ :: uploadEvents key u (n + 1) bs

/-- The parts that the in-memory store returns for uploads numbered
consecutively from `n`, one per body. -/
def partList : Nat → List Bytes → List Part
  | _, [] => []
  | n, _ :: bs => ⟨(n : Int), 0, "etag"⟩ :: partList (n + 1) bs

/-- The normal writer has initiated its upload: since the log `log0` the calls
are one `InitiateMultipartUpload` and the uploads of the part bodies `bodies`,
numbered from 1; the part list and the next part number match, and the store
assembles the listed parts to the concatenation of the bodies. -/
def Started (w : WriterAt) (wd : World MemStore) (log0 : List Event) (bodies : List Bytes) :
    Prop :=
  wd.log = log0 ++ ⟨Call.InitiateMultipartUpload w.key, false⟩ ::
      uploadEvents w.key w.cache.uploadID 1 bodies ∧
    w.cache.part = partList 1 bodies ∧ w.cache.num = (bodies.length : Int) + 1 ∧
    (∀ b ∈ bodies, 0 < b.len ∧ (b.len : Int) ≤ CacheSize) ∧
    wd.be.assemble w.cache.uploadID w.cache.part = some (Bytes.join bodies)

/-- Log invariant of the normal writer over the in-memory store, relative to
the log `log0` at its creation: either nothing was accepted and no call was
made, or the upload has been initiated. -/
structure LInv (w : WriterAt) (wd : World MemStore) (log0 : List Event) : Prop where
  len0 : 0 ≤ w.cache.length
  lenle : w.cache.length ≤ CacheSize
  buflen : w.cache.buf.len = CacheSize.toNat
  off0 : 0 ≤ w.cache.offset
  held : ∀ c ∈ w.cache.chunks, (c.buf.len : Int) ≤ CacheSize ∧ c.offset ≠ 0
  phase : (w.cache.offset = 0 ∧ w.cache.length = 0 ∧ wd.log = log0) ∨
    ∃ bodies, Started w wd log0 bodies

/-- State of a normal reader over the object `O` stored at its key, apart from
the cached size: the window `[start, offset)` lies inside the object, is no
longer than the buffer, and the buffer holds the object's bytes of the window:
`buf[0 .. offset-start) = O[start .. offset)`. -/
structure RPre (r : ReaderAt) (st : MemStore) (O : Bytes) : Prop where
  obj : ∃ md, st.objects r.key = some ⟨O, md⟩
  err : r.errState = false
  buflen : (r.cache.buf.len : Int) = CacheSize
  start0 : 0 ≤ r.cache.start
  le : r.cache.start ≤ r.cache.offset
  offle : r.cache.offset ≤ (O.len : Int)
  win : r.cache.offset - r.cache.start ≤ CacheSize
  data : ∀ i : Nat, (i : Int) < r.cache.offset - r.cache.start →
    r.cache.buf.get i = O.get (r.cache.start.toNat + i)

/-- State invariant of a normal reader whose size is known: `RPre` and the
cached size is the size of the object. -/
def RInv (r : ReaderAt) (st : MemStore) (O : Bytes) : Prop :=
  RPre r st O ∧ r.cache.size = (O.len : Int)

/-- Store that holds one object. -/
def MemStore.single (key : String) (body : Bytes) : MemStore :=
  ⟨fun k => if k = key then some ⟨body, []⟩ else none, fun _ _ => none, 0⟩

/-- A slot of the chunk reader's cache holds logical bytes of the file `B`:
its window `[start, offset)` is no longer than the slot buffer and
`buf[0 .. offset-start) = B[start .. offset)`. -/
structure SlotOK (s : ChunkReadCache) (B : Bytes) : Prop where
  start0 : 0 ≤ s.start
  le : s.start ≤ s.offset
  fits : s.offset - s.start ≤ (s.buf.len : Int)
  data : ∀ i : Nat, (i : Int) < s.offset - s.start → s.buf.get i = B.get (s.start.toNat + i)

/-- A chunked file `B` in the in-memory store under `key`: the manifest object
decodes to the records `recs` followed by the sentinel `s`; the records are
contiguous from 0 to `|B|`, the record at position `i` having index `i`; the
sentinel has `Start >= End`; the object of every chunk starts with the logical
bytes of its range; and no chunk is longer than `L` bytes. -/
structure ChunkFile (E : Env) (st : MemStore) (key : String) (recs : List ChunkMeta)
    (s : ChunkMeta) (B : Bytes) (L : Nat) : Prop where
  manifest : ∃ mb md, st.objects (key ++ "/.meta") = some ⟨mb, md⟩ ∧ mb.len ≤ 1048576 ∧
    E.Unmarshal mb = some (recs ++ [s])
  contig : Contig 0 0 recs (B.len : Int)
  sentinel : s.Start ≥ s.End
  chunks : ∀ (k : Nat) (m : ChunkMeta), recs.get? k = some m →
    ∃ o, st.objects (key ++ "/" ++ Itoa (k : Int)) = some o ∧
      m.End - m.Start ≤ (o.body.len : Int) ∧
      ∀ i : Nat, (i : Int) < m.End - m.Start → o.body.get i = B.get (m.Start.toNat + i)
  small : ∀ m ∈ recs, m.End - m.Start ≤ (L : Int)

/-- State of a chunk reader with compression disabled and slot buffers of `L`
bytes, both slots holding logical bytes of `B`. -/
structure CRPre (r : ChunkReader) (B : Bytes) (L : Nat) : Prop where
  err : r.ErrState = false
  cmp : r.compress = none
  clen : r.c.buf.len = L
  eclen : r.ec.buf.len = L
  c : SlotOK r.c B
  ec : SlotOK r.ec B

namespace ChunkReader

variable {β : Type}

/-- A sequence of `ReadAt` calls on one handle, each with its own buffer;
the results and the filled buffers are collected in call order. -/
def readAll (E : Env) (S : ObjectStorage β) :
    List (Int × Bytes) → ChunkReader → World β →
      Option (List ((Int × Error) × Bytes) × ChunkReader × World β)
  | [], r, wd => some ([], r, wd)
  | x :: rest, r, wd =>
    match r.ReadAt E S wd x.2 x.1 with
    | none => none
    | some (res, p1, r1, wd1) =>
      match readAll E S rest r1 wd1 with
      | none => none
      | some (out, r2, wd2) => some ((res, p1) :: out, r2, wd2)

end ChunkReader

/-- Store that holds a chunked file: the encoded manifest `M` at `<key>/.meta`
and the listed chunk bodies at `<key>/0`, `<key>/1`, ... -/
def MemStore.ofChunks (E : Env) (key : String) (M : List ChunkMeta) (bodies : List Bytes) :
    MemStore :=
  ⟨fun k => if k = key ++ "/.meta" then some ⟨E.Marshal M, []⟩
    else ((List.range bodies.length).find? (fun (i : Nat) => k = key ++ "/" ++ Itoa (i : Int))).bind
      (fun (i : Nat) => (bodies.get? i).map (fun b => ⟨b, []⟩)),
    fun _ _ => none, 0⟩

/-- Manifest records of a file of three chunks of 1 MiB. -/
def threeRecs : List ChunkMeta :=
  [⟨0, 0, 1048576, 1048576⟩, ⟨1, 1048576, 2097152, 1048576⟩, ⟨2, 2097152, 3145728, 1048576⟩]

/-- Sentinel record that closes the manifest of `threeRecs`. -/
def threeSentinel : ChunkMeta := ⟨3, 3145728, 0, 0⟩

/-- Store that holds under the key `f` a file of 3 MiB of the byte `7` in
three chunks of 1 MiB. -/
def threeStore : MemStore :=
  MemStore.ofChunks exampleEnv "f" (threeRecs ++ [threeSentinel])
    [Bytes.fill 1048576 7, Bytes.fill 1048576 7, Bytes.fill 1048576 7]

/-- The log entry of the successful GET of the whole object at `key`. -/
def getEvent (key : String) : Event := ⟨Call.Get key 0 (-1), false⟩

/-- The log entries of the successful GETs of the chunk objects `<key>/0`, ...,
`<key>/(n-1)`, in index order. -/
def chunkGets (key : String) (n : Nat) : List Event :=
  (List.range n).map (fun (i : Nat) => getEvent (key ++ "/" ++ Itoa (i : Int)))

/-- State of a chunk reader in a sequential scan whose latest read was inside
chunk `j` (record `mj`): the manifest is loaded, slot `c` holds chunk `j`,
slot `ec` was never filled, and the calls made since `log0` are the GET of the
manifest followed by the GETs of the chunks `0, ..., j` in index order. -/
structure Visited (key : String) (st : MemStore) (recs : List ChunkMeta) (s : ChunkMeta)
    (B : Bytes) (L : Nat) (log0 : List Event) (r : ChunkReader) (wd : World MemStore)
    (j : Nat) (mj : ChunkMeta) : Prop where
  hkey : r.key = key
  pre : CRPre r B L
  metas : r.ChunkMetas = recs ++ [s]
  cstart : r.c.start = mj.Start
  cend : r.c.offset = mj.End
  ecend : r.ec.offset = 0
  be : wd.be = st
  log : wd.log = log0 ++ getEvent (key ++ "/.meta") :: chunkGets key (j + 1)

/-- State of a chunk reader, with or without compression, in a sequential scan
whose latest read was inside chunk `j` (record `mj`): the manifest is loaded,
the window of slot `c` is the range of chunk `j`, slot `ec` was never filled,
and the calls made since `log0` are the GET of the manifest followed by the
GETs of the chunks `0, ..., j` in index order. -/
structure Scan (key : String) (st : MemStore) (recs : List ChunkMeta) (s : ChunkMeta)
    (log0 : List Event) (r : ChunkReader) (wd : World MemStore) (j : Nat) (mj : ChunkMeta) :
    Prop where
  hkey : r.key = key
  metas : r.ChunkMetas = recs ++ [s]
  cstart : r.c.start = mj.Start
  cend : r.c.offset = mj.End
  ecend : r.ec.offset = 0
  be : wd.be = st
  log : wd.log = log0 ++ getEvent (key ++ "/.meta") :: chunkGets key (j + 1)

/-- Twelve reads of 256 KiB at the offsets 0, 256 KiB, ..., 2.75 MiB. -/
def threeReads : List (Int × Bytes) :=
  (List.range 12).map (fun (i : Nat) => ((i : Int) * 262144, Bytes.make 262144))

/-! ## Vocabulary for the second pass over a file -/

/-- The writer `c2` of a second pass is in step with the writer `c` of the
first pass: same key, position, mode and held writes; the chunk buffers have
the same length and the same buffered bytes `[0, length)`, and every other
byte of the second buffer is that of the first or that of `F`, the buffer the
first pass ended with; the manifest of `c2` has a record at `index`. -/
structure Twin (F : Bytes) (c c2 : ChunkWriter) : Prop where
  key : c2.key = c.key
  index : c2.index = c.index
  compress : c2.compress = c.compress
  isError : c2.isError = c.isError
  isFixed : c2.isFixed = c.isFixed
  offset : c2.offset = c.offset
  length : c2.length = c.length
  extras : c2.extras = c.extras
  buflen : c2.chunkBuf.len = c.chunkBuf.len
  low : ∀ i : Nat, (i : Int) < c.length → c2.chunkBuf.get i = c.chunkBuf.get i
  any : ∀ i : Nat, c2.chunkBuf.get i = c.chunkBuf.get i ∨ c2.chunkBuf.get i = F.get i
  metas : c.index < c2.ChunkMetas.length

/-- In fixed mode the whole chunk buffer of `c` is determined: it is full, or
it is the buffer `F` the pass ends with. -/
def Whole (F : Bytes) (c : ChunkWriter) : Prop :=
  c.isFixed = true → ((c.chunkBuf.len : Int) ≤ c.length ∨ c.chunkBuf = F)

/-- The store `st1` differs from `st` at most at the manifest key and at the
chunk keys `<key>/<j>` with `j >= n`. -/
def StoreFrame (key : String) (n : Nat) (st st1 : MemStore) : Prop :=
  ∀ k, k ≠ key ++ "/.meta" → (∀ j : Nat, n ≤ j → k ≠ key ++ "/" ++ Itoa (j : Int)) →
    st1.objects k = st.objects k

/-- The stores `G` and `st` hold the same at the chunk keys `<key>/<j>` with
`lo <= j < hi`. -/
def Agree (G : MemStore) (key : String) (lo hi : Nat) (st : MemStore) : Prop :=
  ∀ j : Nat, lo ≤ j → j < hi →
    G.objects (key ++ "/" ++ Itoa (j : Int)) = st.objects (key ++ "/" ++ Itoa (j : Int))

/-- No event of the list is a `Put`. -/
def NoPut (evs : List Event) : Prop := ∀ ev ∈ evs, ev.call.isPut = false

/-- What a step of the first pass keeps: the index does not decrease, the key,
the mode, the codec and the length of the chunk buffer are unchanged, the
manifest does not shrink, and the store changes at most at the manifest key
and at chunk keys from the old index on. -/
structure Kept (c : ChunkWriter) (wd : World MemStore) (c1 : ChunkWriter)
    (wd1 : World MemStore) : Prop where
  index : c.index ≤ c1.index
  key : c1.key = c.key
  isFixed : c1.isFixed = c.isFixed
  buflen : c1.chunkBuf.len = c.chunkBuf.len
  frame : StoreFrame c.key c.index wd.be wd1.be
  compress : c1.compress = c.compress
  metas : c.ChunkMetas.length ≤ c1.ChunkMetas.length

/-- A step `f` of the chunk writer, run in the first pass from `c` and `wd`,
keeps what `Kept` lists, and a second pass that is in step with it and runs
over a store `G` that agrees with the outcome of the first pass on the chunk
keys of this step, takes the same step with the same result, issues no `Put`,
leaves the store unchanged and stays in step. -/
def Paired (F : Bytes) (G : MemStore)
    (f : ChunkWriter → World MemStore → Step ChunkWriter MemStore) (c : ChunkWriter)
    (wd : World MemStore) : Prop :=
  ∀ e c1 wd1, f c wd = some (e, c1, wd1) →
    Kept c wd c1 wd1 ∧
    (Agree G c.key c.index c1.index wd1.be → ∀ c2 log2, Twin F c c2 →
      ∃ c3 evs, f c2 ⟨G, log2⟩ = some (e, c3, ⟨G, log2 ++ evs⟩) ∧ Twin F c1 c3 ∧ NoPut evs)

/-- Every `Put` among the events is a `Put` of the manifest `<key>/.meta`. -/
def OnlyMetaPuts (key : String) (evs : List Event) : Prop :=
  ∀ ev ∈ evs, ∀ k md b, ev.call = Call.Put k md b → k = key ++ "/.meta"

/-- The example environment with the lower-casing of `strings.ToLower` on
ASCII written as a map over the characters. -/
def lowerEnv : Env := { exampleEnv with ToLower := fun s => ⟨s.data.map Char.toLower⟩ }

/-- Whether a call is a `Head`. -/
def Call.isHead : Call → Bool
  | .Head _ => true
  | _ => false

/-! ## Byte slices: basic facts -/

namespace Bytes

theorem ext' {a b : Bytes} (hl : a.len = b.len) (hg : ∀ i, i < a.len → a.get i = b.get i) :
    a = b := by
  obtain ⟨la, ga, ca⟩ := a
  obtain ⟨lb, gb, cb⟩ := b
  simp only at hl hg
  subst hl
  have : ga = gb := by
    funext i
    by_cases h : i < la
    · exact hg i h
    · rw [ca i (by omega), cb i (by omega)]
  subst this
  rfl

@[simp] theorem len_make (n : Nat) : (make n).len = n := rfl
@[simp] theorem get_make (n i : Nat) : (make n).get i = 0 := rfl
@[simp] theorem len_append (a b : Bytes) : (append a b).len = a.len + b.len := rfl
@[simp] theorem len_copy (a b : Bytes) : (copy a b).len = a.len := rfl
@[simp] theorem len_take (n : Nat) (b : Bytes) : (take n b).len = min n b.len := rfl

theorem get_append (a b : Bytes) (i : Nat) :
    (append a b).get i = if i < a.len then a.get i else b.get (i - a.len) := rfl

theorem get_copy (a b : Bytes) (i : Nat) :
    (copy a b).get i = if i < min a.len b.len then b.get i else a.get i := rfl

theorem get_take (n : Nat) (b : Bytes) (i : Nat) :
    (take n b).get i = if i < min n b.len then b.get i else 0 := rfl

theorem append_make_zero (a : Bytes) : append a (make 0) = a := by
  apply ext' (by simp)
  intro i hi
  simp only [len_append, len_make, Nat.add_zero] at hi
  simp [get_append, hi]

theorem make_zero_append (a : Bytes) : append (make 0) a = a := by
  apply ext' (by simp)
  intro i _
  simp [get_append]

theorem append_assoc (a b c : Bytes) : append (append a b) c = append a (append b c) := by
  apply ext' (by simp [Nat.add_assoc])
  intro i _
  simp only [get_append, len_append]
  by_cases h1 : i < a.len
  · have h2 : i < a.len + b.len := by omega
    simp [h1, h2]
  · by_cases h2 : i < a.len + b.len
    · have h3 : i - a.len < b.len := by omega
      simp [h1, h2, h3]
    · have h3 : ¬ i - a.len < b.len := by omega
      have h4 : i - (a.len + b.len) = i - a.len - b.len := by omega
      simp [h1, h2, h3, h4]

theorem eq_make_zero {a : Bytes} (h : a.len = 0) : a = make 0 :=
  ext' h (fun i hi => by omega)

theorem copy_make (p : Bytes) : copy (make p.len) p = p := by
  apply ext' (by simp)
  intro i hi
  simp only [len_copy, len_make] at hi
  simp [get_copy, hi]

theorem take_zero (b : Bytes) : take 0 b = make 0 := eq_make_zero (by simp)

theorem take_all {b : Bytes} {n : Nat} (h : b.len ≤ n) : take n b = b := by
  apply ext' (by simp [h])
  intro i hi
  simp only [len_take] at hi
  simp [get_take, hi]

theorem slice_zero {b : Bytes} {n : Int} (h0 : 0 ≤ n) (h1 : n ≤ b.len) :
    b.slice 0 n = some (take n.toNat b) := by
  unfold slice
  rw [if_pos ⟨le_refl _, h0, h1⟩]
  congr 1
  apply ext'
  · simp only [len_take]; omega
  · intro i hlt
    have h3 : i < (n - 0).toNat := hlt
    have h2 : i < min n.toNat b.len := by omega
    show (if i < (n - 0).toNat then b.get ((0 : Int).toNat + i) else 0) = _
    rw [if_pos h3, get_take, if_pos h2]
    simp

theorem slice_eq (b : Bytes) (lo hi : Int) (h0 : 0 ≤ lo) (h1 : lo ≤ hi) (h2 : hi ≤ b.len) :
    ∃ s, b.slice lo hi = some s ∧ s.len = (hi - lo).toNat ∧
      ∀ i, i < s.len → s.get i = b.get (lo.toNat + i) := by
  unfold slice
  rw [if_pos ⟨h0, h1, h2⟩]
  refine ⟨_, rfl, rfl, ?_⟩
  intro i hlt
  have h3 : i < (hi - lo).toNat := hlt
  show (if i < (hi - lo).toNat then b.get (lo.toNat + i) else 0) = _
  rw [if_pos h3]

theorem copyInto_eq (dst : Bytes) {lo : Int} (s : Bytes) (h0 : 0 ≤ lo)
    (h1 : lo + s.len ≤ dst.len) :
    ∃ d, dst.copyInto lo (lo + s.len) s = some d ∧ d.len = dst.len ∧
      take (lo + s.len).toNat d = append (take lo.toNat dst) s := by
  unfold copyInto
  rw [dif_pos ⟨h0, by omega, h1⟩]
  refine ⟨_, rfl, rfl, ?_⟩
  apply ext'
  · simp only [len_take, len_append]; omega
  · intro i hi
    simp only [len_take] at hi
    have hi' : i < (lo + s.len).toNat := by omega
    have hm : min (lo + ↑s.len - lo).toNat s.len = s.len := by
      have : (lo + ↑s.len - lo) = s.len := by omega
      rw [this]; simp
    simp only [get_take, get_append, len_take, hm]
    have h3 : i < min (lo + ↑s.len).toNat dst.len := by omega
    rw [if_pos h3]
    by_cases h4 : i < lo.toNat
    · have h5 : ¬ (lo.toNat ≤ i ∧ i < lo.toNat + s.len) := by omega
      have h6 : i < min lo.toNat dst.len := by omega
      rw [if_neg h5, if_pos h6, if_pos h6]
    · have h5 : lo.toNat ≤ i ∧ i < lo.toNat + s.len := by omega
      have h6 : ¬ i < min lo.toNat dst.len := by omega
      have h7 : min lo.toNat dst.len = lo.toNat := by omega
      rw [if_pos h5, if_neg h6, h7]

@[simp] theorem len_join_nil : (join []).len = 0 := rfl
theorem join_cons (b : Bytes) (bs : List Bytes) : join (b :: bs) = append b (join bs) := rfl

end Bytes

/-! ## The reassembly list -/

theorem takeFirst_none {α : Type} {key : α → Int} {o : Int} {cs : List α}
    (h : takeFirst key o cs = none) : ∀ c ∈ cs, key c ≠ o := by
  induction cs with
  | nil => intro c hc; cases hc
  | cons a as ih =>
    unfold takeFirst at h
    by_cases ha : key a = o
    · rw [if_pos ha] at h; cases h
    · rw [if_neg ha] at h
      cases hr : takeFirst key o as with
      | none =>
        intro c hc
        rcases List.mem_cons.mp hc with rfl | hc
        · exact ha
        · exact ih hr c hc
      | some x => rw [hr] at h; cases h

theorem takeFirst_some {α : Type} {key : α → Int} {o : Int} {cs : List α} {c : α}
    {rest : List α} (h : takeFirst key o cs = some (c, rest)) :
    key c = o ∧ cs.Perm (c :: rest) ∧ cs.length = rest.length + 1 := by
  induction cs generalizing c rest with
  | nil => cases h
  | cons a as ih =>
    unfold takeFirst at h
    by_cases ha : key a = o
    · rw [if_pos ha] at h
      cases h
      exact ⟨ha, List.Perm.refl _, rfl⟩
    · rw [if_neg ha] at h
      cases hr : takeFirst key o as with
      | none => rw [hr] at h; cases h
      | some x =>
        obtain ⟨x1, x2⟩ := x
        rw [hr] at h
        cases h
        obtain ⟨h1, h2, h3⟩ := ih hr
        refine ⟨h1, ?_, by simp [h3]⟩
        exact (List.Perm.cons a h2).trans (List.Perm.swap _ _ _)

theorem chain_mem_ge {o o' : Int} {s : Bytes} {segs : List Bytes}
    (h : (o', s) ∈ chain o segs) : o ≤ o' := by
  induction segs generalizing o with
  | nil => cases h
  | cons t ts ih =>
    rcases List.mem_cons.mp h with h | h
    · cases h; exact le_refl _
    · have := ih h; omega

theorem chain_head_unique {o : Int} {s t : Bytes} {ts : List Bytes}
    (h : (o, s) ∈ chain o (t :: ts)) (ht : 0 < t.len) : s = t := by
  rcases List.mem_cons.mp h with h | h
  · cases h; rfl
  · have := chain_mem_ge h; omega

theorem chain_mem_cons {o : Int} {s : Bytes} {segs : List Bytes}
    (h : (o, s) ∈ chain o segs) (hs : ∀ x ∈ segs, 0 < x.len) :
    ∃ ts, segs = s :: ts := by
  cases segs with
  | nil => cases h
  | cons t ts =>
    have := chain_head_unique h (hs t (List.mem_cons_self _ _))
    exact ⟨ts, by rw [this]⟩

/-! ## Normal writer over the in-memory store -/

theorem assemble_update (st : MemStore) (u : String) (num : Int) (body : Bytes)
    {ps : List Part} (h : ∀ q ∈ ps, q.Num ≠ num) :
    MemStore.assemble
      { st with parts := fun u' n => if u' = u ∧ n = num then some body else st.parts u' n }
      u ps = MemStore.assemble st u ps := by
  induction ps with
  | nil => rfl
  | cons p ps ih =>
    have hp : p.Num ≠ num := h p (List.mem_cons_self _ _)
    have ih' := ih (fun q hq => h q (List.mem_cons_of_mem _ hq))
    simp only [MemStore.assemble, ih', hp, and_false, if_false]

theorem assemble_append {st : MemStore} {u : String} {ps : List Part} {q : Part}
    {pre body : Bytes} (h : MemStore.assemble st u ps = some pre)
    (hq : st.parts u q.Num = some body) :
    MemStore.assemble st u (ps ++ [q]) = some (Bytes.append pre body) := by
  induction ps generalizing pre with
  | nil =>
    simp only [MemStore.assemble] at h
    cases h
    simp only [List.nil_append, MemStore.assemble, hq]
    rw [Bytes.append_make_zero, Bytes.make_zero_append]
  | cons p ps ih =>
    simp only [MemStore.assemble] at h
    cases h1 : st.parts u p.Num with
    | none => simp [h1] at h
    | some b =>
      cases h2 : MemStore.assemble st u ps with
      | none => simp [h1, h2] at h
      | some r =>
        simp only [h1, h2, Option.some.injEq] at h
        subst h
        have h3 := ih h2
        rw [List.cons_append]
        simp only [MemStore.assemble, h1, h3]
        rw [Bytes.append_assoc]

theorem uploadIfFull_spec {w : WriterAt} {st : MemStore} (log : List Event) {acc : Bytes}
    (n : Int) (hI : NInv w st acc) (hn : n ≤ CacheSize) :
    ∃ w1 st1 log1, WriterAt.uploadIfFull memStore n w ⟨st, log⟩ = some (none, w1, ⟨st1, log1⟩) ∧
      NInv w1 st1 acc ∧ w1.cache.length + n ≤ CacheSize ∧
      w1.cache.chunks = w.cache.chunks ∧ w1.key = w.key := by
  obtain ⟨herr, hbuf, hl0, hle, hoff, hnums, pre, hpre, hdata⟩ := hI
  unfold WriterAt.uploadIfFull
  by_cases h : w.cache.length + n > CacheSize
  · rw [if_pos h]
    have hcs : (0 : Int) ≤ CacheSize := by decide
    have hs : w.cache.buf.slice 0 w.cache.length = some (Bytes.take w.cache.length.toNat w.cache.buf) :=
      Bytes.slice_zero hl0 (by rw [hbuf]; omega)
    rw [hs]
    refine ⟨_, _, _, rfl, ?_, ?_, rfl, rfl⟩
    · refine ⟨herr, hbuf, le_refl _, hcs, hoff, ?_, ?_⟩
      · intro q hq
        show q.Num < w.cache.num + 1
        rcases List.mem_append.mp hq with hq | hq
        · have := hnums q hq; omega
        · simp only [List.mem_singleton] at hq
          subst hq
          show w.cache.num < w.cache.num + 1
          omega
      · refine ⟨Bytes.append pre (Bytes.take w.cache.length.toNat w.cache.buf), ?_, ?_⟩
        · apply assemble_append
          · exact (assemble_update st w.cache.uploadID w.cache.num
              (Bytes.take w.cache.length.toNat w.cache.buf)
              (fun q hq => by have := hnums q hq; omega)).trans hpre
          · show (if w.cache.uploadID = w.cache.uploadID ∧ w.cache.num = w.cache.num
              then some _ else _) = _
            rw [if_pos ⟨rfl, rfl⟩]
        · show Bytes.append _ (Bytes.take (0 : Int).toNat w.cache.buf) = acc
          simp only [Int.toNat_zero, Bytes.take_zero, Bytes.append_make_zero]
          exact hdata
    · show (0 : Int) + n ≤ CacheSize
      omega
  · rw [if_neg h]
    exact ⟨w, st, log, rfl, ⟨herr, hbuf, hl0, hle, hoff, hnums, pre, hpre, hdata⟩,
      by omega, rfl, rfl⟩

theorem accept_spec {β : Type} {w : WriterAt} {st : MemStore} (wd : World β) {acc : Bytes}
    (s : Bytes) (hI : NInv w st acc) (hfit : w.cache.length + s.len ≤ CacheSize) :
    ∃ w1, WriterAt.accept s w wd = some (none, w1, wd) ∧ NInv w1 st (Bytes.append acc s) ∧
      w1.cache.chunks = w.cache.chunks ∧ w1.key = w.key ∧
      w1.cache.length = w.cache.length + s.len := by
  obtain ⟨herr, hbuf, hl0, hle, hoff, hnums, pre, hpre, hdata⟩ := hI
  have hcs : CacheSize = (CacheSize.toNat : Int) := by decide
  obtain ⟨d, hd, hdl, hdt⟩ := Bytes.copyInto_eq w.cache.buf s hl0
    (by rw [hbuf]; omega)
  unfold WriterAt.accept
  rw [hd]
  refine ⟨_, rfl, ?_, rfl, rfl, rfl⟩
  refine ⟨herr, by rw [← hbuf]; exact hdl, ?_, hfit, ?_, hnums, pre, hpre, ?_⟩
  · show 0 ≤ w.cache.length + s.len
    omega
  · show w.cache.offset + s.len = ((Bytes.append acc s).len : Int)
    rw [Bytes.len_append, hoff]; push_cast; rfl
  · show Bytes.append pre (Bytes.take (w.cache.length + s.len).toNat d) = Bytes.append acc s
    rw [hdt, ← Bytes.append_assoc, hdata]

theorem NInv.setChunks {w : WriterAt} {st : MemStore} {acc : Bytes} (h : NInv w st acc)
    (cs : List Chunk) : NInv { w with cache := { w.cache with chunks := cs } } st acc :=
  ⟨h.err, h.buflen, h.len0, h.lenle, h.off, h.nums, h.data⟩

theorem andThen_ok {σ β : Type} (s : σ) (wd : World β) (k : σ → World β → Step σ β) :
    Step.andThen (some (none, s, wd)) k = k s wd := rfl

theorem drain_spec (fuel : Nat) : ∀ (w : WriterAt) (st : MemStore) (log : List Event) (acc : Bytes)
    (rest : List Bytes) (ws : List (Int × Bytes)),
    NInv w st acc → w.cache.chunks.length ≤ fuel →
    (∀ s ∈ rest, 0 < s.len ∧ (s.len : Int) ≤ CacheSize) →
    (w.cache.chunks.map Chunk.toPair ++ ws).Perm (chain acc.len rest) →
    ∃ w1 st1 log1 acc1 rest1,
      WriterAt.drain memStore fuel w ⟨st, log⟩ = some (none, w1, ⟨st1, log1⟩) ∧
      NInv w1 st1 acc1 ∧
      Bytes.append acc (Bytes.join rest) = Bytes.append acc1 (Bytes.join rest1) ∧
      (∀ s ∈ rest1, 0 < s.len ∧ (s.len : Int) ≤ CacheSize) ∧
      (w1.cache.chunks.map Chunk.toPair ++ ws).Perm (chain acc1.len rest1) ∧
      (∀ c ∈ w1.cache.chunks, c.offset ≠ w1.cache.offset) ∧ w1.key = w.key ∧
      ((w1 = w ∧ acc1 = acc) ∨ 0 < w1.cache.length) := by
  induction fuel with
  | zero =>
    intro w st log acc rest ws hI hf hrest hperm
    have hnil : w.cache.chunks = [] := List.length_eq_zero.mp (Nat.le_zero.mp hf)
    refine ⟨w, st, log, acc, rest, rfl, hI, rfl, hrest, hperm, ?_, rfl, Or.inl ⟨rfl, rfl⟩⟩
    intro c hc
    rw [hnil] at hc
    cases hc
  | succ fuel ih =>
    intro w st log acc rest ws hI hf hrest hperm
    unfold WriterAt.drain
    cases htf : takeFirst Chunk.offset w.cache.offset w.cache.chunks with
    | none =>
      exact ⟨w, st, log, acc, rest, rfl, hI, rfl, hrest, hperm, takeFirst_none htf, rfl,
        Or.inl ⟨rfl, rfl⟩⟩
    | some x =>
      obtain ⟨c, cs⟩ := x
      obtain ⟨hco, hcp, hcl⟩ := takeFirst_some htf
      have hmem : ((acc.len : Int), c.buf) ∈ chain acc.len rest := by
        apply hperm.subset
        apply List.mem_append_left
        apply List.mem_map.mpr
        refine ⟨c, hcp.symm.subset (List.mem_cons_self _ _), ?_⟩
        show (c.offset, c.buf) = _
        rw [hco, hI.off]
      obtain ⟨ts, hts⟩ := chain_mem_cons hmem (fun x hx => (hrest x hx).1)
      subst hts
      have hc := hrest c.buf (List.mem_cons_self _ _)
      obtain ⟨w1, st1, log1, hu, hI1, hfit, hch1, hk1⟩ :=
        uploadIfFull_spec log c.buf.len hI hc.2
      obtain ⟨w2, ha, hI2, hch2, hk2, hlen2⟩ :=
        accept_spec (⟨st1, log1⟩ : World MemStore) c.buf hI1 hfit
      have hperm2 : (cs.map Chunk.toPair ++ ws).Perm
          (chain (Bytes.append acc c.buf).len ts) := by
        have h1 : (c.toPair :: (cs.map Chunk.toPair ++ ws)).Perm
            (w.cache.chunks.map Chunk.toPair ++ ws) := by
          have := (hcp.map Chunk.toPair).symm
          exact List.Perm.append_right ws this
        have h2 := h1.trans hperm
        have h3 : c.toPair = ((acc.len : Int), c.buf) := by
          show (c.offset, c.buf) = _
          rw [hco, hI.off]
        rw [h3] at h2
        have h4 := List.Perm.cons_inv h2
        rw [Bytes.len_append]
        push_cast
        exact h4
      obtain ⟨w3, st3, log3, acc3, rest3, hd, hI3, hj3, hr3, hp3, hdr3, hk3, hnb3⟩ :=
        ih { w2 with cache := { w2.cache with chunks := cs } } st1 log1
          (Bytes.append acc c.buf) ts ws (hI2.setChunks cs)
          (by show cs.length ≤ fuel; omega)
          (fun s hs => hrest s (List.mem_cons_of_mem _ hs)) hperm2
      refine ⟨w3, st3, log3, acc3, rest3, ?_, hI3, ?_, hr3, hp3, hdr3, ?_, Or.inr ?_⟩
      · simp only []
        rw [hu, andThen_ok, ha, andThen_ok]
        exact hd
      · rw [← hj3, Bytes.join_cons, Bytes.append_assoc]
      · rw [hk3]; show w2.key = w.key; rw [hk2, hk1]
      · rcases hnb3 with ⟨h1, _⟩ | h1
        · rw [h1]
          show 0 < w2.cache.length
          have := hI1.len0
          have := hc.1
          omega
        · exact h1

theorem chain_mem_seg {o o' : Int} {s : Bytes} {segs : List Bytes}
    (h : (o', s) ∈ chain o segs) : s ∈ segs := by
  induction segs generalizing o with
  | nil => cases h
  | cons t ts ih =>
    rcases List.mem_cons.mp h with h | h
    · cases h; exact List.mem_cons_self _ _
    · exact List.mem_cons_of_mem _ (ih h)

theorem init_spec {w : WriterAt} {st : MemStore} (log : List Event) {acc : Bytes} (off : Int)
    (hI : NInv w st acc) (h0 : off = 0 → acc.len = 0) :
    ∃ w1 st1 log1, WriterAt.init memStore off w ⟨st, log⟩ = some (none, w1, ⟨st1, log1⟩) ∧
      NInv w1 st1 acc ∧ w1.cache.chunks = w.cache.chunks ∧ w1.key = w.key := by
  unfold WriterAt.init
  by_cases h : off = 0
  · rw [if_pos h]
    refine ⟨_, _, _, rfl, ?_, rfl, rfl⟩
    have ha : acc = Bytes.make 0 := Bytes.eq_make_zero (h0 h)
    refine ⟨hI.err, hI.buflen, le_refl _, (by decide : (0 : Int) ≤ CacheSize), ?_, ?_,
      Bytes.make 0, rfl, ?_⟩
    · show (0 : Int) = acc.len
      rw [h0 h]; rfl
    · intro q hq; cases hq
    · show Bytes.append (Bytes.make 0) (Bytes.take (0 : Int).toNat w.cache.buf) = acc
      rw [Int.toNat_zero, Bytes.take_zero, Bytes.append_make_zero, ha]
  · rw [if_neg h]
    exact ⟨w, st, log, rfl, hI, rfl, rfl⟩

theorem WriteAt_spec {w : WriterAt} {st : MemStore} (log : List Event) {acc : Bytes}
    {rest : List Bytes} {ws : List (Int × Bytes)} {p : Bytes} {off : Int}
    (hI : NInv w st acc)
    (hrest : ∀ s ∈ rest, 0 < s.len ∧ (s.len : Int) ≤ CacheSize)
    (hperm : (w.cache.chunks.map Chunk.toPair ++ (off, p) :: ws).Perm (chain acc.len rest)) :
    ∃ w1 st1 log1 acc1 rest1,
      w.WriteAt memStore ⟨st, log⟩ p off = some (((p.len : Int), none), w1, ⟨st1, log1⟩) ∧
      NInv w1 st1 acc1 ∧
      Bytes.append acc (Bytes.join rest) = Bytes.append acc1 (Bytes.join rest1) ∧
      (∀ s ∈ rest1, 0 < s.len ∧ (s.len : Int) ≤ CacheSize) ∧
      (w1.cache.chunks.map Chunk.toPair ++ ws).Perm (chain acc1.len rest1) ∧
      (∀ c ∈ w1.cache.chunks, c.offset ≠ w1.cache.offset) ∧ w1.key = w.key ∧
      (w1.cache.length = 0 → w1.cache.chunks = [] → acc1.len = 0) := by
  have hmem : (off, p) ∈ chain acc.len rest :=
    hperm.subset (List.mem_append_right _ (List.mem_cons_self _ _))
  have hp := hrest p (chain_mem_seg hmem)
  have hge := chain_mem_ge hmem
  obtain ⟨w0, st0, log0, hi, hI0, hch0, hk0⟩ :=
    init_spec log off hI (by intro h; omega)
  obtain ⟨w1, st1, log1, hu, hI1, hfit, hch1, hk1⟩ :=
    uploadIfFull_spec log0 p.len hI0 hp.2
  unfold WriterAt.WriteAt
  rw [if_neg (by rw [hI.err]; decide), hi, andThen_ok, hu, andThen_ok]
  unfold WriterAt.acceptOrHold
  by_cases ho : off = w1.cache.offset
  · rw [if_pos ho]
    have ho' : off = acc.len := by rw [ho, hI1.off]
    rw [ho'] at hmem hperm
    obtain ⟨ts, hts⟩ := chain_mem_cons hmem (fun x hx => (hrest x hx).1)
    subst hts
    obtain ⟨w2, ha, hI2, hch2, hk2, hlen2⟩ :=
      accept_spec (⟨st1, log1⟩ : World MemStore) p hI1 hfit
    have hperm2 : (w2.cache.chunks.map Chunk.toPair ++ ws).Perm
        (chain (Bytes.append acc p).len ts) := by
      rw [hch2, hch1, hch0, Bytes.len_append]
      push_cast
      exact List.Perm.cons_inv (List.perm_middle.symm.trans hperm)
    obtain ⟨w3, st3, log3, acc3, rest3, hd, hI3, hj3, hr3, hp3, hdr3, hk3, hnb3⟩ :=
      drain_spec w2.cache.chunks.length w2 st1 log1 (Bytes.append acc p) ts ws hI2
        (le_refl _) (fun s hs => hrest s (List.mem_cons_of_mem _ hs)) hperm2
    refine ⟨w3, st3, log3, acc3, rest3, ?_, hI3, ?_, hr3, hp3, hdr3, ?_, ?_⟩
    · rw [ha, andThen_ok, hd]
    · rw [← hj3, Bytes.join_cons, Bytes.append_assoc]
    · rw [hk3, hk2, hk1, hk0]
    · intro hl _
      exfalso
      have := hI1.len0
      rcases hnb3 with ⟨h1, _⟩ | h1
      · rw [h1] at hl; omega
      · omega
  · rw [if_neg ho, andThen_ok]
    have hperm2 : ((w1.cache.chunks ++ [Chunk.mk off (Bytes.copy (Bytes.make p.len) p)]).map Chunk.toPair
        ++ ws).Perm (chain acc.len rest) := by
      rw [hch1, hch0, Bytes.copy_make]
      simpa [Chunk.toPair] using hperm
    obtain ⟨w3, st3, log3, acc3, rest3, hd, hI3, hj3, hr3, hp3, hdr3, hk3, hnb3⟩ :=
      drain_spec (w1.cache.chunks ++ [Chunk.mk off (Bytes.copy (Bytes.make p.len) p)]).length
        { w1 with cache := { w1.cache with
            chunks := w1.cache.chunks ++ [Chunk.mk off (Bytes.copy (Bytes.make p.len) p)] } }
        st1 log1 acc rest ws (hI1.setChunks _) (le_refl _) hrest hperm2
    refine ⟨w3, st3, log3, acc3, rest3, ?_, hI3, hj3, hr3, hp3, hdr3, ?_, ?_⟩
    · rw [hd]
    · rw [hk3]; show w1.key = w.key; rw [hk1, hk0]
    · intro hl hc
      exfalso
      rcases hnb3 with ⟨h1, _⟩ | h1
      · rw [h1] at hc
        simp at hc
      · omega

theorem writeAll_spec (ws : List (Int × Bytes)) : ∀ (w : WriterAt) (st : MemStore)
    (log : List Event) (acc : Bytes) (rest : List Bytes),
    NInv w st acc →
    (∀ s ∈ rest, 0 < s.len ∧ (s.len : Int) ≤ CacheSize) →
    (w.cache.chunks.map Chunk.toPair ++ ws).Perm (chain acc.len rest) →
    (∀ c ∈ w.cache.chunks, c.offset ≠ w.cache.offset) →
    (w.cache.length = 0 → w.cache.chunks = [] → acc.len = 0) →
    ∃ w1 st1 log1,
      WriterAt.writeAll memStore ws w ⟨st, log⟩ =
        some (ws.map (fun x => ((x.2.len : Int), none)), w1, ⟨st1, log1⟩) ∧
      NInv w1 st1 (Bytes.append acc (Bytes.join rest)) ∧ w1.cache.chunks = [] ∧
      w1.key = w.key ∧
      (w1.cache.length = 0 → (Bytes.append acc (Bytes.join rest)).len = 0) := by
  induction ws with
  | nil =>
    intro w st log acc rest hI hrest hperm hdr hnb
    rw [List.append_nil] at hperm
    have hrn : rest = [] := by
      cases rest with
      | nil => rfl
      | cons t ts =>
        exfalso
        have : ((acc.len : Int), t) ∈ w.cache.chunks.map Chunk.toPair :=
          hperm.symm.subset (List.mem_cons_self _ _)
        obtain ⟨c, hc, hce⟩ := List.mem_map.mp this
        have h1 : c.offset = acc.len := congrArg Prod.fst hce
        exact hdr c hc (by rw [h1, hI.off])
    subst hrn
    have hcn : w.cache.chunks = [] := by
      have := hperm.length_eq
      simp only [chain, List.length_map, List.length_nil] at this
      exact List.length_eq_zero.mp this
    have hacc : Bytes.append acc (Bytes.join []) = acc := Bytes.append_make_zero acc
    rw [hacc]
    exact ⟨w, st, log, rfl, hI, hcn, rfl, fun h => hnb h hcn⟩
  | cons x ws ih =>
    intro w st log acc rest hI hrest hperm _ _
    obtain ⟨off, p⟩ := x
    obtain ⟨w1, st1, log1, acc1, rest1, hw, hI1, hj1, hr1, hp1, hdr1, hk1, hnb1⟩ :=
      WriteAt_spec log hI hrest hperm
    obtain ⟨w2, st2, log2, hw2, hI2, hc2, hk2, hnb2⟩ :=
      ih w1 st1 log1 acc1 rest1 hI1 hr1 hp1 hdr1 hnb1
    refine ⟨w2, st2, log2, ?_, ?_, hc2, by rw [hk2, hk1], ?_⟩
    · simp only [WriterAt.writeAll, hw, hw2, List.map_cons]
    · rw [hj1]; exact hI2
    · rw [hj1]; exact hnb2

theorem Flush_spec {w : WriterAt} {st : MemStore} (log : List Event) {B : Bytes}
    (hI : NInv w st B) (hc : w.cache.chunks = [])
    (hnb : w.cache.length = 0 → B.len = 0) :
    ∃ w1 st1 log1, w.Flush memStore ⟨st, log⟩ = some (none, w1, ⟨st1, log1⟩) ∧
      (0 < B.len → st1.objects w.key = some ⟨B, []⟩) := by
  obtain ⟨herr, hbuf, hl0, hle, hoff, hnums, pre, hpre, hdata⟩ := hI
  unfold WriterAt.Flush
  rw [if_neg (by rw [herr]; decide)]
  by_cases hl : w.cache.length = 0
  · rw [if_pos ⟨hl, by rw [hc]; rfl⟩]
    refine ⟨w, st, log, rfl, ?_⟩
    intro h
    have := hnb hl
    omega
  · rw [if_neg (fun h => hl h.1)]
    have hd : WriterAt.drain memStore w.cache.chunks.length w ⟨st, log⟩ =
        some (none, w, ⟨st, log⟩) := by
      rw [hc]; rfl
    rw [hd, andThen_ok]
    unfold WriterAt.lastPart
    have hpos : w.cache.length > 0 := by omega
    rw [if_pos hpos]
    have hs : w.cache.buf.slice 0 w.cache.length =
        some (Bytes.take w.cache.length.toNat w.cache.buf) :=
      Bytes.slice_zero hl0 (by rw [hbuf]; omega)
    rw [hs]
    simp only [World.UploadPart, memStore, andThen_ok, WriterAt.complete, World.CompleteUpload]
    have hasm : MemStore.assemble
        { st with parts := fun u n =>
            if u = w.cache.uploadID ∧ n = w.cache.num
            then some (Bytes.take w.cache.length.toNat w.cache.buf) else st.parts u n }
        w.cache.uploadID
        (w.cache.part ++ [{ Num := w.cache.num, Size := 0, ETag := "etag" }]) = some B := by
      rw [← hdata]
      apply assemble_append
      · exact (assemble_update st w.cache.uploadID w.cache.num
          (Bytes.take w.cache.length.toNat w.cache.buf)
          (fun q hq => by have := hnums q hq; omega)).trans hpre
      · show (if w.cache.uploadID = w.cache.uploadID ∧ w.cache.num = w.cache.num
          then some _ else _) = _
        rw [if_pos ⟨rfl, rfl⟩]
    simp only [hasm]
    refine ⟨_, _, _, rfl, ?_⟩
    intro _
    simp

theorem range_zero_len {body : Bytes} {limit : Int} (h : 0 < limit) :
    (MemStore.range body 0 limit).len = min limit.toNat body.len := by
  simp [MemStore.range, h]

theorem range_zero_get {body : Bytes} {limit : Int} (h : 0 < limit) (i : Nat)
    (hi : i < min limit.toNat body.len) :
    (MemStore.range body 0 limit).get i = body.get i := by
  simp only [MemStore.range, Int.toNat_zero, Nat.zero_add, if_pos h, Nat.zero_min, Nat.sub_zero]
  rw [if_pos hi]

theorem ReadAt_spec {key : String} {st : MemStore} (log : List Event) {B p : Bytes}
    {md : List (String × String)}
    (hobj : st.objects key = some ⟨B, md⟩) (hB : 0 < B.len) (hp : p.len = B.len) :
    ∃ r1 wd1, (NewReader key).ReadAt memStore ⟨st, log⟩ p 0 =
      some (((B.len : Int), none), B, r1, wd1) := by
  have hcs : (0 : Int) < CacheSize := by decide
  have hcsn : ((CacheSize.toNat : Nat) : Int) = CacheSize := by decide
  simp only [ReaderAt.ReadAt, NewReader, ReaderAt.head, World.Head, memStore, hobj,
    if_true, ReaderAt.serve, Bool.false_eq_true, if_false]
  have h1 : ¬ ((0 : Int) ≥ (B.len : Int)) := by omega
  have h2 : (0 : Int) + (p.len : Int) > 0 := by omega
  rw [if_neg h1, if_pos h2, if_neg h1]
  simp only [World.Get, hobj, ReaderAt.hitOrLoad]
  by_cases hsz : (B.len : Int) ≤ CacheSize
  · have hn : min (Bytes.make CacheSize.toNat).len (MemStore.range B 0 CacheSize).len = B.len := by
      rw [range_zero_len hcs, Bytes.len_make]; omega
    rw [hn]
    have hcond : (0 : Int) ≥ 0 ∧ (0 : Int) + (p.len : Int) ≤ 0 + (B.len : Int) := by omega
    rw [if_pos hcond]
    obtain ⟨s, hs, hsl, hsg⟩ := Bytes.slice_eq
      (Bytes.copy (Bytes.make CacheSize.toNat) (MemStore.range B 0 CacheSize))
      (0 - 0) (0 - 0 + (p.len : Int)) (by omega) (by omega)
      (by rw [Bytes.len_copy, Bytes.len_make]; omega)
    rw [hs]
    have hres : Bytes.copy p s = B := by
      apply Bytes.ext' (by rw [Bytes.len_copy, hp])
      intro i hi
      rw [Bytes.len_copy] at hi
      have hsl' : s.len = p.len := by rw [hsl]; omega
      rw [Bytes.get_copy, if_pos (by omega), hsg i (by omega)]
      have h0 : ((0 : Int) - 0).toNat + i = i := by simp
      rw [h0, Bytes.get_copy, if_pos (by rw [hn]; omega)]
      exact range_zero_get hcs i (by omega)
    simp only []
    rw [hres, hp]
    exact ⟨_, _, rfl⟩
  · have hn : min (Bytes.make CacheSize.toNat).len (MemStore.range B 0 CacheSize).len =
        CacheSize.toNat := by
      rw [range_zero_len hcs, Bytes.len_make]; omega
    rw [hn]
    have hcond : ¬ ((0 : Int) ≥ 0 ∧ (0 : Int) + (p.len : Int) ≤ 0 + (CacheSize.toNat : Int)) := by
      omega
    rw [if_neg hcond]
    have hres : Bytes.copy p (MemStore.range B 0 p.len) = B := by
      apply Bytes.ext' (by rw [Bytes.len_copy, hp])
      intro i hi
      rw [Bytes.len_copy] at hi
      have hpl : (0 : Int) < (p.len : Int) := by omega
      rw [Bytes.get_copy, if_pos (by rw [range_zero_len hpl]; omega)]
      exact range_zero_get hpl i (by omega)
    rw [hres, hp]
    exact ⟨_, _, rfl⟩

theorem ReadAt_empty (key : String) (st : MemStore) (log : List Event) {p : Bytes}
    (hp : p.len = 0) :
    ∃ err p1 r1 wd1, (NewReader key).ReadAt memStore ⟨st, log⟩ p 0 =
      some (((0 : Int), err), p1, r1, wd1) ∧ p1.len = 0 := by
  simp only [ReaderAt.ReadAt, NewReader, ReaderAt.head, World.Head, memStore,
    if_true, Bool.false_eq_true, if_false]
  cases hobj : st.objects key with
  | none => exact ⟨_, _, _, _, rfl, hp⟩
  | some o =>
    simp only [ReaderAt.serve]
    by_cases h1 : (0 : Int) ≥ (o.body.len : Int)
    · rw [if_pos h1, hp]
      exact ⟨_, _, _, _, rfl, hp⟩
    · have h2 : ¬ ((0 : Int) + (p.len : Int) > 0) := by omega
      rw [if_neg h1, if_neg h2]
      simp only [ReaderAt.hitOrLoad]
      have hcond : (0 : Int) ≥ 0 ∧ (0 : Int) + (p.len : Int) ≤ 0 := by omega
      rw [if_pos hcond]
      obtain ⟨s, hs, _, _⟩ := Bytes.slice_eq (Bytes.make CacheSize.toNat)
        (0 - 0) (0 - 0 + (p.len : Int)) (by omega) (by omega)
        (by rw [Bytes.len_make]; omega)
      rw [hs]
      simp only []
      rw [hp]
      exact ⟨_, _, _, _, rfl, by rw [Bytes.len_copy, hp]⟩

theorem NInv_fresh (key : String) (st : MemStore) :
    NInv (NewWriter key) st (Bytes.make 0) := by
  refine ⟨rfl, rfl, le_refl _, (by decide : (0 : Int) ≤ CacheSize), rfl, ?_,
    ⟨Bytes.make 0, rfl, ?_⟩⟩
  · intro q hq; cases hq
  · show Bytes.append (Bytes.make 0) (Bytes.take (0 : Int).toNat _) = Bytes.make 0
    rw [Int.toNat_zero, Bytes.take_zero, Bytes.append_make_zero]

/-- C1. Normal-mode round trip over the in-memory store: the pieces `segs`
(non-empty, each at most `CacheSize` bytes) laid end to end are a byte sequence
`B`; written in any order `ws` to a fresh writer and flushed, every `WriteAt`
returns the piece length without error, `Flush` succeeds, and `ReadAt` of a
fresh reader into a buffer of `|B|` bytes at offset 0 returns `n = |B|` with
the buffer equal to `B` (without error when `B` is not empty). -/
theorem normal_round_trip (key : String) (st : MemStore) (log : List Event)
    (segs : List Bytes) (ws : List (Int × Bytes)) (p : Bytes)
    (hseg : ∀ s ∈ segs, 0 < s.len ∧ (s.len : Int) ≤ CacheSize)
    (hperm : ws.Perm (chain 0 segs))
    (hp : p.len = (Bytes.join segs).len) :
    ∃ w1 wd1 w2 wd2 err p1 r1 wd3,
      WriterAt.writeAll memStore ws (NewWriter key) ⟨st, log⟩ =
        some (ws.map (fun x => ((x.2.len : Int), none)), w1, wd1) ∧
      w1.Flush memStore wd1 = some (none, w2, wd2) ∧
      (NewReader key).ReadAt memStore wd2 p 0 =
        some ((((Bytes.join segs).len : Int), err), p1, r1, wd3) ∧
      p1 = Bytes.join segs ∧ (0 < (Bytes.join segs).len → err = none) := by
  obtain ⟨w1, st1, log1, hw, hI1, hc1, hk1, hnb1⟩ :=
    writeAll_spec ws (NewWriter key) st log (Bytes.make 0) segs (NInv_fresh key st) hseg
      (by simpa [NewWriter] using hperm) (fun c hc => by cases hc) (fun _ _ => rfl)
  rw [Bytes.make_zero_append] at hI1 hnb1
  obtain ⟨w2, st2, log2, hf, hobj⟩ := Flush_spec log1 hI1 hc1 hnb1
  have hk : w1.key = key := hk1
  rw [hk] at hobj
  by_cases hB : 0 < (Bytes.join segs).len
  · obtain ⟨r1, wd3, hr⟩ := ReadAt_spec log2 (hobj hB) hB hp
    exact ⟨w1, _, w2, _, none, _, r1, wd3, hw, hf, hr, rfl, fun _ => rfl⟩
  · have hz : (Bytes.join segs).len = 0 := by omega
    obtain ⟨err, p1, r1, wd3, hr, hl⟩ := ReadAt_empty key st2 log2 (hp.trans hz)
    refine ⟨w1, _, w2, _, err, p1, r1, wd3, hw, hf, ?_, ?_, fun h => absurd h hB⟩
    · rw [hz]; exact hr
    · exact Bytes.ext' (by rw [hl, hz]) (fun i hi => by omega)

/-- Witness for C1: two pieces written out of order. -/
theorem normal_round_trip_witness :
    ∃ w1 wd1 w2 wd2 err p1 r1 wd3,
      WriterAt.writeAll memStore
          [(3, Bytes.ofList [4, 5]), (0, Bytes.ofList [1, 2, 3])]
          (NewWriter "f") ⟨MemStore.empty, []⟩ =
        some ([(2, none), (3, none)], w1, wd1) ∧
      w1.Flush memStore wd1 = some (none, w2, wd2) ∧
      (NewReader "f").ReadAt memStore wd2 (Bytes.make 5) 0 = some ((5, err), p1, r1, wd3) ∧
      p1 = Bytes.join [Bytes.ofList [1, 2, 3], Bytes.ofList [4, 5]] ∧
      (0 < (Bytes.join [Bytes.ofList [1, 2, 3], Bytes.ofList [4, 5]]).len → err = none) :=
  normal_round_trip "f" MemStore.empty [] [Bytes.ofList [1, 2, 3], Bytes.ofList [4, 5]]
    [(3, Bytes.ofList [4, 5]), (0, Bytes.ofList [1, 2, 3])] (Bytes.make 5)
    (by
      intro s hs
      simp only [List.mem_cons, List.mem_singleton, List.not_mem_nil, or_false] at hs
      rcases hs with rfl | rfl <;> decide)
    (List.Perm.swap _ _ _) rfl

/-! ## Chunk writer: fields that the upload path leaves alone -/

/-- The fields of a chunk writer that no upload or job changes. -/
theorem commit_frame {c c1 : ChunkWriter} {pos cs : Int} (h : c.commit pos cs = some c1) :
    c1.key = c.key ∧ c1.isFixed = c.isFixed ∧ c1.compress = c.compress ∧
      c1.extras = c.extras ∧ c1.jobs = c.jobs ∧ c1.isError = c.isError ∧
      c1.chunkBuf = c.chunkBuf ∧ c1.offset = c.offset ∧ c1.length = c.length := by
  unfold ChunkWriter.commit at h
  cases hm : c.ChunkMetas.get? c.index with
  | none => rw [hm] at h; cases h
  | some m =>
    rw [hm] at h
    cases h
    exact ⟨rfl, rfl, rfl, rfl, rfl, rfl, rfl, rfl, rfl⟩

theorem doFixedUpload_frame {β : Type} {E : Env} {S : ObjectStorage β} {c c1 : ChunkWriter}
    {wd wd1 : World β} {e : Error} (h : c.doFixedUpload E S wd = some (e, c1, wd1)) :
    c1.key = c.key ∧ c1.isFixed = c.isFixed ∧ c1.compress = c.compress ∧
      c1.extras = c.extras ∧ c1.jobs = c.jobs ∧ c1.chunkBuf = c.chunkBuf ∧
      c1.offset = c.offset := by
  unfold ChunkWriter.doFixedUpload at h
  cases hp : c.prepare c.chunkBuf with
  | none => rw [hp] at h; cases h
  | some r =>
    rw [hp] at h
    cases r with
    | error e1 => cases h; exact ⟨rfl, rfl, rfl, rfl, rfl, rfl, rfl⟩
    | ok bc =>
      obtain ⟨body, cs⟩ := bc
      simp only at h
      cases hput : ChunkWriter.putChunk E S c wd body with
      | mk e2 wd2 =>
        rw [hput] at h
        cases e2 with
        | some e3 => cases h; exact ⟨rfl, rfl, rfl, rfl, rfl, rfl, rfl⟩
        | none =>
          simp only at h
          cases hc : c.commit c.offset cs with
          | none => rw [hc] at h; cases h
          | some c2 =>
            rw [hc] at h
            cases h
            obtain ⟨h1, h2, h3, h4, h5, _, h7, h8, _⟩ := commit_frame hc
            exact ⟨h1, h2, h3, h4, h5, h7, h8⟩

theorem dynLoop_frame {β : Type} {E : Env} {S : ObjectStorage β} (chunks : List Bytes) :
    ∀ (tmpOff : Int) (c c1 : ChunkWriter) (wd wd1 : World β) (e : Error),
      ChunkWriter.dynLoop E S chunks tmpOff c wd = some (e, c1, wd1) →
      c1.key = c.key ∧ c1.isFixed = c.isFixed ∧ c1.compress = c.compress ∧
        c1.extras = c.extras ∧ c1.jobs = c.jobs ∧ c1.chunkBuf = c.chunkBuf ∧
        c1.offset = c.offset ∧ c1.isError = c.isError ∧ c1.length = c.length := by
  induction chunks with
  | nil =>
    intro tmpOff c c1 wd wd1 e h
    simp only [ChunkWriter.dynLoop] at h
    cases h
    exact ⟨rfl, rfl, rfl, rfl, rfl, rfl, rfl, rfl, rfl⟩
  | cons ch rest ih =>
    intro tmpOff c c1 wd wd1 e h
    simp only [ChunkWriter.dynLoop] at h
    cases hp : c.prepare ch with
    | none => rw [hp] at h; cases h
    | some r =>
      rw [hp] at h
      cases r with
      | error e1 => cases h; exact ⟨rfl, rfl, rfl, rfl, rfl, rfl, rfl, rfl, rfl⟩
      | ok bc =>
        obtain ⟨body, cs⟩ := bc
        simp only at h
        cases hput : ChunkWriter.putChunk E S c wd body with
        | mk e2 wd2 =>
          rw [hput] at h
          cases e2 with
          | some e3 => cases h; exact ⟨rfl, rfl, rfl, rfl, rfl, rfl, rfl, rfl, rfl⟩
          | none =>
            simp only at h
            cases hc : c.commit (tmpOff + ch.len) cs with
            | none => rw [hc] at h; cases h
            | some c2 =>
              rw [hc] at h
              obtain ⟨h1, h2, h3, h4, h5, h6, h7, h8, h9⟩ := commit_frame hc
              obtain ⟨g1, g2, g3, g4, g5, g6, g7, g8, g9⟩ := ih _ _ _ _ _ _ h
              exact ⟨g1.trans h1, g2.trans h2, g3.trans h3, g4.trans h4, g5.trans h5,
                g6.trans h7, g7.trans h8, g8.trans h6, g9.trans h9⟩

theorem andThen_some {σ β : Type} {r : Step σ β} {k : σ → World β → Step σ β} {e : Error}
    {s : σ} {wd : World β} (h : Step.andThen r k = some (e, s, wd)) :
    (∃ e1, r = some (some e1, s, wd) ∧ e = some e1) ∨
      (∃ s1 wd1, r = some (none, s1, wd1) ∧ k s1 wd1 = some (e, s, wd)) := by
  unfold Step.andThen at h
  cases r with
  | none => cases h
  | some x =>
    obtain ⟨e1, s1, wd1⟩ := x
    cases e1 with
    | none => exact Or.inr ⟨s1, wd1, rfl, h⟩
    | some e2 =>
      simp only at h
      cases h
      exact Or.inl ⟨e2, rfl, rfl⟩

theorem doDynamicUpload_frame {β : Type} {E : Env} {S : ObjectStorage β} {c c1 : ChunkWriter}
    {wd wd1 : World β} {e : Error} (h : c.doDynamicUpload E S wd = some (e, c1, wd1)) :
    c1.key = c.key ∧ c1.isFixed = c.isFixed ∧ c1.compress = c.compress ∧
      c1.extras = c.extras ∧ c1.jobs = c.jobs ∧ c1.chunkBuf = c.chunkBuf ∧
      c1.offset = c.offset ∧ c1.isError = c.isError := by
  unfold ChunkWriter.doDynamicUpload at h
  cases hs : c.chunkBuf.slice 0 c.length with
  | none => rw [hs] at h; cases h
  | some rd =>
    rw [hs] at h
    rcases andThen_some h with ⟨e1, h1, _⟩ | ⟨s1, w1, h1, h2⟩
    · obtain ⟨g1, g2, g3, g4, g5, g6, g7, g8, _⟩ := dynLoop_frame _ _ _ _ _ _ _ h1
      exact ⟨g1, g2, g3, g4, g5, g6, g7, g8⟩
    · obtain ⟨g1, g2, g3, g4, g5, g6, g7, g8, _⟩ := dynLoop_frame _ _ _ _ _ _ _ h1
      cases h2
      exact ⟨g1, g2, g3, g4, g5, g6, g7, g8⟩

theorem dispatchUpload_frame {β : Type} {E : Env} {S : ObjectStorage β} {c c1 : ChunkWriter}
    {wd wd1 : World β} {e : Error} (h : c.dispatchUpload E S wd = some (e, c1, wd1)) :
    c1.key = c.key ∧ c1.isFixed = c.isFixed ∧ c1.compress = c.compress ∧
      c1.extras = c.extras ∧ c1.jobs = c.jobs ∧ c1.chunkBuf = c.chunkBuf ∧
      c1.offset = c.offset := by
  unfold ChunkWriter.dispatchUpload at h
  by_cases hf : c.isFixed
  · rw [if_pos hf] at h
    exact doFixedUpload_frame h
  · rw [if_neg hf] at h
    obtain ⟨g1, g2, g3, g4, g5, g6, g7, _⟩ := doDynamicUpload_frame h
    exact ⟨g1, g2, g3, g4, g5, g6, g7⟩

theorem uploadOrFail_frame {β : Type} {E : Env} {S : ObjectStorage β} {c c1 : ChunkWriter}
    {wd wd1 : World β} {e : Error} (h : c.uploadOrFail E S wd = some (e, c1, wd1)) :
    c1.key = c.key ∧ c1.isFixed = c.isFixed ∧ c1.compress = c.compress ∧
      c1.extras = c.extras ∧ c1.jobs = c.jobs ∧ c1.chunkBuf = c.chunkBuf ∧
      c1.offset = c.offset := by
  unfold ChunkWriter.uploadOrFail at h
  cases hd : c.dispatchUpload E S wd with
  | none => rw [hd] at h; cases h
  | some x =>
    obtain ⟨e1, c2, wd2⟩ := x
    rw [hd] at h
    have hfr := dispatchUpload_frame hd
    cases e1 with
    | none => cases h; exact hfr
    | some e2 => cases h; exact hfr

theorem doFixedJob_frame {β : Type} {E : Env} {S : ObjectStorage β} {c c1 : ChunkWriter}
    {wd wd1 : World β} {e : Error} {buf : Bytes}
    (h : c.doFixedJob E S wd buf = some (e, c1, wd1)) :
    c1.key = c.key ∧ c1.isFixed = c.isFixed ∧ c1.compress = c.compress ∧
      c1.extras = c.extras ∧ c1.jobs = c.jobs := by
  unfold ChunkWriter.doFixedJob at h
  by_cases h1 : (buf.len : Int) + c.length ≤ ChunkCacheFixedSize
  · rw [if_pos h1] at h
    cases hcp : c.chunkBuf.copyInto c.length (c.length + buf.len) buf with
    | none => rw [hcp] at h; cases h
    | some b1 =>
      rw [hcp] at h
      simp only at h
      by_cases h2 : c.length + buf.len = ChunkCacheFixedSize
      · rw [if_pos h2] at h
        obtain ⟨g1, g2, g3, g4, g5, _, _⟩ := uploadOrFail_frame h
        exact ⟨g1, g2, g3, g4, g5⟩
      · rw [if_neg h2] at h
        cases h
        exact ⟨rfl, rfl, rfl, rfl, rfl⟩
  · rw [if_neg h1] at h
    cases hf : buf.slice 0 (ChunkCacheFixedSize - c.length) with
    | none => rw [hf] at h; cases h
    | some front =>
      cases hb : buf.slice (ChunkCacheFixedSize - c.length) buf.len with
      | none => rw [hf, hb] at h; cases h
      | some back =>
        rw [hf, hb] at h
        simp only at h
        cases hcp : c.chunkBuf.copyInto c.length ChunkCacheFixedSize front with
        | none => rw [hcp] at h; cases h
        | some b1 =>
          rw [hcp] at h
          simp only at h
          rcases andThen_some h with ⟨e1, hu, _⟩ | ⟨s1, w1, hu, h2⟩
          · obtain ⟨g1, g2, g3, g4, g5, _, _⟩ := uploadOrFail_frame hu
            exact ⟨g1, g2, g3, g4, g5⟩
          · obtain ⟨g1, g2, g3, g4, g5, _, _⟩ := uploadOrFail_frame hu
            cases hcp2 : s1.chunkBuf.copyInto s1.length
                (buf.len - (ChunkCacheFixedSize - c.length)) back with
            | none => rw [hcp2] at h2; cases h2
            | some b2 =>
              rw [hcp2] at h2
              cases h2
              exact ⟨g1, g2, g3, g4, g5⟩

theorem doDynamicJob_frame {β : Type} {E : Env} {S : ObjectStorage β} {c c1 : ChunkWriter}
    {wd wd1 : World β} {e : Error} {buf : Bytes}
    (h : c.doDynamicJob E S wd buf = some (e, c1, wd1)) :
    c1.key = c.key ∧ c1.isFixed = c.isFixed ∧ c1.compress = c.compress ∧
      c1.extras = c.extras ∧ c1.jobs = c.jobs := by
  unfold ChunkWriter.doDynamicJob at h
  rcases andThen_some h with ⟨e1, hu, _⟩ | ⟨s1, w1, hu, h2⟩
  · by_cases h1 : (buf.len : Int) + c.length > ChunkCacheDynamicSize
    · rw [if_pos h1] at hu
      cases hd : c.dispatchUpload E S wd with
      | none => rw [hd] at hu; cases hu
      | some x =>
        obtain ⟨e2, c2, wd2⟩ := x
        rw [hd] at hu
        obtain ⟨g1, g2, g3, g4, g5, _, _⟩ := dispatchUpload_frame hd
        cases e2 with
        | none => cases hu
        | some e3 => cases hu; exact ⟨g1, g2, g3, g4, g5⟩
    · rw [if_neg h1] at hu
      cases hu
  · have hfr : s1.key = c.key ∧ s1.isFixed = c.isFixed ∧ s1.compress = c.compress ∧
        s1.extras = c.extras ∧ s1.jobs = c.jobs := by
      by_cases h1 : (buf.len : Int) + c.length > ChunkCacheDynamicSize
      · rw [if_pos h1] at hu
        cases hd : c.dispatchUpload E S wd with
        | none => rw [hd] at hu; cases hu
        | some x =>
          obtain ⟨e2, c2, wd2⟩ := x
          rw [hd] at hu
          obtain ⟨g1, g2, g3, g4, g5, _, _⟩ := dispatchUpload_frame hd
          cases e2 with
          | none => cases hu; exact ⟨g1, g2, g3, g4, g5⟩
          | some e3 => cases hu
      · rw [if_neg h1] at hu
        cases hu
        exact ⟨rfl, rfl, rfl, rfl, rfl⟩
    cases hcp : s1.chunkBuf.copyInto s1.length (s1.length + buf.len) buf with
    | none => rw [hcp] at h2; cases h2
    | some b1 =>
      rw [hcp] at h2
      cases h2
      exact hfr

theorem dispatchJob_frame {β : Type} {E : Env} {S : ObjectStorage β} {c c1 : ChunkWriter}
    {wd wd1 : World β} {e : Error} {buf : Bytes}
    (h : c.dispatchJob E S wd buf = some (e, c1, wd1)) :
    c1.key = c.key ∧ c1.isFixed = c.isFixed ∧ c1.compress = c.compress ∧
      c1.extras = c.extras ∧ c1.jobs = c.jobs ++ [buf] := by
  unfold ChunkWriter.dispatchJob at h
  by_cases hf : c.isFixed
  · rw [if_pos hf] at h
    exact doFixedJob_frame h
  · rw [if_neg hf] at h
    exact doDynamicJob_frame h

/-! ## Chunk writer: reassembly of out-of-order writes -/

theorem Bytes.len_join_append (a b : List Bytes) :
    (Bytes.join (a ++ b)).len = (Bytes.join a).len + (Bytes.join b).len := by
  induction a with
  | nil => simp [Bytes.join]
  | cons x xs ih =>
    rw [List.cons_append, Bytes.join_cons, Bytes.len_append, ih, Bytes.join_cons,
      Bytes.len_append]
    omega

theorem Bytes.len_join_snoc (a : List Bytes) (b : Bytes) :
    (Bytes.join (a ++ [b])).len = (Bytes.join a).len + b.len := by
  rw [Bytes.len_join_append]
  simp [Bytes.join]

theorem andThen_none {σ β : Type} (k : σ → World β → Step σ β) :
    Step.andThen (none : Step σ β) k = none := rfl

theorem andThen_err {σ β : Type} (e : String) (s : σ) (wd : World β)
    (k : σ → World β → Step σ β) :
    Step.andThen (some (some e, s, wd)) k = some (some e, s, wd) := rfl

theorem drainExtras_spec {β : Type} {E : Env} {S : ObjectStorage β}
    {Good : ChunkWriter → World β → List Bytes → Prop} {Ok : Bytes → Prop} {Tot : Prop}
    (hS : Sink E S Good Ok Tot) (fuel : Nat) :
    ∀ (c : ChunkWriter) (wd : World β) (acc : List Bytes) (rest : List Bytes)
      (ws : List (Int × Bytes)),
      Good c wd acc → c.extras.length ≤ fuel →
      (∀ s ∈ rest, 0 < s.len ∧ Ok s) →
      (c.extras.map ExtraCache.toPair ++ ws).Perm (chain (Bytes.join acc).len rest) →
      (Tot → ∃ c1 wd1, ChunkWriter.drainExtras E S fuel c wd = some (none, c1, wd1)) ∧
      (∀ c1 wd1, ChunkWriter.drainExtras E S fuel c wd = some (none, c1, wd1) →
        ∃ acc1 rest1, Good c1 wd1 acc1 ∧ acc ++ rest = acc1 ++ rest1 ∧
          (∀ s ∈ rest1, 0 < s.len ∧ Ok s) ∧
          (c1.extras.map ExtraCache.toPair ++ ws).Perm (chain (Bytes.join acc1).len rest1) ∧
          (∀ x ∈ c1.extras, x.off ≠ c1.offset)) := by
  induction fuel with
  | zero =>
    intro c wd acc rest ws hG hf hrest hperm
    have hnil : c.extras = [] := List.length_eq_zero.mp (Nat.le_zero.mp hf)
    refine ⟨fun _ => ⟨c, wd, rfl⟩, ?_⟩
    intro c1 wd1 h
    cases h
    refine ⟨acc, rest, hG, rfl, hrest, hperm, ?_⟩
    intro x hx
    rw [hnil] at hx
    cases hx
  | succ fuel ih =>
    intro c wd acc rest ws hG hf hrest hperm
    unfold ChunkWriter.drainExtras
    cases htf : takeFirst ExtraCache.off c.offset c.extras with
    | none =>
      refine ⟨fun _ => ⟨c, wd, rfl⟩, ?_⟩
      intro c1 wd1 h
      cases h
      exact ⟨acc, rest, hG, rfl, hrest, hperm, takeFirst_none htf⟩
    | some x =>
      obtain ⟨x, xs⟩ := x
      obtain ⟨hxo, hxp, hxl⟩ := takeFirst_some htf
      have hoff := (hS.off c wd acc hG).1
      have hmem : (((Bytes.join acc).len : Int), x.buffer) ∈
          chain (Bytes.join acc).len rest := by
        apply hperm.subset
        apply List.mem_append_left
        apply List.mem_map.mpr
        refine ⟨x, hxp.symm.subset (List.mem_cons_self _ _), ?_⟩
        show (x.off, x.buffer) = _
        rw [hxo, hoff]
      obtain ⟨ts, hts⟩ := chain_mem_cons hmem (fun y hy => (hrest y hy).1)
      subst hts
      have hx := hrest x.buffer (List.mem_cons_self _ _)
      have hperm2 : (xs.map ExtraCache.toPair ++ ws).Perm
          (chain (Bytes.join (acc ++ [x.buffer])).len ts) := by
        have h1 : (x.toPair :: (xs.map ExtraCache.toPair ++ ws)).Perm
            (c.extras.map ExtraCache.toPair ++ ws) :=
          List.Perm.append_right ws (hxp.map ExtraCache.toPair).symm
        have h2 := h1.trans hperm
        have h3 : x.toPair = (((Bytes.join acc).len : Int), x.buffer) := by
          show (x.off, x.buffer) = _
          rw [hxo, hoff]
        rw [h3] at h2
        have h4 := List.Perm.cons_inv h2
        rw [Bytes.len_join_snoc]
        push_cast
        exact h4
      simp only []
      cases hj : c.dispatchJob E S wd x.buffer with
      | none =>
        rw [andThen_none]
        refine ⟨fun ht => ?_, fun c1 wd1 h => by cases h⟩
        obtain ⟨c2, wd2, h2⟩ := hS.total ht c wd acc x.buffer hG hx.1 hx.2
        rw [hj] at h2
        cases h2
      | some y =>
        obtain ⟨e, c2, wd2⟩ := y
        cases e with
        | some e1 =>
          rw [andThen_err]
          refine ⟨fun ht => ?_, fun c1 wd1 h => by cases h⟩
          obtain ⟨c3, wd3, h3⟩ := hS.total ht c wd acc x.buffer hG hx.1 hx.2
          rw [hj] at h3
          cases h3
        | none =>
          rw [andThen_ok]
          have hG2 := hS.ext _ _ _ xs (hS.step c wd acc x.buffer c2 wd2 hG hx.1 hx.2 hj)
          obtain ⟨ih1, ih2⟩ := ih { c2 with extras := xs } wd2 (acc ++ [x.buffer]) ts ws
            hG2 (by show xs.length ≤ fuel; omega)
            (fun s hs => hrest s (List.mem_cons_of_mem _ hs)) hperm2
          refine ⟨ih1, ?_⟩
          intro c1 wd1 h
          obtain ⟨acc1, rest1, g1, g2, g3, g4, g5⟩ := ih2 c1 wd1 h
          refine ⟨acc1, rest1, g1, ?_, g3, g4, g5⟩
          rw [← g2, List.append_assoc, List.singleton_append]

theorem chunk_WriteAt_spec {β : Type} {E : Env} {S : ObjectStorage β}
    {Good : ChunkWriter → World β → List Bytes → Prop} {Ok : Bytes → Prop} {Tot : Prop}
    (hS : Sink E S Good Ok Tot) {c : ChunkWriter} {wd : World β} {acc : List Bytes}
    {rest : List Bytes} {ws : List (Int × Bytes)} {p : Bytes} {off : Int}
    (hG : Good c wd acc) (hrest : ∀ s ∈ rest, 0 < s.len ∧ Ok s)
    (hperm : (c.extras.map ExtraCache.toPair ++ (off, p) :: ws).Perm
      (chain (Bytes.join acc).len rest)) :
    (Tot → ∃ c1 wd1, c.WriteAt E S wd p off = some (((p.len : Int), none), c1, wd1)) ∧
    (∀ r c1 wd1, c.WriteAt E S wd p off = some (r, c1, wd1) → r.2 = none →
      r.1 = p.len ∧ ∃ acc1 rest1, Good c1 wd1 acc1 ∧ acc ++ rest = acc1 ++ rest1 ∧
        (∀ s ∈ rest1, 0 < s.len ∧ Ok s) ∧
        (c1.extras.map ExtraCache.toPair ++ ws).Perm (chain (Bytes.join acc1).len rest1)) := by
  obtain ⟨hoff, herr⟩ := hS.off c wd acc hG
  have hmem : (off, p) ∈ chain (Bytes.join acc).len rest :=
    hperm.subset (List.mem_append_right _ (List.mem_cons_self _ _))
  have hp := hrest p (chain_mem_seg hmem)
  unfold ChunkWriter.WriteAt
  rw [if_neg (by rw [herr]; decide)]
  by_cases ho : off = c.offset
  · rw [if_pos ho]
    have ho' : off = (Bytes.join acc).len := by rw [ho, hoff]
    rw [ho'] at hmem hperm
    obtain ⟨ts, hts⟩ := chain_mem_cons hmem (fun y hy => (hrest y hy).1)
    subst hts
    cases hj : c.dispatchJob E S wd p with
    | none =>
      refine ⟨fun ht => ?_, fun r c1 wd1 h => by cases h⟩
      obtain ⟨c2, wd2, h2⟩ := hS.total ht c wd acc p hG hp.1 hp.2
      rw [hj] at h2
      cases h2
    | some y =>
      obtain ⟨e, c2, wd2⟩ := y
      cases e with
      | some e1 =>
        refine ⟨fun ht => ?_, fun r c1 wd1 h hr => ?_⟩
        · obtain ⟨c3, wd3, h3⟩ := hS.total ht c wd acc p hG hp.1 hp.2
          rw [hj] at h3
          cases h3
        · simp only [Option.some.injEq, Prod.mk.injEq] at h
          obtain ⟨h1, _, _⟩ := h
          rw [← h1] at hr
          cases hr
      | none =>
        refine ⟨fun _ => ⟨c2, wd2, rfl⟩, fun r c1 wd1 h _ => ?_⟩
        simp only [Option.some.injEq, Prod.mk.injEq] at h
        obtain ⟨h1, h2, h3⟩ := h
        subst h1 h2 h3
        refine ⟨rfl, acc ++ [p], ts, hS.step c wd acc p _ _ hG hp.1 hp.2 hj, ?_,
          fun s hs => hrest s (List.mem_cons_of_mem _ hs), ?_⟩
        · rw [List.append_assoc, List.singleton_append]
        · rw [(dispatchJob_frame hj).2.2.2.1, Bytes.len_join_snoc]
          push_cast
          exact List.Perm.cons_inv (List.perm_middle.symm.trans hperm)
  · rw [if_neg ho]
    have hperm2 : ((c.extras ++ [ExtraCache.mk off (Bytes.copy (Bytes.make p.len) p)]).map
        ExtraCache.toPair ++ ws).Perm (chain (Bytes.join acc).len rest) := by
      rw [Bytes.copy_make]
      simpa [ExtraCache.toPair] using hperm
    obtain ⟨d1, d2⟩ := drainExtras_spec hS (c.extras.length + 1)
      { c with extras := c.extras ++ [ExtraCache.mk off (Bytes.copy (Bytes.make p.len) p)] }
      wd acc rest ws (hS.ext _ _ _ _ hG) (by simp) hrest hperm2
    constructor
    · intro ht
      obtain ⟨c1, wd1, h1⟩ := d1 ht
      exact ⟨c1, wd1, by rw [h1]⟩
    · intro r c1 wd1 h hr
      cases hd : ChunkWriter.drainExtras E S (c.extras.length + 1)
          { c with extras := c.extras ++ [ExtraCache.mk off (Bytes.copy (Bytes.make p.len) p)] }
          wd with
      | none => rw [hd] at h; cases h
      | some y =>
        obtain ⟨e, c2, wd2⟩ := y
        rw [hd] at h
        cases e with
        | some e1 =>
          simp only [Option.some.injEq, Prod.mk.injEq] at h
          obtain ⟨h1, _, _⟩ := h
          rw [← h1] at hr
          cases hr
        | none =>
          simp only [Option.some.injEq, Prod.mk.injEq] at h
          obtain ⟨h1, h2, h3⟩ := h
          subst h1 h2 h3
          obtain ⟨acc1, rest1, g1, g2, g3, g4, _⟩ := d2 _ _ hd
          exact ⟨rfl, acc1, rest1, g1, g2, g3, g4⟩

theorem chunk_writeAll_spec {β : Type} {E : Env} {S : ObjectStorage β}
    {Good : ChunkWriter → World β → List Bytes → Prop} {Ok : Bytes → Prop} {Tot : Prop}
    (hS : Sink E S Good Ok Tot) (ws : List (Int × Bytes)) :
    ∀ (c : ChunkWriter) (wd : World β) (acc rest : List Bytes),
      Good c wd acc → (∀ s ∈ rest, 0 < s.len ∧ Ok s) →
      (c.extras.map ExtraCache.toPair ++ ws).Perm (chain (Bytes.join acc).len rest) →
      (Tot → ∃ c1 wd1, ChunkWriter.writeAll E S ws c wd =
        some (ws.map (fun x => ((x.2.len : Int), none)), c1, wd1)) ∧
      (∀ rs c1 wd1, ChunkWriter.writeAll E S ws c wd = some (rs, c1, wd1) →
        (∀ r ∈ rs, r.2 = none) →
        ∃ acc1 rest1, Good c1 wd1 acc1 ∧ acc ++ rest = acc1 ++ rest1 ∧
          (∀ s ∈ rest1, 0 < s.len ∧ Ok s) ∧
          (c1.extras.map ExtraCache.toPair).Perm (chain (Bytes.join acc1).len rest1)) := by
  induction ws with
  | nil =>
    intro c wd acc rest hG hrest hperm
    rw [List.append_nil] at hperm
    refine ⟨fun _ => ⟨c, wd, rfl⟩, ?_⟩
    intro rs c1 wd1 h _
    simp only [ChunkWriter.writeAll, Option.some.injEq, Prod.mk.injEq] at h
    obtain ⟨_, h2, h3⟩ := h
    subst h2 h3
    exact ⟨acc, rest, hG, rfl, hrest, hperm⟩
  | cons x ws ih =>
    intro c wd acc rest hG hrest hperm
    obtain ⟨off, p⟩ := x
    obtain ⟨w1, w2⟩ := chunk_WriteAt_spec hS hG hrest hperm
    constructor
    · intro ht
      obtain ⟨c1, wd1, h1⟩ := w1 ht
      obtain ⟨_, acc1, rest1, g1, _, g3, g4⟩ := w2 _ c1 wd1 h1 rfl
      obtain ⟨c2, wd2, h2⟩ := (ih c1 wd1 acc1 rest1 g1 g3 g4).1 ht
      exact ⟨c2, wd2, by simp only [ChunkWriter.writeAll, h1, h2, List.map_cons]⟩
    · intro rs c2 wd2 h hr
      simp only [ChunkWriter.writeAll] at h
      cases hw : c.WriteAt E S wd p off with
      | none => rw [hw] at h; cases h
      | some y =>
        obtain ⟨r, c1, wd1⟩ := y
        rw [hw] at h
        simp only at h
        cases hw2 : ChunkWriter.writeAll E S ws c1 wd1 with
        | none => rw [hw2] at h; cases h
        | some z =>
          obtain ⟨rs1, c3, wd3⟩ := z
          rw [hw2] at h
          simp only [Option.some.injEq, Prod.mk.injEq] at h
          obtain ⟨h1, h2, h3⟩ := h
          subst h1 h2 h3
          obtain ⟨_, acc1, rest1, g1, g2, g3, g4⟩ :=
            w2 r c1 wd1 hw (hr r (List.mem_cons_self _ _))
          obtain ⟨acc2, rest2, k1, k2, k3, k4⟩ := (ih c1 wd1 acc1 rest1 g1 g3 g4).2 rs1 _ _ hw2
            (fun r' hr' => hr r' (List.mem_cons_of_mem _ hr'))
          exact ⟨acc2, rest2, k1, g2.trans k2, k3, k4⟩

theorem chunk_finalDrain_spec {β : Type} {E : Env} {S : ObjectStorage β}
    {Good : ChunkWriter → World β → List Bytes → Prop} {Ok : Bytes → Prop} {Tot : Prop}
    (hS : Sink E S Good Ok Tot) {c : ChunkWriter} {wd : World β} {acc rest : List Bytes}
    (hG : Good c wd acc) (hrest : ∀ s ∈ rest, 0 < s.len ∧ Ok s)
    (hperm : (c.extras.map ExtraCache.toPair).Perm (chain (Bytes.join acc).len rest)) :
    (Tot → ∃ c1 wd1, ChunkWriter.drainExtras E S c.extras.length c wd = some (none, c1, wd1)) ∧
    (∀ c1 wd1, ChunkWriter.drainExtras E S c.extras.length c wd = some (none, c1, wd1) →
      Good c1 wd1 (acc ++ rest) ∧ c1.extras = []) := by
  obtain ⟨d1, d2⟩ := drainExtras_spec hS c.extras.length c wd acc rest [] hG (le_refl _) hrest
    (by rw [List.append_nil]; exact hperm)
  refine ⟨d1, ?_⟩
  intro c1 wd1 h
  obtain ⟨acc1, rest1, g1, g2, g3, g4, g5⟩ := d2 c1 wd1 h
  rw [List.append_nil] at g4
  have hrn : rest1 = [] := by
    cases rest1 with
    | nil => rfl
    | cons t ts =>
      exfalso
      have : (((Bytes.join acc1).len : Int), t) ∈ c1.extras.map ExtraCache.toPair :=
        g4.symm.subset (List.mem_cons_self _ _)
      obtain ⟨x, hx, hxe⟩ := List.mem_map.mp this
      have h1 : x.off = (Bytes.join acc1).len := congrArg Prod.fst hxe
      exact g5 x hx (by rw [h1, (hS.off c1 wd1 acc1 g1).1])
  subst hrn
  have hcn : c1.extras = [] := by
    have := g4.length_eq
    simp only [chain, List.length_map, List.length_nil] at this
    exact List.length_eq_zero.mp this
  rw [List.append_nil] at g2
  rw [g2]
  exact ⟨g1, hcn⟩

/-! ## Chunk writer: the manifest under construction -/

theorem Contig_le {s i e : Int} {recs : List ChunkMeta} (h : Contig s i recs e) : s ≤ e := by
  induction recs generalizing s i with
  | nil => exact le_of_eq h
  | cons m ms ih =>
    obtain ⟨_, h2, h3, h4⟩ := h
    have := ih h4
    omega

theorem Contig_snoc {s i e e1 : Int} (cs : Int) {recs : List ChunkMeta}
    (h : Contig s i recs e) (he : e < e1) :
    Contig s i (recs ++ [⟨i + recs.length, e, e1, cs⟩]) e1 := by
  induction recs generalizing s i with
  | nil =>
    have hs : s = e := h
    subst hs
    exact ⟨by simp, rfl, he, rfl⟩
  | cons m ms ih =>
    obtain ⟨h1, h2, h3, h4⟩ := h
    refine ⟨h1, h2, h3, ?_⟩
    have := ih h4
    have hi : i + 1 + (ms.length : Int) = i + ((m :: ms).length : Int) := by
      simp only [List.length_cons]; push_cast; omega
    rw [hi] at this
    exact this

theorem Contig_lt {s i e : Int} {recs : List ChunkMeta} (h : Contig s i recs e) :
    ∀ m ∈ recs, m.Start < m.End := by
  induction recs generalizing s i with
  | nil => intro m hm; cases hm
  | cons a as ih =>
    obtain ⟨_, _, h3, h4⟩ := h
    intro m hm
    rcases List.mem_cons.mp hm with rfl | hm
    · exact h3
    · exact ih h4 m hm

theorem commit_spec {c : ChunkWriter} {recs : List ChunkMeta} {m0 : ChunkMeta}
    (hm : c.ChunkMetas = recs ++ [m0]) (hl : recs.length = c.index) (pos cs : Int) :
    c.commit pos cs = some { c with
      ChunkMetas := recs ++ [{ m0 with End := pos, CompressSize := cs }] ++
        [{ Index := (c.index + 1 : Nat), Start := pos, End := 0, CompressSize := 0 }]
      index := c.index + 1 } := by
  unfold ChunkWriter.commit
  have hg : c.ChunkMetas.get? c.index = some m0 := by
    rw [hm, ← hl]
    simp
  rw [hg]
  simp only [Option.some.injEq]
  have hset : c.ChunkMetas.set c.index { m0 with End := pos, CompressSize := cs } =
      recs ++ [{ m0 with End := pos, CompressSize := cs }] := by
    rw [hm, ← hl]
    simp
  rw [hset]

theorem MetasOK_commit {c c1 : ChunkWriter} {pos cs : Int} (h : MetasOK c)
    (hpos : c.offset - c.length < pos) (hc : c.commit pos cs = some c1) :
    ∃ recs, c1.ChunkMetas = recs ++ [⟨c1.index, pos, 0, 0⟩] ∧ recs.length = c1.index ∧
      Contig 0 0 recs pos := by
  obtain ⟨recs, h1, h2, h3⟩ := h
  rw [commit_spec h1 h2 pos cs] at hc
  cases hc
  refine ⟨recs ++ [⟨c.index, c.offset - c.length, pos, cs⟩], rfl, by simp [h2], ?_⟩
  have := Contig_snoc cs h3 hpos
  rw [h2] at this
  simpa using this

theorem doFixedUpload_metas {β : Type} {E : Env} {S : ObjectStorage β} {c c1 : ChunkWriter}
    {wd wd1 : World β} (hM : MetasOK c) (hl : 0 < c.length)
    (h : c.doFixedUpload E S wd = some (none, c1, wd1)) :
    MetasOK c1 ∧ c1.length = 0 ∧ c1.offset = c.offset ∧ c1.isError = c.isError := by
  unfold ChunkWriter.doFixedUpload at h
  cases hp : c.prepare c.chunkBuf with
  | none => rw [hp] at h; cases h
  | some r =>
    rw [hp] at h
    cases r with
    | error e1 => cases h
    | ok bc =>
      obtain ⟨body, cs⟩ := bc
      simp only at h
      cases hput : ChunkWriter.putChunk E S c wd body with
      | mk e2 wd2 =>
        rw [hput] at h
        cases e2 with
        | some e3 => cases h
        | none =>
          simp only at h
          cases hc : c.commit c.offset cs with
          | none => rw [hc] at h; cases h
          | some c2 =>
            rw [hc] at h
            cases h
            obtain ⟨recs, g1, g2, g3⟩ := MetasOK_commit hM (by omega) hc
            obtain ⟨_, _, _, _, _, f6, _, f8, _⟩ := commit_frame hc
            refine ⟨⟨recs, ?_, g2, ?_⟩, rfl, f8, f6⟩
            · show c2.ChunkMetas = recs ++ [⟨c2.index, c2.offset - 0, 0, 0⟩]
              rw [g1, f8, sub_zero]
            · show Contig 0 0 recs (c2.offset - 0)
              rw [f8, sub_zero]
              exact g3

theorem dynLoop_metas {β : Type} {E : Env} {S : ObjectStorage β} (chunks : List Bytes) :
    ∀ (tmpOff : Int) (c c1 : ChunkWriter) (wd wd1 : World β),
      (∃ recs, c.ChunkMetas = recs ++ [⟨c.index, tmpOff, 0, 0⟩] ∧ recs.length = c.index ∧
        Contig 0 0 recs tmpOff) →
      (∀ ch ∈ chunks, 0 < ch.len) →
      ChunkWriter.dynLoop E S chunks tmpOff c wd = some (none, c1, wd1) →
      ∃ recs, c1.ChunkMetas = recs ++ [⟨c1.index, tmpOff + (Bytes.join chunks).len, 0, 0⟩] ∧
        recs.length = c1.index ∧ Contig 0 0 recs (tmpOff + (Bytes.join chunks).len) := by
  induction chunks with
  | nil =>
    intro tmpOff c c1 wd wd1 hM _ h
    simp only [ChunkWriter.dynLoop, Option.some.injEq, Prod.mk.injEq, true_and] at h
    obtain ⟨h1, _⟩ := h
    subst h1
    simpa [Bytes.join] using hM
  | cons ch rest ih =>
    intro tmpOff c c1 wd wd1 hM hne h
    simp only [ChunkWriter.dynLoop] at h
    cases hp : c.prepare ch with
    | none => rw [hp] at h; cases h
    | some r =>
      rw [hp] at h
      cases r with
      | error e1 => cases h
      | ok bc =>
        obtain ⟨body, cs⟩ := bc
        simp only at h
        cases hput : ChunkWriter.putChunk E S c wd body with
        | mk e2 wd2 =>
          rw [hput] at h
          cases e2 with
          | some e3 => cases h
          | none =>
            simp only at h
            cases hc : c.commit (tmpOff + ch.len) cs with
            | none => rw [hc] at h; cases h
            | some c2 =>
              rw [hc] at h
              have hch := hne ch (List.mem_cons_self _ _)
              obtain ⟨recs, g1, g2, g3⟩ := hM
              rw [commit_spec g1 g2 (tmpOff + ch.len) cs] at hc
              cases hc
              have hM2 : ∃ recs2, (recs ++ [⟨c.index, tmpOff, tmpOff + ch.len, cs⟩] ++
                  [⟨(c.index + 1 : Nat), tmpOff + ch.len, 0, 0⟩] : List ChunkMeta) =
                  recs2 ++ [⟨(c.index + 1 : Nat), tmpOff + ch.len, 0, 0⟩] ∧
                  recs2.length = c.index + 1 ∧ Contig 0 0 recs2 (tmpOff + ch.len) := by
                refine ⟨recs ++ [⟨c.index, tmpOff, tmpOff + ch.len, cs⟩], rfl, by simp [g2], ?_⟩
                have := Contig_snoc cs g3 (by omega : tmpOff < tmpOff + ch.len)
                rw [g2] at this
                simpa using this
              have := ih (tmpOff + ch.len) _ c1 wd2 wd1 hM2
                (fun x hx => hne x (List.mem_cons_of_mem _ hx)) h
              rw [Bytes.join_cons, Bytes.len_append]
              push_cast
              rw [← add_assoc]
              exact this

theorem slice_len {b s : Bytes} {lo hi : Int} (h : b.slice lo hi = some s) :
    0 ≤ lo ∧ lo ≤ hi ∧ hi ≤ b.len ∧ (s.len : Int) = hi - lo := by
  unfold Bytes.slice at h
  by_cases hb : 0 ≤ lo ∧ lo ≤ hi ∧ hi ≤ (b.len : Int)
  · rw [if_pos hb] at h
    cases h
    refine ⟨hb.1, hb.2.1, hb.2.2, ?_⟩
    show (((hi - lo).toNat : Nat) : Int) = hi - lo
    omega
  · rw [if_neg hb] at h; cases h

theorem doDynamicUpload_metas {β : Type} {E : Env} {S : ObjectStorage β} {c c1 : ChunkWriter}
    {wd wd1 : World β} (hM : MetasOK c) (hE : Partitions E)
    (h : c.doDynamicUpload E S wd = some (none, c1, wd1)) :
    MetasOK c1 ∧ c1.length = 0 ∧ c1.offset = c.offset ∧ c1.isError = c.isError := by
  unfold ChunkWriter.doDynamicUpload at h
  cases hs : c.chunkBuf.slice 0 c.length with
  | none => rw [hs] at h; cases h
  | some rd =>
    rw [hs] at h
    rcases andThen_some h with ⟨e1, _, h2⟩ | ⟨s1, w1, h1, h2⟩
    · cases h2
    · cases h2
      obtain ⟨_, _, _, hrl⟩ := slice_len hs
      obtain ⟨hj, hne⟩ := hE rd
      obtain ⟨recs, g1, g2, g3⟩ := dynLoop_metas _ _ _ _ _ _ hM hne h1
      obtain ⟨_, _, _, _, _, _, f7, f8, _⟩ := dynLoop_frame _ _ _ _ _ _ _ h1
      have hsum : c.offset - c.length + ((Bytes.join (E.chunks rd)).len : Int) = s1.offset := by
        rw [hj, hrl, f7]; omega
      rw [hsum] at g1 g3
      refine ⟨⟨recs, ?_, g2, ?_⟩, rfl, f7, f8⟩
      · show s1.ChunkMetas = recs ++ [⟨s1.index, s1.offset - 0, 0, 0⟩]
        rw [g1, sub_zero]
      · show Contig 0 0 recs (s1.offset - 0)
        rw [sub_zero]
        exact g3

theorem dispatchUpload_metas {β : Type} {E : Env} {S : ObjectStorage β} {c c1 : ChunkWriter}
    {wd wd1 : World β} (hM : MetasOK c) (hE : c.isFixed = false → Partitions E)
    (hl : c.isFixed = true → 0 < c.length)
    (h : c.dispatchUpload E S wd = some (none, c1, wd1)) :
    MetasOK c1 ∧ c1.length = 0 ∧ c1.offset = c.offset ∧ c1.isError = c.isError := by
  unfold ChunkWriter.dispatchUpload at h
  by_cases hf : c.isFixed
  · rw [if_pos hf] at h
    exact doFixedUpload_metas hM (hl hf) h
  · rw [if_neg hf] at h
    exact doDynamicUpload_metas hM (hE (by simpa using hf)) h

theorem uploadOrFail_ok {β : Type} {E : Env} {S : ObjectStorage β} {c c1 : ChunkWriter}
    {wd wd1 : World β} (h : c.uploadOrFail E S wd = some (none, c1, wd1)) :
    c.dispatchUpload E S wd = some (none, c1, wd1) := by
  unfold ChunkWriter.uploadOrFail at h
  cases hd : c.dispatchUpload E S wd with
  | none => rw [hd] at h; cases h
  | some x =>
    obtain ⟨e1, c2, wd2⟩ := x
    rw [hd] at h
    cases e1 with
    | none => exact h
    | some e2 => cases h

theorem MetasOK_shift {c c1 : ChunkWriter} (h : MetasOK c) (hm : c1.ChunkMetas = c.ChunkMetas)
    (hi : c1.index = c.index) (ho : c1.offset - c1.length = c.offset - c.length) :
    MetasOK c1 := by
  obtain ⟨recs, g1, g2, g3⟩ := h
  exact ⟨recs, by rw [hm, hi, ho]; exact g1, by rw [hi]; exact g2, by rw [ho]; exact g3⟩

theorem doFixedJob_metas {β : Type} {E : Env} {S : ObjectStorage β} {c c1 : ChunkWriter}
    {wd wd1 : World β} {buf : Bytes} (hM : MetasOK c) (hl : 0 ≤ c.length)
    (hfx : c.isFixed = true)
    (h : c.doFixedJob E S wd buf = some (none, c1, wd1)) :
    MetasOK c1 ∧ 0 ≤ c1.length ∧ c1.offset = c.offset + buf.len ∧ c1.isError = c.isError := by
  have hcap : (0 : Int) < ChunkCacheFixedSize := by decide
  unfold ChunkWriter.doFixedJob at h
  by_cases h1 : (buf.len : Int) + c.length ≤ ChunkCacheFixedSize
  · rw [if_pos h1] at h
    cases hcp : c.chunkBuf.copyInto c.length (c.length + buf.len) buf with
    | none => rw [hcp] at h; cases h
    | some b1 =>
      rw [hcp] at h
      simp only at h
      have hM1 : MetasOK { c with chunkBuf := b1, offset := c.offset + buf.len, length := c.length + buf.len } :=
        MetasOK_shift hM rfl rfl (by show c.offset + buf.len - (c.length + buf.len) = _; omega)
      by_cases h2 : c.length + buf.len = ChunkCacheFixedSize
      · rw [if_pos h2] at h
        obtain ⟨g1, g2, g3, g4⟩ := dispatchUpload_metas hM1 (fun hh => by
          have : c.isFixed = false := hh
          rw [hfx] at this; cases this) (fun _ => by
          show 0 < c.length + buf.len
          omega) (uploadOrFail_ok h)
        exact ⟨g1, by omega, g3, g4⟩
      · rw [if_neg h2] at h
        cases h
        exact ⟨hM1, by show 0 ≤ c.length + buf.len; omega, rfl, rfl⟩
  · rw [if_neg h1] at h
    cases hf : buf.slice 0 (ChunkCacheFixedSize - c.length) with
    | none => rw [hf] at h; cases h
    | some front =>
      cases hb : buf.slice (ChunkCacheFixedSize - c.length) buf.len with
      | none => rw [hf, hb] at h; cases h
      | some back =>
        rw [hf, hb] at h
        simp only at h
        cases hcp : c.chunkBuf.copyInto c.length ChunkCacheFixedSize front with
        | none => rw [hcp] at h; cases h
        | some b1 =>
          rw [hcp] at h
          simp only at h
          rcases andThen_some h with ⟨e1, _, h2⟩ | ⟨s1, w1, hu, h2⟩
          · cases h2
          · have hM1 : MetasOK { c with chunkBuf := b1, offset := c.offset + (ChunkCacheFixedSize - c.length), length := c.length + (ChunkCacheFixedSize - c.length) } :=
              MetasOK_shift hM rfl rfl (by
                show c.offset + (ChunkCacheFixedSize - c.length) -
                  (c.length + (ChunkCacheFixedSize - c.length)) = _
                omega)
            obtain ⟨g1, g2, g3, g4⟩ := dispatchUpload_metas hM1 (fun hh => by
              have : c.isFixed = false := hh
              rw [hfx] at this; cases this) (fun _ => by
              show 0 < c.length + (ChunkCacheFixedSize - c.length)
              omega) (uploadOrFail_ok hu)
            cases hcp2 : s1.chunkBuf.copyInto s1.length
                (buf.len - (ChunkCacheFixedSize - c.length)) back with
            | none => rw [hcp2] at h2; cases h2
            | some b2 =>
              rw [hcp2] at h2
              cases h2
              have g3' : s1.offset = c.offset + (ChunkCacheFixedSize - c.length) := g3
              refine ⟨MetasOK_shift g1 rfl rfl ?_, ?_, ?_, g4⟩
              · show s1.offset + (buf.len - (ChunkCacheFixedSize - c.length)) -
                  (s1.length + (buf.len - (ChunkCacheFixedSize - c.length))) = _
                omega
              · show 0 ≤ s1.length + (buf.len - (ChunkCacheFixedSize - c.length))
                omega
              · show s1.offset + (buf.len - (ChunkCacheFixedSize - c.length)) = _
                omega

theorem doDynamicJob_metas {β : Type} {E : Env} {S : ObjectStorage β} {c c1 : ChunkWriter}
    {wd wd1 : World β} {buf : Bytes} (hM : MetasOK c) (hl : 0 ≤ c.length)
    (hE : c.isFixed = false → Partitions E) (hfx : c.isFixed = false)
    (h : c.doDynamicJob E S wd buf = some (none, c1, wd1)) :
    MetasOK c1 ∧ 0 ≤ c1.length ∧ c1.offset = c.offset + buf.len ∧ c1.isError = c.isError := by
  unfold ChunkWriter.doDynamicJob at h
  rcases andThen_some h with ⟨e1, _, h2⟩ | ⟨s1, w1, hu, h2⟩
  · cases h2
  · have hs1 : MetasOK s1 ∧ 0 ≤ s1.length ∧ s1.offset = c.offset ∧ s1.isError = c.isError := by
      by_cases h1 : (buf.len : Int) + c.length > ChunkCacheDynamicSize
      · rw [if_pos h1] at hu
        cases hd : c.dispatchUpload E S wd with
        | none => rw [hd] at hu; cases hu
        | some x =>
          obtain ⟨e2, c2, wd2⟩ := x
          rw [hd] at hu
          cases e2 with
          | some e3 => cases hu
          | none =>
            cases hu
            obtain ⟨g1, g2, g3, g4⟩ := dispatchUpload_metas hM hE (fun hh => by
              rw [hfx] at hh; cases hh) hd
            exact ⟨g1, by omega, g3, g4⟩
      · rw [if_neg h1] at hu
        cases hu
        exact ⟨hM, hl, rfl, rfl⟩
    obtain ⟨g1, g2, g3, g4⟩ := hs1
    cases hcp : s1.chunkBuf.copyInto s1.length (s1.length + buf.len) buf with
    | none => rw [hcp] at h2; cases h2
    | some b1 =>
      rw [hcp] at h2
      cases h2
      refine ⟨MetasOK_shift g1 rfl rfl ?_, ?_, ?_, g4⟩
      · show s1.offset + buf.len - (s1.length + buf.len) = _
        omega
      · show 0 ≤ s1.length + buf.len
        omega
      · show s1.offset + buf.len = _
        omega

theorem dispatchJob_MInv {β : Type} {E : Env} {S : ObjectStorage β} {c c1 : ChunkWriter}
    {wd wd1 : World β} {buf : Bytes} {done : List Bytes} (hI : MInv E c done)
    (h : c.dispatchJob E S wd buf = some (none, c1, wd1)) : MInv E c1 (done ++ [buf]) := by
  obtain ⟨herr, hoff, hl0, hM, hpart⟩ := hI
  have hfr := dispatchJob_frame h
  unfold ChunkWriter.dispatchJob at h
  by_cases hf : c.isFixed
  · rw [if_pos hf] at h
    obtain ⟨g1, g2, g3, g4⟩ := doFixedJob_metas
      (c := { c with jobs := c.jobs ++ [buf] }) (MetasOK_shift hM rfl rfl rfl) hl0 hf h
    refine ⟨g4.trans herr, ?_, g2, g1, fun hh => hpart (hfr.2.1 ▸ hh)⟩
    rw [g3, Bytes.len_join_snoc]
    show c.offset + buf.len = _
    rw [hoff]; push_cast; rfl
  · rw [if_neg hf] at h
    have hf' : c.isFixed = false := by simpa using hf
    obtain ⟨g1, g2, g3, g4⟩ := doDynamicJob_metas
      (c := { c with jobs := c.jobs ++ [buf] }) (MetasOK_shift hM rfl rfl rfl) hl0 hpart hf' h
    refine ⟨g4.trans herr, ?_, g2, g1, fun hh => hpart (hfr.2.1 ▸ hh)⟩
    rw [g3, Bytes.len_join_snoc]
    show c.offset + buf.len = _
    rw [hoff]; push_cast; rfl

theorem MInv_sink {β : Type} (E : Env) (S : ObjectStorage β) :
    Sink E S (fun c _ done => MInv E c done) (fun _ => True) False where
  off := fun _ _ _ h => ⟨h.off, h.err⟩
  ext := fun _ _ _ _ h => ⟨h.err, h.off, h.len0, MetasOK_shift h.metas rfl rfl rfl, h.part⟩
  step := fun _ _ _ _ _ _ h _ _ hj => dispatchJob_MInv h hj
  total := fun hf => False.elim hf

theorem MInv_fresh (E : Env) (key : String) (cmp : Option Codec) (isFixed : Bool)
    (hE : isFixed = false → Partitions E) : MInv E (NewChunkWriter key cmp isFixed) [] :=
  ⟨rfl, rfl, le_refl _, ⟨[], rfl, rfl, rfl⟩, hE⟩

theorem run_some {β : Type} {E : Env} {S : ObjectStorage β} {ws : List (Int × Bytes)}
    {c c2 : ChunkWriter} {wd wd2 : World β} {rs : List (Int × Error)} {e : Error}
    (h : ChunkWriter.run E S ws c wd = some ((rs, e), c2, wd2)) :
    ∃ c1 wd1, ChunkWriter.writeAll E S ws c wd = some (rs, c1, wd1) ∧
      c1.Flush E S wd1 = some (e, c2, wd2) := by
  unfold ChunkWriter.run at h
  cases hw : ChunkWriter.writeAll E S ws c wd with
  | none => rw [hw] at h; cases h
  | some x =>
    obtain ⟨rs1, c1, wd1⟩ := x
    rw [hw] at h
    simp only at h
    cases hf : c1.Flush E S wd1 with
    | none => rw [hf] at h; cases h
    | some y =>
      obtain ⟨e1, c3, wd3⟩ := y
      rw [hf] at h
      simp only [Option.some.injEq, Prod.mk.injEq] at h
      obtain ⟨⟨h1, h2⟩, h3, h4⟩ := h
      subst h1 h2 h3 h4
      exact ⟨c1, wd1, rfl, hf⟩

theorem lastUpload_metas {β : Type} {E : Env} {S : ObjectStorage β} {c c1 : ChunkWriter}
    {wd wd1 : World β} (hM : MetasOK c) (hl : 0 ≤ c.length)
    (hE : c.isFixed = false → Partitions E)
    (h : c.lastUpload E S wd = some (none, c1, wd1)) :
    MetasOK c1 ∧ c1.length = 0 ∧ c1.offset = c.offset := by
  unfold ChunkWriter.lastUpload at h
  by_cases hp : c.length > 0
  · rw [if_pos hp] at h
    cases hd : c.dispatchUpload E S wd with
    | none => rw [hd] at h; cases h
    | some x =>
      obtain ⟨e1, c2, wd2⟩ := x
      rw [hd] at h
      cases e1 with
      | some e2 => cases h
      | none =>
        cases h
        obtain ⟨g1, g2, g3, _⟩ := dispatchUpload_metas hM hE (fun _ => hp) hd
        exact ⟨g1, g2, g3⟩
  · rw [if_neg hp] at h
    cases h
    exact ⟨hM, by omega, rfl⟩

theorem putManifest_state {β : Type} {E : Env} {S : ObjectStorage β} {c c1 : ChunkWriter}
    {wd wd1 : World β} {e : Error} (h : c.putManifest E S wd = some (e, c1, wd1)) : c1 = c := by
  unfold ChunkWriter.putManifest at h
  simp only [Option.some.injEq, Prod.mk.injEq] at h
  exact h.2.1.symm

theorem filter_closed {recs : List ChunkMeta} {i pos : Int} (h : Contig 0 0 recs pos) :
    (recs ++ [(⟨i, pos, 0, 0⟩ : ChunkMeta)]).filter (fun m => m.Start < m.End) = recs := by
  have hpos := Contig_le h
  rw [List.filter_append]
  have h1 : recs.filter (fun m => decide (m.Start < m.End)) = recs :=
    List.filter_eq_self.mpr (fun m hm => by simpa using Contig_lt h m hm)
  have h2 : [(⟨i, pos, 0, 0⟩ : ChunkMeta)].filter (fun m => decide (m.Start < m.End)) = [] := by
    simp only [List.filter_cons, List.filter_nil]
    rw [if_neg]
    simp only [decide_eq_true_eq]
    omega
  rw [h1, h2, List.append_nil]

theorem run_final_metas {β : Type} (E : Env) (S : ObjectStorage β) (key : String)
    (cmp : Option Codec) (isFixed : Bool) (wd : World β) (segs : List Bytes)
    (ws : List (Int × Bytes)) (rs : List (Int × Error)) (c2 : ChunkWriter) (wd2 : World β)
    (hE : isFixed = false → Partitions E) (hseg : ∀ s ∈ segs, 0 < s.len)
    (hperm : ws.Perm (chain 0 segs))
    (hrun : ChunkWriter.run E S ws (NewChunkWriter key cmp isFixed) wd =
      some ((rs, none), c2, wd2))
    (hok : ∀ r ∈ rs, r.2 = none) :
    MetasOK c2 ∧ c2.length = 0 ∧ c2.offset = (Bytes.join segs).len := by
  obtain ⟨c1, wd1, hw, hf⟩ := run_some hrun
  have hS := MInv_sink E S
  obtain ⟨acc1, rest1, hI1, hsplit, hr1, hp1⟩ :=
    (chunk_writeAll_spec hS ws (NewChunkWriter key cmp isFixed) wd [] segs
      (MInv_fresh E key cmp isFixed hE) (fun s hs => ⟨hseg s hs, trivial⟩)
      (by simpa [NewChunkWriter, Bytes.join] using hperm)).2 rs c1 wd1 hw hok
  rw [List.nil_append] at hsplit
  show MetasOK c2 ∧ c2.length = 0 ∧ c2.offset = (Bytes.join segs).len
  have hfin : MetasOK c2 ∧ c2.length = 0 ∧ c2.offset = (Bytes.join segs).len := by
    unfold ChunkWriter.Flush at hf
    rw [if_neg (by rw [hI1.err]; decide)] at hf
    by_cases hearly : c1.length = 0 ∧ c1.extras.length = 0
    · rw [if_pos hearly] at hf
      have hen : c1.extras = [] := List.length_eq_zero.mp hearly.2
      rw [hen] at hp1
      have hrn : rest1 = [] := by
        cases rest1 with
        | nil => rfl
        | cons t ts => exact absurd hp1.length_eq (by simp [chain])
      rw [hrn, List.append_nil] at hsplit
      have hc : c1 = c2 := by
        simp only [Option.some.injEq, Prod.mk.injEq, true_and] at hf
        exact hf.1
      rw [← hc, hsplit]
      exact ⟨hI1.metas, hearly.1, hI1.off⟩
    · rw [if_neg hearly] at hf
      rcases andThen_some hf with ⟨e1, _, h2⟩ | ⟨c4, wd4, h1, h2⟩
      · cases h2
      · rcases andThen_some h1 with ⟨e1, _, h3⟩ | ⟨c3, wd3, hd, hl⟩
        · cases h3
        · obtain ⟨hI3, _⟩ := (chunk_finalDrain_spec hS hI1 hr1 hp1).2 c3 wd3 hd
          rw [← hsplit] at hI3
          obtain ⟨g1, g2, g3⟩ := lastUpload_metas hI3.metas hI3.len0 hI3.part hl
          have := putManifest_state h2
          subst this
          exact ⟨g1, g2, g3.trans hI3.off⟩
  exact hfin

/-- C4. Manifest monotonicity: a fresh chunk writer in either mode (in dynamic
mode the chunker cuts its input into consecutive non-empty chunks), over any
backend, is given the non-empty pieces of a byte sequence `B` in any order; if
every `WriteAt` and the `Flush` return without error, the manifest records
with `Start < End`, in list order, are contiguous from offset 0 to `|B|` and
their index fields are 0, 1, 2, ... -/
theorem manifest_contiguous {β : Type} (E : Env) (S : ObjectStorage β) (key : String)
    (cmp : Option Codec) (isFixed : Bool) (wd : World β) (segs : List Bytes)
    (ws : List (Int × Bytes)) (rs : List (Int × Error)) (c2 : ChunkWriter) (wd2 : World β)
    (hE : isFixed = false → Partitions E) (hseg : ∀ s ∈ segs, 0 < s.len)
    (hperm : ws.Perm (chain 0 segs))
    (hrun : ChunkWriter.run E S ws (NewChunkWriter key cmp isFixed) wd =
      some ((rs, none), c2, wd2))
    (hok : ∀ r ∈ rs, r.2 = none) :
    Contig 0 0 (c2.ChunkMetas.filter (fun m => m.Start < m.End)) (Bytes.join segs).len := by
  have hfin := run_final_metas E S key cmp isFixed wd segs ws rs c2 wd2 hE hseg hperm hrun hok
  obtain ⟨⟨recs, g1, _, g3⟩, hl, ho⟩ := hfin
  rw [hl, sub_zero, ho] at g1 g3
  rw [g1, filter_closed g3]
  exact g3

theorem digitChar_val (k : Nat) (h : k < 10) : (Nat.digitChar k).toNat - 48 = k := by
  interval_cases k <;> rfl

theorem toDigitsCore_val (fuel : Nat) : ∀ (n : Nat) (ds : List Char), n < fuel →
    ∃ xs, Nat.toDigitsCore 10 fuel n ds = xs ++ ds ∧
      xs.foldl (fun a c => 10 * a + (c.toNat - 48)) 0 = n := by
  induction fuel with
  | zero => intro n ds h; omega
  | succ fuel ih =>
    intro n ds h
    unfold Nat.toDigitsCore
    by_cases h0 : n / 10 = 0
    · simp only [h0, if_true]
      refine ⟨[Nat.digitChar (n % 10)], rfl, ?_⟩
      simp only [List.foldl_cons, List.foldl_nil, Nat.mul_zero, Nat.zero_add]
      rw [digitChar_val _ (Nat.mod_lt _ (by decide))]
      omega
    · simp only [h0, if_false]
      obtain ⟨xs, h1, h2⟩ := ih (n / 10) (Nat.digitChar (n % 10) :: ds) (by omega)
      refine ⟨xs ++ [Nat.digitChar (n % 10)], by rw [h1]; simp, ?_⟩
      rw [List.foldl_append, h2]
      simp only [List.foldl_cons, List.foldl_nil]
      rw [digitChar_val _ (Nat.mod_lt _ (by decide))]
      omega

theorem repr_val (n : Nat) :
    (Nat.repr n).data.foldl (fun a c => 10 * a + (c.toNat - 48)) 0 = n := by
  obtain ⟨xs, h1, h2⟩ := toDigitsCore_val (n + 1) n [] (by omega)
  have : (Nat.repr n).data = xs := by
    show (Nat.toDigits 10 n).asString.data = xs
    unfold Nat.toDigits
    rw [h1]
    simp [List.asString]
  rw [this, h2]

theorem Itoa_natCast (n : Nat) : Itoa (n : Int) = Nat.repr n := rfl

theorem Itoa_injective {a b : Nat} (h : Itoa (a : Int) = Itoa (b : Int)) : a = b := by
  rw [Itoa_natCast, Itoa_natCast] at h
  have := repr_val a
  rw [h, repr_val] at this
  exact this.symm

theorem Itoa_ne_meta (a : Nat) : Itoa (a : Int) ≠ ".meta" := by
  intro h
  rw [Itoa_natCast] at h
  have := repr_val a
  rw [h] at this
  have h2 : a = 67029 := by
    rw [← this]; rfl
  subst h2
  revert h
  decide

theorem string_append_left_cancel {s t u : String} (h : s ++ t = s ++ u) : t = u := by
  have := congrArg String.data h
  simp only [String.data_append] at this
  exact String.ext (List.append_cancel_left this)

theorem chunkKey_injective {key : String} {a b : Nat}
    (h : key ++ "/" ++ Itoa (a : Int) = key ++ "/" ++ Itoa (b : Int)) : a = b :=
  Itoa_injective (string_append_left_cancel h)

theorem chunkKey_ne_meta (key : String) (a : Nat) :
    key ++ "/" ++ Itoa (a : Int) ≠ key ++ "/.meta" := by
  intro h
  have h1 : key ++ "/.meta" = key ++ "/" ++ ".meta" := by
    rw [String.append_assoc]; rfl
  rw [h1] at h
  exact Itoa_ne_meta a (string_append_left_cancel h)

/-! ## Fixed-mode chunk writer -/

theorem Bytes.join_snoc (a : List Bytes) (b : Bytes) :
    Bytes.join (a ++ [b]) = Bytes.append (Bytes.join a) b := by
  induction a with
  | nil =>
    show Bytes.append b (Bytes.make 0) = Bytes.append (Bytes.make 0) b
    rw [Bytes.append_make_zero, Bytes.make_zero_append]
  | cons x xs ih =>
    rw [List.cons_append, Bytes.join_cons, ih, Bytes.join_cons, Bytes.append_assoc]

theorem copyInto_some {dst src d : Bytes} {lo hi : Int} (h : dst.copyInto lo hi src = some d) :
    0 ≤ lo ∧ lo ≤ hi ∧ hi ≤ dst.len ∧ d.len = dst.len ∧
      ∀ i, d.get i = if lo.toNat ≤ i ∧ i < lo.toNat + min (hi - lo).toNat src.len
        then src.get (i - lo.toNat) else dst.get i := by
  unfold Bytes.copyInto at h
  by_cases hb : 0 ≤ lo ∧ lo ≤ hi ∧ hi ≤ (dst.len : Int)
  · rw [dif_pos hb] at h
    cases h
    exact ⟨hb.1, hb.2.1, hb.2.2, rfl, fun _ => rfl⟩
  · rw [dif_neg hb] at h; cases h

theorem copyInto_ok (dst src : Bytes) {lo hi : Int} (h0 : 0 ≤ lo) (h1 : lo ≤ hi)
    (h2 : hi ≤ dst.len) : ∃ d, dst.copyInto lo hi src = some d := by
  unfold Bytes.copyInto
  rw [dif_pos ⟨h0, h1, h2⟩]
  exact ⟨_, rfl⟩

theorem slice_some {b s : Bytes} {lo hi : Int} (h : b.slice lo hi = some s) :
    0 ≤ lo ∧ lo ≤ hi ∧ hi ≤ b.len ∧ s.len = (hi - lo).toNat ∧
      ∀ i, i < s.len → s.get i = b.get (lo.toNat + i) := by
  obtain ⟨h0, h1, h2, _⟩ := slice_len h
  obtain ⟨s1, e1, e2, e3⟩ := Bytes.slice_eq b lo hi h0 h1 h2
  rw [h] at e1
  cases e1
  exact ⟨h0, h1, h2, e2, e3⟩

theorem putChunk_noerr {β : Type} {E : Env} {S : ObjectStorage β} (hS : NoPutFails S)
    (c : ChunkWriter) (wd : World β) (body : Bytes) :
    (ChunkWriter.putChunk E S c wd body).1 = none := by
  unfold ChunkWriter.putChunk
  by_cases hd : (ChunkWriter.checkDuplicate E S c wd (E.Sum256 body)).1 = true
  · rw [if_pos hd]
  · rw [if_neg hd]
    exact hS _ _ _ _

theorem prepare_ok {c : ChunkWriter} (hc : CodecOK c.compress) (data : Bytes) :
    ∃ body cs, c.prepare data = some (.ok (body, cs)) ∧
      (c.compress = none → body = data ∧ cs = data.len) := by
  unfold ChunkWriter.prepare
  cases hcmp : c.compress with
  | none => exact ⟨_, _, rfl, fun _ => ⟨rfl, rfl⟩⟩
  | some cd =>
    obtain ⟨d, hd⟩ := hc cd hcmp data
    simp only [hd]
    exact ⟨_, _, rfl, fun h => by cases h⟩

theorem doFixedUpload_spec {β : Type} {E : Env} {S : ObjectStorage β} (hS : NoPutFails S)
    {c : ChunkWriter} (hc : CodecOK c.compress) {recs : List ChunkMeta} {m0 : ChunkMeta}
    (hm : c.ChunkMetas = recs ++ [m0]) (hl : recs.length = c.index) (wd : World β) :
    ∃ (cs : Int) (wd1 : World β), (c.compress = none → cs = (c.chunkBuf.len : Int)) ∧
      c.doFixedUpload E S wd = some (none, { c with
      ChunkMetas := recs ++ [{ m0 with End := c.offset, CompressSize := cs }] ++
        [{ Index := (c.index + 1 : Nat), Start := c.offset, End := 0, CompressSize := 0 }]
      index := c.index + 1, length := 0 }, wd1) := by
  obtain ⟨body, cs, hp, hcs⟩ := prepare_ok hc c.chunkBuf
  unfold ChunkWriter.doFixedUpload
  rw [hp]
  simp only []
  have hput := putChunk_noerr (E := E) hS c wd body
  cases hpc : ChunkWriter.putChunk E S c wd body with
  | mk e wd1 =>
    rw [hpc] at hput
    simp only at hput
    subst hput
    simp only []
    rw [commit_spec hm hl]
    exact ⟨cs, wd1, fun h => (hcs h).2, rfl⟩

theorem fixedCap_eq : ChunkCacheFixedSize = 8388608 := rfl

theorem fixedCapN_eq : ChunkCacheFixedSize.toNat = 8388608 := rfl

theorem fixedLit_eq : Int.toNat 8388608 = 8388608 := rfl

theorem fixed_range_succ (n : Nat) :
    (List.range (n + 1)).map fixedRange = (List.range n).map fixedRange ++ [fixedRange n] := by
  rw [List.range_succ, List.map_append]
  rfl

theorem uploadOrFail_of_fixed {β : Type} {E : Env} {S : ObjectStorage β} {c c1 : ChunkWriter}
    {wd wd1 : World β} (hfx : c.isFixed = true)
    (h : c.doFixedUpload E S wd = some (none, c1, wd1)) :
    c.uploadOrFail E S wd = some (none, c1, wd1) := by
  unfold ChunkWriter.uploadOrFail ChunkWriter.dispatchUpload
  rw [if_pos hfx, h]

theorem upload_full_spec {β : Type} {E : Env} {S : ObjectStorage β}
    {W : String → Option Codec → Nat → Bytes → World β → Prop}
    (hS : NoPutFails S) (hU : UploadSpec E S W) {c : ChunkWriter} {B : Bytes} (wd : World β)
    (hfx : c.isFixed = true) (hbl : c.chunkBuf.len = ChunkCacheFixedSize.toNat)
    (hlen : c.length = ChunkCacheFixedSize)
    (hst : c.offset = ((c.index : Int) + 1) * ChunkCacheFixedSize)
    (hm : ∃ recs, c.ChunkMetas = recs ++ [⟨c.index, c.index * ChunkCacheFixedSize, 0, 0⟩] ∧
      recs.map ChunkMeta.range = (List.range c.index).map fixedRange ∧
      (c.compress = none → ∀ m ∈ recs, m.CompressSize = ChunkCacheFixedSize))
    (hct : ∀ i : Nat, (i : Int) < c.length →
      c.chunkBuf.get i = B.get (c.index * ChunkCacheFixedSize.toNat + i))
    (hB : (c.index : Int) * ChunkCacheFixedSize + c.length ≤ B.len)
    (hc : CodecOK c.compress) (hW : W c.key c.compress c.index B wd) :
    ∃ c1 wd1, c.uploadOrFail E S wd = some (none, c1, wd1) ∧ c1.isFixed = true ∧
      c1.isError = c.isError ∧ c1.chunkBuf = c.chunkBuf ∧ c1.offset = c.offset ∧
      c1.length = 0 ∧ c1.index = c.index + 1 ∧ c1.key = c.key ∧ c1.compress = c.compress ∧
      c1.jobs = c.jobs ∧
      (∃ recs, c1.ChunkMetas = recs ++ [⟨c1.index, c1.index * ChunkCacheFixedSize, 0, 0⟩] ∧
        recs.map ChunkMeta.range = (List.range c1.index).map fixedRange ∧
        (c1.compress = none → ∀ m ∈ recs, m.CompressSize = ChunkCacheFixedSize)) ∧
      W c1.key c1.compress c1.index B wd1 := by
  have hcap : (0 : Int) < ChunkCacheFixedSize := by decide
  obtain ⟨recs, hm1, hm2, hm3⟩ := hm
  have hl : recs.length = c.index := by
    have := congrArg List.length hm2
    simpa using this
  obtain ⟨cs, wd1, hcs, hup⟩ := doFixedUpload_spec (E := E) hS hc hm1 hl wd
  have hW1 := hU.upload c wd _ wd1 B hfx hbl (by omega) (by omega) hct hB (Or.inl hlen) hW hup
  have hu := uploadOrFail_of_fixed hfx hup
  refine ⟨_, wd1, hu, hfx, rfl, rfl, rfl, rfl, rfl, rfl, rfl, rfl, ?_, hW1⟩
  · refine ⟨recs ++ [⟨c.index, c.index * ChunkCacheFixedSize, c.offset, cs⟩], ?_, ?_, ?_⟩
    · show recs ++ [_] ++ [_] = recs ++ [_] ++ [_]
      congr 2
      rw [hst]
      push_cast
      rfl
    · show List.map ChunkMeta.range (recs ++ [_]) = (List.range (c.index + 1)).map _
      rw [fixed_range_succ, List.map_append, hm2, hst]
      rfl
    · intro hn m hmem
      rcases List.mem_append.mp hmem with h1 | h1
      · exact hm3 hn m h1
      · rw [List.mem_singleton] at h1
        rw [h1]
        show cs = ChunkCacheFixedSize
        rw [hcs hn, hbl]
        rfl

theorem FInv_recs_length {c : ChunkWriter} {recs : List ChunkMeta}
    (h : recs.map ChunkMeta.range = (List.range c.index).map fixedRange) :
    recs.length = c.index := by
  have := congrArg List.length h
  simpa using this

theorem dispatchJob_fixed_spec {β : Type} {E : Env} {S : ObjectStorage β}
    {W : String → Option Codec → Nat → Bytes → World β → Prop}
    (hS : NoPutFails S) (hU : UploadSpec E S W) {c : ChunkWriter} {done : List Bytes}
    {wd : World β} {buf : Bytes} (hI : FInv c done)
    (hW : W c.key c.compress c.index (Bytes.join done) wd)
    (hb : (buf.len : Int) ≤ ChunkCacheFixedSize) :
    ∃ c1 wd1, c.dispatchJob E S wd buf = some (none, c1, wd1) ∧ FInv c1 (done ++ [buf]) ∧
      W c1.key c1.compress c1.index (Bytes.join (done ++ [buf])) wd1 := by
  obtain ⟨hfx, herr, hbl, hl0, hlt, hoff, hst, hm, hjobs, hct, hcodec⟩ := hI
  have hjl : (Bytes.join (done ++ [buf])).len = (Bytes.join done).len + buf.len :=
    Bytes.len_join_snoc done buf
  have hget : ∀ k : Nat, (Bytes.join (done ++ [buf])).get k =
      if k < (Bytes.join done).len then (Bytes.join done).get k
      else buf.get (k - (Bytes.join done).len) := by
    intro k
    rw [Bytes.join_snoc, Bytes.get_append]
  have hWm : W c.key c.compress c.index (Bytes.join (done ++ [buf])) wd := by
    rw [Bytes.join_snoc]
    exact hU.mono _ _ _ _ _ _ hW (by omega)
  unfold ChunkWriter.dispatchJob
  rw [if_pos hfx]
  unfold ChunkWriter.doFixedJob
  simp only []
  by_cases h1 : (buf.len : Int) + c.length ≤ ChunkCacheFixedSize
  · rw [if_pos h1]
    obtain ⟨b1, hb1⟩ := copyInto_ok c.chunkBuf buf hl0
      (by omega : c.length ≤ c.length + buf.len) (by rw [hbl]; omega)
    obtain ⟨_, _, _, hb1l, hb1g⟩ := copyInto_some hb1
    rw [hb1]
    simp only []
    have hmin : min (c.length + buf.len - c.length).toNat buf.len = buf.len := by
      have : c.length + buf.len - c.length = buf.len := by omega
      rw [this]; simp
    have hct1 : ∀ i : Nat, (i : Int) < c.length + buf.len →
        b1.get i = (Bytes.join (done ++ [buf])).get (c.index * ChunkCacheFixedSize.toNat + i) := by
      intro i hi
      rw [hb1g i, hmin, hget]
      by_cases hi2 : (i : Int) < c.length
      · rw [if_neg (by omega), if_pos (by (simp only [fixedCapN_eq, fixedCap_eq, fixedLit_eq] at *; omega))]
        exact hct i hi2
      · rw [if_pos (by omega), if_neg (by (simp only [fixedCapN_eq, fixedCap_eq, fixedLit_eq] at *; omega))]
        congr 1
        (simp only [fixedCapN_eq, fixedCap_eq, fixedLit_eq] at *; omega)
    by_cases h2 : c.length + buf.len = ChunkCacheFixedSize
    · rw [if_pos h2]
      obtain ⟨c1, wd1, hu, g1, g2, g3, g4, g5, g6, g7, g8, g9, g10, g11⟩ :=
        upload_full_spec (E := E) hS hU
          (c := { c with jobs := c.jobs ++ [buf], chunkBuf := b1, offset := c.offset + buf.len, length := c.length + buf.len })
          (B := Bytes.join (done ++ [buf])) wd
          hfx (hb1l.trans hbl) h2 (by show c.offset + buf.len = _; (simp only [fixedCapN_eq, fixedCap_eq, fixedLit_eq] at *; omega)) hm hct1
          (by show (c.index : Int) * ChunkCacheFixedSize + (c.length + buf.len) ≤ _; omega)
          hcodec hWm
      refine ⟨c1, wd1, hu, ?_, g11⟩
      refine ⟨g1, g2.trans herr, by rw [g3]; exact hb1l.trans hbl, by omega, by omega, ?_, ?_,
        g10, by rw [g9, ← hjobs], ?_, by rw [g8]; exact hcodec⟩
      · rw [g4, hjl]
        show c.offset + buf.len = _
        omega
      · rw [g4, g5, g6]
        show c.offset + buf.len - 0 = _
        push_cast
        (simp only [fixedCapN_eq, fixedCap_eq, fixedLit_eq] at *; omega)
      · intro i hi
        omega
    · rw [if_neg h2]
      refine ⟨_, wd, rfl, ?_, hWm⟩
      refine ⟨hfx, herr, hb1l.trans hbl, ?_, ?_, ?_, ?_, hm, by show c.jobs ++ [buf] = _; rw [hjobs],
        hct1, hcodec⟩
      · show 0 ≤ c.length + buf.len
        omega
      · show c.length + buf.len < ChunkCacheFixedSize
        omega
      · show c.offset + buf.len = _
        rw [hjl]; omega
      · show c.offset + buf.len - (c.length + buf.len) = _
        (simp only [fixedCapN_eq, fixedCap_eq, fixedLit_eq] at *; omega)
  · rw [if_neg h1]
    obtain ⟨front, hfr, hfl, hfg⟩ := Bytes.slice_eq buf 0 (ChunkCacheFixedSize - c.length)
      (le_refl _) (by omega) (by omega)
    obtain ⟨back, hbk, hbkl, hbkg⟩ := Bytes.slice_eq buf (ChunkCacheFixedSize - c.length) buf.len
      (by omega) (by omega) (le_refl _)
    rw [hfr, hbk]
    simp only []
    obtain ⟨b1, hb1⟩ := copyInto_ok c.chunkBuf front hl0
      (by omega : c.length ≤ ChunkCacheFixedSize) (by rw [hbl]; omega)
    obtain ⟨_, _, _, hb1l, hb1g⟩ := copyInto_some hb1
    rw [hb1]
    simp only []
    have hmin : min (ChunkCacheFixedSize - c.length).toNat front.len = front.len := by
      rw [hfl]; simp
    have hct1 : ∀ i : Nat, (i : Int) < c.length + (ChunkCacheFixedSize - c.length) →
        b1.get i = (Bytes.join (done ++ [buf])).get (c.index * ChunkCacheFixedSize.toNat + i) := by
      intro i hi
      rw [hb1g i, hmin, hget]
      by_cases hi2 : (i : Int) < c.length
      · rw [if_neg (by omega), if_pos (by (simp only [fixedCapN_eq, fixedCap_eq, fixedLit_eq] at *; omega))]
        exact hct i hi2
      · rw [if_pos (by omega), if_neg (by (simp only [fixedCapN_eq, fixedCap_eq, fixedLit_eq] at *; omega)), hfg _ (by omega)]
        congr 1
        (simp only [fixedCapN_eq, fixedCap_eq, fixedLit_eq] at *; omega)
    obtain ⟨c1, wd1, hu, g1, g2, g3, g4, g5, g6, g7, g8, g9, g10, g11⟩ :=
      upload_full_spec (E := E) hS hU
        (c := { c with jobs := c.jobs ++ [buf], chunkBuf := b1, offset := c.offset + (ChunkCacheFixedSize - c.length), length := c.length + (ChunkCacheFixedSize - c.length) })
        (B := Bytes.join (done ++ [buf])) wd
        hfx (hb1l.trans hbl) (by show c.length + (ChunkCacheFixedSize - c.length) = _; omega)
        (by show c.offset + (ChunkCacheFixedSize - c.length) = _; (simp only [fixedCapN_eq, fixedCap_eq, fixedLit_eq] at *; omega)) hm hct1
        (by
          show (c.index : Int) * ChunkCacheFixedSize +
            (c.length + (ChunkCacheFixedSize - c.length)) ≤ _
          omega)
        hcodec hWm
    rw [hu, andThen_ok]
    have g3' : c1.chunkBuf.len = ChunkCacheFixedSize.toNat := by rw [g3]; exact hb1l.trans hbl
    obtain ⟨b2, hb2⟩ := copyInto_ok c1.chunkBuf back (le_of_eq g5.symm)
      (by rw [g5]; omega : c1.length ≤ buf.len - (ChunkCacheFixedSize - c.length))
      (by rw [g3']; omega)
    obtain ⟨_, _, _, hb2l, hb2g⟩ := copyInto_some hb2
    rw [hb2]
    refine ⟨_, wd1, rfl, ?_, g11⟩
    have hmin2 : min (buf.len - (ChunkCacheFixedSize - c.length) - c1.length).toNat back.len =
        back.len := by
      rw [g5, hbkl]; simp
    refine ⟨g1, g2.trans herr, hb2l.trans g3', ?_, ?_, ?_, ?_, g10, by rw [← hjobs]; exact g9,
      ?_, by rw [g8]; exact hcodec⟩
    · show 0 ≤ c1.length + (buf.len - (ChunkCacheFixedSize - c.length))
      omega
    · show c1.length + (buf.len - (ChunkCacheFixedSize - c.length)) < ChunkCacheFixedSize
      omega
    · show c1.offset + (buf.len - (ChunkCacheFixedSize - c.length)) = _
      rw [g4, hjl]
      show c.offset + (ChunkCacheFixedSize - c.length) +
        (buf.len - (ChunkCacheFixedSize - c.length)) = _
      omega
    · show c1.offset + (buf.len - (ChunkCacheFixedSize - c.length)) -
        (c1.length + (buf.len - (ChunkCacheFixedSize - c.length))) = _
      rw [g4, g5, g6]
      show c.offset + (ChunkCacheFixedSize - c.length) +
        (buf.len - (ChunkCacheFixedSize - c.length)) -
        (0 + (buf.len - (ChunkCacheFixedSize - c.length))) = _
      push_cast
      (simp only [fixedCapN_eq, fixedCap_eq, fixedLit_eq] at *; omega)
    · intro i hi
      have hi' : (i : Int) < c1.length + (buf.len - (ChunkCacheFixedSize - c.length)) := hi
      show b2.get i = _
      rw [hb2g i, hmin2, hget, g6]
      have hl5 : c1.length.toNat = 0 := by rw [g5]; rfl
      rw [hl5, if_pos (by omega), if_neg (by (simp only [fixedCapN_eq, fixedCap_eq, fixedLit_eq] at *; omega)), hbkg _ (by omega)]
      congr 1
      (simp only [fixedCapN_eq, fixedCap_eq, fixedLit_eq] at *; omega)

/-! ## Dynamic-mode chunk writer: every job succeeds -/

theorem commit_ok {c : ChunkWriter} (h : c.index < c.ChunkMetas.length) (pos cs : Int) :
    ∃ c1, c.commit pos cs = some c1 ∧ c1.index < c1.ChunkMetas.length := by
  unfold ChunkWriter.commit
  have hg : c.ChunkMetas.get? c.index = some (c.ChunkMetas.get ⟨c.index, h⟩) :=
    List.get?_eq_get h
  rw [hg]
  refine ⟨_, rfl, ?_⟩
  show c.index + 1 < (c.ChunkMetas.set c.index _ ++ [_]).length
  simp only [List.length_append, List.length_set, List.length_singleton]
  omega

theorem dynLoop_total {β : Type} {E : Env} {S : ObjectStorage β} (hS : NoPutFails S)
    (chunks : List Bytes) : ∀ (tmpOff : Int) (c : ChunkWriter) (wd : World β),
      CodecOK c.compress → c.index < c.ChunkMetas.length →
      ∃ c1 wd1, ChunkWriter.dynLoop E S chunks tmpOff c wd = some (none, c1, wd1) ∧
        c1.index < c1.ChunkMetas.length := by
  induction chunks with
  | nil =>
    intro tmpOff c wd _ hi
    exact ⟨c, wd, rfl, hi⟩
  | cons ch rest ih =>
    intro tmpOff c wd hc hi
    obtain ⟨body, cs, hp, _⟩ := prepare_ok hc ch
    simp only [ChunkWriter.dynLoop, hp]
    have hput := putChunk_noerr (E := E) hS c wd body
    cases hpc : ChunkWriter.putChunk E S c wd body with
    | mk e wd1 =>
      rw [hpc] at hput
      simp only at hput
      subst hput
      simp only []
      obtain ⟨c1, hcm, hi1⟩ := commit_ok hi (tmpOff + ch.len) cs
      rw [hcm]
      simp only []
      have hc1 : CodecOK c1.compress := by
        rw [(commit_frame hcm).2.2.1]; exact hc
      exact ih (tmpOff + ch.len) c1 wd1 hc1 hi1

theorem doDynamicUpload_total {β : Type} {E : Env} {S : ObjectStorage β} (hS : NoPutFails S)
    {c : ChunkWriter} (wd : World β) (hc : CodecOK c.compress)
    (hi : c.index < c.ChunkMetas.length) (hl0 : 0 ≤ c.length) (hl : c.length ≤ c.chunkBuf.len) :
    ∃ c1 wd1, c.doDynamicUpload E S wd = some (none, c1, wd1) ∧
      c1.index < c1.ChunkMetas.length ∧ c1.length = 0 := by
  unfold ChunkWriter.doDynamicUpload
  rw [Bytes.slice_zero hl0 hl]
  simp only []
  obtain ⟨c1, wd1, h1, h2⟩ := dynLoop_total (E := E) hS
    (E.chunks (Bytes.take c.length.toNat c.chunkBuf)) (c.offset - c.length) c wd hc hi
  rw [h1, andThen_ok]
  exact ⟨_, wd1, rfl, h2, rfl⟩

theorem dispatchJob_dyn_spec {β : Type} {E : Env} {S : ObjectStorage β} (hS : NoPutFails S)
    {c : ChunkWriter} {done : List Bytes} (wd : World β) {buf : Bytes} (hI : DInv c done)
    (hb : (buf.len : Int) ≤ ChunkCacheDynamicSize) :
    ∃ c1 wd1, c.dispatchJob E S wd buf = some (none, c1, wd1) ∧ DInv c1 (done ++ [buf]) := by
  obtain ⟨hdy, herr, hbl, hl0, hle, hoff, hidx, hjobs, hcodec⟩ := hI
  have hcapN : ((ChunkCacheDynamicSize.toNat : Nat) : Int) = ChunkCacheDynamicSize := rfl
  have hjl : (Bytes.join (done ++ [buf])).len = (Bytes.join done).len + buf.len :=
    Bytes.len_join_snoc done buf
  unfold ChunkWriter.dispatchJob
  rw [if_neg (by rw [hdy]; decide)]
  unfold ChunkWriter.doDynamicJob
  simp only []
  by_cases h1 : (buf.len : Int) + c.length > ChunkCacheDynamicSize
  · rw [if_pos h1]
    unfold ChunkWriter.dispatchUpload
    simp only []
    rw [if_neg (by rw [hdy]; decide)]
    obtain ⟨c1, wd1, hu, hi1, hl1⟩ := doDynamicUpload_total (E := E) hS
      (c := { c with jobs := c.jobs ++ [buf] }) wd hcodec hidx hl0 (by rw [hbl, hcapN]; exact hle)
    obtain ⟨f1, f2, f3, f4, f5, f6, f7, f8⟩ := doDynamicUpload_frame hu
    rw [hu]
    simp only [andThen_ok]
    obtain ⟨b1, hb1⟩ := copyInto_ok c1.chunkBuf buf (le_of_eq hl1.symm)
      (by omega : c1.length ≤ c1.length + buf.len)
      (by rw [f6]; show c1.length + (buf.len : Int) ≤ (c.chunkBuf.len : Int)
          rw [hbl, hcapN]; omega)
    obtain ⟨_, _, _, hb1l, _⟩ := copyInto_some hb1
    rw [hb1]
    refine ⟨_, wd1, rfl, ?_⟩
    refine ⟨f2.trans hdy, f8.trans herr, ?_, ?_, ?_, ?_, hi1, ?_, by rw [f3]; exact hcodec⟩
    · show b1.len = _
      rw [hb1l, f6]; exact hbl
    · show 0 ≤ c1.length + buf.len
      omega
    · show c1.length + buf.len ≤ ChunkCacheDynamicSize
      omega
    · show c1.offset + buf.len = _
      rw [f7, hjl]
      show c.offset + buf.len = _
      omega
    · show c1.jobs = _
      rw [f5, ← hjobs]
  · rw [if_neg h1, andThen_ok]
    obtain ⟨b1, hb1⟩ := copyInto_ok c.chunkBuf buf hl0
      (by omega : c.length ≤ c.length + buf.len) (by rw [hbl, hcapN]; omega)
    obtain ⟨_, _, _, hb1l, _⟩ := copyInto_some hb1
    simp only []
    rw [hb1]
    refine ⟨_, wd, rfl, ?_⟩
    refine ⟨hdy, herr, hb1l.trans hbl, ?_, ?_, ?_, hidx, by show c.jobs ++ [buf] = _; rw [hjobs],
      hcodec⟩
    · show 0 ≤ c.length + buf.len
      omega
    · show c.length + buf.len ≤ ChunkCacheDynamicSize
      omega
    · show c.offset + buf.len = _
      rw [hjl]; omega

/-! ## The two modes as sinks of the reassembly argument -/

theorem fixed_sink {β : Type} {E : Env} {S : ObjectStorage β}
    {W : String → Option Codec → Nat → Bytes → World β → Prop}
    (hS : NoPutFails S) (hU : UploadSpec E S W) :
    Sink E S (fun c wd done => FInv c done ∧ W c.key c.compress c.index (Bytes.join done) wd)
      (fun buf => (buf.len : Int) ≤ ChunkCacheFixedSize) True where
  off := fun _ _ _ h => ⟨h.1.off, h.1.err⟩
  ext := fun _ _ _ _ h =>
    ⟨⟨h.1.fixed, h.1.err, h.1.buflen, h.1.len0, h.1.lenlt, h.1.off, h.1.start, h.1.metas,
      h.1.jobs, h.1.content, h.1.codec⟩, h.2⟩
  step := fun c wd done buf c1 wd1 h _ hb hj => by
    obtain ⟨c2, wd2, h2, g1, g2⟩ := dispatchJob_fixed_spec hS hU h.1 h.2 hb
    rw [hj] at h2
    simp only [Option.some.injEq, Prod.mk.injEq, true_and] at h2
    obtain ⟨e1, e2⟩ := h2
    subst e1 e2
    exact ⟨g1, g2⟩
  total := fun _ c wd done buf h _ hb => by
    obtain ⟨c2, wd2, h2, _, _⟩ := dispatchJob_fixed_spec hS hU h.1 h.2 hb
    exact ⟨c2, wd2, h2⟩

theorem dynamic_sink {β : Type} {E : Env} {S : ObjectStorage β} (hS : NoPutFails S) :
    Sink E S (fun c _ done => DInv c done)
      (fun buf => (buf.len : Int) ≤ ChunkCacheDynamicSize) True where
  off := fun _ _ _ h => ⟨h.off, h.err⟩
  ext := fun _ _ _ _ h =>
    ⟨h.dynamic, h.err, h.buflen, h.len0, h.lenle, h.off, h.index, h.jobs, h.codec⟩
  step := fun c wd done buf c1 wd1 h _ hb hj => by
    obtain ⟨c2, wd2, h2, g1⟩ := dispatchJob_dyn_spec (E := E) hS wd h hb
    rw [hj] at h2
    simp only [Option.some.injEq, Prod.mk.injEq, true_and] at h2
    obtain ⟨e1, e2⟩ := h2
    subst e1
    exact g1
  total := fun _ c wd done buf h _ hb => by
    obtain ⟨c2, wd2, h2, _⟩ := dispatchJob_dyn_spec (E := E) hS wd h hb
    exact ⟨c2, wd2, h2⟩

theorem trivial_uploadSpec {β : Type} (E : Env) (S : ObjectStorage β) :
    UploadSpec E S (fun _ _ _ _ _ => True) :=
  ⟨fun _ _ _ _ _ _ _ _ => trivial, fun _ _ _ _ _ _ _ _ _ _ _ _ _ _ => trivial⟩

/-! ## `Flush` of the chunk writer when every job succeeds -/

theorem putManifest_ok {β : Type} {E : Env} {S : ObjectStorage β} (hP : NoPutFails S)
    (c : ChunkWriter) (wd : World β) :
    c.putManifest E S wd = some (none, c,
      (wd.Put S (c.key ++ "/.meta") [("aa", "bb")] (E.Marshal c.ChunkMetas)).2) := by
  unfold ChunkWriter.putManifest
  have : (wd.Put S (c.key ++ "/.meta") [("aa", "bb")] (E.Marshal c.ChunkMetas)).1 = none :=
    hP _ _ _ _
  rw [this]

theorem chunk_Flush_spec {β : Type} {E : Env} {S : ObjectStorage β}
    {Good : ChunkWriter → World β → List Bytes → Prop} {Ok : Bytes → Prop} {Tot : Prop}
    (hS : Sink E S Good Ok Tot) (hT : Tot) (hP : NoPutFails S) {c : ChunkWriter} {wd : World β}
    {acc rest : List Bytes} (hG : Good c wd acc) (hrest : ∀ s ∈ rest, 0 < s.len ∧ Ok s)
    (hperm : (c.extras.map ExtraCache.toPair).Perm (chain (Bytes.join acc).len rest))
    (hL : ∀ c3 wd3, Good c3 wd3 (acc ++ rest) →
      ∃ c4 wd4, c3.lastUpload E S wd3 = some (none, c4, wd4)) :
    ∃ c2 wd2, c.Flush E S wd = some (none, c2, wd2) ∧
      ((c.length = 0 ∧ c.extras = [] ∧ rest = [] ∧ c2 = c ∧ wd2 = wd) ∨
       (∃ c3 wd3 wd4, Good c3 wd3 (acc ++ rest) ∧ c3.extras = [] ∧
          c3.lastUpload E S wd3 = some (none, c2, wd4) ∧
          wd2 = (wd4.Put S (c2.key ++ "/.meta") [("aa", "bb")] (E.Marshal c2.ChunkMetas)).2)) := by
  unfold ChunkWriter.Flush
  rw [if_neg (by rw [(hS.off c wd acc hG).2]; decide)]
  by_cases hearly : c.length = 0 ∧ c.extras.length = 0
  · rw [if_pos hearly]
    have hen : c.extras = [] := List.length_eq_zero.mp hearly.2
    rw [hen] at hperm
    have hrn : rest = [] := by
      cases rest with
      | nil => rfl
      | cons t ts => exact absurd hperm.length_eq (by simp [chain])
    exact ⟨c, wd, rfl, Or.inl ⟨hearly.1, hen, hrn, rfl, rfl⟩⟩
  · rw [if_neg hearly]
    obtain ⟨d1, d2⟩ := chunk_finalDrain_spec hS hG hrest hperm
    obtain ⟨c3, wd3, hd⟩ := d1 hT
    obtain ⟨hG3, he3⟩ := d2 c3 wd3 hd
    obtain ⟨c4, wd4, hl⟩ := hL c3 wd3 hG3
    rw [hd, andThen_ok, hl, andThen_ok, putManifest_ok hP]
    exact ⟨_, _, rfl, Or.inr ⟨c3, wd3, wd4, hG3, he3, hl, rfl⟩⟩

theorem chunk_run_spec {β : Type} {E : Env} {S : ObjectStorage β}
    {Good : ChunkWriter → World β → List Bytes → Prop} {Ok : Bytes → Prop} {Tot : Prop}
    (hS : Sink E S Good Ok Tot) (hT : Tot) (hP : NoPutFails S) (c : ChunkWriter) (wd : World β)
    {segs : List Bytes} {ws : List (Int × Bytes)} (hG : Good c wd [])
    (hc : c.extras = []) (hseg : ∀ s ∈ segs, 0 < s.len ∧ Ok s) (hperm : ws.Perm (chain 0 segs))
    (hL : ∀ c3 wd3, Good c3 wd3 segs →
      ∃ c4 wd4, c3.lastUpload E S wd3 = some (none, c4, wd4)) :
    ∃ c2 wd2, ChunkWriter.run E S ws c wd =
        some ((ws.map (fun x => ((x.2.len : Int), none)), none), c2, wd2) ∧
      ((c2.length = 0 ∧ c2.extras = [] ∧ Good c2 wd2 segs) ∨
       (∃ c3 wd3 wd4, Good c3 wd3 segs ∧ c3.extras = [] ∧
          c3.lastUpload E S wd3 = some (none, c2, wd4) ∧
          wd2 = (wd4.Put S (c2.key ++ "/.meta") [("aa", "bb")] (E.Marshal c2.ChunkMetas)).2)) := by
  have h0 : (c.extras.map ExtraCache.toPair ++ ws).Perm (chain (Bytes.join []).len segs) := by
    rw [hc]
    simpa [Bytes.join] using hperm
  obtain ⟨w1, w2⟩ := chunk_writeAll_spec hS ws c wd [] segs hG hseg h0
  obtain ⟨c1, wd1, hw⟩ := w1 hT
  obtain ⟨acc1, rest1, hG1, hsplit, hr1, hp1⟩ := w2 _ c1 wd1 hw (by
    intro r hr
    obtain ⟨x, _, hx⟩ := List.mem_map.mp hr
    rw [← hx])
  rw [List.nil_append] at hsplit
  obtain ⟨c2, wd2, hf, hcase⟩ := chunk_Flush_spec hS hT hP hG1 hr1 hp1 (by
    rw [← hsplit]; exact hL)
  refine ⟨c2, wd2, ?_, ?_⟩
  · unfold ChunkWriter.run
    rw [hw]
    simp only []
    rw [hf]
  · rcases hcase with ⟨g1, g2, g3, g4, g5⟩ | ⟨c3, wd3, wd4, g1, g2, g3, g4⟩
    · subst g3 g4 g5
      rw [List.append_nil] at hsplit
      subst hsplit
      exact Or.inl ⟨g1, g2, hG1⟩
    · rw [← hsplit] at g1
      exact Or.inr ⟨c3, wd3, wd4, g1, g2, g3, g4⟩

/-! ### Dynamic mode -/

theorem DInv_fresh (key : String) (cmp : Option Codec) (hc : CodecOK cmp) :
    DInv (NewChunkWriter key cmp false) [] :=
  ⟨rfl, rfl, rfl, le_refl _, (by decide : (0 : Int) ≤ ChunkCacheDynamicSize), rfl,
    (by decide : 0 < 1), rfl, hc⟩

theorem lastUpload_dyn_spec {β : Type} {E : Env} {S : ObjectStorage β} (hP : NoPutFails S)
    {c : ChunkWriter} {done : List Bytes} (hI : DInv c done) (wd : World β) :
    ∃ c1 wd1, c.lastUpload E S wd = some (none, c1, wd1) ∧ c1.jobs = c.jobs ∧
      c1.extras = c.extras := by
  unfold ChunkWriter.lastUpload
  by_cases hp : c.length > 0
  · rw [if_pos hp]
    unfold ChunkWriter.dispatchUpload
    rw [if_neg (by rw [hI.dynamic]; decide)]
    have hcapN : ((ChunkCacheDynamicSize.toNat : Nat) : Int) = ChunkCacheDynamicSize := rfl
    obtain ⟨c1, wd1, hu, _, _⟩ := doDynamicUpload_total (E := E) hP wd hI.codec hI.index hI.len0
      (by rw [hI.buflen, hcapN]; exact hI.lenle)
    obtain ⟨_, _, _, f4, f5, _⟩ := doDynamicUpload_frame hu
    rw [hu]
    exact ⟨c1, wd1, rfl, f5, f4⟩
  · rw [if_neg hp]
    exact ⟨c, wd, rfl, rfl, rfl⟩

theorem lastUpload_frame {β : Type} {E : Env} {S : ObjectStorage β} {c c1 : ChunkWriter}
    {wd wd1 : World β} {e : Error} (h : c.lastUpload E S wd = some (e, c1, wd1)) :
    c1.key = c.key ∧ c1.isFixed = c.isFixed ∧ c1.compress = c.compress ∧
      c1.extras = c.extras ∧ c1.jobs = c.jobs ∧ c1.chunkBuf = c.chunkBuf ∧
      c1.offset = c.offset := by
  unfold ChunkWriter.lastUpload at h
  by_cases hp : c.length > 0
  · rw [if_pos hp] at h
    cases hd : c.dispatchUpload E S wd with
    | none => rw [hd] at h; cases h
    | some x =>
      obtain ⟨e1, c2, wd2⟩ := x
      rw [hd] at h
      have hfr := dispatchUpload_frame hd
      cases e1 with
      | some e2 => cases h; exact hfr
      | none => cases h; exact hfr
  · rw [if_neg hp] at h
    cases h
    exact ⟨rfl, rfl, rfl, rfl, rfl, rfl, rfl⟩

/-! ### Fixed mode -/

theorem FInv_fresh (key : String) (cmp : Option Codec) (hc : CodecOK cmp) :
    FInv (NewChunkWriter key cmp true) [] :=
  { fixed := rfl
    err := rfl
    buflen := rfl
    len0 := le_refl _
    lenlt := (by decide : (0 : Int) < ChunkCacheFixedSize)
    off := rfl
    start := by
      show (0 : Int) - 0 = ((0 : Nat) : Int) * ChunkCacheFixedSize
      simp
    metas := ⟨[], by
      show [(⟨0, 0, 0, 0⟩ : ChunkMeta)] =
        [] ++ [⟨((0 : Nat) : Int), ((0 : Nat) : Int) * ChunkCacheFixedSize, 0, 0⟩]
      simp, rfl, fun _ m hm => by cases hm⟩
    jobs := rfl
    content := fun i hi => by
      have h0 : (i : Int) < 0 := hi
      omega
    codec := hc }

theorem lastUpload_of_fixed {β : Type} {E : Env} {S : ObjectStorage β} {c c1 : ChunkWriter}
    {wd wd1 : World β} (hfx : c.isFixed = true) (hp : c.length > 0)
    (h : c.doFixedUpload E S wd = some (none, c1, wd1)) :
    c.lastUpload E S wd = some (none, c1, wd1) := by
  unfold ChunkWriter.lastUpload ChunkWriter.dispatchUpload
  rw [if_pos hp, if_pos hfx, h]

theorem fixedCount_full (k : Nat) : fixedCount (k * 8388608) = k := by
  unfold fixedCount
  rw [fixedCapN_eq]
  omega

theorem fixedCount_part (k l : Nat) (h0 : 0 < l) (h1 : l < 8388608) :
    fixedCount (k * 8388608 + l) = k + 1 := by
  unfold fixedCount
  rw [fixedCapN_eq]
  omega

theorem fixedRange_eq_bound (k n : Nat) (h : k * 8388608 ≤ n) :
    (List.range k).map fixedRange = (List.range k).map (fixedBound n) := by
  apply List.map_congr_left
  intro i hi
  have hi1 := List.mem_range.mp hi
  unfold fixedRange fixedBound
  rw [fixedCap_eq]
  have : ((i : Int) + 1) * 8388608 ≤ (n : Int) := by omega
  rw [min_eq_left this]

theorem fixedBound_last (k l : Nat) (h1 : l < 8388608) :
    fixedBound (k * 8388608 + l) k =
      ((k : Int), (k : Int) * ChunkCacheFixedSize, ((k * 8388608 + l : Nat) : Int)) := by
  unfold fixedBound
  rw [fixedCap_eq]
  have : ((k * 8388608 + l : Nat) : Int) ≤ ((k : Int) + 1) * 8388608 := by
    push_cast; omega
  rw [min_eq_right this]

theorem FInv_closed {c : ChunkWriter} {done : List Bytes} (hI : FInv c done)
    (hl : c.length = 0) :
    c.index = fixedCount (Bytes.join done).len ∧ FixedManifest c (Bytes.join done).len ∧
      (Bytes.join done).len = c.index * 8388608 := by
  obtain ⟨recs, hm1, hm2, hm3⟩ := hI.metas
  have hst := hI.start
  have hoff := hI.off
  rw [hl, sub_zero, fixedCap_eq] at hst
  have hN : (Bytes.join done).len = c.index * 8388608 := by
    have : ((Bytes.join done).len : Int) = (c.index : Int) * 8388608 := by rw [← hoff, hst]
    exact_mod_cast this
  have hK : fixedCount (Bytes.join done).len = c.index := by rw [hN, fixedCount_full]
  refine ⟨hK.symm, ⟨recs, ?_, ?_, hm3⟩, hN⟩
  · rw [hm1, hK, fixedCap_eq, ← hst, hoff]
  · rw [hm2, hK]
    exact fixedRange_eq_bound _ _ (le_of_eq hN.symm)

theorem lastUpload_fixed_spec {β : Type} {E : Env} {S : ObjectStorage β}
    {W : String → Option Codec → Nat → Bytes → World β → Prop}
    (hS : NoPutFails S) (hU : UploadSpec E S W) {c : ChunkWriter} {done : List Bytes}
    {wd : World β} (hI : FInv c done)
    (hW : W c.key c.compress c.index (Bytes.join done) wd) :
    ∃ c1 wd1, c.lastUpload E S wd = some (none, c1, wd1) ∧ c1.jobs = c.jobs ∧
      c1.extras = c.extras ∧ c1.key = c.key ∧ c1.compress = c.compress ∧
      FixedManifest c1 (Bytes.join done).len ∧
      W c.key c.compress (fixedCount (Bytes.join done).len) (Bytes.join done) wd1 := by
  by_cases hp : c.length > 0
  · obtain ⟨recs, hm1, hm2, hm3⟩ := hI.metas
    have hl := FInv_recs_length hm2
    obtain ⟨cs, wd1, hcs, hup⟩ := doFixedUpload_spec (E := E) hS hI.codec hm1 hl wd
    have hst := hI.start
    have hoff := hI.off
    have hlt := hI.lenlt
    rw [fixedCap_eq] at hst hlt
    have hN : (Bytes.join done).len = c.index * 8388608 + c.length.toNat := by
      have : ((Bytes.join done).len : Int) = (c.index : Int) * 8388608 + c.length := by
        rw [← hoff]; omega
      omega
    have hK : fixedCount (Bytes.join done).len = c.index + 1 := by
      rw [hN]; exact fixedCount_part _ _ (by omega) (by omega)
    have hW1 := hU.upload c wd _ wd1 (Bytes.join done) hI.fixed hI.buflen hp
      (le_of_lt hI.lenlt) hI.content (by rw [fixedCap_eq]; omega)
      (Or.inr (by rw [fixedCap_eq]; omega)) hW hup
    have hlu := lastUpload_of_fixed hI.fixed hp hup
    refine ⟨_, wd1, hlu, rfl, rfl, rfl, rfl, ?_, ?_⟩
    · refine ⟨recs ++ [⟨c.index, c.index * ChunkCacheFixedSize, c.offset, cs⟩], ?_, ?_, ?_⟩
      rotate_right
      · intro hn m hmem
        rcases List.mem_append.mp hmem with h1 | h1
        · exact hm3 hn m h1
        · rw [List.mem_singleton] at h1
          rw [h1]
          show cs = ChunkCacheFixedSize
          rw [hcs hn, hI.buflen]
          rfl
      · show recs ++ [_] ++ [_] = recs ++ [_] ++ [_]
        rw [hK, hoff]
      · rw [hK, List.range_succ, List.map_append, List.map_append, hm2,
          fixedRange_eq_bound c.index (Bytes.join done).len (by omega)]
        congr 1
        show [ChunkMeta.range _] = [fixedBound _ _]
        rw [hN, fixedBound_last _ _ (by omega), ← hN]
        show [((c.index : Int), (c.index : Int) * ChunkCacheFixedSize, c.offset)] = _
        rw [hoff]
    · rw [hK]; exact hW1
  · have hl : c.length = 0 := le_antisymm (not_lt.mp hp) hI.len0
    obtain ⟨hK, hM, _⟩ := FInv_closed hI hl
    refine ⟨c, wd, ?_, rfl, rfl, rfl, rfl, hM, ?_⟩
    · unfold ChunkWriter.lastUpload
      rw [if_neg hp]
    · rw [← hK]; exact hW

theorem fixed_run_spec {β : Type} {E : Env} {S : ObjectStorage β}
    {W : String → Option Codec → Nat → Bytes → World β → Prop}
    (hS : NoPutFails S) (hU : UploadSpec E S W) (key : String) (cmp : Option Codec)
    (wd : World β) (segs : List Bytes) (ws : List (Int × Bytes)) (hc : CodecOK cmp)
    (hW : W key cmp 0 (Bytes.join []) wd)
    (hseg : ∀ s ∈ segs, 0 < s.len ∧ (s.len : Int) ≤ ChunkCacheFixedSize)
    (hperm : ws.Perm (chain 0 segs)) :
    ∃ c2 wd2, ChunkWriter.run E S ws (NewChunkWriter key cmp true) wd =
        some ((ws.map (fun x => ((x.2.len : Int), none)), none), c2, wd2) ∧
      c2.jobs = segs ∧ c2.extras = [] ∧ c2.key = key ∧ c2.compress = cmp ∧
      FixedManifest c2 (Bytes.join segs).len ∧
      (((Bytes.join segs).len = fixedCount (Bytes.join segs).len * 8388608 ∧
          W key cmp (fixedCount (Bytes.join segs).len) (Bytes.join segs) wd2) ∨
       (∃ wd4, W key cmp (fixedCount (Bytes.join segs).len) (Bytes.join segs) wd4 ∧
          wd2 = (wd4.Put S (key ++ "/.meta") [("aa", "bb")] (E.Marshal c2.ChunkMetas)).2)) := by
  have hSink := fixed_sink (E := E) hS hU
  have hSink2 : Sink E S
      (fun c wd done => (FInv c done ∧ W c.key c.compress c.index (Bytes.join done) wd) ∧
        c.key = key ∧ c.compress = cmp)
      (fun buf => (buf.len : Int) ≤ ChunkCacheFixedSize) True :=
    ⟨fun c wd done h => hSink.off c wd done h.1,
     fun c wd done e h => ⟨hSink.ext c wd done e h.1, h.2⟩,
     fun c wd done buf c1 wd1 h hb hk hj => by
       obtain ⟨f1, _, f3, _⟩ := dispatchJob_frame hj
       exact ⟨hSink.step c wd done buf c1 wd1 h.1 hb hk hj, f1.trans h.2.1, f3.trans h.2.2⟩,
     fun t c wd done buf h hb hk => hSink.total t c wd done buf h.1 hb hk⟩
  obtain ⟨c2, wd2, hrun, hcase⟩ := chunk_run_spec hSink2 trivial hS
    (NewChunkWriter key cmp true) wd ⟨⟨FInv_fresh key cmp hc, hW⟩, rfl, rfl⟩ rfl hseg hperm
    (fun c3 wd3 h => by
      obtain ⟨c4, wd4, h4, _⟩ := lastUpload_fixed_spec hS hU h.1.1 h.1.2
      exact ⟨c4, wd4, h4⟩)
  refine ⟨c2, wd2, hrun, ?_⟩
  rcases hcase with ⟨g1, g2, ⟨gI, gW⟩, gk, gc⟩ | ⟨c3, wd3, wd4, ⟨⟨gI, gW⟩, gk, gc⟩, g2, g3, g4⟩
  · obtain ⟨hK, hM, hN⟩ := FInv_closed gI g1
    refine ⟨gI.jobs, g2, gk, gc, hM, Or.inl ⟨by rw [← hK]; exact hN, ?_⟩⟩
    rw [← hK, ← gk, ← gc]; exact gW
  · obtain ⟨c4, wd5, h4, f1, f2, f3, f4, f5, f6⟩ := lastUpload_fixed_spec hS hU gI gW
    rw [g3] at h4
    simp only [Option.some.injEq, Prod.mk.injEq, true_and] at h4
    obtain ⟨e1, e2⟩ := h4
    subst e1 e2
    refine ⟨f1.trans gI.jobs, f2.trans g2, f3.trans gk, f4.trans gc, f5, Or.inr ⟨wd4, ?_, ?_⟩⟩
    · rw [← gk, ← gc]; exact f6
    · rw [g4, f3, gk]

theorem dynamic_run_spec {β : Type} {E : Env} {S : ObjectStorage β} (hS : NoPutFails S)
    (key : String) (cmp : Option Codec) (wd : World β) (segs : List Bytes)
    (ws : List (Int × Bytes)) (hc : CodecOK cmp)
    (hseg : ∀ s ∈ segs, 0 < s.len ∧ (s.len : Int) ≤ ChunkCacheDynamicSize)
    (hperm : ws.Perm (chain 0 segs)) :
    ∃ c2 wd2, ChunkWriter.run E S ws (NewChunkWriter key cmp false) wd =
        some ((ws.map (fun x => ((x.2.len : Int), none)), none), c2, wd2) ∧
      c2.jobs = segs ∧ c2.extras = [] := by
  obtain ⟨c2, wd2, hrun, hcase⟩ := chunk_run_spec (dynamic_sink (E := E) hS) trivial hS
    (NewChunkWriter key cmp false) wd (DInv_fresh key cmp hc) rfl hseg hperm
    (fun c3 wd3 h => by
      obtain ⟨c4, wd4, h4, _⟩ := lastUpload_dyn_spec (E := E) hS h wd3
      exact ⟨c4, wd4, h4⟩)
  refine ⟨c2, wd2, hrun, ?_⟩
  rcases hcase with ⟨_, g2, gI⟩ | ⟨c3, wd3, wd4, gI, g2, g3, _⟩
  · exact ⟨gI.jobs, g2⟩
  · obtain ⟨_, _, _, f4, f5, _⟩ := lastUpload_frame g3
    exact ⟨f5.trans gI.jobs, f4.trans g2⟩

/-! ## The chunk writer over the in-memory store -/

theorem memStore_noPutFails : NoPutFails memStore := fun _ _ _ _ => rfl

theorem codecOK_none : CodecOK none := fun _ h => by cases h

theorem exampleEnv_partitions : Partitions exampleEnv := by
  intro b
  show Bytes.join (exampleChunks b) = b ∧ ∀ ch ∈ exampleChunks b, 0 < ch.len
  unfold exampleChunks
  by_cases h : b.len = 0
  · rw [if_pos h]
    exact ⟨(Bytes.eq_make_zero h).symm, fun ch hch => by cases hch⟩
  · rw [if_neg h]
    refine ⟨?_, fun ch hch => ?_⟩
    · show Bytes.append b (Bytes.make 0) = b
      exact Bytes.append_make_zero b
    · rw [List.mem_singleton] at hch
      rw [hch]; omega

/-- C3 (amended). Reassembly contract of the chunk writer: a fresh chunk
writer in either mode, over a backend whose `Put` never fails and with a codec
that never fails, is given in any order the non-empty pieces of a byte
sequence `B`, each no longer than the chunk buffer of the mode (8 MiB in fixed
mode, 64 MiB in dynamic mode).  Every `WriteAt` returns the length of its
piece and no error, `Flush` returns no error, the buffers handed to
`dispatchJob` are the pieces in offset order, so that their concatenation is
`B`, and the holding list is empty after `Flush`. -/
theorem chunk_reassembly {β : Type} (E : Env) (S : ObjectStorage β) (key : String)
    (cmp : Option Codec) (isFixed : Bool) (wd : World β) (segs : List Bytes)
    (ws : List (Int × Bytes)) (hS : NoPutFails S) (hc : CodecOK cmp)
    (hseg : ∀ s ∈ segs, 0 < s.len ∧
      (s.len : Int) ≤ (if isFixed then ChunkCacheFixedSize else ChunkCacheDynamicSize))
    (hperm : ws.Perm (chain 0 segs)) :
    ∃ c2 wd2, ChunkWriter.run E S ws (NewChunkWriter key cmp isFixed) wd =
        some ((ws.map (fun x => ((x.2.len : Int), none)), none), c2, wd2) ∧
      c2.jobs = segs ∧ Bytes.join c2.jobs = Bytes.join segs ∧ c2.extras = [] := by
  cases isFixed with
  | true =>
    obtain ⟨c2, wd2, h1, h2, h3, _⟩ := fixed_run_spec hS (trivial_uploadSpec E S) key cmp wd
      segs ws hc trivial hseg hperm
    exact ⟨c2, wd2, h1, h2, by rw [h2], h3⟩
  | false =>
    obtain ⟨c2, wd2, h1, h2, h3⟩ := dynamic_run_spec (E := E) hS key cmp wd segs ws hc hseg hperm
    exact ⟨c2, wd2, h1, h2, by rw [h2], h3⟩

/-- Witness for C3: two pieces written out of order in dynamic mode. -/
theorem chunk_reassembly_witness :
    ∃ c2 wd2, ChunkWriter.run exampleEnv memStore
          [(3, Bytes.ofList [4, 5]), (0, Bytes.ofList [1, 2, 3])]
          (NewChunkWriter "f" none false) ⟨MemStore.empty, []⟩ =
        some (([(3, Bytes.ofList [4, 5]), (0, Bytes.ofList [1, 2, 3])].map
          (fun x => ((x.2.len : Int), none)), none), c2, wd2) ∧
      c2.jobs = [Bytes.ofList [1, 2, 3], Bytes.ofList [4, 5]] ∧
      Bytes.join c2.jobs = Bytes.join [Bytes.ofList [1, 2, 3], Bytes.ofList [4, 5]] ∧
      c2.extras = [] :=
  chunk_reassembly exampleEnv memStore "f" none false ⟨MemStore.empty, []⟩
    [Bytes.ofList [1, 2, 3], Bytes.ofList [4, 5]]
    [(3, Bytes.ofList [4, 5]), (0, Bytes.ofList [1, 2, 3])] memStore_noPutFails codecOK_none
    (by
      intro s hs
      simp only [List.mem_cons, List.mem_singleton, List.not_mem_nil, or_false] at hs
      rcases hs with rfl | rfl <;> decide)
    (List.Perm.swap _ _ _)

/-- Counterexample to C3 as stated: in fixed mode a single piece of
16 MiB + 1 byte at offset 0 makes `WriteAt` panic (the slice expression
`c.chunkBuf[c.length : pLen-remain]` of `doFixedJob` is out of range), so no
buffer sequence is produced. -/
theorem chunk_reassembly_oversize :
    ChunkWriter.run exampleEnv memStore [(0, Bytes.make 16777217)]
      (NewChunkWriter "f" none true) ⟨MemStore.empty, []⟩ = none := by
  rfl

/-- Witness for C4: two pieces written out of order in dynamic mode. -/
theorem manifest_contiguous_witness :
    ∃ c2 wd2, ChunkWriter.run exampleEnv memStore
          [(3, Bytes.ofList [4, 5]), (0, Bytes.ofList [1, 2, 3])]
          (NewChunkWriter "f" none false) ⟨MemStore.empty, []⟩ =
        some (([(3, Bytes.ofList [4, 5]), (0, Bytes.ofList [1, 2, 3])].map
          (fun x => ((x.2.len : Int), none)), none), c2, wd2) ∧
      Contig 0 0 (c2.ChunkMetas.filter (fun m => m.Start < m.End))
        (Bytes.join [Bytes.ofList [1, 2, 3], Bytes.ofList [4, 5]]).len := by
  obtain ⟨c2, wd2, h, _⟩ := dynamic_run_spec (E := exampleEnv) memStore_noPutFails "f" none
    ⟨MemStore.empty, []⟩ [Bytes.ofList [1, 2, 3], Bytes.ofList [4, 5]]
    [(3, Bytes.ofList [4, 5]), (0, Bytes.ofList [1, 2, 3])] codecOK_none
    (by
      intro s hs
      simp only [List.mem_cons, List.mem_singleton, List.not_mem_nil, or_false] at hs
      rcases hs with rfl | rfl <;> decide)
    (List.Perm.swap _ _ _)
  exact ⟨c2, wd2, h, manifest_contiguous exampleEnv memStore "f" none false ⟨MemStore.empty, []⟩
    [Bytes.ofList [1, 2, 3], Bytes.ofList [4, 5]]
    [(3, Bytes.ofList [4, 5]), (0, Bytes.ofList [1, 2, 3])] _ c2 wd2
    (fun _ => exampleEnv_partitions)
    (by
      intro s hs
      simp only [List.mem_cons, List.mem_singleton, List.not_mem_nil, or_false] at hs
      rcases hs with rfl | rfl <;> decide)
    (List.Perm.swap _ _ _) h
    (by
      intro r hr
      simp only [List.map_cons, List.map_nil, List.mem_cons, List.mem_singleton,
        List.not_mem_nil, or_false] at hr
      rcases hr with rfl | rfl <;> rfl)⟩

theorem closed_filter (n : Nat) (recs : List ChunkMeta)
    (h : recs.map ChunkMeta.range = (List.range (fixedCount n)).map (fixedBound n)) :
    (recs ++ [(⟨(fixedCount n : Nat), (n : Int), 0, 0⟩ : ChunkMeta)]).filter
      (fun m => m.Start < m.End) = recs := by
  rw [List.filter_append]
  have h2 : [(⟨(fixedCount n : Nat), (n : Int), 0, 0⟩ : ChunkMeta)].filter
      (fun m => decide (m.Start < m.End)) = [] := by
    simp only [List.filter_cons, List.filter_nil]
    rw [if_neg]
    simp only [decide_eq_true_eq]
    omega
  have h1 : recs.filter (fun m => decide (m.Start < m.End)) = recs := by
    apply List.filter_eq_self.mpr
    intro m hm
    have hr : m.range ∈ (List.range (fixedCount n)).map (fixedBound n) := by
      rw [← h]; exact List.mem_map_of_mem _ hm
    obtain ⟨i, hi, hie⟩ := List.mem_map.mp hr
    have hi1 := List.mem_range.mp hi
    have hs : m.Start = (i : Int) * ChunkCacheFixedSize := by
      have := congrArg (fun r => r.2.1) hie
      exact this.symm
    have he : m.End = min (((i : Int) + 1) * ChunkCacheFixedSize) (n : Int) := by
      have := congrArg (fun r => r.2.2) hie
      exact this.symm
    have hin : i * 8388608 < n := by
      unfold fixedCount at hi1
      rw [fixedCapN_eq] at hi1
      omega
    simp only [decide_eq_true_eq]
    rw [hs, he, fixedCap_eq]
    apply lt_min <;> omega
  rw [h1, h2, List.append_nil]

/-- C5. Fixed-mode chunk boundaries: a fresh fixed-mode chunk writer, over a
backend whose `Put` never fails and with a codec that never fails, is given in
any order the non-empty pieces, each of at most `FIXED_CAP` (8 MiB) bytes, of
a byte sequence of `N` bytes, and is flushed.  Every call succeeds, and the
manifest records with `Start < End` are exactly `ceil (N / FIXED_CAP)`
records, the `i`-th being `(i, i * FIXED_CAP, min ((i + 1) * FIXED_CAP) N)`,
whatever the split and the order of the writes. -/
theorem fixed_chunk_boundaries {β : Type} (E : Env) (S : ObjectStorage β) (key : String)
    (cmp : Option Codec) (wd : World β) (segs : List Bytes) (ws : List (Int × Bytes))
    (hS : NoPutFails S) (hc : CodecOK cmp)
    (hseg : ∀ s ∈ segs, 0 < s.len ∧ (s.len : Int) ≤ ChunkCacheFixedSize)
    (hperm : ws.Perm (chain 0 segs)) :
    ∃ c2 wd2, ChunkWriter.run E S ws (NewChunkWriter key cmp true) wd =
        some ((ws.map (fun x => ((x.2.len : Int), none)), none), c2, wd2) ∧
      (c2.ChunkMetas.filter (fun m => m.Start < m.End)).map ChunkMeta.range =
        (List.range (fixedCount (Bytes.join segs).len)).map
          (fixedBound (Bytes.join segs).len) := by
  obtain ⟨c2, wd2, h1, _, _, _, _, ⟨recs, hm1, hm2, _⟩, _⟩ :=
    fixed_run_spec hS (trivial_uploadSpec E S) key cmp wd segs ws hc trivial hseg hperm
  refine ⟨c2, wd2, h1, ?_⟩
  rw [hm1, closed_filter _ recs hm2, hm2]

/-- Witness for C5: 20 MiB written as three pieces, the last one first. -/
theorem fixed_chunk_boundaries_witness :
    ∃ c2 wd2, ChunkWriter.run exampleEnv memStore
          [(16777216, Bytes.make 4194304), (0, Bytes.make 8388608), (8388608, Bytes.make 8388608)]
          (NewChunkWriter "f" none true) ⟨MemStore.empty, []⟩ =
        some (([(16777216, Bytes.make 4194304), (0, Bytes.make 8388608),
          (8388608, Bytes.make 8388608)].map (fun x => ((x.2.len : Int), none)), none),
          c2, wd2) ∧
      (c2.ChunkMetas.filter (fun m => m.Start < m.End)).map ChunkMeta.range =
        [(0, 0, 8388608), (1, 8388608, 16777216), (2, 16777216, 20971520)] :=
  fixed_chunk_boundaries exampleEnv memStore "f" none ⟨MemStore.empty, []⟩
    [Bytes.make 8388608, Bytes.make 8388608, Bytes.make 4194304]
    [(16777216, Bytes.make 4194304), (0, Bytes.make 8388608), (8388608, Bytes.make 8388608)]
    memStore_noPutFails codecOK_none
    (by
      intro s hs
      simp only [List.mem_cons, List.mem_singleton, List.not_mem_nil, or_false] at hs
      rcases hs with rfl | rfl | rfl <;> decide)
    (@List.perm_append_comm _ [(16777216, Bytes.make 4194304)]
      [(0, Bytes.make 8388608), (8388608, Bytes.make 8388608)])

/-! ## Fixed mode without compression over the in-memory store -/

theorem doFixedUpload_world {E : Env} {c c1 : ChunkWriter} {wd wd1 : World MemStore}
    (hcmp : c.compress = none) (hfree : wd.be.objects c.uploadKey = none)
    (h : c.doFixedUpload E memStore wd = some (none, c1, wd1)) :
    wd1.be.objects = fun k =>
      if k = c.uploadKey then some ⟨c.chunkBuf, [(MetaKey, (E.Sum256 c.chunkBuf).String)]⟩
      else wd.be.objects k := by
  unfold ChunkWriter.doFixedUpload at h
  have hp : c.prepare c.chunkBuf = some (.ok (c.chunkBuf, c.chunkBuf.len)) := by
    unfold ChunkWriter.prepare
    rw [hcmp]
  rw [hp] at h
  simp only [] at h
  have hput : (ChunkWriter.putChunk E memStore c wd c.chunkBuf).2.be.objects = fun k =>
      if k = c.uploadKey then some ⟨c.chunkBuf, [(MetaKey, (E.Sum256 c.chunkBuf).String)]⟩
      else wd.be.objects k := by
    unfold ChunkWriter.putChunk ChunkWriter.checkDuplicate World.Head
    simp only [memStore, hfree]
    rfl
  cases hpc : ChunkWriter.putChunk E memStore c wd c.chunkBuf with
  | mk e wd2 =>
    rw [hpc] at h hput
    cases e with
    | some e1 => cases h
    | none =>
      simp only [] at h
      cases hc : c.commit c.offset c.chunkBuf.len with
      | none => rw [hc] at h; cases h
      | some c2 =>
        rw [hc] at h
        simp only [Option.some.injEq, Prod.mk.injEq, true_and] at h
        rw [← h.2]
        exact hput

theorem stored_uploadSpec (E : Env) : UploadSpec E memStore Stored where
  mono := by
    intro k cmp n B x wd h hn
    obtain ⟨h1, h2, h3⟩ := h
    refine ⟨h1, h2, fun i hi => ?_⟩
    obtain ⟨o, ho, hl, hg⟩ := h3 i hi
    refine ⟨o, ho, hl, fun j hj hjb => ?_⟩
    rw [fixedCap_eq] at hn
    have hlt : i * 8388608 + j < B.len := by
      have : ((n : Int)) * 8388608 ≤ (B.len : Int) := hn
      omega
    rw [Bytes.get_append, if_pos hlt]
    exact hg j hj hlt
  upload := by
    intro c wd c1 wd1 B hfx hbl hl0 hl1 hct hB hfull hW hup
    obtain ⟨h1, h2, h3⟩ := hW
    have hobj := doFixedUpload_world h1 (h2 c.index (le_refl _)) hup
    rw [fixedCap_eq] at hl1 hB hfull
    rw [fixedCapN_eq] at hbl hct
    refine ⟨h1, fun i hi => ?_, fun i hi => ?_⟩
    · rw [hobj]
      have hne : c.key ++ "/" ++ Itoa (i : Int) ≠ c.uploadKey := by
        intro he
        have := chunkKey_injective he
        omega
      simp only [if_neg hne]
      exact h2 i (by omega)
    · rw [hobj]
      by_cases hic : i = c.index
      · subst hic
        have he : c.key ++ "/" ++ Itoa (c.index : Int) = c.uploadKey := rfl
        simp only [if_pos he]
        refine ⟨_, rfl, hbl, fun j hj hjb => ?_⟩
        apply hct j
        rcases hfull with hf | hf
        · omega
        · omega
      · have hne : c.key ++ "/" ++ Itoa (i : Int) ≠ c.uploadKey := by
          intro he
          exact hic (chunkKey_injective he)
        simp only [if_neg hne]
        exact h3 i (by omega)

theorem stored_fresh (key : String) (st : MemStore) (log : List Event)
    (hfree : ∀ i : Nat, st.objects (key ++ "/" ++ Itoa (i : Int)) = none) :
    Stored key none 0 (Bytes.join []) ⟨st, log⟩ :=
  ⟨rfl, fun i _ => hfree i, fun i hi => by omega⟩

/-! ## Reading back a file of one or two fixed-size chunks -/

theorem recs_of_range (cs : Int) : ∀ (recs : List ChunkMeta) (L : List (Int × Int × Int)),
    recs.map ChunkMeta.range = L → (∀ m ∈ recs, m.CompressSize = cs) →
    recs = L.map (fun r => ⟨r.1, r.2.1, r.2.2, cs⟩)
  | [], L, h, _ => by
    rw [List.map_nil] at h
    rw [← h, List.map_nil]
  | m :: ms, L, h, hc => by
    rw [List.map_cons] at h
    rw [← h, List.map_cons, ← recs_of_range cs ms _ rfl (fun x hx => hc x (List.mem_cons_of_mem _ hx))]
    congr 1
    have := hc m (List.mem_cons_self _ _)
    cases m
    simp only at this
    rw [this]
    rfl

theorem manifest_of_fixed {c : ChunkWriter} {n : Nat} (h : FixedManifest c n)
    (hc : c.compress = none) : c.ChunkMetas = fixedManifest n := by
  obtain ⟨recs, h1, h2, h3⟩ := h
  rw [h1, recs_of_range ChunkCacheFixedSize recs _ h2 (h3 hc)]
  unfold fixedManifest
  rw [List.map_map]
  rfl

theorem fixedManifest_one {n : Nat} (h0 : 0 < n) (h1 : n < 8388608) :
    fixedManifest n = [⟨0, 0, n, 8388608⟩, ⟨1, n, 0, 0⟩] := by
  have hK : fixedCount n = 1 := by
    unfold fixedCount
    rw [fixedCapN_eq]
    omega
  unfold fixedManifest
  rw [hK]
  have hb : fixedBound n 0 = (0, 0, (n : Int)) := by
    unfold fixedBound
    rw [fixedCap_eq]
    have : ((n : Int)) ≤ (((0 : Nat) : Int) + 1) * 8388608 := by omega
    rw [min_eq_right this]
    simp
  have hr : List.range 1 = [0] := rfl
  simp only [hr, List.map_cons, List.map_nil, hb, fixedCap_eq]
  rfl

theorem fixedManifest_two {n : Nat} (h0 : 8388608 < n) (h1 : n < 16777216) :
    fixedManifest n =
      [⟨0, 0, 8388608, 8388608⟩, ⟨1, 8388608, n, 8388608⟩, ⟨2, n, 0, 0⟩] := by
  have hK : fixedCount n = 2 := by
    unfold fixedCount
    rw [fixedCapN_eq]
    omega
  unfold fixedManifest
  rw [hK]
  have hb0 : fixedBound n 0 = (0, 0, 8388608) := by
    unfold fixedBound
    rw [fixedCap_eq]
    have : (((0 : Nat) : Int) + 1) * 8388608 ≤ (n : Int) := by omega
    rw [min_eq_left this]
    simp
  have hb1 : fixedBound n 1 = (1, 8388608, (n : Int)) := by
    unfold fixedBound
    rw [fixedCap_eq]
    have : ((n : Int)) ≤ (((1 : Nat) : Int) + 1) * 8388608 := by omega
    rw [min_eq_right this]
    simp
  have hr : List.range 2 = [0, 1] := rfl
  simp only [hr, List.map_cons, List.map_nil, hb0, hb1, fixedCap_eq]
  rfl

theorem range_all (body : Bytes) : MemStore.range body 0 (-1) = body := by
  apply Bytes.ext'
  · simp [MemStore.range]
  · intro i hi
    simp only [MemStore.range] at hi ⊢
    simp at hi ⊢
    intro h
    omega

theorem memStore_get {wd : World MemStore} {k : String} {o : StoredObject}
    (h : wd.be.objects k = some o) (buf : Bytes) :
    wd.Get memStore k 0 (-1) buf =
      ((.ok (min buf.len o.body.len : Nat), Bytes.copy buf o.body),
        ⟨wd.be, wd.log ++ [⟨Call.Get k 0 (-1), false⟩]⟩) := by
  unfold World.Get
  simp only [memStore, h, range_all]
  rfl

theorem copy_same_len {a b : Bytes} (h : a.len = b.len) : Bytes.copy a b = b := by
  apply Bytes.ext' (by simp [h])
  intro i hi
  simp only [Bytes.len_copy] at hi
  simp only [Bytes.get_copy]
  rw [if_pos (by omega)]

theorem doInit_spec {E : Env} {r : ChunkReader} {wd : World MemStore} {body : Bytes}
    {md : List (String × String)} {M : List ChunkMeta}
    (hobj : wd.be.objects (r.key ++ "/.meta") = some ⟨body, md⟩) (hlen : body.len ≤ 1048576)
    (hM : E.Unmarshal body = some M) :
    r.doInit E memStore wd = some (none, { r with ChunkMetas := M },
      ⟨wd.be, wd.log ++ [⟨Call.Get (r.key ++ "/.meta") 0 (-1), false⟩]⟩) := by
  unfold ChunkReader.doInit
  rw [memStore_get hobj]
  simp only []
  have hmin : min (Bytes.make 1048576).len body.len = body.len := by
    simp only [Bytes.len_make]; omega
  have hs : (Bytes.copy (Bytes.make 1048576) body).slice 0 (min (Bytes.make 1048576).len body.len : Nat) = some body := by
    rw [hmin]
    obtain ⟨s, hs1, hs2, hs3⟩ := Bytes.slice_eq (Bytes.copy (Bytes.make 1048576) body) 0 body.len
      (le_refl _) (by omega) (by simp only [Bytes.len_copy, Bytes.len_make]; omega)
    rw [hs1]
    congr 1
    apply Bytes.ext'
    · rw [hs2]; simp
    · intro i hi
      rw [hs3 i hi]
      rw [hs2] at hi
      simp only [sub_zero, Int.toNat_ofNat] at hi
      simp only [Bytes.get_copy, Bytes.len_make, Int.toNat_zero, Nat.zero_add]
      rw [if_pos (by omega)]
  rw [hs]
  simp only [hM]

theorem doDownload_spec {r : ChunkReader} {wd : World MemStore} {idx : Int} {o : StoredObject}
    {buf : Bytes} (hc : r.compress = none)
    (hobj : wd.be.objects (r.key ++ "/" ++ Itoa idx) = some o) (hlen : buf.len = o.body.len) :
    r.doDownload memStore wd idx buf = some (none, o.body, r,
      ⟨wd.be, wd.log ++ [⟨Call.Get (r.key ++ "/" ++ Itoa idx) 0 (-1), false⟩]⟩) := by
  unfold ChunkReader.doDownload
  rw [hc]
  simp only []
  rw [memStore_get hobj, copy_same_len hlen]

theorem pack_one (r : ChunkReader) (n : Nat) (h0 : 0 < n)
    (hM : r.ChunkMetas = [⟨0, 0, n, 8388608⟩, ⟨1, n, 0, 0⟩]) :
    r.determinePack 0 n = (0, -1) := by
  have e1 : ¬ ((0 : Int) ≥ (n : Int)) := by omega
  have e2 : (n : Int) ≥ 0 := by omega
  unfold ChunkReader.determinePack
  rw [hM]
  have hs : scanPack 0 n [(⟨0, 0, n, 8388608⟩ : ChunkMeta), ⟨1, n, 0, 0⟩] (-1, -1) = (0, -1) := by
    simp [scanPack, e1]
  rw [hs]
  simp [checkPack, e1]

theorem pack_two (r : ChunkReader) (n : Nat) (h0 : 8388608 < n)
    (hM : r.ChunkMetas = [⟨0, 0, 8388608, 8388608⟩, ⟨1, 8388608, n, 8388608⟩, ⟨2, n, 0, 0⟩]) :
    r.determinePack 0 n = (0, 1) := by
  have e1 : ¬ ((n : Int) ≤ 8388608) := by omega
  have e2 : ¬ ((8388608 : Int) ≥ (n : Int)) := by omega
  have e3 : (n : Int) ≥ 0 := by omega
  unfold ChunkReader.determinePack
  rw [hM]
  have hs : scanPack 0 n [(⟨0, 0, 8388608, 8388608⟩ : ChunkMeta), ⟨1, 8388608, n, 8388608⟩,
      ⟨2, n, 0, 0⟩] (-1, -1) = (0, 1) := by
    simp [scanPack, e1, e2, e3]
  rw [hs]
  simp [checkPack, e1, e2]

theorem read_one {E : Env} {key : String} {wd : World MemStore} {B p mbody : Bytes}
    {md : List (String × String)} {o0 : StoredObject}
    (hmeta : wd.be.objects (key ++ "/.meta") = some ⟨mbody, md⟩) (hml : mbody.len ≤ 1048576)
    (hM : E.Unmarshal mbody = some [⟨0, 0, B.len, 8388608⟩, ⟨1, B.len, 0, 0⟩])
    (h0 : wd.be.objects (key ++ "/" ++ Itoa 0) = some o0)
    (hl0 : o0.body.len = 8388608)
    (hg0 : ∀ j : Nat, j < 8388608 → j < B.len → o0.body.get j = B.get j)
    (hp : p.len = B.len) (hB0 : 0 < B.len) (hB1 : B.len < 8388608) :
    ∃ r1 wd3, (NewChunkReader key none true).ReadAt E memStore wd p 0 =
      some (((B.len : Int), none), B, r1, wd3) := by
  unfold ChunkReader.ReadAt
  rw [if_neg (by show ¬ (false = true); decide), if_pos rfl]
  rw [doInit_spec (r := NewChunkReader key none true) hmeta hml hM]
  simp only []
  unfold ChunkReader.readCached
  rw [if_neg (by
    show ¬ ((0 : Int) ≥ 0 ∧ (0 : Int) + (p.len : Int) ≤ 0)
    omega), if_neg (by
    show ¬ ((0 : Int) ≥ 0 ∧ (0 : Int) + (p.len : Int) ≤ 0)
    omega)]
  unfold ChunkReader.readMiss
  rw [hp, pack_one _ B.len hB0 rfl]
  simp only []
  rw [if_neg (by decide)]
  rw [doDownload_spec (o := o0) rfl h0 (by rw [hl0]; rfl)]
  simp only [if_true]
  have hb : ∀ r : ChunkReader,
      r.ChunkMetas = [⟨0, 0, B.len, 8388608⟩, ⟨1, B.len, 0, 0⟩] → r.doBound 0 = (0, (B.len : Int)) := by
    intro r hr
    unfold ChunkReader.doBound
    rw [hr]
    simp
  rw [hb _ rfl]
  obtain ⟨s, hs1, hs2, hs3⟩ := Bytes.slice_eq o0.body (0 - 0) (0 - 0 + B.len) (by omega) (by omega)
    (by rw [hl0]; omega)
  simp only []
  rw [hs1]
  simp only []
  have hps : p.copy s = B := by
    apply Bytes.ext'
    · simp [hp]
    · intro i hi
      simp only [Bytes.len_copy, hp] at hi
      have hsl : s.len = B.len := by rw [hs2]; simp
      simp only [Bytes.get_copy, hsl, hp]
      rw [if_pos (by omega), hs3 i (by omega)]
      simp only [sub_self, Int.toNat_zero, Nat.zero_add]
      exact hg0 i (by omega) hi
  rw [hps]
  exact ⟨_, _, rfl⟩

theorem second_chunk_range (n i : Nat) (h0 : 8388608 < n) (h1 : n < 16777216) (hi : i < n)
    (h : ¬ i < 8388608) :
    (8388608 ≤ i ∧ i < 8388608 + min (n - 8388608) 8388608) ∧ i - 8388608 < 8388608 ∧
      8388608 + (i - 8388608) < n ∧ 8388608 + (i - 8388608) = i := by
  omega

theorem first_chunk_range (n i : Nat) (h : i < 8388608) :
    ¬ (8388608 ≤ i ∧ i < 8388608 + min (n - 8388608) 8388608) ∧ (0 ≤ i ∧ i < 8388608) := by
  omega

theorem read_two {E : Env} {key : String} {wd : World MemStore} {B p mbody : Bytes}
    {md : List (String × String)} {o0 o1 : StoredObject}
    (hmeta : wd.be.objects (key ++ "/.meta") = some ⟨mbody, md⟩) (hml : mbody.len ≤ 1048576)
    (hM : E.Unmarshal mbody =
      some [⟨0, 0, 8388608, 8388608⟩, ⟨1, 8388608, B.len, 8388608⟩, ⟨2, B.len, 0, 0⟩])
    (h0 : wd.be.objects (key ++ "/" ++ Itoa 0) = some o0)
    (h1 : wd.be.objects (key ++ "/" ++ Itoa 1) = some o1)
    (hl0 : o0.body.len = 8388608) (hl1 : o1.body.len = 8388608)
    (hg0 : ∀ j : Nat, j < 8388608 → j < B.len → o0.body.get j = B.get j)
    (hg1 : ∀ j : Nat, j < 8388608 → 8388608 + j < B.len → o1.body.get j = B.get (8388608 + j))
    (hp : p.len = B.len) (hB0 : 8388608 < B.len) (hB1 : B.len < 16777216) :
    ∃ r1 wd3, (NewChunkReader key none true).ReadAt E memStore wd p 0 =
      some (((B.len : Int), none), B, r1, wd3) := by
  unfold ChunkReader.ReadAt
  rw [if_neg (by show ¬ (false = true); decide), if_pos rfl]
  rw [doInit_spec (r := NewChunkReader key none true) hmeta hml hM]
  simp only []
  unfold ChunkReader.readCached
  rw [if_neg (by
    show ¬ ((0 : Int) ≥ 0 ∧ (0 : Int) + (p.len : Int) ≤ 0)
    omega), if_neg (by
    show ¬ ((0 : Int) ≥ 0 ∧ (0 : Int) + (p.len : Int) ≤ 0)
    omega)]
  unfold ChunkReader.readMiss
  rw [hp, pack_two _ B.len hB0 rfl]
  simp only []
  rw [if_neg (by decide)]
  rw [doDownload_spec (o := o0) rfl h0 (by rw [hl0]; rfl)]
  simp only []
  rw [if_neg (by decide)]
  have hb0 : ∀ r : ChunkReader,
      r.ChunkMetas = [⟨0, 0, 8388608, 8388608⟩, ⟨1, 8388608, B.len, 8388608⟩, ⟨2, B.len, 0, 0⟩] →
      r.doBound 0 = (0, 8388608) := by
    intro r hr
    unfold ChunkReader.doBound
    rw [hr]
    simp
  have hb1 : ∀ r : ChunkReader,
      r.ChunkMetas = [⟨0, 0, 8388608, 8388608⟩, ⟨1, 8388608, B.len, 8388608⟩, ⟨2, B.len, 0, 0⟩] →
      r.doBound 1 = (8388608, (B.len : Int)) := by
    intro r hr
    unfold ChunkReader.doBound
    rw [hr]
    simp
  rw [hb0 _ rfl]
  unfold ChunkReader.readTwice
  rw [doDownload_spec (o := o1) rfl h1 (by rw [hl1]; rfl)]
  simp only []
  obtain ⟨tail, ht1, ht2, ht3⟩ := Bytes.slice_eq o0.body (0 - 0) o0.body.len (by omega) (by omega)
    (le_refl _)
  rw [ht1]
  simp only []
  obtain ⟨p1, hp1⟩ := copyInto_ok p tail (le_refl (0 : Int))
    (by omega : (0 : Int) ≤ 8388608 - 0) (by rw [hp]; omega)
  obtain ⟨_, _, _, hp1l, hp1g⟩ := copyInto_some hp1
  rw [hp1]
  simp only []
  obtain ⟨p2, hp2⟩ := copyInto_ok p1 o1.body (by omega : (0 : Int) ≤ 8388608 - 0)
    (by rw [hp1l, hp]; omega : (8388608 : Int) - 0 ≤ p1.len) (le_refl _)
  obtain ⟨_, _, _, hp2l, hp2g⟩ := copyInto_some hp2
  rw [hp2]
  simp only []
  have hps : p2 = B := by
    apply Bytes.ext'
    · rw [hp2l, hp1l, hp]
    · intro i hi
      rw [hp2l, hp1l, hp] at hi
      have htl : tail.len = 8388608 := by rw [ht2, hl0]; simp
      rw [hp2g i, hp1g i, hp1l, hp, hl1, htl]
      have e8 : ((8388608 : Int) - 0).toNat = 8388608 := by omega
      have e7 : ((8388608 : Int) - 0 - 0).toNat = 8388608 := by omega
      have e9 : ((B.len : Int) - (8388608 - 0)).toNat = B.len - 8388608 := by omega
      rw [e8, e7, e9, Int.toNat_zero, Nat.zero_add, Nat.sub_zero, Nat.min_self]
      clear e8 e7 e9
      by_cases hi8 : i < 8388608
      · obtain ⟨c1, c2⟩ := first_chunk_range B.len i hi8
        rw [if_neg c1, if_pos c2, ht3 i (by rw [htl]; exact hi8)]
        simp only [sub_self, Int.toNat_zero, Nat.zero_add]
        exact hg0 i hi8 hi
      · obtain ⟨c1, c2, c3, c4⟩ := second_chunk_range B.len i hB0 hB1 hi hi8
        rw [if_pos c1, hg1 (i - 8388608) c2 c3, c4]
  rw [hps, hb1 _ rfl, hp]
  exact ⟨_, _, rfl⟩

theorem stored_after_manifest {key : String} {n : Nat} {B : Bytes} (body : Bytes)
    (md : List (String × String)) {wd4 : World MemStore} (h : Stored key none n B wd4) :
    ((wd4.Put memStore (key ++ "/.meta") md body).2.be.objects (key ++ "/.meta") =
        some ⟨body, md⟩) ∧
      ∀ i : Nat, i < n → ∃ o,
        (wd4.Put memStore (key ++ "/.meta") md body).2.be.objects (key ++ "/" ++ Itoa (i : Int)) =
          some o ∧ o.body.len = 8388608 ∧
        ∀ j : Nat, j < 8388608 → i * 8388608 + j < B.len →
          o.body.get j = B.get (i * 8388608 + j) := by
  have hobj : (wd4.Put memStore (key ++ "/.meta") md body).2.be.objects = fun k =>
      if k = key ++ "/.meta" then some ⟨body, md⟩ else wd4.be.objects k := rfl
  rw [hobj]
  refine ⟨if_pos rfl, fun i hi => ?_⟩
  simp only [if_neg (chunkKey_ne_meta key i)]
  exact h.2.2 i hi

/-- C2 (amended). Chunked-mode round trip for files of one or two chunks:
fixed mode, compression disabled, over the in-memory store holding no object
under a chunk key of the file, with a manifest serializer that reads back the
manifest of the file from at most 1 MiB.  For every byte sequence `B` with
`0 < |B| < 16 MiB` and `|B| ≠ 8 MiB`, given in any order as non-empty pieces
of at most 8 MiB, every `WriteAt` and the `Flush` succeed, and a single
`ReadAt` of `|B|` bytes at offset 0 on a fresh reader returns `|B|` and no
error, with the buffer equal to `B`. -/
theorem chunk_round_trip (E : Env) (key : String) (st : MemStore) (log : List Event)
    (segs : List Bytes) (ws : List (Int × Bytes)) (p : Bytes)
    (hfree : ∀ i : Nat, st.objects (key ++ "/" ++ Itoa (i : Int)) = none)
    (hseg : ∀ s ∈ segs, 0 < s.len ∧ (s.len : Int) ≤ ChunkCacheFixedSize)
    (hperm : ws.Perm (chain 0 segs)) (hp : p.len = (Bytes.join segs).len)
    (hB0 : 0 < (Bytes.join segs).len) (hB1 : (Bytes.join segs).len < 16777216)
    (hB8 : (Bytes.join segs).len ≠ 8388608)
    (hJ : E.Unmarshal (E.Marshal (fixedManifest (Bytes.join segs).len)) =
      some (fixedManifest (Bytes.join segs).len))
    (hJ2 : (E.Marshal (fixedManifest (Bytes.join segs).len)).len ≤ 1048576) :
    ∃ c2 wd2 r1 wd3,
      ChunkWriter.run E memStore ws (NewChunkWriter key none true) ⟨st, log⟩ =
        some ((ws.map (fun x => ((x.2.len : Int), none)), none), c2, wd2) ∧
      (NewChunkReader key none true).ReadAt E memStore wd2 p 0 =
        some ((((Bytes.join segs).len : Int), none), Bytes.join segs, r1, wd3) := by
  obtain ⟨c2, wd2, hrun, _, _, hk, hcmp, hFM, hworld⟩ :=
    fixed_run_spec memStore_noPutFails (stored_uploadSpec E) key none ⟨st, log⟩ segs ws
      codecOK_none (stored_fresh key st log hfree) hseg hperm
  have hmetas := manifest_of_fixed hFM hcmp
  have hK : fixedCount (Bytes.join segs).len * 8388608 ≠ (Bytes.join segs).len ∧
      0 < fixedCount (Bytes.join segs).len ∧
      ((Bytes.join segs).len < 8388608 ∨ 1 < fixedCount (Bytes.join segs).len) := by
    unfold fixedCount
    rw [fixedCapN_eq]
    omega
  rcases hworld with ⟨hmul, _⟩ | ⟨wd4, hW, hwd2⟩
  · exact absurd hmul.symm hK.1
  · rw [hmetas] at hwd2
    obtain ⟨hmeta, hchunks⟩ := stored_after_manifest
      (E.Marshal (fixedManifest (Bytes.join segs).len)) [("aa", "bb")] hW
    rw [← hwd2] at hmeta hchunks
    obtain ⟨o0, ho0, hl0, hg0⟩ := hchunks 0 hK.2.1
    have hg0' : ∀ j : Nat, j < 8388608 → j < (Bytes.join segs).len →
        o0.body.get j = (Bytes.join segs).get j := by
      intro j hj hjb
      have := hg0 j hj (by omega)
      rw [this]
      congr 1
      omega
    by_cases hsmall : (Bytes.join segs).len < 8388608
    · nth_rewrite 2 [fixedManifest_one hB0 hsmall] at hJ
      obtain ⟨r1, wd3, hr⟩ := read_one hmeta hJ2 hJ ho0 hl0 hg0' hp hB0 hsmall
      exact ⟨c2, wd2, r1, wd3, hrun, hr⟩
    · have hbig : 8388608 < (Bytes.join segs).len := by omega
      have hK2 : 1 < fixedCount (Bytes.join segs).len := by
        rcases hK.2.2 with h | h
        · exact absurd h hsmall
        · exact h
      obtain ⟨o1, ho1, hl1, hg1⟩ := hchunks 1 hK2
      nth_rewrite 2 [fixedManifest_two hbig hB1] at hJ
      obtain ⟨r1, wd3, hr⟩ := read_two hmeta hJ2 hJ ho0 ho1 hl0 hl1 hg0'
        (fun j hj hjb => by
          have := hg1 j hj (by omega)
          rw [this]) hp hbig hB1
      exact ⟨c2, wd2, r1, wd3, hrun, hr⟩

/-- Witness for C2: a file of 8 MiB + 1 byte, the last byte written first. -/
theorem chunk_round_trip_witness :
    ∃ c2 wd2 r1 wd3,
      ChunkWriter.run exampleEnv memStore
          [(8388608, Bytes.fill 1 2), (0, Bytes.fill 8388608 1)]
          (NewChunkWriter "f" none true) ⟨MemStore.empty, []⟩ =
        some (([(8388608, Bytes.fill 1 2), (0, Bytes.fill 8388608 1)].map
          (fun x => ((x.2.len : Int), none)), none), c2, wd2) ∧
      (NewChunkReader "f" none true).ReadAt exampleEnv memStore wd2 (Bytes.make 8388609) 0 =
        some ((((Bytes.join [Bytes.fill 8388608 1, Bytes.fill 1 2]).len : Int), none),
          Bytes.join [Bytes.fill 8388608 1, Bytes.fill 1 2], r1, wd3) :=
  chunk_round_trip exampleEnv "f" MemStore.empty [] [Bytes.fill 8388608 1, Bytes.fill 1 2]
    [(8388608, Bytes.fill 1 2), (0, Bytes.fill 8388608 1)] (Bytes.make 8388609)
    (fun _ => rfl)
    (by
      intro s hs
      simp only [List.mem_cons, List.mem_singleton, List.not_mem_nil, or_false] at hs
      rcases hs with rfl | rfl <;> decide)
    (List.Perm.swap _ _ _) rfl (by decide) (by decide) (by decide) (by decide) (by decide)

set_option maxRecDepth 100000 in
/-- Counterexample to C2 as stated: a file of 16 MiB + 1 byte (three chunks)
of bytes `1`, written in order and flushed.  A single `ReadAt` of the whole
file into a zeroed buffer returns `n = |B|` and no error, but the last byte of
the buffer is still `0`: `ReadAt` fetches two chunks at most. -/
theorem chunk_round_trip_three_chunks :
    ∃ c2 wd2 p1 r1 wd3,
      ChunkWriter.run exampleEnv memStore
          [(0, Bytes.fill 8388608 1), (8388608, Bytes.fill 8388608 1), (16777216, Bytes.fill 1 1)]
          (NewChunkWriter "f" none true) ⟨MemStore.empty, []⟩ =
        some (([(8388608, none), (8388608, none), (1, none)], none), c2, wd2) ∧
      (NewChunkReader "f" none true).ReadAt exampleEnv memStore wd2 (Bytes.make 16777217) 0 =
        some ((16777217, none), p1, r1, wd3) ∧
      p1.get 16777216 = 0 ∧
      (Bytes.join [Bytes.fill 8388608 1, Bytes.fill 8388608 1, Bytes.fill 1 1]).get 16777216 = 1 :=
  ⟨_, _, _, _, _, rfl, rfl, by decide, by decide⟩

/-! ## Normal writer: the error state after a failed part upload -/

theorem failedUpload_of_part {ev : Event} (h : ev.failedUploadPart = true) :
    ev.failedUpload = true := by
  unfold Event.failedUploadPart at h
  unfold Event.failedUpload
  simp only [Bool.and_eq_true] at h
  simp [h.1, h.2]

theorem tracks_pure {β : Type} (w : WriterAt) (wd : World β) : Tracks wd (some (none, w, wd)) := by
  intro e w1 wd1 h
  simp only [Option.some.injEq, Prod.mk.injEq] at h
  obtain ⟨_, _, h3⟩ := h
  subst h3
  exact ⟨[], (List.append_nil _).symm, (fun _ ev hev => by cases hev),
    (fun ⟨ev, hev, _⟩ => by cases hev)⟩

theorem tracks_andThen {β : Type} {wd : World β} {r : Step WriterAt β}
    {k : WriterAt → World β → Step WriterAt β} (hr : Tracks wd r)
    (hk : ∀ s wd1, r = some (none, s, wd1) → Tracks wd1 (k s wd1)) :
    Tracks wd (r.andThen k) := by
  intro e w1 wd1 h
  rcases andThen_some h with ⟨e1, h1, h2⟩ | ⟨s, wd2, h1, h2⟩
  · obtain ⟨evs, g1, _, g3⟩ := hr _ _ _ h1
    exact ⟨evs, g1, (fun he => by rw [h2] at he; cases he), g3⟩
  · obtain ⟨evs1, g1, g2, _⟩ := hr _ _ _ h1
    obtain ⟨evs2, f1, f2, f3⟩ := hk s wd2 h1 _ _ _ h2
    have hclean := g2 rfl
    refine ⟨evs1 ++ evs2, by rw [f1, g1, List.append_assoc], ?_, ?_⟩
    · intro he ev hev
      rcases List.mem_append.mp hev with hm | hm
      · exact hclean ev hm
      · exact f2 he ev hm
    · rintro ⟨ev, hev, hf⟩
      rcases List.mem_append.mp hev with hm | hm
      · rw [hclean ev hm] at hf; cases hf
      · exact f3 ⟨ev, hm, hf⟩

theorem uploadIfFull_tracks {β : Type} (S : ObjectStorage β) (n : Int) (w : WriterAt)
    (wd : World β) : Tracks wd (WriterAt.uploadIfFull S n w wd) := by
  unfold WriterAt.uploadIfFull
  by_cases hfull : w.cache.length + n > CacheSize
  · rw [if_pos hfull]
    cases hs : w.cache.buf.slice 0 w.cache.length with
    | none => intro e w1 wd1 h; cases h
    | some body =>
      simp only []
      unfold World.UploadPart
      cases hu : (S.UploadPart wd.be w.key w.cache.uploadID w.cache.num body).1 with
      | error e1 =>
        intro e w1 wd1 h
        simp only [Option.some.injEq, Prod.mk.injEq] at h
        obtain ⟨h1, h2, h3⟩ := h
        subst h1 h2 h3
        exact ⟨_, rfl, (fun he => by cases he), (fun _ => rfl)⟩
      | ok part =>
        intro e w1 wd1 h
        simp only [Option.some.injEq, Prod.mk.injEq] at h
        obtain ⟨h1, h2, h3⟩ := h
        subst h1 h2 h3
        refine ⟨_, rfl, fun _ ev hev => ?_, fun ⟨ev, hev, hf⟩ => ?_⟩
        · rw [List.mem_singleton] at hev
          rw [hev]
          simp [Event.failedUpload, Except.failed]
        · rw [List.mem_singleton] at hev
          rw [hev] at hf
          simp [Event.failedUpload, Except.failed] at hf
  · rw [if_neg hfull]
    exact tracks_pure w wd

theorem accept_tracks {β : Type} (data : Bytes) (w : WriterAt) (wd : World β) :
    Tracks wd (WriterAt.accept data w wd) := by
  unfold WriterAt.accept
  cases hc : w.cache.buf.copyInto w.cache.length (w.cache.length + data.len) data with
  | none => intro e w1 wd1 h; cases h
  | some b => exact tracks_pure _ wd

theorem acceptOrHold_tracks {β : Type} (p : Bytes) (off : Int) (w : WriterAt) (wd : World β) :
    Tracks wd (WriterAt.acceptOrHold p off w wd) := by
  unfold WriterAt.acceptOrHold
  by_cases h : off = w.cache.offset
  · rw [if_pos h]; exact accept_tracks p w wd
  · rw [if_neg h]; exact tracks_pure _ wd

theorem init_tracks {β : Type} (S : ObjectStorage β) (off : Int) (w : WriterAt) (wd : World β) :
    Tracks wd (WriterAt.init S off w wd) := by
  unfold WriterAt.init
  by_cases h0 : off = 0
  · rw [if_pos h0]
    unfold World.InitiateMultipartUpload
    cases hu : (S.InitiateMultipartUpload wd.be w.key).1 with
    | error e1 =>
      intro e w1 wd1 h
      simp only [Option.some.injEq, Prod.mk.injEq] at h
      obtain ⟨h1, h2, h3⟩ := h
      subst h1 h2 h3
      refine ⟨_, rfl, (fun he => by cases he), fun ⟨ev, hev, hf⟩ => ?_⟩
      rw [List.mem_singleton] at hev
      rw [hev] at hf
      simp [Event.failedUpload, Call.isUploadPart, Call.isCompleteUpload] at hf
    | ok mu =>
      intro e w1 wd1 h
      simp only [Option.some.injEq, Prod.mk.injEq] at h
      obtain ⟨h1, h2, h3⟩ := h
      subst h1 h2 h3
      refine ⟨_, rfl, fun _ ev hev => ?_, fun ⟨ev, hev, hf⟩ => ?_⟩
      · rw [List.mem_singleton] at hev
        rw [hev]
        simp [Event.failedUpload, Call.isUploadPart, Call.isCompleteUpload]
      · rw [List.mem_singleton] at hev
        rw [hev] at hf
        simp [Event.failedUpload, Call.isUploadPart, Call.isCompleteUpload] at hf
  · rw [if_neg h0]; exact tracks_pure w wd

theorem drain_tracks {β : Type} (S : ObjectStorage β) (fuel : Nat) :
    ∀ (w : WriterAt) (wd : World β), Tracks wd (WriterAt.drain S fuel w wd) := by
  induction fuel with
  | zero => intro w wd; exact tracks_pure w wd
  | succ fuel ih =>
    intro w wd
    unfold WriterAt.drain
    cases ht : takeFirst Chunk.offset w.cache.offset w.cache.chunks with
    | none => exact tracks_pure w wd
    | some x =>
      obtain ⟨c, rest⟩ := x
      simp only []
      exact tracks_andThen
        (tracks_andThen (uploadIfFull_tracks S _ w wd) (fun s wd1 _ => accept_tracks _ s wd1))
        (fun s wd1 _ => ih _ wd1)

/-- C10. Sticky error of the normal writer after a failed part upload, over
any backend: if an `UploadPart` fails during a `WriteAt` call, the call
returns an error; from then on every `WriteAt` returns `(0, "write error")`
and leaves writer and world as they are (no backend call); and `Flush` returns
an error after exactly one backend call, `AbortUpload` with the key and the
upload id of the writer. -/
theorem normal_sticky_error {β : Type} (S : ObjectStorage β) (w : WriterAt) (wd : World β)
    (p : Bytes) (off : Int) (r : Int × Error) (w1 : WriterAt) (wd1 : World β)
    (h : w.WriteAt S wd p off = some (r, w1, wd1))
    (hfail : ∃ ev ∈ wd1.log.drop wd.log.length, ev.failedUploadPart = true) :
    r.2 ≠ none ∧
    (∀ (wd2 : World β) (p2 : Bytes) (off2 : Int),
      w1.WriteAt S wd2 p2 off2 = some ((0, some "write error"), w1, wd2)) ∧
    (∀ wd2 : World β, ∃ wd3, w1.Flush S wd2 = some (some "flush error", w1, wd3) ∧
      wd3.log = wd2.log ++ [⟨Call.AbortUpload w1.key w1.cache.uploadID,
        (S.AbortUpload wd2.be w1.key w1.cache.uploadID).1.isSome⟩]) := by
  have key : r.2 ≠ none ∧ w1.cache.errState = true := by
    unfold WriterAt.WriteAt at h
    by_cases herr : w.cache.errState = true
    · rw [if_pos herr] at h
      simp only [Option.some.injEq, Prod.mk.injEq] at h
      obtain ⟨_, _, h3⟩ := h
      subst h3
      obtain ⟨ev, hev, _⟩ := hfail
      simp at hev
    · rw [if_neg herr] at h
      have ht : Tracks wd ((((WriterAt.init S off w wd).andThen
          (WriterAt.uploadIfFull S p.len)).andThen (WriterAt.acceptOrHold p off)).andThen
          (fun w1 wd1 => WriterAt.drain S w1.cache.chunks.length w1 wd1)) :=
        tracks_andThen
          (tracks_andThen
            (tracks_andThen (init_tracks S off w wd)
              (fun s wd1 _ => uploadIfFull_tracks S _ s wd1))
            (fun s wd1 _ => acceptOrHold_tracks p off s wd1))
          (fun s wd1 _ => drain_tracks S _ s wd1)
      cases hres : (((WriterAt.init S off w wd).andThen
          (WriterAt.uploadIfFull S p.len)).andThen (WriterAt.acceptOrHold p off)).andThen
          (fun w1 wd1 => WriterAt.drain S w1.cache.chunks.length w1 wd1) with
      | none => rw [hres] at h; cases h
      | some x =>
        obtain ⟨e, w2, wd2⟩ := x
        rw [hres] at h
        obtain ⟨evs, g1, g2, g3⟩ := ht _ _ _ hres
        cases e with
        | none =>
          simp only [Option.some.injEq, Prod.mk.injEq] at h
          obtain ⟨_, _, h3⟩ := h
          subst h3
          obtain ⟨ev, hev, hf⟩ := hfail
          rw [g1, List.drop_left] at hev
          have hf2 := failedUpload_of_part hf
          rw [g2 rfl ev hev] at hf2
          cases hf2
        | some e1 =>
          simp only [Option.some.injEq, Prod.mk.injEq] at h
          obtain ⟨h1, h2, h3⟩ := h
          subst h1 h2 h3
          obtain ⟨ev, hev, hf⟩ := hfail
          rw [g1, List.drop_left] at hev
          exact ⟨by simp, g3 ⟨ev, hev, failedUpload_of_part hf⟩⟩
  refine ⟨key.1, fun wd2 p2 off2 => ?_, fun wd2 => ?_⟩
  · unfold WriterAt.WriteAt
    rw [if_pos key.2]
  · unfold WriterAt.Flush
    rw [if_pos key.2]
    exact ⟨_, rfl, rfl⟩

/-- Witness for C10: over the store whose `UploadPart` fails, a first write of
64 MiB fills the part buffer and the second write has to upload it. -/
theorem normal_sticky_error_witness :
    ∃ r w1 wd1,
      (NewWriter "f").WriteAt partFailStore ⟨MemStore.empty, []⟩ (Bytes.make 67108864) 0 =
        some ((67108864, none),
          (WriterAt.after partFailStore (NewWriter "f") ⟨MemStore.empty, []⟩
            (Bytes.make 67108864) 0).1,
          (WriterAt.after partFailStore (NewWriter "f") ⟨MemStore.empty, []⟩
            (Bytes.make 67108864) 0).2) ∧
      (WriterAt.after partFailStore (NewWriter "f") ⟨MemStore.empty, []⟩
          (Bytes.make 67108864) 0).1.WriteAt partFailStore
        (WriterAt.after partFailStore (NewWriter "f") ⟨MemStore.empty, []⟩
          (Bytes.make 67108864) 0).2 (Bytes.make 1) 67108864 = some (r, w1, wd1) ∧
      r.2 ≠ none ∧
      (∀ (wd2 : World MemStore) (p2 : Bytes) (off2 : Int),
        w1.WriteAt partFailStore wd2 p2 off2 = some ((0, some "write error"), w1, wd2)) ∧
      (∀ wd2 : World MemStore, ∃ wd3,
        w1.Flush partFailStore wd2 = some (some "flush error", w1, wd3) ∧
        wd3.log = wd2.log ++ [⟨Call.AbortUpload w1.key w1.cache.uploadID,
          (partFailStore.AbortUpload wd2.be w1.key w1.cache.uploadID).1.isSome⟩]) :=
  ⟨_, _, _, rfl, rfl,
    normal_sticky_error partFailStore
      (WriterAt.after partFailStore (NewWriter "f") ⟨MemStore.empty, []⟩
        (Bytes.make 67108864) 0).1
      (WriterAt.after partFailStore (NewWriter "f") ⟨MemStore.empty, []⟩
        (Bytes.make 67108864) 0).2
      (Bytes.make 1) 67108864 _ _ _ rfl ⟨_, List.mem_singleton_self _, rfl⟩⟩

/-! ## Chunk writer: error paths of `Flush` -/

/-- C9, at the failing inputs.  First, dynamic mode over a store whose `Put`
fails: one byte is written at offset 0, `Flush` issues the chunk `Put`, the
`Put` fails and `Flush` returns an error, but `isError` stays `false` and the
next `WriteAt` succeeds.  Second, fixed mode over a store whose `Put` fails on
the manifest key only: `Flush` returns the error of the manifest `Put`, but
`isError` stays `false` and the next `WriteAt` succeeds. -/
theorem chunk_flush_error_not_sticky :
    (∃ c1 wd1 c2 wd2 c3 wd3,
      (NewChunkWriter "f" none false).WriteAt exampleEnv putFailStore ⟨MemStore.empty, []⟩
          (Bytes.fill 1 7) 0 = some ((1, none), c1, wd1) ∧
      c1.Flush exampleEnv putFailStore wd1 = some (some "upload is in error state", c2, wd2) ∧
      (∃ ev ∈ wd2.log, ev.failedPut = true) ∧ c2.isError = false ∧
      c2.WriteAt exampleEnv putFailStore wd2 (Bytes.fill 1 8) 1 = some ((1, none), c3, wd3)) ∧
    (∃ c1 wd1 c2 wd2 c3 wd3,
      (NewChunkWriter "f" none true).WriteAt exampleEnv metaFailStore ⟨MemStore.empty, []⟩
          (Bytes.fill 1 7) 0 = some ((1, none), c1, wd1) ∧
      c1.Flush exampleEnv metaFailStore wd1 = some (some "put failed", c2, wd2) ∧
      (∃ ev ∈ wd2.log, ev.failedPut = true) ∧ c2.isError = false ∧
      c2.WriteAt exampleEnv metaFailStore wd2 (Bytes.fill 1 8) 1 = some ((1, none), c3, wd3)) :=
  ⟨⟨_, _, _, _, _, _, rfl, rfl, ⟨_, List.mem_cons_of_mem _ (List.mem_singleton_self _), rfl⟩,
      rfl, rfl⟩,
   ⟨_, _, _, _, _, _, rfl, rfl,
      ⟨_, List.mem_cons_of_mem _ (List.mem_cons_of_mem _ (List.mem_singleton_self _)), rfl⟩,
      rfl, rfl⟩⟩

/-! ## Chunk writer: the dedup probe -/

theorem checkDuplicate_iff {β : Type} (E : Env) (S : ObjectStorage β) (c : ChunkWriter)
    (wd : World β) (id : ID) :
    ((ChunkWriter.checkDuplicate E S c wd id).1 = true ↔ Duplicate E S wd.be c.uploadKey id) ∧
    (ChunkWriter.checkDuplicate E S c wd id).2 =
      ⟨(S.Head wd.be c.uploadKey).2,
        wd.log ++ [⟨Call.Head c.uploadKey, Except.failed (S.Head wd.be c.uploadKey).1⟩]⟩ := by
  unfold ChunkWriter.checkDuplicate World.Head Duplicate
  cases hh : (S.Head wd.be c.uploadKey).1 with
  | error e =>
    refine ⟨⟨fun h => ?_, fun ⟨o, ho, _⟩ => ?_⟩, rfl⟩
    · cases h
    · cases ho
  | ok o =>
    refine ⟨⟨fun h => ?_, fun ⟨o1, ho, kv, hkv, h1, h2⟩ => ?_⟩, rfl⟩
    · obtain ⟨kv, hkv, hd⟩ := List.any_eq_true.mp h
      have := of_decide_eq_true hd
      exact ⟨o, rfl, kv, hkv, this.1, this.2⟩
    · cases ho
      exact List.any_eq_true.mpr ⟨kv, hkv, decide_eq_true ⟨h1, h2⟩⟩

/-- C7. Dedup probe decision, for every chunk with stored bytes `body` that
the chunk writer emits over any backend: when `Head` on `<file_key>/<index>`
succeeds and returns a metadata entry whose key, lower-cased, is `chunkid` and
whose value is the hexadecimal encoding of the hash of `body`, the only call
is that `Head` and no error results; otherwise (in particular when `Head`
fails) the `Head` is followed by the `Put` of `body` with that `chunkid`, and
the error is the one of the `Put`.  In both cases, when no error results,
`doFixedUpload` and the loop of `doDynamicUpload` go on with the same manifest
update `commit`, which does not depend on the probe. -/
theorem dedup_probe {β : Type} (E : Env) (S : ObjectStorage β) (c : ChunkWriter)
    (wd : World β) (body : Bytes) :
    (Duplicate E S wd.be (c.key ++ "/" ++ Itoa c.index) (E.Sum256 body) →
      ChunkWriter.putChunk E S c wd body =
        (none, ⟨(S.Head wd.be (c.key ++ "/" ++ Itoa c.index)).2,
          wd.log ++ [⟨Call.Head (c.key ++ "/" ++ Itoa c.index), false⟩]⟩)) ∧
    (¬ Duplicate E S wd.be (c.key ++ "/" ++ Itoa c.index) (E.Sum256 body) →
      ChunkWriter.putChunk E S c wd body =
        ((S.Put (S.Head wd.be (c.key ++ "/" ++ Itoa c.index)).2 (c.key ++ "/" ++ Itoa c.index)
            [("chunkid", EncodeToString (E.Sum256 body).bytes)] body).1,
          ⟨(S.Put (S.Head wd.be (c.key ++ "/" ++ Itoa c.index)).2 (c.key ++ "/" ++ Itoa c.index)
              [("chunkid", EncodeToString (E.Sum256 body).bytes)] body).2,
            wd.log ++ [⟨Call.Head (c.key ++ "/" ++ Itoa c.index),
                Except.failed (S.Head wd.be (c.key ++ "/" ++ Itoa c.index)).1⟩,
              ⟨Call.Put (c.key ++ "/" ++ Itoa c.index)
                  [("chunkid", EncodeToString (E.Sum256 body).bytes)] body,
                (S.Put (S.Head wd.be (c.key ++ "/" ++ Itoa c.index)).2
                  (c.key ++ "/" ++ Itoa c.index)
                  [("chunkid", EncodeToString (E.Sum256 body).bytes)] body).1.isSome⟩]⟩)) ∧
    (∀ e, (S.Head wd.be (c.key ++ "/" ++ Itoa c.index)).1 = .error e →
      ¬ Duplicate E S wd.be (c.key ++ "/" ++ Itoa c.index) (E.Sum256 body)) ∧
    (∀ cs c1, c.prepare c.chunkBuf = some (.ok (body, cs)) → c.commit c.offset cs = some c1 →
      (ChunkWriter.putChunk E S c wd body).1 = none →
      c.doFixedUpload E S wd =
        some (none, { c1 with length := 0 }, (ChunkWriter.putChunk E S c wd body).2)) ∧
    (∀ chunk rest tmpOff cs c1, c.prepare chunk = some (.ok (body, cs)) →
      c.commit (tmpOff + chunk.len) cs = some c1 →
      (ChunkWriter.putChunk E S c wd body).1 = none →
      ChunkWriter.dynLoop E S (chunk :: rest) tmpOff c wd =
        ChunkWriter.dynLoop E S rest (tmpOff + chunk.len) c1
          (ChunkWriter.putChunk E S c wd body).2) := by
  obtain ⟨hiff, hwd⟩ := checkDuplicate_iff E S c wd (E.Sum256 body)
  refine ⟨fun hd => ?_, fun hd => ?_, fun e he ⟨o, ho, _⟩ => ?_, ?_, ?_⟩
  · have hd1 := hiff.mpr hd
    obtain ⟨o, ho, _⟩ := hd
    unfold ChunkWriter.putChunk
    rw [if_pos hd1, hwd]
    have ho' : (S.Head wd.be c.uploadKey).1 = .ok o := ho
    rw [ho']
    rfl
  · have hd1 : ¬ (ChunkWriter.checkDuplicate E S c wd (E.Sum256 body)).1 = true :=
      fun h => hd (hiff.mp h)
    unfold ChunkWriter.putChunk
    rw [if_neg hd1, hwd]
    unfold World.Put
    simp only [List.append_assoc, List.cons_append, List.nil_append]
    rfl
  · rw [he] at ho; cases ho
  · intro cs c1 hp hc hput
    unfold ChunkWriter.doFixedUpload
    rw [hp]
    simp only []
    cases hpc : ChunkWriter.putChunk E S c wd body with
    | mk e wd1 =>
      rw [hpc] at hput
      simp only at hput
      subst hput
      simp only []
      rw [hc]
  · intro chunk rest tmpOff cs c1 hp hc hput
    simp only [ChunkWriter.dynLoop, hp]
    cases hpc : ChunkWriter.putChunk E S c wd body with
    | mk e wd1 =>
      rw [hpc] at hput
      simp only at hput
      subst hput
      simp only []
      rw [hc]

/-! ## Chunk writer: keys and `chunkid` of the chunk PUTs -/

theorem ChunkPuts_mono {E : Env} {key : String} {n m : Nat} {evs : List Event} (h : n ≤ m)
    (hp : ChunkPuts E key m evs) : ChunkPuts E key n evs := by
  intro ev hev hput
  obtain ⟨i, body, hi, he⟩ := hp ev hev hput
  exact ⟨i, body, le_trans h hi, he⟩

theorem ChunkPuts_append {E : Env} {key : String} {n : Nat} {a b : List Event}
    (ha : ChunkPuts E key n a) (hb : ChunkPuts E key n b) : ChunkPuts E key n (a ++ b) := by
  intro ev hev hput
  rcases List.mem_append.mp hev with h | h
  · exact ha ev h hput
  · exact hb ev h hput

theorem ChunkPuts_nil (E : Env) (key : String) (n : Nat) : ChunkPuts E key n [] :=
  fun _ h _ => by cases h

theorem putChunk_log {β : Type} (E : Env) (S : ObjectStorage β) (c : ChunkWriter)
    (wd : World β) (body : Bytes) :
    ∃ evs, (ChunkWriter.putChunk E S c wd body).2.log = wd.log ++ evs ∧
      ∀ ev ∈ evs, ev.call.isPut = true →
        ev.call = Call.Put (c.key ++ "/" ++ Itoa (c.index : Int))
          [("chunkid", EncodeToString (E.Sum256 body).bytes)] body := by
  obtain ⟨_, hwd⟩ := checkDuplicate_iff E S c wd (E.Sum256 body)
  unfold ChunkWriter.putChunk
  by_cases hd : (ChunkWriter.checkDuplicate E S c wd (E.Sum256 body)).1 = true
  · rw [if_pos hd, hwd]
    refine ⟨_, rfl, fun ev hev hput => ?_⟩
    rw [List.mem_singleton] at hev
    rw [hev] at hput
    cases hput
  · rw [if_neg hd, hwd]
    unfold World.Put
    refine ⟨[_, _], by simp only [List.append_assoc, List.cons_append, List.nil_append]; rfl,
      fun ev hev hput => ?_⟩
    simp only [List.mem_cons, List.mem_singleton, List.not_mem_nil, or_false] at hev
    rcases hev with h | h
    · rw [h] at hput; cases hput
    · rw [h]; rfl

theorem putChunk_puts {β : Type} (E : Env) (S : ObjectStorage β) (c : ChunkWriter)
    (wd : World β) (body : Bytes) :
    ∃ evs, (ChunkWriter.putChunk E S c wd body).2.log = wd.log ++ evs ∧
      ChunkPuts E c.key c.index evs := by
  obtain ⟨evs, h1, h2⟩ := putChunk_log E S c wd body
  exact ⟨evs, h1, fun ev hev hput => ⟨c.index, body, le_refl _, h2 ev hev hput⟩⟩

theorem doFixedUpload_log {β : Type} {E : Env} {S : ObjectStorage β} {c c1 : ChunkWriter}
    {wd wd1 : World β} {e : Error} (h : c.doFixedUpload E S wd = some (e, c1, wd1)) :
    ∃ evs, wd1.log = wd.log ++ evs ∧ ChunkPuts E c.key c.index evs := by
  unfold ChunkWriter.doFixedUpload at h
  cases hp : c.prepare c.chunkBuf with
  | none => rw [hp] at h; cases h
  | some r =>
    rw [hp] at h
    cases r with
    | error e1 =>
      simp only [Option.some.injEq, Prod.mk.injEq] at h
      rw [← h.2.2]
      exact ⟨[], (List.append_nil _).symm, ChunkPuts_nil E _ _⟩
    | ok bc =>
      obtain ⟨body, cs⟩ := bc
      simp only [] at h
      obtain ⟨evs, h1, h2⟩ := putChunk_puts E S c wd body
      cases hpc : ChunkWriter.putChunk E S c wd body with
      | mk e2 wd2 =>
        rw [hpc] at h h1
        cases e2 with
        | some e3 =>
          simp only [Option.some.injEq, Prod.mk.injEq] at h
          rw [← h.2.2]
          exact ⟨evs, h1, h2⟩
        | none =>
          simp only [] at h
          cases hc : c.commit c.offset cs with
          | none => rw [hc] at h; cases h
          | some c2 =>
            rw [hc] at h
            simp only [Option.some.injEq, Prod.mk.injEq] at h
            rw [← h.2.2]
            exact ⟨evs, h1, h2⟩

theorem dynLoop_log {β : Type} {E : Env} {S : ObjectStorage β} (chunks : List Bytes) :
    ∀ (tmpOff : Int) (c c1 : ChunkWriter) (wd wd1 : World β) (e : Error),
      ChunkWriter.dynLoop E S chunks tmpOff c wd = some (e, c1, wd1) →
      ∃ evs, wd1.log = wd.log ++ evs ∧ ChunkPuts E c.key c.index evs := by
  induction chunks with
  | nil =>
    intro tmpOff c c1 wd wd1 e h
    simp only [ChunkWriter.dynLoop, Option.some.injEq, Prod.mk.injEq] at h
    rw [← h.2.2]
    exact ⟨[], (List.append_nil _).symm, ChunkPuts_nil E _ _⟩
  | cons ch rest ih =>
    intro tmpOff c c1 wd wd1 e h
    unfold ChunkWriter.dynLoop at h
    cases hp : c.prepare ch with
    | none => rw [hp] at h; cases h
    | some r =>
      rw [hp] at h
      cases r with
      | error e1 =>
        simp only [Option.some.injEq, Prod.mk.injEq] at h
        rw [← h.2.2]
        exact ⟨[], (List.append_nil _).symm, ChunkPuts_nil E _ _⟩
      | ok bc =>
        obtain ⟨body, cs⟩ := bc
        simp only [] at h
        obtain ⟨evs, h1, h2⟩ := putChunk_puts E S c wd body
        cases hpc : ChunkWriter.putChunk E S c wd body with
        | mk e2 wd2 =>
          rw [hpc] at h h1
          cases e2 with
          | some e3 =>
            simp only [Option.some.injEq, Prod.mk.injEq] at h
            rw [← h.2.2]
            exact ⟨evs, h1, h2⟩
          | none =>
            simp only [] at h
            cases hc : c.commit (tmpOff + ch.len) cs with
            | none => rw [hc] at h; cases h
            | some c2 =>
              rw [hc] at h
              simp only [] at h
              obtain ⟨evs2, g1, g2⟩ := ih _ c2 c1 wd2 wd1 e h
              have hk : c2.key = c.key := (commit_frame hc).1
              have hi : c2.index = c.index + 1 := by
                unfold ChunkWriter.commit at hc
                cases hg : c.ChunkMetas.get? c.index with
                | none => rw [hg] at hc; cases hc
                | some m =>
                  rw [hg] at hc
                  simp only [Option.some.injEq] at hc
                  rw [← hc]
              rw [hk, hi] at g2
              refine ⟨evs ++ evs2, by rw [g1, h1, List.append_assoc], ?_⟩
              exact ChunkPuts_append h2 (ChunkPuts_mono (Nat.le_succ _) g2)

theorem dispatchUpload_log {β : Type} {E : Env} {S : ObjectStorage β} {c c1 : ChunkWriter}
    {wd wd1 : World β} {e : Error} (h : c.dispatchUpload E S wd = some (e, c1, wd1)) :
    ∃ evs, wd1.log = wd.log ++ evs ∧ ChunkPuts E c.key c.index evs := by
  unfold ChunkWriter.dispatchUpload at h
  by_cases hf : c.isFixed = true
  · rw [if_pos hf] at h
    exact doFixedUpload_log h
  · rw [if_neg hf] at h
    unfold ChunkWriter.doDynamicUpload at h
    cases hs : c.chunkBuf.slice 0 c.length with
    | none => rw [hs] at h; cases h
    | some rd =>
      rw [hs] at h
      rcases andThen_some h with ⟨e1, h1, _⟩ | ⟨s1, w1, h1, h2⟩
      · exact dynLoop_log _ _ _ _ _ _ _ h1
      · simp only [Option.some.injEq, Prod.mk.injEq] at h2
        rw [← h2.2.2]
        exact dynLoop_log _ _ _ _ _ _ _ h1

theorem flatMap_hex_length (l : List UInt8) : (l.flatMap hexByte).length = 2 * l.length := by
  induction l with
  | nil => rfl
  | cons b bs ih =>
    rw [List.flatMap_cons, List.length_append, ih, List.length_cons]
    show 2 + 2 * bs.length = 2 * (bs.length + 1)
    omega

theorem getD_mem_hextable (k : Nat) (h : k < 16) : hextable.getD k '0' ∈ hextable := by
  interval_cases k <;> decide

theorem hexByte_mem (b : UInt8) : ∀ ch ∈ hexByte b, ch ∈ hextable := by
  intro ch hch
  have hb : b.toNat < 256 := b.val.isLt
  unfold hexByte at hch
  simp only [List.mem_cons, List.mem_singleton, List.not_mem_nil, or_false] at hch
  rcases hch with h | h
  · rw [h]; exact getD_mem_hextable _ (by omega)
  · rw [h]; exact getD_mem_hextable _ (by omega)

theorem hex_spec (id : ID) :
    (EncodeToString id.bytes).length = 64 ∧
      ∀ ch ∈ (EncodeToString id.bytes).data, ch ∈ hextable := by
  unfold EncodeToString
  refine ⟨?_, fun ch hch => ?_⟩
  · show (id.bytes.flatMap hexByte).length = 64
    rw [flatMap_hex_length, id.size]
  · obtain ⟨b, _, hb⟩ := List.mem_flatMap.mp hch
    exact hexByte_mem b ch hb

/-- C8. Chunk key and `chunkid`: every `Put` issued during a `dispatchUpload`
of a chunk writer (the fixed and the dynamic upload, over any backend) targets
a key `file_key + "/" + decimal(i)` with `i` not below the index at entry, and
carries exactly the metadata `chunkid = h`, where `h` is the hexadecimal
encoding of the hash of the `Put` body, 64 characters from `0-9a-f`; the `Put`
of one chunk targets the key of the current index, which on a manifest under
construction is the `Index` field of the record that the upload closes; and
distinct indices give distinct keys. -/
theorem chunk_put_key_and_id {β : Type} (E : Env) (S : ObjectStorage β) (c : ChunkWriter)
    (wd : World β) (e : Error) (c1 : ChunkWriter) (wd1 : World β)
    (h : c.dispatchUpload E S wd = some (e, c1, wd1)) :
    (∀ ev ∈ wd1.log.drop wd.log.length, ev.call.isPut = true →
      ∃ (i : Nat) (body : Bytes), c.index ≤ i ∧
        ev.call = Call.Put (c.key ++ "/" ++ Itoa (i : Int))
          [("chunkid", EncodeToString (E.Sum256 body).bytes)] body ∧
        (EncodeToString (E.Sum256 body).bytes).length = 64 ∧
        ∀ ch ∈ (EncodeToString (E.Sum256 body).bytes).data, ch ∈ hextable) ∧
    (∀ body : Bytes, ∀ ev ∈ (ChunkWriter.putChunk E S c wd body).2.log.drop wd.log.length,
      ev.call.isPut = true →
        ev.call = Call.Put (c.key ++ "/" ++ Itoa (c.index : Int))
          [("chunkid", EncodeToString (E.Sum256 body).bytes)] body) ∧
    (MetasOK c → ∃ m, c.ChunkMetas.get? c.index = some m ∧ m.Index = c.index) ∧
    (∀ a b : Nat, c.key ++ "/" ++ Itoa (a : Int) = c.key ++ "/" ++ Itoa (b : Int) → a = b) := by
  refine ⟨fun ev hev hput => ?_, fun body ev hev hput => ?_, fun hM => ?_,
    fun a b hab => chunkKey_injective hab⟩
  · obtain ⟨evs, h1, h2⟩ := dispatchUpload_log h
    rw [h1, List.drop_left] at hev
    obtain ⟨i, body, hi, he⟩ := h2 ev hev hput
    exact ⟨i, body, hi, he, hex_spec _⟩
  · obtain ⟨evs, h1, h2⟩ := putChunk_log E S c wd body
    rw [h1, List.drop_left] at hev
    exact h2 ev hev hput
  · obtain ⟨recs, h1, h2, _⟩ := hM
    refine ⟨⟨c.index, c.offset - c.length, 0, 0⟩, ?_, rfl⟩
    rw [h1, List.get?_append_right (by omega), h2, Nat.sub_self]
    rfl

/-- Witness for C8: the upload of the first chunk of the file `f` in fixed
mode over the empty in-memory store. -/
theorem chunk_put_key_and_id_witness :
    ∃ e c1 wd1,
      (NewChunkWriter "f" none true).dispatchUpload exampleEnv memStore ⟨MemStore.empty, []⟩ =
        some (e, c1, wd1) ∧
      ∀ ev ∈ wd1.log.drop 0, ev.call.isPut = true →
        ∃ (i : Nat) (body : Bytes), 0 ≤ i ∧
          ev.call = Call.Put ("f" ++ "/" ++ Itoa (i : Int))
            [("chunkid", EncodeToString (exampleEnv.Sum256 body).bytes)] body ∧
          (EncodeToString (exampleEnv.Sum256 body).bytes).length = 64 ∧
          ∀ ch ∈ (EncodeToString (exampleEnv.Sum256 body).bytes).data, ch ∈ hextable :=
  ⟨_, _, _, rfl,
    (chunk_put_key_and_id exampleEnv memStore (NewChunkWriter "f" none true)
      ⟨MemStore.empty, []⟩ _ _ _ rfl).1⟩

/-! ## Chunk reader: `determinePack` on a well-formed manifest -/

theorem Contig_start_ge {s i e : Int} {recs : List ChunkMeta} (h : Contig s i recs e) :
    ∀ m ∈ recs, s ≤ m.Start := by
  induction recs generalizing s i with
  | nil => intro m hm; cases hm
  | cons a as ih =>
    obtain ⟨_, h2, h3, h4⟩ := h
    intro m hm
    rcases List.mem_cons.mp hm with rfl | hm
    · omega
    · have := ih h4 m hm
      omega

theorem scanPack_sentinel (off l : Int) (s : ChunkMeta) (hs : s.Start ≥ s.End) (fs : Int × Int) :
    scanPack off l [s] fs = fs := by
  simp only [scanPack, if_pos hs]

theorem scanPack_after (off l : Int) (s : ChunkMeta) (hs : s.Start ≥ s.End) :
    ∀ (recs : List ChunkMeta) (st i e : Int) (fs : Int × Int), Contig st i recs e → off < st →
      scanPack off l (recs ++ [s]) fs = fs := by
  intro recs
  induction recs with
  | nil => intro st i e fs _ _; exact scanPack_sentinel off l s hs fs
  | cons m ms ih =>
    intro st i e fs hC hlt
    obtain ⟨_, h2, h3, h4⟩ := hC
    rw [List.cons_append]
    unfold scanPack
    rw [if_neg (by omega), if_pos (Or.inr (by omega))]
    exact ih m.End (i + 1) e fs h4 (by omega)

theorem scanPack_spec (off l : Int) (s : ChunkMeta) (hs : s.Start ≥ s.End) :
    ∀ (recs : List ChunkMeta) (st i e : Int) (fs : Int × Int), Contig st i recs e → st ≤ off →
      ((∀ m ∈ recs, ¬ (m.Start ≤ off ∧ off < m.End)) →
        scanPack off l (recs ++ [s]) fs = fs) ∧
      (∀ (k : Nat) (m : ChunkMeta), recs.get? k = some m → m.Start ≤ off → off < m.End →
        scanPack off l (recs ++ [s]) fs =
          if off + l ≤ m.End then (i + k, fs.2) else (i + k, i + k + 1)) := by
  intro recs
  induction recs with
  | nil =>
    intro st i e fs _ _
    refine ⟨fun _ => scanPack_sentinel off l s hs fs, fun k m hk _ _ => ?_⟩
    cases hk
  | cons a as ih =>
    intro st i e fs hC hle
    obtain ⟨h1, h2, h3, h4⟩ := hC
    refine ⟨fun hno => ?_, fun k m hk hm1 hm2 => ?_⟩
    · have ha := hno a (List.mem_cons_self _ _)
      rw [List.cons_append]
      unfold scanPack
      rw [if_neg (by omega), if_pos (Or.inl (by omega))]
      exact (ih a.End (i + 1) e fs h4 (by omega)).1
        (fun m hm => hno m (List.mem_cons_of_mem _ hm))
    · cases k with
      | zero =>
        simp only [List.get?_cons_zero, Option.some.injEq] at hk
        subst hk
        rw [List.cons_append]
        unfold scanPack
        rw [if_neg (by omega), if_neg (by omega), if_pos (by omega)]
        by_cases hfit : off + l ≤ a.End
        · rw [if_pos hfit, if_pos hfit, h1]
          simp
        · rw [if_neg hfit, if_neg hfit, scanPack_after off l s hs as a.End (i + 1) e _ h4 hm2, h1]
          simp
      | succ k =>
        simp only [List.get?_cons_succ] at hk
        have hmem : m ∈ as := List.get?_mem hk
        have hge : a.End ≤ m.Start := Contig_start_ge h4 m hmem
        rw [List.cons_append]
        unfold scanPack
        rw [if_neg (by omega), if_pos (Or.inl (by omega))]
        rw [(ih a.End (i + 1) e fs h4 (by omega)).2 k m hk hm1 hm2]
        push_cast
        by_cases hfit : off + l ≤ m.End
        · rw [if_pos hfit, if_pos hfit]
          congr 1
          omega
        · rw [if_neg hfit, if_neg hfit]
          congr 1 <;> omega

theorem checkPack_neg (M : List ChunkMeta) : checkPack M (-1) = -1 := by
  unfold checkPack
  rw [if_neg (by omega)]

theorem checkPack_closed (recs : List ChunkMeta) (s : ChunkMeta) (k : Nat) (m : ChunkMeta)
    (hk : recs.get? k = some m) (hm : m.Start < m.End) :
    checkPack (recs ++ [s]) (k : Int) = k := by
  have hlt : k < recs.length := by
    by_contra hge
    rw [List.get?_eq_none.mpr (by omega)] at hk
    cases hk
  unfold checkPack
  rw [if_pos ⟨by omega, by rw [List.length_append, List.length_singleton]; omega⟩]
  rw [Int.toNat_ofNat, List.get?_append hlt, hk]
  simp only []
  rw [if_neg (by omega)]

theorem checkPack_sentinel (recs : List ChunkMeta) (s : ChunkMeta) (hs : s.Start ≥ s.End) :
    checkPack (recs ++ [s]) (recs.length : Int) = -1 := by
  unfold checkPack
  rw [if_pos ⟨by omega, by rw [List.length_append, List.length_singleton]; omega⟩]
  rw [Int.toNat_ofNat, List.get?_append_right (le_refl _), Nat.sub_self]
  simp only [List.get?_cons_zero]
  rw [if_pos hs]

theorem determinePack_contig (r : ChunkReader) (recs : List ChunkMeta) (s : ChunkMeta) (e : Int)
    (off l : Int) (hM : r.ChunkMetas = recs ++ [s]) (hC : Contig 0 0 recs e)
    (hs : s.Start ≥ s.End) (hoff : 0 ≤ off) :
    ((∀ m ∈ recs, ¬ (m.Start ≤ off ∧ off < m.End)) → r.determinePack off l = (-1, -1)) ∧
    (∀ (k : Nat) (m : ChunkMeta), recs.get? k = some m → m.Start ≤ off → off < m.End →
      r.determinePack off l =
        ((k : Int), if off + l ≤ m.End ∨ k + 1 = recs.length then -1 else (k : Int) + 1)) := by
  obtain ⟨p1, p2⟩ := scanPack_spec off l s hs recs 0 0 e (-1, -1) hC hoff
  unfold ChunkReader.determinePack
  rw [hM]
  refine ⟨fun hno => ?_, fun k m hk h1 h2 => ?_⟩
  · rw [p1 hno]
    simp only [checkPack_neg]
  · rw [p2 k m hk h1 h2]
    have hmlt : m.Start < m.End := Contig_lt hC m (List.get?_mem hk)
    have hlt : k < recs.length := by
      by_contra hge
      rw [List.get?_eq_none.mpr (by omega)] at hk
      cases hk
    by_cases hfit : off + l ≤ m.End
    · rw [if_pos hfit, if_pos (Or.inl hfit)]
      simp only [zero_add, checkPack_neg]
      rw [checkPack_closed recs s k m hk hmlt]
    · rw [if_neg hfit]
      simp only [zero_add]
      rw [checkPack_closed recs s k m hk hmlt]
      by_cases hlast : k + 1 = recs.length
      · rw [if_pos (Or.inr hlast)]
        have : ((k : Int) + 1) = ((recs.length : Nat) : Int) := by omega
        rw [this, checkPack_sentinel recs s hs]
      · rw [if_neg (by
          intro h
          rcases h with h | h
          · exact hfit h
          · exact hlast h)]
        have hk1 : k + 1 < recs.length := by omega
        have hget : recs.get? (k + 1) = some (recs.get ⟨k + 1, hk1⟩) := List.get?_eq_get hk1
        have := checkPack_closed recs s (k + 1) _ hget
          (Contig_lt hC _ (List.get?_mem hget))
        rw [Nat.cast_succ] at this
        rw [this]

/-- C19. Range location: on a manifest made of records that are contiguous
from offset 0 with `Start < End`, the record at position `i` having index `i`,
followed by a sentinel (`Start >= End`), and for `off >= 0`, `determinePack
(off, l)` returns `(-1, -1)` when no record before the sentinel contains
`off`; when the record at position `k` contains `off`, `first` is `k`, and
`second` is `-1` if `off + l <= End_k` or if record `k + 1` is the sentinel,
and `k + 1` otherwise. -/
theorem determinePack_spec (r : ChunkReader) (recs : List ChunkMeta) (s : ChunkMeta) (e : Int)
    (off l : Int) (hM : r.ChunkMetas = recs ++ [s]) (hC : Contig 0 0 recs e)
    (hs : s.Start ≥ s.End) (hoff : 0 ≤ off) :
    ((∀ m ∈ recs, ¬ (m.Start ≤ off ∧ off < m.End)) → r.determinePack off l = (-1, -1)) ∧
    (∀ (k : Nat) (m : ChunkMeta), recs.get? k = some m → m.Start ≤ off → off < m.End →
      r.determinePack off l =
        ((k : Int), if off + l ≤ m.End ∨ k + 1 = recs.length then -1 else (k : Int) + 1)) :=
  determinePack_contig r recs s e off l hM hC hs hoff

/-- Witness for C19: a request that starts in the first of two chunks and
ends in the second. -/
theorem determinePack_spec_witness :
    ({ NewChunkReader "f" none true with
        ChunkMetas := [⟨0, 0, 10, 0⟩, ⟨1, 10, 20, 0⟩, ⟨2, 20, 0, 0⟩] } : ChunkReader).determinePack
      5 10 = (((0 : Nat) : Int),
        if (5 : Int) + 10 ≤ 10 ∨ 0 + 1 = [(⟨0, 0, 10, 0⟩ : ChunkMeta), ⟨1, 10, 20, 0⟩].length
        then -1 else ((0 : Nat) : Int) + 1) :=
  (determinePack_spec _ [⟨0, 0, 10, 0⟩, ⟨1, 10, 20, 0⟩] ⟨2, 20, 0, 0⟩ 20 5 10 rfl
    ⟨rfl, rfl, by decide, rfl, rfl, by decide, rfl⟩ (by decide) (by decide)).2 0 ⟨0, 0, 10, 0⟩ rfl
    (by decide) (by decide)

/-! ## The manifest written by the chunk writer -/

/-- C14 (amended). `CompressSize` in the manifest: in the block shared by
`doFixedUpload` and the loop of `doDynamicUpload`, the value recorded as
`CompressSize` of the record that the upload closes is the byte length of the
`Put` body in both cases: the compressed bytes when compression is enabled,
and the uncompressed input itself when it is disabled; the record appended
after it has `CompressSize = 0`. -/
theorem compress_size_is_stored_size {β : Type} (E : Env) (S : ObjectStorage β)
    (c : ChunkWriter) (data body : Bytes) (cs pos : Int) (c1 : ChunkWriter)
    (hp : c.prepare data = some (.ok (body, cs))) (hc : c.commit pos cs = some c1) :
    cs = body.len ∧ (c.compress = none → body = data) ∧
    (∃ m0, c.ChunkMetas.get? c.index = some m0 ∧
      c1.ChunkMetas = c.ChunkMetas.set c.index { m0 with End := pos, CompressSize := body.len } ++
        [⟨(c.index + 1 : Nat), pos, 0, 0⟩]) ∧
    (∀ wd : World β, (ChunkWriter.putChunk E S c wd body).1 = none →
      (data = c.chunkBuf → pos = c.offset →
        c.doFixedUpload E S wd =
          some (none, { c1 with length := 0 }, (ChunkWriter.putChunk E S c wd body).2)) ∧
      (∀ rest tmpOff, pos = tmpOff + data.len →
        ChunkWriter.dynLoop E S (data :: rest) tmpOff c wd =
          ChunkWriter.dynLoop E S rest pos c1 (ChunkWriter.putChunk E S c wd body).2)) := by
  have hcs : cs = body.len ∧ (c.compress = none → body = data) := by
    unfold ChunkWriter.prepare at hp
    cases hcmp : c.compress with
    | none =>
      rw [hcmp] at hp
      simp only [Option.some.injEq, Except.ok.injEq, Prod.mk.injEq] at hp
      exact ⟨by rw [← hp.2, hp.1], fun _ => hp.1.symm⟩
    | some cd =>
      rw [hcmp] at hp
      simp only [] at hp
      cases hd : doCompress cd data with
      | none => rw [hd] at hp; cases hp
      | some r =>
        rw [hd] at hp
        cases r with
        | error e => cases hp
        | ok d =>
          simp only [Option.some.injEq, Except.ok.injEq, Prod.mk.injEq] at hp
          exact ⟨by rw [← hp.2, hp.1], fun h => by cases h⟩
  refine ⟨hcs.1, hcs.2, ?_, fun wd hput => ⟨fun hd hpos => ?_, fun rest tmpOff hpos => ?_⟩⟩
  · unfold ChunkWriter.commit at hc
    cases hg : c.ChunkMetas.get? c.index with
    | none => rw [hg] at hc; cases hc
    | some m0 =>
      rw [hg] at hc
      simp only [Option.some.injEq] at hc
      refine ⟨m0, rfl, ?_⟩
      rw [← hc, hcs.1]
  · subst hd hpos
    unfold ChunkWriter.doFixedUpload
    rw [hp]
    simp only []
    cases hpc : ChunkWriter.putChunk E S c wd body with
    | mk e wd1 =>
      rw [hpc] at hput
      simp only at hput
      subst hput
      simp only []
      rw [hc]
  · subst hpos
    simp only [ChunkWriter.dynLoop, hp]
    cases hpc : ChunkWriter.putChunk E S c wd body with
    | mk e wd1 =>
      rw [hpc] at hput
      simp only at hput
      subst hput
      simp only []
      rw [hc]

/-- Witness for C14: the first upload of a fixed-mode writer without
compression records `CompressSize = 8388608`. -/
theorem compress_size_is_stored_size_witness :
    ∃ body cs c1,
      (NewChunkWriter "f" none true).prepare (NewChunkWriter "f" none true).chunkBuf =
        some (.ok (body, cs)) ∧
      (NewChunkWriter "f" none true).commit 1 cs = some c1 ∧ cs = body.len ∧ cs = 8388608 :=
  ⟨_, _, _, rfl, rfl,
    (compress_size_is_stored_size exampleEnv memStore (NewChunkWriter "f" none true)
      (NewChunkWriter "f" none true).chunkBuf _ _ 1 _ rfl rfl).1, rfl⟩

/-- Counterexample to C14 as stated: one byte written to a fixed-mode writer
without compression and flushed; the record of the chunk has `CompressSize =
8388608`, not 0. -/
theorem compress_size_nonzero_without_compression :
    ∃ c2 wd2, ChunkWriter.run exampleEnv memStore [(0, Bytes.fill 1 7)]
        (NewChunkWriter "f" none true) ⟨MemStore.empty, []⟩ =
        some (([(1, none)], none), c2, wd2) ∧
      c2.ChunkMetas = [⟨0, 0, 1, 8388608⟩, ⟨1, 1, 0, 0⟩] :=
  ⟨_, _, rfl, by decide⟩

/-- C15 (amended). Shape of the manifest: a fresh chunk writer in either mode
(in dynamic mode the chunker cuts its input into consecutive non-empty
chunks), over any backend, is given the non-empty pieces of a byte sequence
`B` in any order; if every `WriteAt` and the `Flush` return without error, the
manifest is a list of records with `Start < End` that are contiguous from 0 to
`|B|`, followed by one trailing record with `Start = |B|` and `End = 0`. -/
theorem manifest_shape {β : Type} (E : Env) (S : ObjectStorage β) (key : String)
    (cmp : Option Codec) (isFixed : Bool) (wd : World β) (segs : List Bytes)
    (ws : List (Int × Bytes)) (rs : List (Int × Error)) (c2 : ChunkWriter) (wd2 : World β)
    (hE : isFixed = false → Partitions E) (hseg : ∀ s ∈ segs, 0 < s.len)
    (hperm : ws.Perm (chain 0 segs))
    (hrun : ChunkWriter.run E S ws (NewChunkWriter key cmp isFixed) wd =
      some ((rs, none), c2, wd2))
    (hok : ∀ r ∈ rs, r.2 = none) :
    ∃ recs, c2.ChunkMetas = recs ++ [⟨(recs.length : Nat), (Bytes.join segs).len, 0, 0⟩] ∧
      Contig 0 0 recs (Bytes.join segs).len := by
  obtain ⟨⟨recs, g1, g2, g3⟩, hl, ho⟩ :=
    run_final_metas E S key cmp isFixed wd segs ws rs c2 wd2 hE hseg hperm hrun hok
  rw [hl, sub_zero, ho] at g1 g3
  exact ⟨recs, by rw [g1, g2], g3⟩

/-- Witness for C15: two pieces written out of order in dynamic mode. -/
theorem manifest_shape_witness :
    ∃ c2 wd2 recs, ChunkWriter.run exampleEnv memStore
          [(3, Bytes.ofList [4, 5]), (0, Bytes.ofList [1, 2, 3])]
          (NewChunkWriter "f" none false) ⟨MemStore.empty, []⟩ =
        some (([(2, none), (3, none)], none), c2, wd2) ∧
      c2.ChunkMetas = recs ++ [⟨(recs.length : Nat),
        (Bytes.join [Bytes.ofList [1, 2, 3], Bytes.ofList [4, 5]]).len, 0, 0⟩] ∧
      Contig 0 0 recs (Bytes.join [Bytes.ofList [1, 2, 3], Bytes.ofList [4, 5]]).len := by
  obtain ⟨c2, wd2, h, _⟩ := dynamic_run_spec (E := exampleEnv) memStore_noPutFails "f" none
    ⟨MemStore.empty, []⟩ [Bytes.ofList [1, 2, 3], Bytes.ofList [4, 5]]
    [(3, Bytes.ofList [4, 5]), (0, Bytes.ofList [1, 2, 3])] codecOK_none
    (by
      intro s hs
      simp only [List.mem_cons, List.mem_singleton, List.not_mem_nil, or_false] at hs
      rcases hs with rfl | rfl <;> decide)
    (List.Perm.swap _ _ _)
  obtain ⟨recs, h1, h2⟩ := manifest_shape exampleEnv memStore "f" none false
    ⟨MemStore.empty, []⟩ [Bytes.ofList [1, 2, 3], Bytes.ofList [4, 5]]
    [(3, Bytes.ofList [4, 5]), (0, Bytes.ofList [1, 2, 3])] _ c2 wd2
    (fun _ => exampleEnv_partitions)
    (by
      intro s hs
      simp only [List.mem_cons, List.mem_singleton, List.not_mem_nil, or_false] at hs
      rcases hs with rfl | rfl <;> decide)
    (List.Perm.swap _ _ _) h
    (by
      intro r hr
      simp only [List.map_cons, List.map_nil, List.mem_cons, List.mem_singleton,
        List.not_mem_nil, or_false] at hr
      rcases hr with rfl | rfl <;> rfl)
  exact ⟨c2, wd2, recs, h, h1, h2⟩

/-- Counterexample to C15 as stated: one byte written to a fixed-mode writer
and flushed; the last record of the manifest has `Start = 1` and `End = 0`, so
`Start <= End` fails for it and its `End` is not the file size. -/
theorem manifest_sentinel_end_zero :
    ∃ c2 wd2 m, ChunkWriter.run exampleEnv memStore [(0, Bytes.fill 1 7)]
        (NewChunkWriter "f" none true) ⟨MemStore.empty, []⟩ =
        some (([(1, none)], none), c2, wd2) ∧
      c2.ChunkMetas.getLast? = some m ∧ m.End < m.Start ∧ m.End ≠ 1 :=
  ⟨_, _, _, rfl, rfl, by decide, by decide⟩

/-- C16, at a failing input: one byte `7` is written at offset 0 to a
fixed-mode writer without compression and flushed.  The record of the chunk is
`[0, 1)`, but the body of the `Put` to `f/0` is the whole chunk buffer of
8388608 bytes. -/
theorem fixed_partial_chunk_body :
    ∃ c2 wd2 md body, ChunkWriter.run exampleEnv memStore [(0, Bytes.fill 1 7)]
        (NewChunkWriter "f" none true) ⟨MemStore.empty, []⟩ =
        some (([(1, none)], none), c2, wd2) ∧
      wd2.log.get? 1 = some ⟨Call.Put "f/0" md body, false⟩ ∧ body.len = 8388608 ∧
      c2.ChunkMetas.head? = some ⟨0, 0, 1, 8388608⟩ :=
  ⟨_, _, _, _, rfl, rfl, rfl, rfl⟩

/-! ## Normal writer: the error state after a failed upload call -/

theorem lastPart_tracks {β : Type} (S : ObjectStorage β) (w : WriterAt) (wd : World β) :
    Tracks wd (WriterAt.lastPart S w wd) := by
  unfold WriterAt.lastPart
  by_cases hpos : w.cache.length > 0
  · rw [if_pos hpos]
    cases hs : w.cache.buf.slice 0 w.cache.length with
    | none => intro e w1 wd1 h; cases h
    | some body =>
      simp only []
      unfold World.UploadPart
      cases hu : (S.UploadPart wd.be w.key w.cache.uploadID w.cache.num body).1 with
      | error e1 =>
        intro e w1 wd1 h
        simp only [Option.some.injEq, Prod.mk.injEq] at h
        obtain ⟨h1, h2, h3⟩ := h
        subst h1 h2 h3
        exact ⟨_, rfl, (fun he => by cases he), (fun _ => rfl)⟩
      | ok part =>
        intro e w1 wd1 h
        simp only [Option.some.injEq, Prod.mk.injEq] at h
        obtain ⟨h1, h2, h3⟩ := h
        subst h1 h2 h3
        refine ⟨_, rfl, fun _ ev hev => ?_, fun ⟨ev, hev, hf⟩ => ?_⟩
        · rw [List.mem_singleton] at hev
          rw [hev]
          simp [Event.failedUpload, Except.failed]
        · rw [List.mem_singleton] at hev
          rw [hev] at hf
          simp [Event.failedUpload, Except.failed] at hf
  · rw [if_neg hpos]
    exact tracks_pure w wd

theorem complete_tracks {β : Type} (S : ObjectStorage β) (w : WriterAt) (wd : World β) :
    Tracks wd (WriterAt.complete S w wd) := by
  unfold WriterAt.complete World.CompleteUpload
  cases hu : (S.CompleteUpload wd.be w.key w.cache.uploadID w.cache.part).1 with
  | some e1 =>
    intro e w1 wd1 h
    simp only [Option.some.injEq, Prod.mk.injEq] at h
    obtain ⟨h1, h2, h3⟩ := h
    subst h1 h2 h3
    exact ⟨_, rfl, (fun he => by cases he), (fun _ => rfl)⟩
  | none =>
    intro e w1 wd1 h
    simp only [Option.some.injEq, Prod.mk.injEq] at h
    obtain ⟨h1, h2, h3⟩ := h
    subst h1 h2 h3
    refine ⟨_, rfl, fun _ ev hev => ?_, fun ⟨ev, hev, hf⟩ => ?_⟩
    · rw [List.mem_singleton] at hev
      rw [hev]
      simp [Event.failedUpload]
    · rw [List.mem_singleton] at hev
      rw [hev] at hf
      simp [Event.failedUpload] at hf

theorem WriteAt_tracks {β : Type} (S : ObjectStorage β) (w : WriterAt) (wd : World β)
    (p : Bytes) (off : Int) :
    Tracks wd ((((WriterAt.init S off w wd).andThen (WriterAt.uploadIfFull S p.len)).andThen
      (WriterAt.acceptOrHold p off)).andThen
      (fun w1 wd1 => WriterAt.drain S w1.cache.chunks.length w1 wd1)) :=
  tracks_andThen
    (tracks_andThen
      (tracks_andThen (init_tracks S off w wd) (fun s wd1 _ => uploadIfFull_tracks S _ s wd1))
      (fun s wd1 _ => acceptOrHold_tracks p off s wd1))
    (fun s wd1 _ => drain_tracks S _ s wd1)

theorem Flush_tracks {β : Type} (S : ObjectStorage β) (w : WriterAt) (wd : World β) :
    Tracks wd (((WriterAt.drain S w.cache.chunks.length w wd).andThen
      (WriterAt.lastPart S)).andThen (WriterAt.complete S)) :=
  tracks_andThen
    (tracks_andThen (drain_tracks S _ w wd) (fun s wd1 _ => lastPart_tracks S s wd1))
    (fun s wd1 _ => complete_tracks S s wd1)

/-- C11 (amended). The normal writer fails sticky on a failed `UploadPart` or
`CompleteUpload`, over any backend: when such a call fails during a `WriteAt`
or a `Flush`, the operation returns an error and leaves the writer in the
error state; and in the error state every `WriteAt` returns `(0, "write
error")` with writer and world as they are (no backend call), and every
`Flush` returns an error after exactly one backend call, `AbortUpload`. -/
theorem normal_sticky_upload {β : Type} (S : ObjectStorage β) (w : WriterAt) (wd : World β) :
    (∀ p off r w1 wd1, w.WriteAt S wd p off = some (r, w1, wd1) →
      (∃ ev ∈ wd1.log.drop wd.log.length, ev.failedUpload = true) →
      r.2 ≠ none ∧ w1.cache.errState = true) ∧
    (∀ e w1 wd1, w.Flush S wd = some (e, w1, wd1) →
      (∃ ev ∈ wd1.log.drop wd.log.length, ev.failedUpload = true) →
      e ≠ none ∧ w1.cache.errState = true) ∧
    (w.cache.errState = true →
      (∀ p off, w.WriteAt S wd p off = some ((0, some "write error"), w, wd)) ∧
      ∃ wd1, w.Flush S wd = some (some "flush error", w, wd1) ∧
        wd1.log = wd.log ++ [⟨Call.AbortUpload w.key w.cache.uploadID,
          (S.AbortUpload wd.be w.key w.cache.uploadID).1.isSome⟩]) := by
  refine ⟨fun p off r w1 wd1 h hfail => ?_, fun e w1 wd1 h hfail => ?_, fun herr => ⟨?_, ?_⟩⟩
  · unfold WriterAt.WriteAt at h
    by_cases herr : w.cache.errState = true
    · rw [if_pos herr] at h
      simp only [Option.some.injEq, Prod.mk.injEq] at h
      obtain ⟨_, _, h3⟩ := h
      subst h3
      obtain ⟨ev, hev, _⟩ := hfail
      simp at hev
    · rw [if_neg herr] at h
      have ht := WriteAt_tracks S w wd p off
      cases hres : (((WriterAt.init S off w wd).andThen
          (WriterAt.uploadIfFull S p.len)).andThen (WriterAt.acceptOrHold p off)).andThen
          (fun w1 wd1 => WriterAt.drain S w1.cache.chunks.length w1 wd1) with
      | none => rw [hres] at h; cases h
      | some x =>
        obtain ⟨e, w2, wd2⟩ := x
        rw [hres] at h
        obtain ⟨evs, g1, g2, g3⟩ := ht _ _ _ hres
        cases e with
        | none =>
          simp only [Option.some.injEq, Prod.mk.injEq] at h
          obtain ⟨_, _, h3⟩ := h
          subst h3
          obtain ⟨ev, hev, hf⟩ := hfail
          rw [g1, List.drop_left] at hev
          rw [g2 rfl ev hev] at hf
          cases hf
        | some e1 =>
          simp only [Option.some.injEq, Prod.mk.injEq] at h
          obtain ⟨h1, h2, h3⟩ := h
          subst h1 h2 h3
          obtain ⟨ev, hev, hf⟩ := hfail
          rw [g1, List.drop_left] at hev
          exact ⟨by simp, g3 ⟨ev, hev, hf⟩⟩
  · unfold WriterAt.Flush at h
    by_cases herr : w.cache.errState = true
    · rw [if_pos herr] at h
      simp only [Option.some.injEq, Prod.mk.injEq] at h
      obtain ⟨_, _, h3⟩ := h
      subst h3
      obtain ⟨ev, hev, hf⟩ := hfail
      have hlog : (wd.AbortUpload S w.key w.cache.uploadID).2.log =
          wd.log ++ [⟨Call.AbortUpload w.key w.cache.uploadID,
            (S.AbortUpload wd.be w.key w.cache.uploadID).1.isSome⟩] := rfl
      rw [hlog, List.drop_left, List.mem_singleton] at hev
      rw [hev] at hf
      simp [Event.failedUpload, Call.isUploadPart, Call.isCompleteUpload] at hf
    · rw [if_neg herr] at h
      by_cases hearly : w.cache.length = 0 ∧ w.cache.chunks.length = 0
      · rw [if_pos hearly] at h
        simp only [Option.some.injEq, Prod.mk.injEq] at h
        obtain ⟨_, _, h3⟩ := h
        subst h3
        obtain ⟨ev, hev, _⟩ := hfail
        simp at hev
      · rw [if_neg hearly] at h
        obtain ⟨evs, g1, g2, g3⟩ := Flush_tracks S w wd _ _ _ h
        obtain ⟨ev, hev, hf⟩ := hfail
        rw [g1, List.drop_left] at hev
        refine ⟨fun he => ?_, g3 ⟨ev, hev, hf⟩⟩
        rw [g2 he ev hev] at hf
        cases hf
  · intro p off
    unfold WriterAt.WriteAt
    rw [if_pos herr]
  · unfold WriterAt.Flush
    rw [if_pos herr]
    exact ⟨_, rfl, rfl⟩

/-- Counterexample to C11 as stated: over the store whose `UploadPart` fails,
the second write fails in `UploadPart`; the `Flush` that follows returns an
error, but it makes a backend call, `AbortUpload`. -/
theorem normal_flush_aborts :
    ∃ r w1 wd1 wd2,
      (WriterAt.after partFailStore (NewWriter "f") ⟨MemStore.empty, []⟩
          (Bytes.make 67108864) 0).1.WriteAt partFailStore
        (WriterAt.after partFailStore (NewWriter "f") ⟨MemStore.empty, []⟩
          (Bytes.make 67108864) 0).2 (Bytes.make 1) 67108864 = some (r, w1, wd1) ∧
      r.2 = some "upload failed" ∧
      w1.Flush partFailStore wd1 = some (some "flush error", w1, wd2) ∧
      wd2.log = wd1.log ++ [⟨Call.AbortUpload "f" "0", false⟩] :=
  ⟨_, _, _, _, rfl, rfl, rfl, rfl⟩

/-! ## Normal writer: the calls of a successful run -/

theorem uploadEvents_snoc (key u : String) (bs : List Bytes) (b : Bytes) : ∀ n : Nat,
    uploadEvents key u n (bs ++ [b]) =
      uploadEvents key u n bs ++ [⟨Call.UploadPart key u ((n + bs.length : Nat) : Int) b, false⟩] := by
  induction bs with
  | nil => intro n; rfl
  | cons x xs ih =>
    intro n
    rw [List.cons_append]
    simp only [uploadEvents, ih (n + 1), List.cons_append, List.length_cons]
    have : n + 1 + xs.length = n + (xs.length + 1) := by omega
    rw [this]

theorem partList_snoc (bs : List Bytes) (b : Bytes) : ∀ n : Nat,
    partList n (bs ++ [b]) = partList n bs ++ [⟨((n + bs.length : Nat) : Int), 0, "etag"⟩] := by
  induction bs with
  | nil => intro n; rfl
  | cons x xs ih =>
    intro n
    rw [List.cons_append]
    simp only [partList, ih (n + 1), List.cons_append, List.length_cons]
    have : n + 1 + xs.length = n + (xs.length + 1) := by omega
    rw [this]

theorem partList_num_lt (bs : List Bytes) : ∀ (n : Nat), ∀ q ∈ partList n bs,
    q.Num < ((n + bs.length : Nat) : Int) := by
  induction bs with
  | nil => intro n q hq; cases hq
  | cons x xs ih =>
    intro n q hq
    simp only [partList, List.mem_cons] at hq
    rcases hq with h | h
    · rw [h]
      show (n : Int) < ((n + (xs.length + 1) : Nat) : Int)
      omega
    · have := ih (n + 1) q h
      simp only [List.length_cons]
      omega

theorem started_ne {w : WriterAt} {wd : World MemStore} {log0 : List Event}
    {bodies : List Bytes} (h : Started w wd log0 bodies) : wd.log ≠ log0 := by
  intro he
  have h1 := h.1
  rw [he] at h1
  have := congrArg List.length h1
  simp only [List.length_append, List.length_cons] at this
  omega

theorem uploadIfFull_log {w w1 : WriterAt} {wd wd1 : World MemStore} {log0 : List Event}
    {n : Int} (hI : LInv w wd log0) (hn : n ≤ CacheSize)
    (h : WriterAt.uploadIfFull memStore n w wd = some (none, w1, wd1)) :
    LInv w1 wd1 log0 ∧ w1.cache.offset = w.cache.offset ∧ w1.cache.length + n ≤ CacheSize ∧
      w1.cache.chunks = w.cache.chunks ∧ w1.key = w.key ∧
      (w.cache.length = 0 → w1 = w ∧ wd1 = wd) ∧ (wd.log ≠ log0 → wd1.log ≠ log0) := by
  obtain ⟨hl0, hle, hbuf, hoff0, hheld, hphase⟩ := hI
  unfold WriterAt.uploadIfFull at h
  by_cases hfull : w.cache.length + n > CacheSize
  · rw [if_pos hfull] at h
    have hs : w.cache.buf.slice 0 w.cache.length =
        some (Bytes.take w.cache.length.toNat w.cache.buf) :=
      Bytes.slice_zero hl0 (by rw [hbuf]; omega)
    rw [hs] at h
    simp only [World.UploadPart, memStore, Option.some.injEq, Prod.mk.injEq, true_and] at h
    obtain ⟨h1, h2⟩ := h
    subst h1 h2
    have hpos : 0 < w.cache.length := by omega
    have hcsn : ((CacheSize.toNat : Nat) : Int) = CacheSize := rfl
    rcases hphase with ⟨_, hz, _⟩ | ⟨bodies, hlog, hpart, hnum, hb, hasm⟩
    · omega
    · have hnum' : w.cache.num = ((1 + bodies.length : Nat) : Int) := by
        rw [hnum]; push_cast; omega
      refine ⟨⟨le_refl _, (by decide : (0 : Int) ≤ CacheSize), hbuf, hoff0, hheld, Or.inr
        ⟨bodies ++ [Bytes.take w.cache.length.toNat w.cache.buf], ?_, ?_, ?_, ?_, ?_⟩⟩,
        rfl, by show (0 : Int) + n ≤ CacheSize; omega, rfl, rfl, fun hz => by omega,
        fun _ => ?_⟩
      · show wd.log ++ [_] = _
        rw [hlog, uploadEvents_snoc, ← hnum', List.append_assoc, List.cons_append]
        rfl
      · show w.cache.part ++ [_] = _
        rw [hpart, partList_snoc, ← hnum']
      · show w.cache.num + 1 = _
        rw [hnum, List.length_append, List.length_singleton]; push_cast; rfl
      · intro b hbm
        rcases List.mem_append.mp hbm with hm | hm
        · exact hb b hm
        · rw [List.mem_singleton] at hm
          rw [hm, Bytes.len_take, hbuf]
          constructor
          · omega
          · omega
      · show MemStore.assemble _ w.cache.uploadID (w.cache.part ++ [_]) = _
        rw [Bytes.join_snoc]
        apply assemble_append
        · exact (assemble_update wd.be w.cache.uploadID w.cache.num
            (Bytes.take w.cache.length.toNat w.cache.buf)
            (fun q hq => by
              rw [hpart] at hq
              have := partList_num_lt bodies 1 q hq
              rw [hnum]; push_cast at this; omega)).trans hasm
        · show (if w.cache.uploadID = w.cache.uploadID ∧ w.cache.num = w.cache.num
            then some _ else _) = _
          rw [if_pos ⟨rfl, rfl⟩]
      · show wd.log ++ [_] ≠ log0
        intro he
        rw [hlog] at he
        have := congrArg List.length he
        simp only [List.length_append, List.length_cons, List.length_nil] at this
        omega
  · rw [if_neg hfull] at h
    simp only [Option.some.injEq, Prod.mk.injEq, true_and] at h
    obtain ⟨h1, h2⟩ := h
    subst h1 h2
    exact ⟨⟨hl0, hle, hbuf, hoff0, hheld, hphase⟩, rfl, by omega, rfl, rfl,
      fun _ => ⟨rfl, rfl⟩, fun hne => hne⟩

theorem accept_log {w w1 : WriterAt} {wd wd1 : World MemStore} {log0 : List Event}
    {bodies : List Bytes} {s : Bytes} (hI : LInv w wd log0) (hS : Started w wd log0 bodies)
    (hfit : w.cache.length + s.len ≤ CacheSize)
    (h : WriterAt.accept s w wd = some (none, w1, wd1)) :
    LInv w1 wd1 log0 ∧ Started w1 wd1 log0 bodies ∧
      w1.cache.offset = w.cache.offset + s.len ∧ w1.cache.chunks = w.cache.chunks ∧
      w1.key = w.key ∧ w1.cache.length = w.cache.length + s.len := by
  obtain ⟨hl0, hle, hbuf, hoff0, hheld, hphase⟩ := hI
  unfold WriterAt.accept at h
  cases hc : w.cache.buf.copyInto w.cache.length (w.cache.length + s.len) s with
  | none => rw [hc] at h; cases h
  | some b =>
    rw [hc] at h
    simp only [Option.some.injEq, Prod.mk.injEq, true_and] at h
    obtain ⟨h1, h2⟩ := h
    subst h1 h2
    obtain ⟨_, _, _, hbl, _⟩ := copyInto_some hc
    have hS1 : Started { w with cache := { w.cache with
        buf := b, length := w.cache.length + s.len, offset := w.cache.offset + s.len } }
        wd log0 bodies := hS
    refine ⟨⟨?_, hfit, hbl.trans hbuf, ?_, hheld, Or.inr ⟨bodies, hS1⟩⟩, hS1, rfl, rfl, rfl, rfl⟩
    · show 0 ≤ w.cache.length + s.len
      omega
    · show 0 ≤ w.cache.offset + s.len
      omega

theorem init_log {w w1 : WriterAt} {wd wd1 : World MemStore} {log0 : List Event} {off : Int}
    (hI : LInv w wd log0) (h0 : off = 0 → wd.log = log0)
    (h : WriterAt.init memStore off w wd = some (none, w1, wd1)) :
    LInv w1 wd1 log0 ∧ w1.cache.chunks = w.cache.chunks ∧ w1.key = w.key ∧
      (off = 0 → w1.cache.offset = 0 ∧ w1.cache.length = 0 ∧ ∃ bodies, Started w1 wd1 log0 bodies) ∧
      (off ≠ 0 → w1 = w ∧ wd1 = wd) := by
  obtain ⟨hl0, hle, hbuf, hoff0, hheld, hphase⟩ := hI
  unfold WriterAt.init at h
  by_cases hz : off = 0
  · rw [if_pos hz] at h
    simp only [World.InitiateMultipartUpload, memStore, Option.some.injEq, Prod.mk.injEq,
      true_and] at h
    obtain ⟨h1, h2⟩ := h
    subst h1 h2
    have hS : Started { w with cache := { w.cache with
        uploadID := toString wd.be.nextID, length := 0, offset := 0, num := 1, part := [] } }
        ⟨{ wd.be with nextID := wd.be.nextID + 1 },
          wd.log ++ [⟨Call.InitiateMultipartUpload w.key, false⟩]⟩ log0 [] := by
      refine ⟨?_, rfl, rfl, (fun b hb => by cases hb), rfl⟩
      show wd.log ++ [_] = _
      rw [h0 hz]
      rfl
    exact ⟨⟨le_refl _, (by decide : (0 : Int) ≤ CacheSize), hbuf, le_refl _, hheld,
      Or.inr ⟨[], hS⟩⟩, rfl, rfl, fun _ => ⟨rfl, rfl, [], hS⟩, fun hne => absurd hz hne⟩
  · rw [if_neg hz] at h
    simp only [Option.some.injEq, Prod.mk.injEq, true_and] at h
    obtain ⟨h1, h2⟩ := h
    subst h1 h2
    exact ⟨⟨hl0, hle, hbuf, hoff0, hheld, hphase⟩, rfl, rfl, fun h => absurd h hz,
      fun _ => ⟨rfl, rfl⟩⟩

theorem LInv_started {w : WriterAt} {wd : World MemStore} {log0 : List Event}
    (hI : LInv w wd log0) (h : w.cache.offset ≠ 0 ∨ w.cache.length ≠ 0) :
    ∃ bodies, Started w wd log0 bodies := by
  rcases hI.phase with ⟨h1, h2, _⟩ | hs
  · rcases h with h | h
    · exact absurd h1 h
    · exact absurd h2 h
  · exact hs

theorem drain_log {log0 : List Event} (fuel : Nat) :
    ∀ (w w1 : WriterAt) (wd wd1 : World MemStore), LInv w wd log0 →
      (w.cache.offset = 0 → wd.log = log0) →
      WriterAt.drain memStore fuel w wd = some (none, w1, wd1) →
      LInv w1 wd1 log0 ∧ (w1.cache.offset = 0 → wd1.log = log0) ∧ w1.key = w.key := by
  induction fuel with
  | zero =>
    intro w w1 wd wd1 hI hB h
    simp only [WriterAt.drain, Option.some.injEq, Prod.mk.injEq, true_and] at h
    obtain ⟨h1, h2⟩ := h
    subst h1 h2
    exact ⟨hI, hB, rfl⟩
  | succ fuel ih =>
    intro w w1 wd wd1 hI hB h
    unfold WriterAt.drain at h
    cases htf : takeFirst Chunk.offset w.cache.offset w.cache.chunks with
    | none =>
      rw [htf] at h
      simp only [Option.some.injEq, Prod.mk.injEq, true_and] at h
      obtain ⟨h1, h2⟩ := h
      subst h1 h2
      exact ⟨hI, hB, rfl⟩
    | some x =>
      obtain ⟨c, cs⟩ := x
      rw [htf] at h
      simp only [] at h
      obtain ⟨hco, hcp, _⟩ := takeFirst_some htf
      have hcm : c ∈ w.cache.chunks := hcp.symm.subset (List.mem_cons_self _ _)
      obtain ⟨hclen, hcoff⟩ := hI.held c hcm
      have hne : w.cache.offset ≠ 0 := by rw [← hco]; exact hcoff
      rcases andThen_some h with ⟨e1, _, h2⟩ | ⟨w3, wd3, h1, h2⟩
      · cases h2
      · rcases andThen_some h1 with ⟨e1, _, h3⟩ | ⟨w2, wd2, hu, ha⟩
        · cases h3
        · obtain ⟨hI2, ho2, hfit, hch2, hk2, _, _⟩ := uploadIfFull_log hI hclen hu
          obtain ⟨bodies, hS2⟩ := LInv_started hI2 (Or.inl (by rw [ho2]; exact hne))
          obtain ⟨hI3, hS3, ho3, hch3, hk3, _⟩ := accept_log hI2 hS2 hfit ha
          have hpos : 0 < w3.cache.offset := by
            have := hI.off0
            rw [ho3, ho2]
            omega
          have hI4 : LInv { w3 with cache := { w3.cache with chunks := cs } } wd3 log0 :=
            ⟨hI3.len0, hI3.lenle, hI3.buflen, hI3.off0, fun x hx => hI.held x
              (hcp.symm.subset (List.mem_cons_of_mem _ hx)), Or.inr ⟨bodies, hS3⟩⟩
          obtain ⟨g1, g2, g3⟩ := ih _ w1 wd3 wd1 hI4
            (fun hz => by
              have hz' : w3.cache.offset = 0 := hz
              omega) h2
          exact ⟨g1, g2, by rw [g3]; show w3.key = w.key; rw [hk3, hk2]⟩

theorem WriteAt_log {w w1 : WriterAt} {wd wd1 : World MemStore} {log0 : List Event}
    {p : Bytes} {off r : Int} (hI : LInv w wd log0) (hB : w.cache.offset = 0 → wd.log = log0)
    (hp0 : 0 < p.len) (hp1 : (p.len : Int) ≤ CacheSize) (h0 : off = 0 → w.cache.offset = 0)
    (h : w.WriteAt memStore wd p off = some ((r, none), w1, wd1)) :
    LInv w1 wd1 log0 ∧ (w1.cache.offset = 0 → wd1.log = log0) := by
  unfold WriterAt.WriteAt at h
  by_cases herr : w.cache.errState = true
  · rw [if_pos herr] at h; cases h
  · rw [if_neg herr] at h
    cases hres : (((WriterAt.init memStore off w wd).andThen
        (WriterAt.uploadIfFull memStore p.len)).andThen (WriterAt.acceptOrHold p off)).andThen
        (fun w1 wd1 => WriterAt.drain memStore w1.cache.chunks.length w1 wd1) with
    | none => rw [hres] at h; cases h
    | some x =>
      obtain ⟨e, wx, wdx⟩ := x
      rw [hres] at h
      cases e with
      | some e1 => cases h
      | none =>
        simp only [Option.some.injEq, Prod.mk.injEq] at h
        obtain ⟨_, h2, h3⟩ := h
        subst h2 h3
        rcases andThen_some hres with ⟨e1, _, h2⟩ | ⟨w4, wd4, h1, hd⟩
        · cases h2
        · rcases andThen_some h1 with ⟨e1, _, h3⟩ | ⟨w3, wd3, h1', hh⟩
          · cases h3
          · rcases andThen_some h1' with ⟨e1, _, h4⟩ | ⟨w2, wd2, hi, hu⟩
            · cases h4
            · obtain ⟨hI2, hch2, hk2, hz2, hnz2⟩ := init_log hI (fun hz => hB (h0 hz)) hi
              obtain ⟨hI3, ho3, hfit, hch3, hk3, hno3, hne3⟩ := uploadIfFull_log hI2 hp1 hu
              have hB3 : off ≠ 0 → (w3.cache.offset = 0 → wd3.log = log0) := by
                intro hnz hz
                obtain ⟨e1, e2⟩ := hnz2 hnz
                subst e1 e2
                have hlog := hB (by rw [← ho3]; exact hz)
                rcases hI.phase with ⟨_, hl, _⟩ | ⟨bodies, hS⟩
                · obtain ⟨e3, e4⟩ := hno3 hl
                  rw [e4]; exact hlog
                · exact absurd hlog (started_ne hS)
              unfold WriterAt.acceptOrHold at hh
              by_cases ho : off = w3.cache.offset
              · rw [if_pos ho] at hh
                have hS3 : ∃ bodies, Started w3 wd3 log0 bodies := by
                  by_cases hz : off = 0
                  · obtain ⟨_, hl2, bodies, hS2⟩ := hz2 hz
                    obtain ⟨e3, e4⟩ := hno3 hl2
                    rw [e3, e4]
                    exact ⟨bodies, hS2⟩
                  · rcases hI3.phase with ⟨hz3, _, _⟩ | hs
                    · exact absurd (ho.trans hz3) hz
                    · exact hs
                obtain ⟨bodies, hS3'⟩ := hS3
                obtain ⟨hI4, hS4, ho4, _, _, _⟩ := accept_log hI3 hS3' hfit hh
                have hpos : 0 < w4.cache.offset := by
                  have := hI3.off0
                  rw [ho4]
                  omega
                obtain ⟨g1, g2, _⟩ := drain_log _ w4 _ wd4 _ hI4 (fun hz => by omega) hd
                exact ⟨g1, g2⟩
              · rw [if_neg ho] at hh
                simp only [Option.some.injEq, Prod.mk.injEq, true_and] at hh
                obtain ⟨e1, e2⟩ := hh
                subst e1 e2
                have hnz : off ≠ 0 := by
                  intro hz
                  obtain ⟨hz2', _, _⟩ := hz2 hz
                  exact ho (by rw [ho3, hz2', hz])
                have hI4 : LInv { w3 with cache := { w3.cache with
                    chunks := w3.cache.chunks ++ [⟨off, Bytes.copy (Bytes.make p.len) p⟩] } }
                    wd3 log0 := by
                  refine ⟨hI3.len0, hI3.lenle, hI3.buflen, hI3.off0, fun x hx => ?_, hI3.phase⟩
                  rcases List.mem_append.mp hx with hm | hm
                  · exact hI3.held x hm
                  · rw [List.mem_singleton] at hm
                    rw [hm]
                    refine ⟨?_, hnz⟩
                    show (((Bytes.copy (Bytes.make p.len) p).len : Nat) : Int) ≤ CacheSize
                    rw [Bytes.len_copy, Bytes.len_make]
                    exact hp1
                obtain ⟨g1, g2, _⟩ := drain_log _ _ _ wd3 _ hI4 (hB3 hnz) hd
                exact ⟨g1, g2⟩

theorem writeAll_log {log0 : List Event} (ws : List (Int × Bytes)) :
    ∀ (w : WriterAt) (st : MemStore) (log : List Event) (acc : Bytes) (rest : List Bytes),
    NInv w st acc → LInv w ⟨st, log⟩ log0 → (w.cache.offset = 0 → log = log0) →
    (∀ s ∈ rest, 0 < s.len ∧ (s.len : Int) ≤ CacheSize) →
    (w.cache.chunks.map Chunk.toPair ++ ws).Perm (chain acc.len rest) →
    (∀ c ∈ w.cache.chunks, c.offset ≠ w.cache.offset) →
    (w.cache.length = 0 → w.cache.chunks = [] → acc.len = 0) →
    ∃ w1 st1 log1,
      WriterAt.writeAll memStore ws w ⟨st, log⟩ =
        some (ws.map (fun x => ((x.2.len : Int), none)), w1, ⟨st1, log1⟩) ∧
      NInv w1 st1 (Bytes.append acc (Bytes.join rest)) ∧ w1.cache.chunks = [] ∧
      w1.key = w.key ∧
      (w1.cache.length = 0 → (Bytes.append acc (Bytes.join rest)).len = 0) ∧
      LInv w1 ⟨st1, log1⟩ log0 := by
  induction ws with
  | nil =>
    intro w st log acc rest hI hL _ hrest hperm hdr hnb
    obtain ⟨w1, st1, log1, h1, h2, h3, h4, h5⟩ :=
      writeAll_spec [] w st log acc rest hI hrest hperm hdr hnb
    have he : WriterAt.writeAll memStore [] w ⟨st, log⟩ = some ([], w, ⟨st, log⟩) := rfl
    rw [he] at h1
    simp only [List.map_nil, Option.some.injEq, Prod.mk.injEq, World.mk.injEq, true_and] at h1
    obtain ⟨e1, e2, e3⟩ := h1
    subst e1 e2 e3
    exact ⟨w, st, log, rfl, h2, h3, h4, h5, hL⟩
  | cons x ws ih =>
    intro w st log acc rest hI hL hB hrest hperm _ _
    obtain ⟨off, p⟩ := x
    have hmem : (off, p) ∈ chain acc.len rest :=
      hperm.subset (List.mem_append_right _ (List.mem_cons_self _ _))
    have hp := hrest p (chain_mem_seg hmem)
    have hge := chain_mem_ge hmem
    obtain ⟨w1, st1, log1, acc1, rest1, hw, hI1, hj1, hr1, hp1, hdr1, hk1, hnb1⟩ :=
      WriteAt_spec log hI hrest hperm
    obtain ⟨hL1, hB1⟩ := WriteAt_log hL hB hp.1 hp.2
      (fun hz => by rw [hI.off]; omega) hw
    obtain ⟨w2, st2, log2, hw2, hI2, hc2, hk2, hnb2, hL2⟩ :=
      ih w1 st1 log1 acc1 rest1 hI1 hL1 hB1 hr1 hp1 hdr1 hnb1
    refine ⟨w2, st2, log2, ?_, ?_, hc2, by rw [hk2, hk1], ?_, hL2⟩
    · simp only [WriterAt.writeAll, hw, hw2, List.map_cons]
    · rw [hj1]; exact hI2
    · rw [hj1]; exact hnb2

theorem Flush_log {w w1 : WriterAt} {wd wd1 : World MemStore} {log0 : List Event}
    (hI : LInv w wd log0) (hc : w.cache.chunks = []) (hpos : 0 < w.cache.length)
    (h : w.Flush memStore wd = some (none, w1, wd1)) :
    ∃ bodies, wd1.log = log0 ++ ⟨Call.InitiateMultipartUpload w.key, false⟩ ::
        (uploadEvents w.key w.cache.uploadID 1 bodies ++
          [⟨Call.CompleteUpload w.key w.cache.uploadID (partList 1 bodies), false⟩]) ∧
      (∀ b ∈ bodies, 0 < b.len ∧ (b.len : Int) ≤ CacheSize) ∧
      wd1.be.objects w.key = some ⟨Bytes.join bodies, []⟩ := by
  obtain ⟨bodies, hlog, hpart, hnum, hb, hasm⟩ := LInv_started hI (Or.inr (by omega))
  have hnum' : w.cache.num = ((1 + bodies.length : Nat) : Int) := by
    rw [hnum]; push_cast; omega
  unfold WriterAt.Flush at h
  by_cases herr : w.cache.errState = true
  · rw [if_pos herr] at h; cases h
  · rw [if_neg herr, if_neg (fun hh => by omega)] at h
    have hd : WriterAt.drain memStore w.cache.chunks.length w wd = some (none, w, wd) := by
      rw [hc]; rfl
    rw [hd, andThen_ok] at h
    unfold WriterAt.lastPart at h
    rw [if_pos hpos] at h
    have hs : w.cache.buf.slice 0 w.cache.length =
        some (Bytes.take w.cache.length.toNat w.cache.buf) :=
      Bytes.slice_zero hI.len0 (by rw [hI.buflen]; exact hI.lenle)
    rw [hs] at h
    have hasm2 : MemStore.assemble
        { wd.be with parts := fun u n =>
            if u = w.cache.uploadID ∧ n = w.cache.num
            then some (Bytes.take w.cache.length.toNat w.cache.buf) else wd.be.parts u n }
        w.cache.uploadID
        (w.cache.part ++ [{ Num := w.cache.num, Size := 0, ETag := "etag" }]) =
        some (Bytes.join (bodies ++ [Bytes.take w.cache.length.toNat w.cache.buf])) := by
      rw [Bytes.join_snoc]
      apply assemble_append
      · exact (assemble_update wd.be w.cache.uploadID w.cache.num
          (Bytes.take w.cache.length.toNat w.cache.buf)
          (fun q hq => by
            rw [hpart] at hq
            have := partList_num_lt bodies 1 q hq
            rw [hnum]; push_cast at this; omega)).trans hasm
      · show (if w.cache.uploadID = w.cache.uploadID ∧ w.cache.num = w.cache.num
          then some _ else _) = _
        rw [if_pos ⟨rfl, rfl⟩]
    simp only [World.UploadPart, memStore, andThen_ok, WriterAt.complete,
      World.CompleteUpload, hasm2, Option.some.injEq, Prod.mk.injEq, true_and] at h
    obtain ⟨_, h2⟩ := h
    subst h2
    refine ⟨bodies ++ [Bytes.take w.cache.length.toNat w.cache.buf], ?_, ?_, ?_⟩
    · show (wd.log ++ [_]) ++ [_] = _
      rw [hlog, uploadEvents_snoc, partList_snoc, ← hnum', ← hpart]
      simp only [List.append_assoc, List.cons_append, List.nil_append]
      rfl
    · intro b hbm
      rcases List.mem_append.mp hbm with hm | hm
      · exact hb b hm
      · rw [List.mem_singleton] at hm
        have hcsn : ((CacheSize.toNat : Nat) : Int) = CacheSize := rfl
        have := hI.lenle
        rw [hm, Bytes.len_take, hI.buflen]
        constructor
        · omega
        · omega
    · simp

theorem LInv_fresh (key : String) (st : MemStore) (log : List Event) :
    LInv (NewWriter key) ⟨st, log⟩ log :=
  ⟨le_refl _, (by decide : (0 : Int) ≤ CacheSize), rfl, le_refl _, (fun c hc => by cases hc),
    Or.inl ⟨rfl, rfl, rfl⟩⟩

theorem parts_of_run (key : String) (st : MemStore) (log : List Event)
    (segs : List Bytes) (ws : List (Int × Bytes))
    (hseg : ∀ s ∈ segs, 0 < s.len ∧ (s.len : Int) ≤ CacheSize)
    (hperm : ws.Perm (chain 0 segs)) (hB : 0 < (Bytes.join segs).len) :
    ∃ w1 wd1 w2 wd2 u bodies,
      WriterAt.writeAll memStore ws (NewWriter key) ⟨st, log⟩ =
        some (ws.map (fun x => ((x.2.len : Int), none)), w1, wd1) ∧
      w1.Flush memStore wd1 = some (none, w2, wd2) ∧
      wd2.log = log ++ ⟨Call.InitiateMultipartUpload key, false⟩ ::
        (uploadEvents key u 1 bodies ++
          [⟨Call.CompleteUpload key u (partList 1 bodies), false⟩]) ∧
      (∀ b ∈ bodies, 0 < b.len ∧ (b.len : Int) ≤ CacheSize) ∧
      Bytes.join bodies = Bytes.join segs := by
  obtain ⟨w1, st1, log1, hw, hI1, hc1, hk1, hnb1, hL1⟩ :=
    writeAll_log ws (NewWriter key) st log (Bytes.make 0) segs (NInv_fresh key st)
      (LInv_fresh key st log) (fun _ => rfl) hseg
      (by simpa [NewWriter] using hperm) (fun c hc => by cases hc) (fun _ _ => rfl)
  rw [Bytes.make_zero_append] at hI1 hnb1
  obtain ⟨w2, st2, log2, hf, hobj⟩ := Flush_spec log1 hI1 hc1 hnb1
  have hpos : 0 < w1.cache.length := by
    have := hI1.len0
    by_contra hn
    have hz : w1.cache.length = 0 := by omega
    have := hnb1 hz
    omega
  obtain ⟨bodies, g1, g2, g3⟩ := Flush_log hL1 hc1 hpos hf
  have hk : w1.key = key := hk1
  rw [hk] at g1 g3 hobj
  have hj : Bytes.join bodies = Bytes.join segs := by
    have := hobj hB
    rw [g3] at this
    simp only [Option.some.injEq, StoredObject.mk.injEq, and_true] at this
    exact this
  exact ⟨w1, _, w2, _, w1.cache.uploadID, bodies, hw, hf, g1, g2, hj⟩

theorem partList_nums (bs : List Bytes) : ∀ n : Nat,
    (partList n bs).map Part.Num = (List.range bs.length).map (fun i => ((n + i : Nat) : Int)) := by
  induction bs with
  | nil => intro n; rfl
  | cons x xs ih =>
    intro n
    simp only [partList, List.map_cons, List.length_cons, List.range_succ_eq_map, ih (n + 1),
      List.map_map]
    refine congrArg₂ _ rfl ?_
    apply List.map_congr_left
    intro i _
    show ((n + 1 + i : Nat) : Int) = ((n + (i + 1) : Nat) : Int)
    congr 1
    omega

/-- C18. Multipart part policy of the normal writer over the in-memory store:
the non-empty pieces, each of at most `CacheSize` bytes, of a byte sequence
`B` with `|B| > 0` are written in any order to a fresh writer, which is then
flushed.  Every call succeeds, and the backend calls are one
`InitiateMultipartUpload`, then one `UploadPart` per part body, numbered 1, 2,
..., k in this order, then `CompleteUpload` with the parts numbered 1, 2, ...,
k in list order; every part body is non-empty and at most `CacheSize` bytes,
and the part bodies concatenated in order are `B`. -/
theorem multipart_part_policy (key : String) (st : MemStore) (log : List Event)
    (segs : List Bytes) (ws : List (Int × Bytes))
    (hseg : ∀ s ∈ segs, 0 < s.len ∧ (s.len : Int) ≤ CacheSize)
    (hperm : ws.Perm (chain 0 segs)) (hB : 0 < (Bytes.join segs).len) :
    ∃ w1 wd1 w2 wd2 u bodies,
      WriterAt.writeAll memStore ws (NewWriter key) ⟨st, log⟩ =
        some (ws.map (fun x => ((x.2.len : Int), none)), w1, wd1) ∧
      w1.Flush memStore wd1 = some (none, w2, wd2) ∧
      wd2.log = log ++ ⟨Call.InitiateMultipartUpload key, false⟩ ::
        (uploadEvents key u 1 bodies ++
          [⟨Call.CompleteUpload key u (partList 1 bodies), false⟩]) ∧
      (partList 1 bodies).map Part.Num =
        (List.range bodies.length).map (fun i => ((1 + i : Nat) : Int)) ∧
      (∀ b ∈ bodies, 0 < b.len ∧ (b.len : Int) ≤ CacheSize) ∧
      Bytes.join bodies = Bytes.join segs := by
  obtain ⟨w1, wd1, w2, wd2, u, bodies, h1, h2, h3, h4, h5⟩ :=
    parts_of_run key st log segs ws hseg hperm hB
  exact ⟨w1, wd1, w2, wd2, u, bodies, h1, h2, h3, partList_nums bodies 1, h4, h5⟩

/-- Witness for C18: two pieces written out of order. -/
theorem multipart_part_policy_witness :
    ∃ w1 wd1 w2 wd2 u bodies,
      WriterAt.writeAll memStore [(3, Bytes.ofList [4, 5]), (0, Bytes.ofList [1, 2, 3])]
          (NewWriter "f") ⟨MemStore.empty, []⟩ =
        some ([(3, Bytes.ofList [4, 5]), (0, Bytes.ofList [1, 2, 3])].map
          (fun x => ((x.2.len : Int), none)), w1, wd1) ∧
      w1.Flush memStore wd1 = some (none, w2, wd2) ∧
      wd2.log = [] ++ ⟨Call.InitiateMultipartUpload "f", false⟩ ::
        (uploadEvents "f" u 1 bodies ++
          [⟨Call.CompleteUpload "f" u (partList 1 bodies), false⟩]) ∧
      (partList 1 bodies).map Part.Num =
        (List.range bodies.length).map (fun i => ((1 + i : Nat) : Int)) ∧
      (∀ b ∈ bodies, 0 < b.len ∧ (b.len : Int) ≤ CacheSize) ∧
      Bytes.join bodies = Bytes.join [Bytes.ofList [1, 2, 3], Bytes.ofList [4, 5]] :=
  multipart_part_policy "f" MemStore.empty [] [Bytes.ofList [1, 2, 3], Bytes.ofList [4, 5]]
    [(3, Bytes.ofList [4, 5]), (0, Bytes.ofList [1, 2, 3])]
    (by
      intro s hs
      simp only [List.mem_cons, List.mem_singleton, List.not_mem_nil, or_false] at hs
      rcases hs with rfl | rfl <;> decide)
    (List.Perm.swap _ _ _) (by decide)

theorem len_join_replicate (x : Bytes) : ∀ n : Nat,
    (Bytes.join (List.replicate n x)).len = n * x.len := by
  intro n
  induction n with
  | zero => simp [Bytes.join]
  | succ n ih =>
    rw [List.replicate_succ, Bytes.join_cons, Bytes.len_append, ih]
    ring

theorem len_join_le (bs : List Bytes) (c : Nat) (h : ∀ b ∈ bs, b.len ≤ c) :
    (Bytes.join bs).len ≤ bs.length * c := by
  induction bs with
  | nil => simp [Bytes.join]
  | cons b bs ih =>
    rw [Bytes.join_cons, Bytes.len_append, List.length_cons]
    have h1 := h b (List.mem_cons_self _ _)
    have h2 := ih (fun x hx => h x (List.mem_cons_of_mem _ hx))
    have : (bs.length + 1) * c = bs.length * c + c := by ring
    omega

theorem uploadEvents_mem (key u : String) : ∀ (bs : List Bytes) (n i : Nat),
    n ≤ i → i < n + bs.length →
    ∃ b, (⟨Call.UploadPart key u (i : Int) b, false⟩ : Event) ∈ uploadEvents key u n bs := by
  intro bs
  induction bs with
  | nil => intro n i h1 h2; simp at h2; omega
  | cons x xs ih =>
    intro n i h1 h2
    by_cases hn : i = n
    · subst hn
      exact ⟨x, List.mem_cons_self _ _⟩
    · obtain ⟨b, hb⟩ := ih (n + 1) i (by omega) (by simp only [List.length_cons] at h2; omega)
      exact ⟨b, List.mem_cons_of_mem _ hb⟩

theorem full_parts_run (key : String) (k : Nat) :
    ∃ w1 wd1 w2 wd2 u,
      WriterAt.writeAll memStore (chain 0 (List.replicate (k + 1) (Bytes.make 67108864)))
          (NewWriter key) ⟨MemStore.empty, []⟩ =
        some ((chain 0 (List.replicate (k + 1) (Bytes.make 67108864))).map
          (fun x => ((x.2.len : Int), none)), w1, wd1) ∧
      w1.Flush memStore wd1 = some (none, w2, wd2) ∧
      ∀ i : Nat, 1 ≤ i → i ≤ k + 1 →
        ∃ b, (⟨Call.UploadPart key u (i : Int) b, false⟩ : Event) ∈ wd2.log := by
  have hx : (Bytes.make 67108864).len = 67108864 := rfl
  have hlen := len_join_replicate (Bytes.make 67108864) (k + 1)
  rw [hx] at hlen
  obtain ⟨w1, wd1, w2, wd2, u, bodies, h1, h2, h3, h4, h5⟩ :=
    parts_of_run key MemStore.empty [] (List.replicate (k + 1) (Bytes.make 67108864))
      (chain 0 (List.replicate (k + 1) (Bytes.make 67108864)))
      (by
        intro s hs
        rw [List.eq_of_mem_replicate hs]
        decide)
      (List.Perm.refl _) (by rw [hlen]; omega)
  refine ⟨w1, wd1, w2, wd2, u, h1, h2, fun i hi1 hi2 => ?_⟩
  have hle := len_join_le bodies 67108864 (fun b hb => by
    have := (h4 b hb).2
    have hc : CacheSize = 67108864 := rfl
    rw [hc] at this
    omega)
  rw [h5, hlen] at hle
  have hk : k + 1 ≤ bodies.length := by omega
  obtain ⟨b, hb⟩ := uploadEvents_mem key u bodies 1 i hi1 (by omega)
  refine ⟨b, ?_⟩
  rw [h3]
  simp only [List.nil_append, List.mem_cons, List.mem_append]
  exact Or.inr (Or.inl hb)

/-- C12 (amended). The normal writer does not limit the part count: for every
`k`, `k + 1` pieces of `CacheSize` bytes written in offset order to a fresh
writer over the in-memory store and flushed succeed, and `UploadPart` is
called with each of the part numbers 1, 2, ..., `k + 1`, whatever `k` is. -/
theorem part_number_unbounded (key : String) (k : Nat) :
    ∃ w1 wd1 w2 wd2 u,
      WriterAt.writeAll memStore (chain 0 (List.replicate (k + 1) (Bytes.make 67108864)))
          (NewWriter key) ⟨MemStore.empty, []⟩ =
        some ((chain 0 (List.replicate (k + 1) (Bytes.make 67108864))).map
          (fun x => ((x.2.len : Int), none)), w1, wd1) ∧
      w1.Flush memStore wd1 = some (none, w2, wd2) ∧
      ∀ i : Nat, 1 ≤ i → i ≤ k + 1 →
        ∃ b, (⟨Call.UploadPart key u (i : Int) b, false⟩ : Event) ∈ wd2.log :=
  full_parts_run key k

/-- Counterexample to C12 as stated: 10001 pieces of 64 MiB written in offset
order to a fresh writer for the key `f` and flushed; no call returns an error,
and `UploadPart` is called with the part number 10001. -/
theorem part_number_10001 :
    ∃ w1 wd1 w2 wd2 u b,
      WriterAt.writeAll memStore (chain 0 (List.replicate 10001 (Bytes.make 67108864)))
          (NewWriter "f") ⟨MemStore.empty, []⟩ =
        some ((chain 0 (List.replicate 10001 (Bytes.make 67108864))).map
          (fun x => ((x.2.len : Int), none)), w1, wd1) ∧
      w1.Flush memStore wd1 = some (none, w2, wd2) ∧
      (⟨Call.UploadPart "f" u 10001 b, false⟩ : Event) ∈ wd2.log := by
  obtain ⟨w1, wd1, w2, wd2, u, h1, h2, h3⟩ := full_parts_run "f" 10000
  obtain ⟨b, hb⟩ := h3 10001 (by omega) (by omega)
  exact ⟨w1, wd1, w2, wd2, u, b, h1, h2, hb⟩

theorem range_len {body : Bytes} {off limit : Int} (h0 : 0 ≤ off) (hl : 0 < limit) :
    ((MemStore.range body off limit).len : Int) =
      min (off + limit) body.len - min off body.len := by
  simp only [MemStore.range, if_pos hl]
  omega

theorem range_get {body : Bytes} {off limit : Int} (h0 : 0 ≤ off) (hb : off ≤ body.len) (i : Nat)
    (hi : i < (MemStore.range body off limit).len) :
    (MemStore.range body off limit).get i = body.get (off.toNat + i) := by
  have hi' := hi
  simp only [MemStore.range] at hi' ⊢
  rw [if_pos hi']
  have : min off.toNat body.len = off.toNat := by omega
  rw [this]

theorem RPre_fresh (key : String) (st : MemStore) (O : Bytes) (md : List (String × String))
    (h : st.objects key = some ⟨O, md⟩) : RPre (NewReader key) st O :=
  ⟨⟨md, h⟩, rfl, (by decide : ((Bytes.make CacheSize.toNat).len : Int) = CacheSize),
    le_refl _, le_refl _, by show (0 : Int) ≤ _; omega, (by decide : (0 : Int) - 0 ≤ CacheSize),
    fun i hi => by
      have : ((NewReader key).cache.offset - (NewReader key).cache.start) = 0 := rfl
      rw [this] at hi
      omega⟩

theorem head_spec {r : ReaderAt} {st : MemStore} {O : Bytes} (log : List Event) (off : Int)
    (hI : RPre r st O) (hs : off = 0 ∨ r.cache.size = (O.len : Int)) :
    ∃ r1 log1, ReaderAt.head memStore off r ⟨st, log⟩ = some (none, r1, ⟨st, log1⟩) ∧
      RInv r1 st O := by
  obtain ⟨md, hobj⟩ := hI.obj
  unfold ReaderAt.head
  by_cases h0 : off = 0
  · rw [if_pos h0]
    simp only [World.Head, memStore, hobj]
    exact ⟨_, _, rfl, ⟨hI.obj, hI.err, hI.buflen, hI.start0, hI.le, hI.offle, hI.win, hI.data⟩, rfl⟩
  · rw [if_neg h0]
    exact ⟨_, _, rfl, hI, hs.resolve_left h0⟩

theorem reload_inv {r : ReaderAt} {st : MemStore} {O : Bytes} (hI : RInv r st O)
    (hlt : r.cache.offset < r.cache.size) :
    RInv { r with cache := { r.cache with
      buf := Bytes.copy r.cache.buf (MemStore.range O r.cache.offset CacheSize)
      start := r.cache.offset
      offset := r.cache.offset +
        ((min r.cache.buf.len (MemStore.range O r.cache.offset CacheSize).len : Nat) : Int) } }
      st O := by
  obtain ⟨hP, hsz⟩ := hI
  have hcs : (0 : Int) < CacheSize := by decide
  have hc : CacheSize = 67108864 := rfl
  have ho0 : 0 ≤ r.cache.offset := le_trans hP.start0 hP.le
  have hrl := @range_len O r.cache.offset CacheSize ho0 hcs
  have hbl := hP.buflen
  have hol := hP.offle
  refine ⟨⟨hP.obj, hP.err, ?_, ho0, ?_, ?_, ?_, ?_⟩, hsz⟩
  · show ((Bytes.copy _ _).len : Int) = _
    rw [Bytes.len_copy]; exact hP.buflen
  · show r.cache.offset ≤ r.cache.offset + _
    omega
  · show r.cache.offset + _ ≤ _
    omega
  · show r.cache.offset + _ - r.cache.offset ≤ _
    omega
  · intro i hi
    have hi2 : (i : Int) < ((min r.cache.buf.len
        (MemStore.range O r.cache.offset CacheSize).len : Nat) : Int) := by
      have : r.cache.offset + ((min r.cache.buf.len
        (MemStore.range O r.cache.offset CacheSize).len : Nat) : Int) - r.cache.offset =
          ((min r.cache.buf.len (MemStore.range O r.cache.offset CacheSize).len : Nat) : Int) := by
        omega
      rw [← this]; exact hi
    have hi3 : i < min r.cache.buf.len (MemStore.range O r.cache.offset CacheSize).len := by
      exact_mod_cast hi2
    show (Bytes.copy _ _).get i = _
    rw [Bytes.get_copy, if_pos hi3]
    exact range_get ho0 hol i (by omega)

theorem hitOrLoad_inv {r : ReaderAt} {st : MemStore} {O : Bytes} (log : List Event)
    (p : Bytes) (off : Int) (hI : RInv r st O) {n : Int} {p1 : Bytes} {r1 : ReaderAt}
    {wd1 : World MemStore}
    (h : ReaderAt.hitOrLoad memStore r ⟨st, log⟩ p off = some ((n, none), p1, r1, wd1)) :
    RInv r1 wd1.be O := by
  obtain ⟨md, hobj⟩ := hI.1.obj
  unfold ReaderAt.hitOrLoad at h
  split_ifs at h with hc
  · split at h
    · cases h
    · cases h; exact hI
  · simp only [World.Get, memStore, hobj] at h
    cases h; exact hI

theorem serve_inv {r : ReaderAt} {st : MemStore} {O : Bytes} (log : List Event)
    (p : Bytes) (off : Int) (hI : RInv r st O) {n : Int} {p1 : Bytes} {r1 : ReaderAt}
    {wd1 : World MemStore}
    (h : ReaderAt.serve memStore r ⟨st, log⟩ p off = some ((n, none), p1, r1, wd1)) :
    RInv r1 wd1.be O := by
  obtain ⟨md, hobj⟩ := hI.1.obj
  unfold ReaderAt.serve at h
  split_ifs at h with h1 h2 h3
  · cases h; exact hI
  · split at h
    · cases h
    · cases h; exact hI
  · simp only [World.Get, memStore, hobj] at h
    exact hitOrLoad_inv _ p off (reload_inv hI (by omega)) h
  · exact hitOrLoad_inv log p off hI h

theorem hitOrLoad_read {r : ReaderAt} {st : MemStore} {O : Bytes} (log : List Event)
    (p : Bytes) (off : Int) (hI : RInv r st O) (hp : 0 < p.len) (h0 : 0 ≤ off)
    (hS : off + (p.len : Int) ≤ (O.len : Int)) :
    ∃ p1 wd1, ReaderAt.hitOrLoad memStore r ⟨st, log⟩ p off =
        some (((p.len : Int), none), p1, r, wd1) ∧
      p1.len = p.len ∧ ∀ i, i < p.len → p1.get i = O.get (off.toNat + i) := by
  obtain ⟨hP, hsz⟩ := hI
  obtain ⟨md, hobj⟩ := hP.obj
  have hc : CacheSize = 67108864 := rfl
  have hbl := hP.buflen
  have hwin := hP.win
  unfold ReaderAt.hitOrLoad
  by_cases hhit : off ≥ r.cache.start ∧ off + (p.len : Int) ≤ r.cache.offset
  · rw [if_pos hhit]
    obtain ⟨s, hs, hsl, hsg⟩ := Bytes.slice_eq r.cache.buf (off - r.cache.start)
      (off - r.cache.start + (p.len : Int)) (by omega) (by omega) (by omega)
    rw [hs]
    have hsl' : s.len = p.len := by rw [hsl]; omega
    refine ⟨_, _, rfl, Bytes.len_copy _ _, ?_⟩
    intro i hi
    rw [Bytes.get_copy, if_pos (by omega), hsg i (by omega),
      hP.data ((off - r.cache.start).toNat + i) (by omega)]
    congr 1
    have := hP.start0
    omega
  · rw [if_neg hhit]
    simp only [World.Get, memStore, hobj]
    have hpl : (0 : Int) < (p.len : Int) := by omega
    have hrl := @range_len O off (p.len : Int) h0 hpl
    refine ⟨_, _, rfl, Bytes.len_copy _ _, ?_⟩
    intro i hi
    rw [Bytes.get_copy, if_pos (by omega)]
    exact range_get h0 (by omega) i (by omega)

theorem serve_read {r : ReaderAt} {st : MemStore} {O : Bytes} (log : List Event)
    (p : Bytes) (off : Int) (hI : RInv r st O) (hp : 0 < p.len) (h0 : 0 ≤ off)
    (hS : off + (p.len : Int) ≤ (O.len : Int)) :
    ∃ p1 r1 wd1, ReaderAt.serve memStore r ⟨st, log⟩ p off =
        some (((p.len : Int), none), p1, r1, wd1) ∧
      p1.len = p.len ∧ ∀ i, i < p.len → p1.get i = O.get (off.toNat + i) := by
  obtain ⟨md, hobj⟩ := hI.1.obj
  have hsz := hI.2
  have hol := hI.1.offle
  unfold ReaderAt.serve
  rw [if_neg (by omega)]
  by_cases h2 : off + (p.len : Int) > r.cache.offset
  · rw [if_pos h2, if_neg (by omega)]
    simp only [World.Get, memStore, hobj]
    obtain ⟨p1, wd1, h, hl, hg⟩ := hitOrLoad_read (log ++ [⟨Call.Get r.key r.cache.offset CacheSize,
      Except.failed (Except.ok ((min r.cache.buf.len
        (MemStore.range O r.cache.offset CacheSize).len : Nat) : Int) : Except String Int)⟩])
      p off (reload_inv hI (by omega)) hp h0 hS
    exact ⟨p1, _, wd1, h, hl, hg⟩
  · rw [if_neg h2]
    obtain ⟨p1, wd1, h, hl, hg⟩ := hitOrLoad_read log p off hI hp h0 hS
    exact ⟨p1, _, wd1, h, hl, hg⟩

/-- C17. Normal reader window correctness over the in-memory store: the reader
state `r` is over an object `O` stored at its key, its window satisfies
`buf[0 .. offset-start) = O[start .. offset)` and `offset <= |O|` (`RPre`), and
the size is known or this read is at offset 0 (which learns it).  Then every
`ReadAt` that returns without an error leaves a state with the same invariant
and the size `|O|` (`RInv`), and every `ReadAt(p, off)` with `len(p) > 0`,
`0 <= off` and `off + len(p) <= |O|` returns `len(p)` with no error and fills
`p` with `O[off .. off+len(p))`, whichever of the three paths serves it. -/
theorem normal_reader_window (r : ReaderAt) (st : MemStore) (log : List Event) (O p : Bytes)
    (off : Int) (hI : RPre r st O) (hs : off = 0 ∨ r.cache.size = (O.len : Int)) :
    (∀ n p1 r1 wd1, r.ReadAt memStore ⟨st, log⟩ p off = some ((n, none), p1, r1, wd1) →
      RInv r1 wd1.be O) ∧
    (0 < p.len → 0 ≤ off → off + (p.len : Int) ≤ (O.len : Int) →
      ∃ p1 r1 wd1, r.ReadAt memStore ⟨st, log⟩ p off =
          some (((p.len : Int), none), p1, r1, wd1) ∧
        p1.len = p.len ∧ ∀ i, i < p.len → p1.get i = O.get (off.toNat + i)) := by
  obtain ⟨r0, log0, hh, hI0⟩ := head_spec log off hI hs
  have hR : r.ReadAt memStore ⟨st, log⟩ p off = ReaderAt.serve memStore r0 ⟨st, log0⟩ p off := by
    unfold ReaderAt.ReadAt
    rw [if_neg (by rw [hI.err]; decide), hh]
  rw [hR]
  exact ⟨fun n p1 r1 wd1 h => serve_inv log0 p off hI0 h,
    fun hp h0 hS => serve_read log0 p off hI0 hp h0 hS⟩

/-- Witness for C17: a fresh reader over a five-byte object, read of two bytes
at offset 0. -/
theorem normal_reader_window_witness :
    RPre (NewReader "f") (MemStore.single "f" (Bytes.ofList [1, 2, 3, 4, 5]))
        (Bytes.ofList [1, 2, 3, 4, 5]) ∧
    ((∀ n p1 r1 wd1, (NewReader "f").ReadAt memStore
        ⟨MemStore.single "f" (Bytes.ofList [1, 2, 3, 4, 5]), []⟩ (Bytes.make 2) 0 =
          some ((n, none), p1, r1, wd1) →
      RInv r1 wd1.be (Bytes.ofList [1, 2, 3, 4, 5])) ∧
    (0 < (Bytes.make 2).len → (0 : Int) ≤ 0 →
      (0 : Int) + ((Bytes.make 2).len : Int) ≤ ((Bytes.ofList [1, 2, 3, 4, 5]).len : Int) →
      ∃ p1 r1 wd1, (NewReader "f").ReadAt memStore
          ⟨MemStore.single "f" (Bytes.ofList [1, 2, 3, 4, 5]), []⟩ (Bytes.make 2) 0 =
          some ((((Bytes.make 2).len : Int), none), p1, r1, wd1) ∧
        p1.len = (Bytes.make 2).len ∧
        ∀ i, i < (Bytes.make 2).len →
          p1.get i = (Bytes.ofList [1, 2, 3, 4, 5]).get ((0 : Int).toNat + i))) :=
  ⟨RPre_fresh "f" _ _ [] rfl,
    normal_reader_window (NewReader "f") (MemStore.single "f" (Bytes.ofList [1, 2, 3, 4, 5])) []
      (Bytes.ofList [1, 2, 3, 4, 5]) (Bytes.make 2) 0 (RPre_fresh "f" _ _ [] rfl) (Or.inl rfl)⟩

/-! ## Chunk reader: slots and a well-formed manifest -/

theorem Contig_find (tl : List ChunkMeta) : ∀ (recs : List ChunkMeta) (st i e : Int) (k : Nat)
    (m : ChunkMeta), Contig st i recs e → recs.get? k = some m →
    (recs ++ tl).find? (fun v => v.Index = i + k) = some m
  | [], _, _, _, k, m, _, hk => by cases hk
  | a :: as, st, i, e, k, m, hC, hk => by
    obtain ⟨h1, h2, h3, h4⟩ := hC
    cases k with
    | zero =>
      simp only [List.get?_cons_zero, Option.some.injEq] at hk
      subst hk
      rw [List.cons_append, List.find?_cons]
      simp [h1]
    | succ k =>
      simp only [List.get?_cons_succ] at hk
      rw [List.cons_append, List.find?_cons]
      have hne : ¬ (a.Index = i + ((k + 1 : Nat) : Int)) := by rw [h1]; omega
      simp only [hne, decide_False]
      have := Contig_find tl as a.End (i + 1) e k m h4 hk
      have he : i + 1 + (k : Int) = i + ((k + 1 : Nat) : Int) := by push_cast; ring
      rw [he] at this
      exact this

theorem doBound_spec {r : ChunkReader} {recs : List ChunkMeta} {s : ChunkMeta} {e : Int}
    {k : Nat} {m : ChunkMeta} (hM : r.ChunkMetas = recs ++ [s]) (hC : Contig 0 0 recs e)
    (hk : recs.get? k = some m) : r.doBound (k : Int) = (m.Start, m.End) := by
  unfold ChunkReader.doBound
  have := Contig_find [s] recs 0 0 e k m hC hk
  rw [zero_add] at this
  rw [hM, this]

theorem Contig_get_start {m : ChunkMeta} : ∀ (recs : List ChunkMeta) (st i e : Int) (k : Nat),
    Contig st i recs e → recs.get? k = some m → st ≤ m.Start ∧ m.End ≤ e
  | [], _, _, _, k, _, hk => by cases hk
  | a :: as, st, i, e, k, hC, hk => by
    obtain ⟨h1, h2, h3, h4⟩ := hC
    cases k with
    | zero =>
      simp only [List.get?_cons_zero, Option.some.injEq] at hk
      subst hk
      refine ⟨by omega, ?_⟩
      cases as with
      | nil => have : a.End = e := h4; omega
      | cons b bs =>
        have := (Contig_get_start (b :: bs) a.End (i + 1) e 0 h4 rfl).2
        obtain ⟨_, g2, g3, _⟩ := h4
        omega
    | succ k =>
      simp only [List.get?_cons_succ] at hk
      have := Contig_get_start as a.End (i + 1) e k h4 hk
      omega

theorem Contig_mono {ma mb : ChunkMeta} : ∀ (recs : List ChunkMeta) (st i e : Int) (a b : Nat),
    Contig st i recs e → recs.get? a = some ma → recs.get? b = some mb → a < b →
    ma.End ≤ mb.Start
  | [], _, _, _, a, _, _, ha, _, _ => by cases ha
  | x :: xs, st, i, e, a, b, hC, ha, hb, hab => by
    obtain ⟨h1, h2, h3, h4⟩ := hC
    cases b with
    | zero => omega
    | succ b =>
      simp only [List.get?_cons_succ] at hb
      cases a with
      | zero =>
        simp only [List.get?_cons_zero, Option.some.injEq] at ha
        subst ha
        exact (Contig_get_start xs _ (i + 1) e b h4 hb).1
      | succ a =>
        simp only [List.get?_cons_succ] at ha
        exact Contig_mono xs _ (i + 1) e a b h4 ha hb (by omega)

theorem Contig_next {ma mb : ChunkMeta} : ∀ (recs : List ChunkMeta) (st i e : Int) (a : Nat),
    Contig st i recs e → recs.get? a = some ma → recs.get? (a + 1) = some mb →
    mb.Start = ma.End
  | [], _, _, _, a, _, ha, _ => by cases ha
  | x :: xs, st, i, e, a, hC, ha, hb => by
    obtain ⟨h1, h2, h3, h4⟩ := hC
    simp only [List.get?_cons_succ] at hb
    cases a with
    | zero =>
      simp only [List.get?_cons_zero, Option.some.injEq] at ha
      subst ha
      cases xs with
      | nil => cases hb
      | cons y ys =>
        simp only [List.get?_cons_zero, Option.some.injEq] at hb
        subst hb
        exact h4.2.1
    | succ a =>
      simp only [List.get?_cons_succ] at ha
      exact Contig_next xs _ (i + 1) e a h4 ha hb

theorem get?_lt {α : Type} {l : List α} {k : Nat} {m : α} (hk : l.get? k = some m) :
    k < l.length := by
  by_contra hge
  rw [List.get?_eq_none.mpr (by omega)] at hk
  cases hk

theorem slot_read {s : ChunkReadCache} {B : Bytes} (hS : SlotOK s B) (p : Bytes) (off : Int)
    (h1 : s.start ≤ off) (h2 : off + (p.len : Int) ≤ s.offset) :
    ∃ sl, s.buf.slice (off - s.start) (off - s.start + (p.len : Int)) = some sl ∧
      (Bytes.copy p sl).len = p.len ∧
      ∀ i, i < p.len → (Bytes.copy p sl).get i = B.get (off.toNat + i) := by
  have hf := hS.fits
  have h0 := hS.start0
  obtain ⟨sl, hs, hsl, hsg⟩ := Bytes.slice_eq s.buf (off - s.start)
    (off - s.start + (p.len : Int)) (by omega) (by omega) (by omega)
  have hsl' : sl.len = p.len := by rw [hsl]; omega
  refine ⟨sl, hs, Bytes.len_copy _ _, ?_⟩
  intro i hi
  rw [Bytes.get_copy, if_pos (by omega), hsg i (by omega),
    hS.data ((off - s.start).toNat + i) (by omega)]
  congr 1
  omega

theorem slot_of_chunk {buf : Bytes} {o : StoredObject} {m : ChunkMeta} {B : Bytes}
    (h0 : 0 ≤ m.Start) (hlt : m.Start < m.End) (hfit : m.End - m.Start ≤ (buf.len : Int))
    (hlen : m.End - m.Start ≤ (o.body.len : Int))
    (hdata : ∀ i : Nat, (i : Int) < m.End - m.Start → o.body.get i = B.get (m.Start.toNat + i)) :
    SlotOK ⟨Bytes.copy buf o.body, m.Start, m.End⟩ B := by
  refine ⟨h0, by show m.Start ≤ m.End; omega, ?_, ?_⟩
  · show m.End - m.Start ≤ ((Bytes.copy buf o.body).len : Int)
    rw [Bytes.len_copy]; exact hfit
  · intro i hi
    have hi' : (i : Int) < m.End - m.Start := hi
    show (Bytes.copy buf o.body).get i = B.get (m.Start.toNat + i)
    rw [Bytes.get_copy, if_pos (by omega)]
    exact hdata i hi'

theorem copyInto_get (dst : Bytes) (lo hi : Int) (src : Bytes) (h0 : 0 ≤ lo) (h1 : lo ≤ hi)
    (h2 : hi ≤ (dst.len : Int)) :
    ∃ d, dst.copyInto lo hi src = some d ∧ d.len = dst.len ∧
      ∀ i, d.get i = if lo.toNat ≤ i ∧ i < lo.toNat + min (hi - lo).toNat src.len
        then src.get (i - lo.toNat) else dst.get i := by
  unfold Bytes.copyInto
  rw [dif_pos ⟨h0, h1, h2⟩]
  exact ⟨_, rfl, rfl, fun i => rfl⟩

theorem doDownload_plain {r : ChunkReader} {wd : World MemStore} {idx : Int} {o : StoredObject}
    (buf : Bytes) (hc : r.compress = none)
    (hobj : wd.be.objects (r.key ++ "/" ++ Itoa idx) = some o) :
    r.doDownload memStore wd idx buf = some (none, Bytes.copy buf o.body, r,
      ⟨wd.be, wd.log ++ [getEvent (r.key ++ "/" ++ Itoa idx)]⟩) := by
  unfold ChunkReader.doDownload
  rw [hc]
  simp only []
  rw [memStore_get hobj]
  rfl

/-! ## Chunk reader: the three ways a read is served -/

theorem readCached_c {β : Type} (S : ObjectStorage β) {r : ChunkReader} {B : Bytes}
    (wd : World β) (p : Bytes) (off : Int) (hS : SlotOK r.c B)
    (h1 : r.c.start ≤ off) (h2 : off + (p.len : Int) ≤ r.c.offset) :
    ∃ p1, r.readCached S wd p off = some (((p.len : Int), none), p1, r, wd) ∧
      p1.len = p.len ∧ ∀ i, i < p.len → p1.get i = B.get (off.toNat + i) := by
  obtain ⟨sl, hs, hl, hg⟩ := slot_read hS p off h1 h2
  unfold ChunkReader.readCached
  rw [if_pos ⟨h1, h2⟩, hs]
  exact ⟨_, rfl, hl, hg⟩

theorem readCached_ec {β : Type} (S : ObjectStorage β) {r : ChunkReader} {B : Bytes}
    (wd : World β) (p : Bytes) (off : Int) (hS : SlotOK r.ec B)
    (hn : ¬ (off ≥ r.c.start ∧ off + (p.len : Int) ≤ r.c.offset))
    (h1 : r.ec.start ≤ off) (h2 : off + (p.len : Int) ≤ r.ec.offset) :
    ∃ p1, r.readCached S wd p off = some (((p.len : Int), none), p1, r, wd) ∧
      p1.len = p.len ∧ ∀ i, i < p.len → p1.get i = B.get (off.toNat + i) := by
  obtain ⟨sl, hs, hl, hg⟩ := slot_read hS p off h1 h2
  unfold ChunkReader.readCached
  rw [if_neg hn, if_pos ⟨h1, h2⟩, hs]
  exact ⟨_, rfl, hl, hg⟩

theorem readCached_miss {β : Type} (S : ObjectStorage β) {r : ChunkReader}
    (wd : World β) (p : Bytes) (off : Int)
    (hn : ¬ (off ≥ r.c.start ∧ off + (p.len : Int) ≤ r.c.offset))
    (hn2 : ¬ (off ≥ r.ec.start ∧ off + (p.len : Int) ≤ r.ec.offset)) :
    r.readCached S wd p off = r.readMiss S wd p off := by
  unfold ChunkReader.readCached
  rw [if_neg hn, if_neg hn2]

theorem readMiss_once {r : ChunkReader} {wd : World MemStore} {recs : List ChunkMeta}
    {s : ChunkMeta} {e : Int} {B : Bytes} {k : Nat} {m : ChunkMeta} {o : StoredObject}
    (p : Bytes) (off : Int)
    (hc : r.compress = none) (hM : r.ChunkMetas = recs ++ [s]) (hC : Contig 0 0 recs e)
    (hs : s.Start ≥ s.End) (hk : recs.get? k = some m) (h1 : m.Start ≤ off) (h2 : off < m.End)
    (h3 : off + (p.len : Int) ≤ m.End)
    (hobj : wd.be.objects (r.key ++ "/" ++ Itoa (k : Int)) = some o)
    (hfit : m.End - m.Start ≤ (r.c.buf.len : Int)) (hlen : m.End - m.Start ≤ (o.body.len : Int))
    (hdata : ∀ i : Nat, (i : Int) < m.End - m.Start → o.body.get i = B.get (m.Start.toNat + i)) :
    ∃ p1, r.readMiss memStore wd p off = some (((p.len : Int), none), p1,
        { r with c := ⟨Bytes.copy r.c.buf o.body, m.Start, m.End⟩ },
        ⟨wd.be, wd.log ++ [getEvent (r.key ++ "/" ++ Itoa (k : Int))]⟩) ∧
      p1.len = p.len ∧ ∀ i, i < p.len → p1.get i = B.get (off.toNat + i) := by
  have hm0 : 0 ≤ m.Start := (Contig_get_start recs 0 0 e k hC hk).1
  have hdp : r.determinePack off p.len = ((k : Int), -1) := by
    rw [(determinePack_contig r recs s e off p.len hM hC hs (by omega)).2 k m hk h1 h2,
      if_pos (Or.inl h3)]
  have hS : SlotOK ⟨Bytes.copy r.c.buf o.body, m.Start, m.End⟩ B :=
    slot_of_chunk hm0 (by omega) hfit hlen hdata
  obtain ⟨sl, hsl, hl, hg⟩ := slot_read hS p off h1 h3
  unfold ChunkReader.readMiss
  rw [hdp]
  simp only []
  rw [if_neg (by omega), doDownload_plain r.c.buf hc hobj]
  simp only []
  rw [doBound_spec hM hC hk]
  simp only [if_true]
  rw [hsl]
  exact ⟨_, rfl, hl, hg⟩

theorem readMiss_twice {r : ChunkReader} {wd : World MemStore} {recs : List ChunkMeta}
    {s : ChunkMeta} {e : Int} {B : Bytes} {k : Nat} {m m' : ChunkMeta} {o o' : StoredObject}
    (p : Bytes) (off : Int)
    (hc : r.compress = none) (hM : r.ChunkMetas = recs ++ [s]) (hC : Contig 0 0 recs e)
    (hs : s.Start ≥ s.End) (hk : recs.get? k = some m) (hk' : recs.get? (k + 1) = some m')
    (h1 : m.Start ≤ off) (h2 : off < m.End)
    (h3 : ¬ off + (p.len : Int) ≤ m.End) (h4 : off + (p.len : Int) ≤ m'.End)
    (hobj : wd.be.objects (r.key ++ "/" ++ Itoa (k : Int)) = some o)
    (hobj' : wd.be.objects (r.key ++ "/" ++ Itoa ((k : Int) + 1)) = some o')
    (hfit : m.End - m.Start ≤ (r.c.buf.len : Int))
    (hfit' : m'.End - m'.Start ≤ (r.ec.buf.len : Int))
    (hlen : m.End - m.Start ≤ (o.body.len : Int))
    (hlen' : m'.End - m'.Start ≤ (o'.body.len : Int))
    (hdata : ∀ i : Nat, (i : Int) < m.End - m.Start → o.body.get i = B.get (m.Start.toNat + i))
    (hdata' : ∀ i : Nat, (i : Int) < m'.End - m'.Start →
      o'.body.get i = B.get (m'.Start.toNat + i)) :
    ∃ p1, r.readMiss memStore wd p off = some (((p.len : Int), none), p1,
        { r with c := ⟨Bytes.copy r.c.buf o.body, m.Start, m.End⟩
                 ec := ⟨Bytes.copy r.ec.buf o'.body, m'.Start, m'.End⟩ },
        ⟨wd.be, (wd.log ++ [getEvent (r.key ++ "/" ++ Itoa (k : Int))]) ++
          [getEvent (r.key ++ "/" ++ Itoa ((k : Int) + 1))]⟩) ∧
      p1.len = p.len ∧ ∀ i, i < p.len → p1.get i = B.get (off.toNat + i) := by
  have hm0 : 0 ≤ m.Start := (Contig_get_start recs 0 0 e k hC hk).1
  have hnext : m'.Start = m.End := Contig_next recs 0 0 e k hC hk hk'
  have hklt : k + 1 < recs.length := get?_lt hk'
  have hdp : r.determinePack off p.len = ((k : Int), (k : Int) + 1) := by
    rw [(determinePack_contig r recs s e off p.len hM hC hs (by omega)).2 k m hk h1 h2,
      if_neg (by
        intro h
        rcases h with h | h
        · exact h3 h
        · omega)]
  have hk'' : recs.get? (k + 1) = some m' := hk'
  have hb2 : ∀ r' : ChunkReader, r'.ChunkMetas = recs ++ [s] →
      r'.doBound ((k : Int) + 1) = (m'.Start, m'.End) := by
    intro r' hM'
    have := @doBound_spec r' recs s e (k + 1) m' hM' hC hk'
    rw [Nat.cast_succ] at this
    exact this
  obtain ⟨tail, htl, htll, htlg⟩ := Bytes.slice_eq (Bytes.copy r.c.buf o.body) (off - m.Start)
    ((Bytes.copy r.c.buf o.body).len : Int) (by omega)
    (by rw [Bytes.len_copy]; omega) (le_refl _)
  rw [Bytes.len_copy] at htll
  obtain ⟨q1, hq1, hq1l, hq1g⟩ := copyInto_get p 0 (m.End - off) tail (le_refl _) (by omega)
    (by omega)
  obtain ⟨q2, hq2, hq2l, hq2g⟩ := copyInto_get q1 (m.End - off) (q1.len : Int)
    (Bytes.copy r.ec.buf o'.body) (by omega) (by rw [hq1l]; omega) (le_refl _)
  unfold ChunkReader.readMiss
  rw [hdp]
  simp only []
  rw [if_neg (by omega), doDownload_plain r.c.buf hc hobj]
  simp only []
  rw [doBound_spec hM hC hk]
  rw [if_neg (by omega)]
  unfold ChunkReader.readTwice
  dsimp only
  rw [@doDownload_plain { r with c := ⟨Bytes.copy r.c.buf o.body, m.Start, m.End⟩ }
    ⟨wd.be, wd.log ++ [getEvent (r.key ++ "/" ++ Itoa (k : Int))]⟩ ((k : Int) + 1) o' r.ec.buf
    hc hobj']
  dsimp only
  rw [htl]
  simp only []
  rw [hq1]
  simp only []
  rw [hq2]
  simp only []
  rw [hb2 { r with c := ⟨Bytes.copy r.c.buf o.body, m.Start, m.End⟩ } hM]
  refine ⟨_, rfl, by rw [hq2l, hq1l], ?_⟩
  intro i hi
  rw [hq2g i]
  have hbl : (Bytes.copy r.ec.buf o'.body).len = r.ec.buf.len := Bytes.len_copy _ _
  by_cases hlo : (m.End - off).toNat ≤ i
  · rw [if_pos ⟨hlo, by rw [hq1l, hbl]; omega⟩, Bytes.get_copy, if_pos (by omega),
      hdata' (i - (m.End - off).toNat) (by omega)]
    congr 1
    omega
  · simp only [Int.toNat_zero, Nat.zero_add, sub_zero, Nat.sub_zero, Nat.zero_le, true_and]
      at hq1g
    rw [if_neg (fun h => hlo h.1), hq1g i, if_pos (by rw [htll]; omega),
      htlg i (by rw [htll]; omega), Bytes.get_copy, if_pos (by omega),
      hdata ((off - m.Start).toNat + i) (by omega)]
    congr 1
    omega

/-! ## Chunk reader: a request inside one chunk and its successor -/

theorem CRPre_fresh (key : String) (isFixed : Bool) (B : Bytes) :
    CRPre (NewChunkReader key none isFixed) B
      (if isFixed then ChunkCacheFixedSize.toNat else ChunkCacheDynamicReadSize.toNat) := by
  have hs : ∀ buf : Bytes, SlotOK ⟨buf, 0, 0⟩ B := fun buf =>
    ⟨le_refl _, le_refl _, by show (0 : Int) - 0 ≤ _; omega, fun i hi => by
      have : (i : Int) < 0 - 0 := hi
      omega⟩
  refine ⟨rfl, rfl, ?_, ?_, hs _, hs _⟩ <;> cases isFixed <;> rfl

theorem readCached_two_slot {E : Env} {r : ChunkReader} {wd : World MemStore}
    {recs : List ChunkMeta} {s : ChunkMeta} {B : Bytes} {L : Nat} (p : Bytes) (off : Int)
    (k : Nat) (m : ChunkMeta)
    (hF : ChunkFile E wd.be r.key recs s B L) (hI : CRPre r B L)
    (hM : r.ChunkMetas = recs ++ [s])
    (hk : recs.get? k = some m) (h1 : m.Start ≤ off) (h2 : off < m.End)
    (h3 : off + (p.len : Int) ≤ m.End ∨
      ∃ m', recs.get? (k + 1) = some m' ∧ off + (p.len : Int) ≤ m'.End) :
    ∃ p1 r1 wd1, r.readCached memStore wd p off = some (((p.len : Int), none), p1, r1, wd1) ∧
      p1.len = p.len ∧ (∀ i, i < p.len → p1.get i = B.get (off.toNat + i)) ∧
      wd1.be = wd.be ∧ CRPre r1 B L ∧ r1.ChunkMetas = recs ++ [s] ∧ r1.key = r.key := by
  by_cases hc1 : off ≥ r.c.start ∧ off + (p.len : Int) ≤ r.c.offset
  · obtain ⟨p1, h, hl, hg⟩ := readCached_c memStore wd p off hI.c hc1.1 hc1.2
    exact ⟨p1, r, wd, h, hl, hg, rfl, hI, hM, rfl⟩
  by_cases hc2 : off ≥ r.ec.start ∧ off + (p.len : Int) ≤ r.ec.offset
  · obtain ⟨p1, h, hl, hg⟩ := readCached_ec memStore wd p off hI.ec hc1 hc2.1 hc2.2
    exact ⟨p1, r, wd, h, hl, hg, rfl, hI, hM, rfl⟩
  rw [readCached_miss memStore wd p off hc1 hc2]
  obtain ⟨o, hobj, hlen, hdata⟩ := hF.chunks k m hk
  have hsm : m.End - m.Start ≤ (L : Int) := hF.small m (List.get?_mem hk)
  have hm0 : 0 ≤ m.Start := (Contig_get_start recs 0 0 _ k hF.contig hk).1
  have hmlt : m.Start < m.End := Contig_lt hF.contig m (List.get?_mem hk)
  have hSc : SlotOK ⟨Bytes.copy r.c.buf o.body, m.Start, m.End⟩ B :=
    slot_of_chunk hm0 hmlt (by rw [hI.clen]; exact hsm) hlen hdata
  by_cases hfit : off + (p.len : Int) ≤ m.End
  · obtain ⟨p1, h, hl, hg⟩ := readMiss_once p off hI.cmp hM hF.contig hF.sentinel hk h1 h2 hfit
      hobj (by rw [hI.clen]; exact hsm) hlen hdata
    refine ⟨p1, _, _, h, hl, hg, rfl, ?_, hM, rfl⟩
    exact ⟨hI.err, hI.cmp, by show (Bytes.copy _ _).len = L; rw [Bytes.len_copy]; exact hI.clen,
      hI.eclen, hSc, hI.ec⟩
  · obtain ⟨m', hk', h4⟩ := h3.resolve_left hfit
    obtain ⟨o', hobj', hlen', hdata'⟩ := hF.chunks (k + 1) m' hk'
    rw [Nat.cast_succ] at hobj'
    have hsm' : m'.End - m'.Start ≤ (L : Int) := hF.small m' (List.get?_mem hk')
    have hm0' : 0 ≤ m'.Start := (Contig_get_start recs 0 0 _ (k + 1) hF.contig hk').1
    have hmlt' : m'.Start < m'.End := Contig_lt hF.contig m' (List.get?_mem hk')
    obtain ⟨p1, h, hl, hg⟩ := readMiss_twice p off hI.cmp hM hF.contig hF.sentinel hk hk' h1 h2
      hfit h4 hobj hobj' (by rw [hI.clen]; exact hsm) (by rw [hI.eclen]; exact hsm') hlen hlen'
      hdata hdata'
    refine ⟨p1, _, _, h, hl, hg, rfl, ?_, hM, rfl⟩
    exact ⟨hI.err, hI.cmp, by show (Bytes.copy _ _).len = L; rw [Bytes.len_copy]; exact hI.clen,
      by show (Bytes.copy _ _).len = L; rw [Bytes.len_copy]; exact hI.eclen, hSc,
      slot_of_chunk hm0' hmlt' (by rw [hI.eclen]; exact hsm') hlen' hdata'⟩

theorem ReadAt_reduce {E : Env} {r : ChunkReader} {st : MemStore} (log : List Event)
    {recs : List ChunkMeta} {s : ChunkMeta} {B : Bytes} {L : Nat} (p : Bytes) (off : Int)
    (hF : ChunkFile E st r.key recs s B L) (hI : CRPre r B L)
    (hM : off = 0 ∨ r.ChunkMetas = recs ++ [s]) :
    ∃ r0 log0, r.ReadAt E memStore ⟨st, log⟩ p off = r0.readCached memStore ⟨st, log0⟩ p off ∧
      CRPre r0 B L ∧ r0.ChunkMetas = recs ++ [s] ∧ r0.key = r.key ∧ r0.c = r.c ∧ r0.ec = r.ec ∧
      log0 = (if off = 0 then log ++ [getEvent (r.key ++ "/.meta")] else log) := by
  unfold ChunkReader.ReadAt
  rw [if_neg (by rw [hI.err]; decide)]
  by_cases h0 : off = 0
  · obtain ⟨mb, md, hobj, hlen, hU⟩ := hF.manifest
    rw [if_pos h0, @doInit_spec E r ⟨st, log⟩ mb md (recs ++ [s]) hobj hlen hU]
    refine ⟨{ r with ChunkMetas := recs ++ [s] }, _, rfl, ?_, rfl, rfl, rfl, rfl, ?_⟩
    · exact ⟨hI.err, hI.cmp, hI.clen, hI.eclen, hI.c, hI.ec⟩
    · rw [if_pos h0]; rfl
  · rw [if_neg h0]
    exact ⟨r, log, rfl, hI, hM.resolve_left h0, rfl, rfl, rfl, by rw [if_neg h0]⟩

/-- C13. Two-slot straddle read over the in-memory store, compression
disabled: the store holds a chunked file `B` under the reader's key
(`ChunkFile`: well-formed manifest of contiguous records followed by the
sentinel, chunk objects that hold the logical bytes of their ranges, no chunk
longer than the slot buffers), both slots of the reader hold logical bytes
(`CRPre`), and the manifest is loaded or this read is at offset 0 (which loads
it).  For every request `[off, off+len(p))` that starts in the chunk `k` and
ends in chunk `k` or in chunk `k + 1`, `ReadAt` returns `len(p)` with no
error, fills `p` with `B[off .. off+len(p))`, leaves the store unchanged and
the reader in a state with the same invariant and the manifest loaded. -/
theorem two_slot_straddle_read (E : Env) (r : ChunkReader) (st : MemStore) (log : List Event)
    (recs : List ChunkMeta) (s : ChunkMeta) (B : Bytes) (L : Nat) (p : Bytes) (off : Int)
    (k : Nat) (m : ChunkMeta)
    (hF : ChunkFile E st r.key recs s B L) (hI : CRPre r B L)
    (hM : off = 0 ∨ r.ChunkMetas = recs ++ [s])
    (hk : recs.get? k = some m) (h1 : m.Start ≤ off) (h2 : off < m.End)
    (h3 : off + (p.len : Int) ≤ m.End ∨
      ∃ m', recs.get? (k + 1) = some m' ∧ off + (p.len : Int) ≤ m'.End) :
    ∃ p1 r1 wd1, r.ReadAt E memStore ⟨st, log⟩ p off = some (((p.len : Int), none), p1, r1, wd1) ∧
      p1.len = p.len ∧ (∀ i, i < p.len → p1.get i = B.get (off.toNat + i)) ∧
      wd1.be = st ∧ CRPre r1 B L ∧ r1.ChunkMetas = recs ++ [s] ∧ r1.key = r.key := by
  obtain ⟨r0, log0, hR, hI0, hM0, hkey, _, _, _⟩ := ReadAt_reduce log p off hF hI hM
  rw [hR]
  obtain ⟨p1, r1, wd1, h, hl, hg, hbe, hI1, hM1, hk1⟩ :=
    @readCached_two_slot E r0 ⟨st, log0⟩ recs s B L p off k m (by rw [hkey]; exact hF) hI0 hM0
      hk h1 h2 h3
  exact ⟨p1, r1, wd1, h, hl, hg, hbe, hI1, hM1, hk1.trans hkey⟩

set_option maxRecDepth 100000 in
theorem threeFile : ChunkFile exampleEnv threeStore "f" threeRecs threeSentinel
    (Bytes.fill 3145728 7) 16777216 := by
  refine ⟨⟨_, _, rfl, by decide, by decide⟩,
    ⟨rfl, rfl, by decide, rfl, rfl, by decide, rfl, rfl, by decide, rfl⟩, by decide, ?_, ?_⟩
  · intro k m hk
    have hfill : ∀ (a i : Nat), a + 1048576 ≤ 3145728 → (i : Int) < 1048576 →
        (Bytes.fill 1048576 7).get i = (Bytes.fill 3145728 7).get (a + i) := by
      intro a i ha hi
      show (if i < 1048576 then (7 : UInt8) else 0) = (if a + i < 3145728 then (7 : UInt8) else 0)
      rw [if_pos (by omega), if_pos (by omega)]
    rcases k with _ | _ | _ | k
    · cases hk
      exact ⟨⟨Bytes.fill 1048576 7, []⟩, rfl, by decide,
        fun i hi => hfill 0 i (by omega) hi⟩
    · cases hk
      exact ⟨⟨Bytes.fill 1048576 7, []⟩, rfl, by decide,
        fun i hi => hfill 1048576 i (by omega) hi⟩
    · cases hk
      exact ⟨⟨Bytes.fill 1048576 7, []⟩, rfl, by decide,
        fun i hi => hfill 2097152 i (by omega) hi⟩
    · cases hk
  · intro m hm
    simp only [threeRecs, List.mem_cons, List.mem_singleton, List.not_mem_nil, or_false] at hm
    rcases hm with rfl | rfl | rfl <;> decide

/-- Witness for C13: three chunks of 1 MiB, a read of 1.5 MiB at offset
0.5 MiB on a reader whose manifest is loaded. -/
theorem two_slot_straddle_read_witness :
    ∃ p1 r1 wd1,
      ({ NewChunkReader "f" none false with
          ChunkMetas := threeRecs ++ [threeSentinel] } : ChunkReader).ReadAt exampleEnv memStore
          ⟨threeStore, []⟩ (Bytes.make 1572864) 524288 =
        some ((((Bytes.make 1572864).len : Int), none), p1, r1, wd1) ∧
      p1.len = (Bytes.make 1572864).len ∧
      (∀ i, i < (Bytes.make 1572864).len →
        p1.get i = (Bytes.fill 3145728 7).get ((524288 : Int).toNat + i)) ∧
      wd1.be = threeStore ∧ CRPre r1 (Bytes.fill 3145728 7) 16777216 ∧
      r1.ChunkMetas = threeRecs ++ [threeSentinel] ∧ r1.key = "f" :=
  two_slot_straddle_read exampleEnv
    { NewChunkReader "f" none false with ChunkMetas := threeRecs ++ [threeSentinel] }
    threeStore [] threeRecs threeSentinel (Bytes.fill 3145728 7) 16777216 (Bytes.make 1572864)
    524288 0 ⟨0, 0, 1048576, 1048576⟩ threeFile
    ⟨rfl, rfl, rfl, rfl, (CRPre_fresh "f" false (Bytes.fill 3145728 7)).c,
      (CRPre_fresh "f" false (Bytes.fill 3145728 7)).ec⟩
    (Or.inr rfl) rfl (by decide) (by decide)
    (Or.inr ⟨⟨1, 1048576, 2097152, 1048576⟩, rfl, by decide⟩)

/-! ## Chunk reader: a sequential scan -/

theorem chunkGets_succ (key : String) (n : Nat) :
    chunkGets key (n + 1) = chunkGets key n ++ [getEvent (key ++ "/" ++ Itoa (n : Int))] := by
  unfold chunkGets
  rw [List.range_succ, List.map_append]
  rfl

theorem readAll_cons {β : Type} (E : Env) (S : ObjectStorage β) (x : Int × Bytes)
    (rest : List (Int × Bytes)) (r : ChunkReader) (wd : World β) {res : Int × Error}
    {p1 : Bytes} {r1 : ChunkReader} {wd1 : World β}
    {outs : List ((Int × Error) × Bytes)} {r2 : ChunkReader} {wd2 : World β}
    (h1 : r.ReadAt E S wd x.2 x.1 = some (res, p1, r1, wd1))
    (h2 : ChunkReader.readAll E S rest r1 wd1 = some (outs, r2, wd2)) :
    ChunkReader.readAll E S (x :: rest) r wd = some ((res, p1) :: outs, r2, wd2) := by
  show (match r.ReadAt E S wd x.2 x.1 with
    | none => none
    | some (res, p1, r1, wd1) =>
      match ChunkReader.readAll E S rest r1 wd1 with
      | none => none
      | some (out, r2, wd2) => some ((res, p1) :: out, r2, wd2)) = _
  rw [h1]
  simp only []
  rw [h2]

theorem scan_from {E : Env} {key : String} {st : MemStore} {recs : List ChunkMeta}
    {s : ChunkMeta} {B : Bytes} {L : Nat} (log0 : List Event)
    (hF : ChunkFile E st key recs s B L) :
    ∀ (reads : List (Int × Bytes)) (r : ChunkReader) (wd : World MemStore) (j : Nat)
      (mj : ChunkMeta),
      Visited key st recs s B L log0 r wd j mj → recs.get? j = some mj →
      (∀ x ∈ reads, mj.Start < x.1) → reads.Pairwise (fun a b => a.1 < b.1) →
      (∀ x ∈ reads, 0 < x.2.len ∧
        ∃ k m, recs.get? k = some m ∧ m.Start ≤ x.1 ∧ x.1 + (x.2.len : Int) ≤ m.End) →
      (∀ t : Int, mj.End ≤ t → t < (B.len : Int) →
        ∃ x ∈ reads, x.1 ≤ t ∧ t < x.1 + (x.2.len : Int)) →
      ∃ outs r1 wd1, ChunkReader.readAll E memStore reads r wd = some (outs, r1, wd1) ∧
        outs.map Prod.fst = reads.map (fun x => ((x.2.len : Int), none)) ∧
        wd1.log = log0 ++ getEvent (key ++ "/.meta") :: chunkGets key recs.length := by
  intro reads
  induction reads with
  | nil =>
    intro r wd j mj hV hj _ _ _ hcov
    refine ⟨[], r, wd, rfl, rfl, ?_⟩
    have hjlt : j < recs.length := get?_lt hj
    have hend : mj.End ≤ (B.len : Int) := (Contig_get_start recs 0 0 _ j hF.contig hj).2
    have hlast : j + 1 = recs.length := by
      by_contra hne
      have hlt : j + 1 < recs.length := by omega
      have hg : recs.get? (j + 1) = some (recs.get ⟨j + 1, hlt⟩) := List.get?_eq_get hlt
      have hn := Contig_next recs 0 0 _ j hF.contig hj hg
      have hl := Contig_lt hF.contig _ (List.get?_mem hg)
      have he := (Contig_get_start recs 0 0 _ (j + 1) hF.contig hg).2
      obtain ⟨x, hx, _⟩ := hcov mj.End (le_refl _) (by omega)
      cases hx
    rw [hV.log, hlast]
  | cons x rest ih =>
    intro r wd j mj hV hj hgt hsort hin hcov
    obtain ⟨hpos, k, m, hk, hm1, hm2⟩ := hin x (List.mem_cons_self _ _)
    have hxgt : mj.Start < x.1 := hgt x (List.mem_cons_self _ _)
    have hmj0 : 0 ≤ mj.Start := (Contig_get_start recs 0 0 _ j hF.contig hj).1
    have hmjlt : mj.Start < mj.End := Contig_lt hF.contig mj (List.get?_mem hj)
    have hmlt : m.Start < m.End := Contig_lt hF.contig m (List.get?_mem hk)
    have hmend : m.End ≤ (B.len : Int) := (Contig_get_start recs 0 0 _ k hF.contig hk).2
    have hx0 : x.1 ≠ 0 := by omega
    have hrest : ∀ y ∈ rest, x.1 < y.1 := (List.pairwise_cons.mp hsort).1
    have hsort' := (List.pairwise_cons.mp hsort).2
    have hin' : ∀ y ∈ rest, 0 < y.2.len ∧
        ∃ k m, recs.get? k = some m ∧ m.Start ≤ y.1 ∧ y.1 + (y.2.len : Int) ≤ m.End :=
      fun y hy => hin y (List.mem_cons_of_mem _ hy)
    have hFr : ChunkFile E wd.be r.key recs s B L := by rw [hV.be, hV.hkey]; exact hF
    have hkj : j ≤ k := by
      by_contra hlt
      have := Contig_mono recs 0 0 _ k j hF.contig hk hj (by omega)
      omega
    have hRA : r.ReadAt E memStore wd x.2 x.1 = r.readCached memStore wd x.2 x.1 := by
      unfold ChunkReader.ReadAt
      rw [if_neg (by rw [hV.pre.err]; decide), if_neg hx0]
    by_cases hkeq : k = j
    · subst hkeq
      have hmm : m = mj := by
        rw [hk] at hj
        exact Option.some.inj hj
      subst hmm
      obtain ⟨p1, h, _, _⟩ := readCached_c memStore wd x.2 x.1 hV.pre.c
        (by rw [hV.cstart]; omega) (by rw [hV.cend]; exact hm2)
      obtain ⟨outs, r2, wd2, hr, ho, hl⟩ := ih r wd k m hV hk
        (fun y hy => by have := hrest y hy; omega) hsort' hin'
        (fun t ht1 ht2 => by
          obtain ⟨y, hy, hy1, hy2⟩ := hcov t ht1 ht2
          rcases List.mem_cons.mp hy with rfl | hy'
          · omega
          · exact ⟨y, hy', hy1, hy2⟩)
      refine ⟨_, r2, wd2, readAll_cons E memStore x rest r wd (hRA.trans h) hr, ?_, hl⟩
      rw [List.map_cons, List.map_cons, ho]
    · have hjk : j < k := by omega
      have hle : mj.End ≤ m.Start := Contig_mono recs 0 0 _ j k hF.contig hj hk hjk
      have hk1 : k = j + 1 := by
        by_contra hne
        have hlt : j + 1 < recs.length := by have := get?_lt hk; omega
        have hg : recs.get? (j + 1) = some (recs.get ⟨j + 1, hlt⟩) := List.get?_eq_get hlt
        have hn := Contig_next recs 0 0 _ j hF.contig hj hg
        have hl := Contig_lt hF.contig _ (List.get?_mem hg)
        have hmo := Contig_mono recs 0 0 _ (j + 1) k hF.contig hg hk (by omega)
        obtain ⟨y, hy, hy1, hy2⟩ := hcov mj.End (le_refl _) (by omega)
        rcases List.mem_cons.mp hy with rfl | hy'
        · omega
        · have := hrest y hy'
          omega
      subst hk1
      have hc1 : ¬ (x.1 ≥ r.c.start ∧ x.1 + (x.2.len : Int) ≤ r.c.offset) := by
        rw [hV.cend]
        intro h
        omega
      have hc2 : ¬ (x.1 ≥ r.ec.start ∧ x.1 + (x.2.len : Int) ≤ r.ec.offset) := by
        rw [hV.ecend]
        intro h
        omega
      obtain ⟨o, hobj, hlen, hdata⟩ := hFr.chunks (j + 1) m hk
      have hsm : m.End - m.Start ≤ (L : Int) := hF.small m (List.get?_mem hk)
      have hm0 : 0 ≤ m.Start := by omega
      obtain ⟨p1, h, _, _⟩ := readMiss_once x.2 x.1 hV.pre.cmp hV.metas hF.contig hF.sentinel hk
        hm1 (by omega) hm2 hobj (by rw [hV.pre.clen]; exact hsm) hlen hdata
      have hV' : Visited key st recs s B L log0
          { r with c := ⟨Bytes.copy r.c.buf o.body, m.Start, m.End⟩ }
          ⟨wd.be, wd.log ++ [getEvent (r.key ++ "/" ++ Itoa ((j + 1 : Nat) : Int))]⟩ (j + 1) m := by
        refine ⟨hV.hkey, ⟨hV.pre.err, hV.pre.cmp, ?_, hV.pre.eclen, ?_, hV.pre.ec⟩, hV.metas, rfl,
          rfl, hV.ecend, hV.be, ?_⟩
        · show (Bytes.copy _ _).len = L
          rw [Bytes.len_copy]; exact hV.pre.clen
        · exact slot_of_chunk hm0 hmlt (by rw [hV.pre.clen]; exact hsm) hlen hdata
        · show wd.log ++ _ = _
          rw [hV.log, chunkGets_succ key (j + 1), hV.hkey]
          simp only [List.append_assoc, List.cons_append]
      obtain ⟨outs, r2, wd2, hr, ho, hl⟩ := ih _ _ (j + 1) m hV' hk
        (fun y hy => by have := hrest y hy; omega) hsort' hin'
        (fun t ht1 ht2 => by
          obtain ⟨y, hy, hy1, hy2⟩ := hcov t (by omega) ht2
          rcases List.mem_cons.mp hy with rfl | hy'
          · omega
          · exact ⟨y, hy', hy1, hy2⟩)
      refine ⟨_, r2, wd2, readAll_cons E memStore x rest r wd
        (hRA.trans ((readCached_miss memStore wd x.2 x.1 hc1 hc2).trans h)) hr, ?_, hl⟩
      rw [List.map_cons, List.map_cons, ho]

theorem scan_fresh (E : Env) (key : String) (isFixed : Bool) (st : MemStore) (log : List Event)
    (recs : List ChunkMeta) (s : ChunkMeta) (B : Bytes) (reads : List (Int × Bytes))
    (hF : ChunkFile E st key recs s B
      (if isFixed then ChunkCacheFixedSize.toNat else ChunkCacheDynamicReadSize.toNat))
    (hhead : reads.head?.map Prod.fst = some 0)
    (hsort : reads.Pairwise (fun a b => a.1 < b.1))
    (hin : ∀ x ∈ reads, 0 < x.2.len ∧
      ∃ k m, recs.get? k = some m ∧ m.Start ≤ x.1 ∧ x.1 + (x.2.len : Int) ≤ m.End)
    (hcov : ∀ t : Int, 0 ≤ t → t < (B.len : Int) →
      ∃ x ∈ reads, x.1 ≤ t ∧ t < x.1 + (x.2.len : Int)) :
    ∃ outs r1 wd1,
      ChunkReader.readAll E memStore reads (NewChunkReader key none isFixed) ⟨st, log⟩ =
        some (outs, r1, wd1) ∧
      outs.map Prod.fst = reads.map (fun x => ((x.2.len : Int), none)) ∧
      wd1.log = log ++ getEvent (key ++ "/.meta") :: chunkGets key recs.length := by
  cases reads with
  | nil => cases hhead
  | cons x rest =>
    have hx0 : x.1 = 0 := by
      simp only [List.head?_cons, Option.map_some', Option.some.injEq] at hhead
      exact hhead
    obtain ⟨hpos, k, m, hk, hm1, hm2⟩ := hin x (List.mem_cons_self _ _)
    have hmlt : m.Start < m.End := Contig_lt hF.contig m (List.get?_mem hk)
    have hm0 : 0 ≤ m.Start := (Contig_get_start recs 0 0 _ k hF.contig hk).1
    have hk0 : k = 0 := by
      by_contra hne
      have hlt : 0 < recs.length := by have := get?_lt hk; omega
      have hg : recs.get? 0 = some (recs.get ⟨0, hlt⟩) := List.get?_eq_get hlt
      have hl := Contig_lt hF.contig _ (List.get?_mem hg)
      have h0 := (Contig_get_start recs 0 0 _ 0 hF.contig hg).1
      have hmo := Contig_mono recs 0 0 _ 0 k hF.contig hg hk (by omega)
      omega
    subst hk0
    have hrest : ∀ y ∈ rest, x.1 < y.1 := (List.pairwise_cons.mp hsort).1
    have hsort' := (List.pairwise_cons.mp hsort).2
    obtain ⟨r0, log0, hR, hI0, hM0, hkey, hc, hec, hlog0⟩ :=
      ReadAt_reduce log x.2 x.1 hF (CRPre_fresh key isFixed B) (Or.inl hx0)
    rw [if_pos hx0] at hlog0
    have hco : r0.c.offset = 0 := by rw [hc]; rfl
    have heco : r0.ec.offset = 0 := by rw [hec]; rfl
    have hc1 : ¬ (x.1 ≥ r0.c.start ∧ x.1 + (x.2.len : Int) ≤ r0.c.offset) := by
      rw [hco]
      intro h
      omega
    have hc2 : ¬ (x.1 ≥ r0.ec.start ∧ x.1 + (x.2.len : Int) ≤ r0.ec.offset) := by
      rw [heco]
      intro h
      omega
    obtain ⟨o, hobj, hlen, hdata⟩ := hF.chunks 0 m hk
    have hsm := hF.small m (List.get?_mem hk)
    have hobj' : (⟨st, log0⟩ : World MemStore).be.objects
        (r0.key ++ "/" ++ Itoa ((0 : Nat) : Int)) = some o := by
      rw [hkey]; exact hobj
    obtain ⟨p1, h, _, _⟩ := @readMiss_once r0 ⟨st, log0⟩ recs s _ B 0 m o x.2 x.1 hI0.cmp hM0
      hF.contig hF.sentinel hk hm1 (by omega) hm2 hobj' (by rw [hI0.clen]; exact hsm) hlen hdata
    have hV : Visited key st recs s B
        (if isFixed then ChunkCacheFixedSize.toNat else ChunkCacheDynamicReadSize.toNat) log
        { r0 with c := ⟨Bytes.copy r0.c.buf o.body, m.Start, m.End⟩ }
        ⟨st, log0 ++ [getEvent (r0.key ++ "/" ++ Itoa ((0 : Nat) : Int))]⟩ 0 m := by
      refine ⟨hkey, ⟨hI0.err, hI0.cmp, ?_, hI0.eclen, ?_, hI0.ec⟩, hM0, rfl, rfl, heco, rfl, ?_⟩
      · show (Bytes.copy _ _).len = _
        rw [Bytes.len_copy]; exact hI0.clen
      · exact slot_of_chunk hm0 hmlt (by rw [hI0.clen]; exact hsm) hlen hdata
      · show log0 ++ _ = _
        rw [hlog0, hkey]
        show _ = log ++ getEvent (key ++ "/.meta") ::
          [getEvent (key ++ "/" ++ Itoa ((0 : Nat) : Int))]
        simp only [List.append_assoc, List.cons_append, List.nil_append]
        rfl
    obtain ⟨outs, r2, wd2, hr, ho, hl⟩ := scan_from log hF rest _ _ 0 m hV hk
      (fun y hy => by have := hrest y hy; omega) hsort'
      (fun y hy => hin y (List.mem_cons_of_mem _ hy))
      (fun t ht1 ht2 => by
        obtain ⟨y, hy, hy1, hy2⟩ := hcov t (by omega) ht2
        rcases List.mem_cons.mp hy with rfl | hy'
        · omega
        · exact ⟨y, hy', hy1, hy2⟩)
    refine ⟨_, r2, wd2, readAll_cons E memStore x rest _ _
      (hR.trans ((readCached_miss memStore _ x.2 x.1 hc1 hc2).trans h)) hr, ?_, hl⟩
    rw [List.map_cons, List.map_cons, ho]

theorem threeReads_mem {x : Int × Bytes} (hx : x ∈ threeReads) :
    ∃ i : Nat, i < 12 ∧ x = ((i : Int) * 262144, Bytes.make 262144) := by
  obtain ⟨i, hi, rfl⟩ := List.mem_map.mp hx
  exact ⟨i, List.mem_range.mp hi, rfl⟩

theorem threeReads_sorted : threeReads.Pairwise (fun a b => a.1 < b.1) := by
  unfold threeReads
  rw [List.pairwise_map]
  refine List.Pairwise.imp ?_ (List.pairwise_lt_range 12)
  intro a b hab
  show (a : Int) * 262144 < (b : Int) * 262144
  omega

theorem threeReads_in : ∀ x ∈ threeReads, 0 < x.2.len ∧
    ∃ k m, threeRecs.get? k = some m ∧ m.Start ≤ x.1 ∧ x.1 + (x.2.len : Int) ≤ m.End := by
  intro x hx
  obtain ⟨i, hi, rfl⟩ := threeReads_mem hx
  refine ⟨(by decide : 0 < (Bytes.make 262144).len), ?_⟩
  have hl : ((Bytes.make 262144).len : Int) = 262144 := rfl
  by_cases h1 : i < 4
  · exact ⟨0, ⟨0, 0, 1048576, 1048576⟩, rfl, by show (0 : Int) ≤ _; omega,
      by show _ + _ ≤ (1048576 : Int); rw [hl]; omega⟩
  by_cases h2 : i < 8
  · exact ⟨1, ⟨1, 1048576, 2097152, 1048576⟩, rfl, by show (1048576 : Int) ≤ _; omega,
      by show _ + _ ≤ (2097152 : Int); rw [hl]; omega⟩
  · exact ⟨2, ⟨2, 2097152, 3145728, 1048576⟩, rfl, by show (2097152 : Int) ≤ _; omega,
      by show _ + _ ≤ (3145728 : Int); rw [hl]; omega⟩

theorem threeReads_cover : ∀ t : Int, 0 ≤ t → t < ((Bytes.fill 3145728 7).len : Int) →
    ∃ x ∈ threeReads, x.1 ≤ t ∧ t < x.1 + (x.2.len : Int) := by
  intro t h0 h1
  have h1' : t < 3145728 := h1
  refine ⟨(((t / 262144).toNat : Nat) * 262144, Bytes.make 262144),
    List.mem_map.mpr ⟨(t / 262144).toNat, List.mem_range.mpr (by omega), rfl⟩, ?_, ?_⟩
  · show (((t / 262144).toNat : Nat) : Int) * 262144 ≤ t
    omega
  · show t < (((t / 262144).toNat : Nat) : Int) * 262144 + 262144
    omega

/-! ## Chunk reader: the backend calls of a successful sequential scan -/

theorem doDownload_ok {r : ChunkReader} {wd : World MemStore} {idx : Int} {buf buf1 : Bytes}
    {r1 : ChunkReader} {wd1 : World MemStore}
    (h : r.doDownload memStore wd idx buf = some (none, buf1, r1, wd1)) :
    wd1.be = wd.be ∧ wd1.log = wd.log ++ [getEvent (r.key ++ "/" ++ Itoa idx)] ∧
      r1.key = r.key ∧ r1.ChunkMetas = r.ChunkMetas ∧ r1.c = r.c ∧ r1.ec = r.ec := by
  unfold ChunkReader.doDownload at h
  cases hc : r.compress with
  | none =>
    rw [hc] at h
    simp only [World.Get, memStore] at h
    cases ho : wd.be.objects (r.key ++ "/" ++ Itoa idx) with
    | none =>
      rw [ho] at h
      cases h
    | some o =>
      rw [ho] at h
      cases h
      exact ⟨rfl, rfl, rfl, rfl, rfl, rfl⟩
  | some cd =>
    rw [hc] at h
    simp only [] at h
    split_ifs at h
    split at h
    · cases h
    · split at h
      · cases h
      · simp only [World.Get, memStore] at h
        cases ho : wd.be.objects (r.key ++ "/" ++ Itoa idx) with
        | none =>
          rw [ho] at h
          cases h
        | some o =>
          rw [ho] at h
          simp only [] at h
          split at h
          · cases h
          · cases h
            exact ⟨rfl, rfl, rfl, rfl, rfl, rfl⟩

theorem readCached_c_ok {β : Type} (S : ObjectStorage β) {r : ChunkReader} {wd : World β}
    {p : Bytes} {off : Int} {res : Int × Error} {p1 : Bytes} {r1 : ChunkReader} {wd1 : World β}
    (hc : off ≥ r.c.start ∧ off + (p.len : Int) ≤ r.c.offset)
    (h : r.readCached S wd p off = some (res, p1, r1, wd1)) : r1 = r ∧ wd1 = wd := by
  unfold ChunkReader.readCached at h
  rw [if_pos hc] at h
  split at h
  · cases h
  · cases h
    exact ⟨rfl, rfl⟩

theorem readMiss_once_ok {r : ChunkReader} {wd : World MemStore} {recs : List ChunkMeta}
    {s : ChunkMeta} {e : Int} {k : Nat} {m : ChunkMeta} {p : Bytes} {off : Int} {n : Int}
    {p1 : Bytes} {r1 : ChunkReader} {wd1 : World MemStore}
    (hM : r.ChunkMetas = recs ++ [s]) (hC : Contig 0 0 recs e) (hs : s.Start ≥ s.End)
    (hk : recs.get? k = some m) (h1 : m.Start ≤ off) (h2 : off < m.End)
    (h3 : off + (p.len : Int) ≤ m.End)
    (h : r.readMiss memStore wd p off = some ((n, none), p1, r1, wd1)) :
    r1.key = r.key ∧ r1.ChunkMetas = r.ChunkMetas ∧ r1.c.start = m.Start ∧
      r1.c.offset = m.End ∧ r1.ec = r.ec ∧ wd1.be = wd.be ∧
      wd1.log = wd.log ++ [getEvent (r.key ++ "/" ++ Itoa (k : Int))] := by
  have hm0 : 0 ≤ m.Start := (Contig_get_start recs 0 0 e k hC hk).1
  have hdp : r.determinePack off p.len = ((k : Int), -1) := by
    rw [(determinePack_contig r recs s e off p.len hM hC hs (by omega)).2 k m hk h1 h2,
      if_pos (Or.inl h3)]
  unfold ChunkReader.readMiss at h
  rw [hdp] at h
  simp only [] at h
  rw [if_neg (by omega)] at h
  cases hd : r.doDownload memStore wd (k : Int) r.c.buf with
  | none =>
    rw [hd] at h
    cases h
  | some v =>
    obtain ⟨err, buf1, r', wd'⟩ := v
    rw [hd] at h
    cases err with
    | some e' =>
      simp only [] at h
      cases h
    | none =>
      simp only [if_true] at h
      obtain ⟨g1, g2, g3, g4, g5, g6⟩ := doDownload_ok hd
      have hb : r'.doBound (k : Int) = (m.Start, m.End) := doBound_spec (g4.trans hM) hC hk
      rw [hb] at h
      simp only [] at h
      split at h
      · cases h
      · cases h
        exact ⟨g3, g4, rfl, rfl, g6, g1, g2⟩

theorem ReadAt_ok {E : Env} {r : ChunkReader} {st : MemStore} {log : List Event}
    {recs : List ChunkMeta} {s : ChunkMeta} {p : Bytes} {off : Int} {n : Int} {p1 : Bytes}
    {r1 : ChunkReader} {wd1 : World MemStore}
    (hman : ∃ mb md, st.objects (r.key ++ "/.meta") = some ⟨mb, md⟩ ∧ mb.len ≤ 1048576 ∧
      E.Unmarshal mb = some (recs ++ [s]))
    (hM : off = 0 ∨ r.ChunkMetas = recs ++ [s])
    (h : r.ReadAt E memStore ⟨st, log⟩ p off = some ((n, none), p1, r1, wd1)) :
    ∃ (r0 : ChunkReader) (log0 : List Event),
      r0.readCached memStore ⟨st, log0⟩ p off = some ((n, none), p1, r1, wd1) ∧
      r0.ChunkMetas = recs ++ [s] ∧ r0.key = r.key ∧ r0.c = r.c ∧ r0.ec = r.ec ∧
      log0 = (if off = 0 then log ++ [getEvent (r.key ++ "/.meta")] else log) := by
  unfold ChunkReader.ReadAt at h
  by_cases he : r.ErrState = true
  · rw [if_pos he] at h
    cases h
  rw [if_neg he] at h
  by_cases h0 : off = 0
  · obtain ⟨mb, md, hobj, hlen, hU⟩ := hman
    rw [if_pos h0, @doInit_spec E r ⟨st, log⟩ mb md (recs ++ [s]) hobj hlen hU] at h
    exact ⟨{ r with ChunkMetas := recs ++ [s] }, _, h, rfl, rfl, rfl, rfl, by rw [if_pos h0]; rfl⟩
  · rw [if_neg h0] at h
    exact ⟨r, log, h, hM.resolve_left h0, rfl, rfl, rfl, by rw [if_neg h0]⟩

theorem readAll_cons_inv {β : Type} {E : Env} {S : ObjectStorage β} {x : Int × Bytes}
    {rest : List (Int × Bytes)} {r : ChunkReader} {wd : World β}
    {outs : List ((Int × Error) × Bytes)} {r2 : ChunkReader} {wd2 : World β}
    (h : ChunkReader.readAll E S (x :: rest) r wd = some (outs, r2, wd2)) :
    ∃ res p1 r1 wd1 outs1, r.ReadAt E S wd x.2 x.1 = some (res, p1, r1, wd1) ∧
      ChunkReader.readAll E S rest r1 wd1 = some (outs1, r2, wd2) ∧
      outs = (res, p1) :: outs1 := by
  have h' : (match r.ReadAt E S wd x.2 x.1 with
    | none => none
    | some (res, p1, r1, wd1) =>
      match ChunkReader.readAll E S rest r1 wd1 with
      | none => none
      | some (out, r2, wd2) => some ((res, p1) :: out, r2, wd2)) = some (outs, r2, wd2) := h
  split at h'
  · cases h'
  · rename_i res p1 r1 wd1 hR
    split at h'
    · cases h'
    · rename_i out r3 wd3 hA
      cases h'
      exact ⟨res, p1, r1, wd1, out, hR, hA, rfl⟩

theorem scan_ok {E : Env} {key : String} {st : MemStore} {recs : List ChunkMeta}
    {s : ChunkMeta} {e : Int} (log0 : List Event)
    (hman : ∃ mb md, st.objects (key ++ "/.meta") = some ⟨mb, md⟩ ∧ mb.len ≤ 1048576 ∧
      E.Unmarshal mb = some (recs ++ [s]))
    (hC : Contig 0 0 recs e) (hs : s.Start ≥ s.End) :
    ∀ (reads : List (Int × Bytes)) (r : ChunkReader) (wd : World MemStore) (j : Nat)
      (mj : ChunkMeta) (outs : List ((Int × Error) × Bytes)) (r1 : ChunkReader)
      (wd1 : World MemStore),
      Scan key st recs s log0 r wd j mj → recs.get? j = some mj →
      (∀ x ∈ reads, mj.Start < x.1) → reads.Pairwise (fun a b => a.1 < b.1) →
      (∀ x ∈ reads, 0 < x.2.len ∧
        ∃ k m, recs.get? k = some m ∧ m.Start ≤ x.1 ∧ x.1 + (x.2.len : Int) ≤ m.End) →
      (∀ t : Int, mj.End ≤ t → t < e →
        ∃ x ∈ reads, x.1 ≤ t ∧ t < x.1 + (x.2.len : Int)) →
      ChunkReader.readAll E memStore reads r wd = some (outs, r1, wd1) →
      (∀ o ∈ outs, o.1.2 = none) →
      wd1.log = log0 ++ getEvent (key ++ "/.meta") :: chunkGets key recs.length := by
  intro reads
  induction reads with
  | nil =>
    intro r wd j mj outs r1 wd1 hV hj _ _ _ hcov hrun _
    cases hrun
    have hjlt : j < recs.length := get?_lt hj
    have hend : mj.End ≤ e := (Contig_get_start recs 0 0 _ j hC hj).2
    have hlast : j + 1 = recs.length := by
      by_contra hne
      have hlt : j + 1 < recs.length := by omega
      have hg : recs.get? (j + 1) = some (recs.get ⟨j + 1, hlt⟩) := List.get?_eq_get hlt
      have hn := Contig_next recs 0 0 _ j hC hj hg
      have hl := Contig_lt hC _ (List.get?_mem hg)
      have he := (Contig_get_start recs 0 0 _ (j + 1) hC hg).2
      obtain ⟨x, hx, _⟩ := hcov mj.End (le_refl _) (by omega)
      cases hx
    rw [hV.log, hlast]
  | cons x rest ih =>
    intro r wd j mj outs r1 wd1 hV hj hgt hsort hin hcov hrun hok
    obtain ⟨res, p1, r', wd', outs1, hR, hA, rfl⟩ := readAll_cons_inv hrun
    obtain ⟨n, err⟩ := res
    have herr : err = none := hok _ (List.mem_cons_self _ _)
    subst herr
    have hok' : ∀ o ∈ outs1, o.1.2 = none := fun o ho => hok o (List.mem_cons_of_mem _ ho)
    obtain ⟨hpos, k, m, hk, hm1, hm2⟩ := hin x (List.mem_cons_self _ _)
    have hxgt : mj.Start < x.1 := hgt x (List.mem_cons_self _ _)
    have hmj0 : 0 ≤ mj.Start := (Contig_get_start recs 0 0 _ j hC hj).1
    have hmjlt : mj.Start < mj.End := Contig_lt hC mj (List.get?_mem hj)
    have hmlt : m.Start < m.End := Contig_lt hC m (List.get?_mem hk)
    have hmend : m.End ≤ e := (Contig_get_start recs 0 0 _ k hC hk).2
    have hx0 : x.1 ≠ 0 := by omega
    have hrest : ∀ y ∈ rest, x.1 < y.1 := (List.pairwise_cons.mp hsort).1
    have hsort' := (List.pairwise_cons.mp hsort).2
    have hin' : ∀ y ∈ rest, 0 < y.2.len ∧
        ∃ k m, recs.get? k = some m ∧ m.Start ≤ y.1 ∧ y.1 + (y.2.len : Int) ≤ m.End :=
      fun y hy => hin y (List.mem_cons_of_mem _ hy)
    have hkj : j ≤ k := by
      by_contra hlt
      have := Contig_mono recs 0 0 _ k j hC hk hj (by omega)
      omega
    obtain ⟨r0, log1, hRC, hM0, hkey0, hc0, hec0, hlog1⟩ :=
      @ReadAt_ok E r wd.be wd.log recs s x.2 x.1 n p1 r' wd'
        (by rw [hV.be, hV.hkey]; exact hman) (Or.inr hV.metas) hR
    rw [if_neg hx0] at hlog1
    subst hlog1
    by_cases hkeq : k = j
    · subst hkeq
      have hmm : m = mj := by
        rw [hk] at hj
        exact Option.some.inj hj
      subst hmm
      obtain ⟨e1, e2⟩ := readCached_c_ok memStore
        (by rw [hc0, hV.cstart, hV.cend]; exact ⟨by omega, hm2⟩) hRC
      subst e1 e2
      have hV' : Scan key st recs s log0 r' ⟨wd.be, wd.log⟩ k m :=
        ⟨hkey0.trans hV.hkey, hM0, by rw [hc0]; exact hV.cstart, by rw [hc0]; exact hV.cend,
          by rw [hec0]; exact hV.ecend, hV.be, hV.log⟩
      exact ih r' _ k m outs1 r1 wd1 hV' hk
        (fun y hy => by have := hrest y hy; omega) hsort' hin'
        (fun t ht1 ht2 => by
          obtain ⟨y, hy, hy1, hy2⟩ := hcov t ht1 ht2
          rcases List.mem_cons.mp hy with rfl | hy'
          · omega
          · exact ⟨y, hy', hy1, hy2⟩) hA hok'
    · have hjk : j < k := by omega
      have hle : mj.End ≤ m.Start := Contig_mono recs 0 0 _ j k hC hj hk hjk
      have hk1 : k = j + 1 := by
        by_contra hne
        have hlt : j + 1 < recs.length := by have := get?_lt hk; omega
        have hg : recs.get? (j + 1) = some (recs.get ⟨j + 1, hlt⟩) := List.get?_eq_get hlt
        have hn := Contig_next recs 0 0 _ j hC hj hg
        have hl := Contig_lt hC _ (List.get?_mem hg)
        have hmo := Contig_mono recs 0 0 _ (j + 1) k hC hg hk (by omega)
        obtain ⟨y, hy, hy1, hy2⟩ := hcov mj.End (le_refl _) (by omega)
        rcases List.mem_cons.mp hy with rfl | hy'
        · omega
        · have := hrest y hy'
          omega
      subst hk1
      have hc1 : ¬ (x.1 ≥ r0.c.start ∧ x.1 + (x.2.len : Int) ≤ r0.c.offset) := by
        rw [hc0, hV.cend]
        intro h
        omega
      have hc2 : ¬ (x.1 ≥ r0.ec.start ∧ x.1 + (x.2.len : Int) ≤ r0.ec.offset) := by
        rw [hec0, hV.ecend]
        intro h
        omega
      rw [readCached_miss memStore _ x.2 x.1 hc1 hc2] at hRC
      obtain ⟨g1, g2, g3, g4, g5, g6, g7⟩ :=
        readMiss_once_ok hM0 hC hs hk hm1 (by omega) hm2 hRC
      have hV' : Scan key st recs s log0 r' wd' (j + 1) m := by
        refine ⟨g1.trans (hkey0.trans hV.hkey), g2.trans hM0, g3, g4,
          by rw [g5, hec0]; exact hV.ecend, g6.trans hV.be, ?_⟩
        rw [g7, chunkGets_succ key (j + 1), hkey0, hV.hkey]
        show wd.log ++ _ = _
        rw [hV.log]
        simp only [List.append_assoc, List.cons_append]
      exact ih r' wd' (j + 1) m outs1 r1 wd1 hV' hk
        (fun y hy => by have := hrest y hy; omega) hsort' hin'
        (fun t ht1 ht2 => by
          obtain ⟨y, hy, hy1, hy2⟩ := hcov t (by omega) ht2
          rcases List.mem_cons.mp hy with rfl | hy'
          · omega
          · exact ⟨y, hy', hy1, hy2⟩) hA hok'

/-- C20. Read cache reuse over the in-memory store, with or without
compression: the manifest object at `<key>/.meta` decodes to a well-formed
manifest of `N` chunks (contiguous records, the record at position `i` having
index `i`, followed by the sentinel), and a fresh `ChunkReader` makes a
sequence of reads at strictly increasing offsets that starts at offset 0, in
which every read is non-empty and lies inside one chunk (no read straddles a
chunk boundary), and which covers every byte of the file.  If every read of
the sequence returns without an error, then the calls to the backend are
exactly one GET of the manifest followed by one GET of each chunk `<key>/0`,
..., `<key>/(N-1)`, in index order. -/
theorem read_cache_reuse (E : Env) (key : String) (cmp : Option Codec) (isFixed : Bool)
    (st : MemStore) (log : List Event) (recs : List ChunkMeta) (s : ChunkMeta) (e : Int)
    (reads : List (Int × Bytes)) (outs : List ((Int × Error) × Bytes)) (r1 : ChunkReader)
    (wd1 : World MemStore)
    (hman : ∃ mb md, st.objects (key ++ "/.meta") = some ⟨mb, md⟩ ∧ mb.len ≤ 1048576 ∧
      E.Unmarshal mb = some (recs ++ [s]))
    (hC : Contig 0 0 recs e) (hs : s.Start ≥ s.End)
    (hhead : reads.head?.map Prod.fst = some 0)
    (hsort : reads.Pairwise (fun a b => a.1 < b.1))
    (hin : ∀ x ∈ reads, 0 < x.2.len ∧
      ∃ k m, recs.get? k = some m ∧ m.Start ≤ x.1 ∧ x.1 + (x.2.len : Int) ≤ m.End)
    (hcov : ∀ t : Int, 0 ≤ t → t < e → ∃ x ∈ reads, x.1 ≤ t ∧ t < x.1 + (x.2.len : Int))
    (hrun : ChunkReader.readAll E memStore reads (NewChunkReader key cmp isFixed) ⟨st, log⟩ =
      some (outs, r1, wd1))
    (hok : ∀ o ∈ outs, o.1.2 = none) :
    wd1.log = log ++ getEvent (key ++ "/.meta") :: chunkGets key recs.length := by
  cases reads with
  | nil => cases hhead
  | cons x rest =>
    have hx0 : x.1 = 0 := by
      simp only [List.head?_cons, Option.map_some', Option.some.injEq] at hhead
      exact hhead
    obtain ⟨res, p1, r', wd', outs1, hR, hA, rfl⟩ := readAll_cons_inv hrun
    obtain ⟨n, err⟩ := res
    have herr : err = none := hok _ (List.mem_cons_self _ _)
    subst herr
    have hok' : ∀ o ∈ outs1, o.1.2 = none := fun o ho => hok o (List.mem_cons_of_mem _ ho)
    obtain ⟨hpos, k, m, hk, hm1, hm2⟩ := hin x (List.mem_cons_self _ _)
    have hmlt : m.Start < m.End := Contig_lt hC m (List.get?_mem hk)
    have hm0 : 0 ≤ m.Start := (Contig_get_start recs 0 0 _ k hC hk).1
    have hk0 : k = 0 := by
      by_contra hne
      have hlt : 0 < recs.length := by have := get?_lt hk; omega
      have hg : recs.get? 0 = some (recs.get ⟨0, hlt⟩) := List.get?_eq_get hlt
      have hl := Contig_lt hC _ (List.get?_mem hg)
      have h0 := (Contig_get_start recs 0 0 _ 0 hC hg).1
      have hmo := Contig_mono recs 0 0 _ 0 k hC hg hk (by omega)
      omega
    subst hk0
    have hrest : ∀ y ∈ rest, x.1 < y.1 := (List.pairwise_cons.mp hsort).1
    have hsort' := (List.pairwise_cons.mp hsort).2
    obtain ⟨r0, log1, hRC, hM0, hkey0, hc0, hec0, hlog1⟩ :=
      @ReadAt_ok E (NewChunkReader key cmp isFixed) st log recs s x.2 x.1 n p1 r' wd'
        hman (Or.inl hx0) hR
    rw [if_pos hx0] at hlog1
    subst hlog1
    have hco : r0.c.offset = 0 := by rw [hc0]; rfl
    have heco : r0.ec.offset = 0 := by rw [hec0]; rfl
    have hc1 : ¬ (x.1 ≥ r0.c.start ∧ x.1 + (x.2.len : Int) ≤ r0.c.offset) := by
      rw [hco]
      intro h
      omega
    have hc2 : ¬ (x.1 ≥ r0.ec.start ∧ x.1 + (x.2.len : Int) ≤ r0.ec.offset) := by
      rw [heco]
      intro h
      omega
    rw [readCached_miss memStore _ x.2 x.1 hc1 hc2] at hRC
    obtain ⟨g1, g2, g3, g4, g5, g6, g7⟩ :=
      readMiss_once_ok hM0 hC hs hk hm1 (by omega) hm2 hRC
    have hV : Scan key st recs s log r' wd' 0 m := by
      refine ⟨g1.trans hkey0, g2.trans hM0, g3, g4, by rw [g5]; exact heco, g6, ?_⟩
      rw [g7, hkey0]
      show (log ++ _) ++ _ = log ++ getEvent (key ++ "/.meta") ::
        [getEvent (key ++ "/" ++ Itoa ((0 : Nat) : Int))]
      simp only [List.append_assoc, List.cons_append, List.nil_append]
      rfl
    exact scan_ok log hman hC hs rest r' wd' 0 m outs1 r1 wd1 hV hk
      (fun y hy => by have := hrest y hy; omega) hsort'
      (fun y hy => hin y (List.mem_cons_of_mem _ hy))
      (fun t ht1 ht2 => by
        obtain ⟨y, hy, hy1, hy2⟩ := hcov t (by omega) ht2
        rcases List.mem_cons.mp hy with rfl | hy'
        · omega
        · exact ⟨y, hy', hy1, hy2⟩) hA hok'

/-- Witness for C20: three chunks of 1 MiB read by twelve reads of 256 KiB
from offset 0 on; the backend sees the GET of the manifest and then the GETs
of the chunks 0, 1, 2. -/
theorem read_cache_reuse_witness :
    ∃ outs r1 wd1,
      ChunkReader.readAll exampleEnv memStore threeReads (NewChunkReader "f" none false)
          ⟨threeStore, []⟩ = some (outs, r1, wd1) ∧
      (∀ o ∈ outs, o.1.2 = none) ∧
      wd1.log = [] ++ getEvent ("f" ++ "/.meta") :: chunkGets "f" threeRecs.length := by
  obtain ⟨outs, r1, wd1, h, ho, _⟩ := scan_fresh exampleEnv "f" false threeStore []
    threeRecs threeSentinel (Bytes.fill 3145728 7) threeReads threeFile rfl threeReads_sorted
    threeReads_in threeReads_cover
  have hok : ∀ o ∈ outs, o.1.2 = none := by
    intro o hmem
    have hm : o.1 ∈ outs.map Prod.fst := List.mem_map_of_mem _ hmem
    rw [ho] at hm
    obtain ⟨x, _, hx⟩ := List.mem_map.mp hm
    rw [← hx]
  exact ⟨outs, r1, wd1, h, hok,
    read_cache_reuse exampleEnv "f" none false threeStore [] threeRecs threeSentinel
      ((Bytes.fill 3145728 7).len : Int) threeReads outs r1 wd1 threeFile.manifest
      threeFile.contig threeFile.sentinel rfl threeReads_sorted threeReads_in threeReads_cover
      h hok⟩

/-! ## Second pass over a file: the dedup probe hits -/

theorem putChunk_first (E : Env) (hlow : E.ToLower MetaKey = MetaKey) (c : ChunkWriter)
    (wd : World MemStore) (body : Bytes) :
    (c.putChunk E memStore wd body).1 = none ∧
    (∀ k, k ≠ c.uploadKey → (c.putChunk E memStore wd body).2.be.objects k = wd.be.objects k) ∧
    ∃ o, (c.putChunk E memStore wd body).2.be.objects c.uploadKey = some o ∧
      o.metadata.any (fun kv => decide (E.ToLower kv.1 = MetaKey ∧
        kv.2 = (E.Sum256 body).String)) = true := by
  unfold ChunkWriter.putChunk ChunkWriter.checkDuplicate World.Head
  cases ho : wd.be.objects c.uploadKey with
  | none =>
    simp only [memStore, ho, Bool.false_eq_true, if_false, World.Put]
    refine ⟨trivial, fun k hk => by simp [hk], ⟨body, [(MetaKey, (E.Sum256 body).String)]⟩,
      by simp, ?_⟩
    simp [hlow]
  | some o =>
    simp only [memStore, ho]
    by_cases hd : o.metadata.any (fun kv => decide (E.ToLower kv.1 = MetaKey ∧
        kv.2 = (E.Sum256 body).String)) = true
    · rw [if_pos hd]
      exact ⟨rfl, fun k _ => rfl, o, ho, hd⟩
    · rw [if_neg hd]
      simp only [World.Put]
      refine ⟨trivial, fun k hk => by simp [hk], ⟨body, [(MetaKey, (E.Sum256 body).String)]⟩,
        by simp, ?_⟩
      simp [hlow]

theorem putChunk_second (E : Env) (c2 : ChunkWriter) (G : MemStore) (log2 : List Event)
    (body : Bytes) (o : StoredObject) (ho : G.objects c2.uploadKey = some o)
    (hP : o.metadata.any (fun kv => decide (E.ToLower kv.1 = MetaKey ∧
        kv.2 = (E.Sum256 body).String)) = true) :
    c2.putChunk E memStore ⟨G, log2⟩ body =
      (none, ⟨G, log2 ++ [⟨Call.Head c2.uploadKey, false⟩]⟩) := by
  unfold ChunkWriter.putChunk ChunkWriter.checkDuplicate World.Head
  simp only [memStore, ho]
  rw [if_pos hP]
  rfl

theorem twin_whole {F : Bytes} {c c2 : ChunkWriter} (hT : Twin F c c2) (hW : Whole F c)
    (hf : c.isFixed = true) : c2.chunkBuf = c.chunkBuf := by
  apply Bytes.ext' hT.buflen
  intro i hi
  rcases hW hf with h | h
  · exact hT.low i (by rw [hT.buflen] at hi; omega)
  · rcases hT.any i with h1 | h1
    · exact h1
    · rw [h1, h]

theorem slice_twin {F : Bytes} {c c2 : ChunkWriter} (hT : Twin F c c2) :
    c2.chunkBuf.slice 0 c2.length = c.chunkBuf.slice 0 c.length := by
  rw [hT.length]
  unfold Bytes.slice
  rw [hT.buflen]
  by_cases h : (0 : Int) ≤ 0 ∧ 0 ≤ c.length ∧ c.length ≤ (c.chunkBuf.len : Int)
  · rw [if_pos h, if_pos h]
    congr 1
    apply Bytes.ext'
    · rfl
    intro i hi
    have hi' : i < (c.length - 0).toNat := hi
    show (if i < (c.length - 0).toNat then c2.chunkBuf.get ((0 : Int).toNat + i) else 0) =
      (if i < (c.length - 0).toNat then c.chunkBuf.get ((0 : Int).toNat + i) else 0)
    rw [if_pos hi', if_pos hi']
    simp only [Int.toNat_zero, Nat.zero_add]
    exact hT.low i (by omega)
  · rw [if_neg h, if_neg h]

theorem prepare_twin {F : Bytes} {c c2 : ChunkWriter} (hT : Twin F c c2) (data : Bytes) :
    c2.prepare data = c.prepare data := by
  unfold ChunkWriter.prepare
  rw [hT.compress]

theorem uploadKey_twin {F : Bytes} {c c2 : ChunkWriter} (hT : Twin F c c2) :
    c2.uploadKey = c.uploadKey := by
  unfold ChunkWriter.uploadKey
  rw [hT.key, hT.index]

theorem StoreFrame.refl (key : String) (n : Nat) (st : MemStore) : StoreFrame key n st st :=
  fun _ _ _ => rfl

theorem StoreFrame.trans {key : String} {n m : Nat} {st st1 st2 : MemStore} (hnm : n ≤ m)
    (h1 : StoreFrame key n st st1) (h2 : StoreFrame key m st1 st2) : StoreFrame key n st st2 :=
  fun k hk hj => (h2 k hk (fun j hmj => hj j (by omega))).trans (h1 k hk hj)

theorem StoreFrame.at {key : String} {n : Nat} {st st1 : MemStore} (h : StoreFrame key n st st1)
    {j : Nat} (hj : j < n) :
    st1.objects (key ++ "/" ++ Itoa (j : Int)) = st.objects (key ++ "/" ++ Itoa (j : Int)) :=
  h _ (chunkKey_ne_meta key j) (fun j' hj' he => by
    have := chunkKey_injective he
    omega)

theorem Kept.same (c : ChunkWriter) (wd : World MemStore) : Kept c wd c wd :=
  ⟨le_refl _, rfl, rfl, rfl, StoreFrame.refl _ _ _, rfl, le_refl _⟩

theorem Kept.seq {c c1 c2 : ChunkWriter} {wd wd1 wd2 : World MemStore}
    (h1 : Kept c wd c1 wd1) (h2 : Kept c1 wd1 c2 wd2) : Kept c wd c2 wd2 :=
  ⟨le_trans h1.index h2.index, h2.key.trans h1.key, h2.isFixed.trans h1.isFixed,
    h2.buflen.trans h1.buflen,
    StoreFrame.trans h1.index h1.frame (by have := h2.frame; rw [h1.key] at this; exact this),
    h2.compress.trans h1.compress, le_trans h1.metas h2.metas⟩

theorem Agree.left {G : MemStore} {key : String} {lo mid hi : Nat} {st1 st2 : MemStore}
    (h : Agree G key lo hi st2) (hm : mid ≤ hi) (hf : StoreFrame key mid st1 st2) :
    Agree G key lo mid st1 :=
  fun j h1 h2 => (h j h1 (by omega)).trans (hf.at h2)

theorem Agree.right {G : MemStore} {key : String} {lo mid hi : Nat} {st2 : MemStore}
    (h : Agree G key lo hi st2) (hm : lo ≤ mid) : Agree G key mid hi st2 :=
  fun j h1 h2 => h j (by omega) h2

theorem NoPut.nil : NoPut [] := fun _ h => by cases h

theorem NoPut.append {a b : List Event} (ha : NoPut a) (hb : NoPut b) : NoPut (a ++ b) :=
  fun ev h => by
    rcases List.mem_append.mp h with h | h
    · exact ha ev h
    · exact hb ev h

/-! ## Second pass over a file: the upload path -/

theorem Paired.congr {F : Bytes} {G : MemStore}
    {f g : ChunkWriter → World MemStore → Step ChunkWriter MemStore} {c : ChunkWriter}
    {wd : World MemStore} (h0 : g c wd = f c wd)
    (h2 : ∀ c2 log2, Twin F c c2 → g c2 ⟨G, log2⟩ = f c2 ⟨G, log2⟩)
    (hf : Paired F G f c wd) : Paired F G g c wd := by
  intro e c1 wd1 h
  rw [h0] at h
  obtain ⟨hK, hB⟩ := hf e c1 wd1 h
  refine ⟨hK, fun hA c2 log2 hT => ?_⟩
  obtain ⟨c3, evs, h3, hT3, hN⟩ := hB hA c2 log2 hT
  exact ⟨c3, evs, (h2 c2 log2 hT).trans h3, hT3, hN⟩

theorem paired_andThen {F : Bytes} {G : MemStore}
    {f : ChunkWriter → World MemStore → Step ChunkWriter MemStore}
    {g : ChunkWriter → World MemStore → Step ChunkWriter MemStore} {c : ChunkWriter}
    {wd : World MemStore} (hf : Paired F G f c wd)
    (hg : ∀ cm wm, f c wd = some (none, cm, wm) → Paired F G g cm wm) :
    Paired F G (fun c wd => (f c wd).andThen g) c wd := by
  intro e c1 wd1 h
  have h' : (f c wd).andThen g = some (e, c1, wd1) := h
  cases hfc : f c wd with
  | none =>
    rw [hfc] at h'
    cases h'
  | some v =>
    obtain ⟨e0, cm, wm⟩ := v
    cases e0 with
    | some e1 =>
      rw [hfc] at h'
      cases h'
      obtain ⟨hK, hB⟩ := hf _ _ _ hfc
      refine ⟨hK, fun hA c2 log2 hT => ?_⟩
      obtain ⟨c3, evs, h3, hT3, hN⟩ := hB hA c2 log2 hT
      refine ⟨c3, evs, ?_, hT3, hN⟩
      show (f c2 ⟨G, log2⟩).andThen g = _
      rw [h3]
      rfl
    | none =>
      rw [hfc] at h'
      have h2 : g cm wm = some (e, c1, wd1) := h'
      obtain ⟨hK1, hB1⟩ := hf _ _ _ hfc
      obtain ⟨hK2, hB2⟩ := hg cm wm hfc e c1 wd1 h2
      refine ⟨hK1.seq hK2, fun hA c2 log2 hT => ?_⟩
      have hfr : StoreFrame c.key cm.index wm.be wd1.be := by
        have := hK2.frame
        rw [hK1.key] at this
        exact this
      obtain ⟨c3, evs1, h3, hT3, hN1⟩ := hB1 (hA.left hK2.index hfr) c2 log2 hT
      obtain ⟨c4, evs2, h4, hT4, hN2⟩ :=
        hB2 (by rw [hK1.key]; exact hA.right hK1.index) c3 (log2 ++ evs1) hT3
      refine ⟨c4, evs1 ++ evs2, ?_, hT4, hN1.append hN2⟩
      show (f c2 ⟨G, log2⟩).andThen g = _
      rw [h3]
      show g c3 ⟨G, log2 ++ evs1⟩ = _
      rw [h4, List.append_assoc]

theorem commit_twin {F : Bytes} {c c2 c1 : ChunkWriter} {pos cs : Int} (hT : Twin F c c2)
    (h : c.commit pos cs = some c1) :
    ∃ c3, c2.commit pos cs = some c3 ∧ Twin F c1 c3 ∧ c1.index = c.index + 1 := by
  unfold ChunkWriter.commit at h
  cases hm : c.ChunkMetas.get? c.index with
  | none => rw [hm] at h; cases h
  | some m =>
    rw [hm] at h
    cases h
    have hlt : c2.index < c2.ChunkMetas.length := by rw [hT.index]; exact hT.metas
    unfold ChunkWriter.commit
    rw [List.get?_eq_get hlt]
    refine ⟨_, rfl, ?_, rfl⟩
    refine ⟨hT.key, by show c2.index + 1 = c.index + 1; rw [hT.index], hT.compress, hT.isError,
      hT.isFixed, hT.offset, hT.length, hT.extras, hT.buflen, hT.low, hT.any, ?_⟩
    show c.index + 1 < (List.set _ _ _ ++ [_]).length
    rw [List.length_append, List.length_set, List.length_singleton]
    have := hT.metas
    omega

theorem putCommit_pair (E : Env) (hlow : E.ToLower MetaKey = MetaKey) {F : Bytes}
    {c cm : ChunkWriter} (wd : World MemStore) (body : Bytes) {pos cs : Int}
    (hc : c.commit pos cs = some cm) :
    (c.putChunk E memStore wd body).1 = none ∧
    Kept c wd cm (c.putChunk E memStore wd body).2 ∧ cm.index = c.index + 1 ∧
    cm.chunkBuf = c.chunkBuf ∧ cm.length = c.length ∧ cm.isError = c.isError ∧
    (∀ G c2 log2, Twin F c c2 →
      G.objects c.uploadKey = (c.putChunk E memStore wd body).2.be.objects c.uploadKey →
      ∃ c3, c2.putChunk E memStore ⟨G, log2⟩ body =
          (none, ⟨G, log2 ++ [⟨Call.Head c.uploadKey, false⟩]⟩) ∧
        c2.commit pos cs = some c3 ∧ Twin F cm c3) := by
  obtain ⟨p1, p2, o, p3, p4⟩ := putChunk_first E hlow c wd body
  obtain ⟨f1, f2, f3, f4, f5, f6, f7, f8, f9⟩ := commit_frame hc
  have hidx : cm.index = c.index + 1 := by
    unfold ChunkWriter.commit at hc
    cases hm : c.ChunkMetas.get? c.index with
    | none => rw [hm] at hc; cases hc
    | some m => rw [hm] at hc; cases hc; rfl
  have hml : c.ChunkMetas.length ≤ cm.ChunkMetas.length := by
    unfold ChunkWriter.commit at hc
    cases hm : c.ChunkMetas.get? c.index with
    | none => rw [hm] at hc; cases hc
    | some m =>
      rw [hm] at hc
      cases hc
      show _ ≤ (List.set _ _ _ ++ [_]).length
      rw [List.length_append, List.length_set]
      omega
  refine ⟨p1, ⟨by omega, f1, f2, by rw [f7], ?_, f3, hml⟩, hidx, f7, f9, f6, ?_⟩
  · intro k hk hj
    exact p2 k (hj c.index (le_refl _))
  · intro G c2 log2 hT hG
    obtain ⟨c3, h3, hT3, _⟩ := commit_twin hT hc
    refine ⟨c3, ?_, h3, hT3⟩
    have := putChunk_second E c2 G log2 body o
      (by rw [uploadKey_twin hT, hG]; exact p3) p4
    rw [uploadKey_twin hT] at this
    exact this

theorem noPut_head (k : String) : NoPut [⟨Call.Head k, false⟩] := by
  intro ev hev
  rw [List.mem_singleton.mp hev]
  rfl

theorem Twin.resetLength {F : Bytes} {c c2 : ChunkWriter} (hT : Twin F c c2) :
    Twin F { c with length := 0 } { c2 with length := 0 } :=
  ⟨hT.key, hT.index, hT.compress, hT.isError, hT.isFixed, hT.offset, rfl, hT.extras, hT.buflen,
    fun i hi => by
      have : (i : Int) < 0 := hi
      omega,
    hT.any, hT.metas⟩

theorem Twin.setError {F : Bytes} {c c2 : ChunkWriter} (hT : Twin F c c2) :
    Twin F { c with isError := true } { c2 with isError := true } :=
  ⟨hT.key, hT.index, hT.compress, rfl, hT.isFixed, hT.offset, hT.length, hT.extras, hT.buflen,
    hT.low, hT.any, hT.metas⟩

theorem doFixedUpload_paired (E : Env) (hlow : E.ToLower MetaKey = MetaKey) (F : Bytes)
    (G : MemStore) (c : ChunkWriter) (wd : World MemStore) (hW : Whole F c)
    (hf : c.isFixed = true) : Paired F G (ChunkWriter.doFixedUpload E memStore) c wd := by
  intro e c1 wd1 h
  unfold ChunkWriter.doFixedUpload at h
  cases hp : c.prepare c.chunkBuf with
  | none => rw [hp] at h; cases h
  | some r =>
    rw [hp] at h
    cases r with
    | error e1 =>
      cases h
      refine ⟨Kept.same _ _, fun _ c2 log2 hT => ⟨c2, [], ?_, hT, NoPut.nil⟩⟩
      unfold ChunkWriter.doFixedUpload
      rw [twin_whole hT hW hf, prepare_twin hT, hp, List.append_nil]
    | ok bc =>
      obtain ⟨body, cs⟩ := bc
      simp only at h
      cases hc : c.commit c.offset cs with
      | none =>
        obtain ⟨p1, _⟩ := putChunk_first E hlow c wd body
        cases hput : c.putChunk E memStore wd body with
        | mk e2 wda =>
          rw [hput] at h p1
          simp only at p1
          subst p1
          simp only [hc] at h
          cases h
      | some cm =>
        obtain ⟨p1, hK, hidx, hbuf, hlen, herr, hB⟩ := @putCommit_pair E hlow F c cm wd body _ _ hc
        cases hput : c.putChunk E memStore wd body with
        | mk e2 wda =>
          rw [hput] at h p1 hK hB
          simp only at p1
          subst p1
          simp only [hc] at h
          cases h
          refine ⟨⟨hK.index, hK.key, hK.isFixed, hK.buflen, hK.frame, hK.compress, hK.metas⟩,
            fun hA c2 log2 hT => ?_⟩
          obtain ⟨c3, h3, h4, hT3⟩ := hB G c2 log2 hT
            (hA c.index (le_refl _) (by show c.index < cm.index; omega))
          refine ⟨{ c3 with length := 0 }, [⟨Call.Head c.uploadKey, false⟩], ?_, hT3.resetLength,
            noPut_head _⟩
          unfold ChunkWriter.doFixedUpload
          rw [twin_whole hT hW hf, prepare_twin hT, hp]
          simp only
          rw [← twin_whole hT hW hf, h3]
          simp only
          rw [hT.offset, h4]

theorem dynLoop_paired (E : Env) (hlow : E.ToLower MetaKey = MetaKey) (F : Bytes)
    (G : MemStore) (chunks : List Bytes) :
    ∀ (tmpOff : Int) (c : ChunkWriter) (wd : World MemStore),
      Paired F G (ChunkWriter.dynLoop E memStore chunks tmpOff) c wd := by
  induction chunks with
  | nil =>
    intro tmpOff c wd e c1 wd1 h
    simp only [ChunkWriter.dynLoop] at h
    cases h
    refine ⟨Kept.same _ _, fun _ c2 log2 hT => ⟨c2, [], ?_, hT, NoPut.nil⟩⟩
    simp only [ChunkWriter.dynLoop, List.append_nil]
  | cons chunk rest ih =>
    intro tmpOff c wd e c1 wd1 h
    simp only [ChunkWriter.dynLoop] at h
    cases hp : c.prepare chunk with
    | none => rw [hp] at h; cases h
    | some r =>
      rw [hp] at h
      cases r with
      | error e1 =>
        cases h
        refine ⟨Kept.same _ _, fun _ c2 log2 hT => ⟨c2, [], ?_, hT, NoPut.nil⟩⟩
        simp only [ChunkWriter.dynLoop]
        rw [prepare_twin hT, hp, List.append_nil]
      | ok bc =>
        obtain ⟨body, cs⟩ := bc
        simp only at h
        cases hc : c.commit (tmpOff + chunk.len) cs with
        | none =>
          obtain ⟨p1, _⟩ := putChunk_first E hlow c wd body
          cases hput : c.putChunk E memStore wd body with
          | mk e2 wda =>
            rw [hput] at h p1
            simp only at p1
            subst p1
            simp only [hc] at h
            cases h
        | some cm =>
          obtain ⟨p1, hK, hidx, hbuf, hlen, herr, hB⟩ :=
            @putCommit_pair E hlow F c cm wd body _ _ hc
          cases hput : c.putChunk E memStore wd body with
          | mk e2 wda =>
            rw [hput] at h p1 hK hB
            simp only at p1
            subst p1
            simp only [hc] at h
            obtain ⟨hK2, hB2⟩ := ih (tmpOff + chunk.len) cm wda e c1 wd1 h
            refine ⟨hK.seq hK2, fun hA c2 log2 hT => ?_⟩
            have hfr : StoreFrame c.key cm.index wda.be wd1.be := by
              have := hK2.frame
              rw [hK.key] at this
              exact this
            obtain ⟨c3, h3, h4, hT3⟩ := hB G c2 log2 hT
              ((hA c.index (le_refl _) (by have := hK2.index; omega)).trans
                (hfr.at (by omega)))
            obtain ⟨c4, evs, h5, hT4, hN⟩ :=
              hB2 (by rw [hK.key]; exact hA.right hK.index) c3 _ hT3
            refine ⟨c4, [⟨Call.Head c.uploadKey, false⟩] ++ evs, ?_, hT4,
              (noPut_head _).append hN⟩
            simp only [ChunkWriter.dynLoop]
            rw [prepare_twin hT, hp]
            simp only
            rw [h3]
            simp only
            rw [h4]
            simp only
            rw [h5, List.append_assoc]

theorem doDynamicUpload_paired (E : Env) (hlow : E.ToLower MetaKey = MetaKey) (F : Bytes)
    (G : MemStore) (c : ChunkWriter) (wd : World MemStore) :
    Paired F G (ChunkWriter.doDynamicUpload E memStore) c wd := by
  cases hs : c.chunkBuf.slice 0 c.length with
  | none =>
    intro e c1 wd1 h
    unfold ChunkWriter.doDynamicUpload at h
    rw [hs] at h
    cases h
  | some rd =>
    have hP : Paired F G (fun c wd =>
        (ChunkWriter.dynLoop E memStore (E.chunks rd) (c.offset - c.length) c wd).andThen
          (fun c1 wd1 => some (none, { c1 with length := 0 }, wd1))) c wd := by
      intro e c1 wd1 h
      have hq := @paired_andThen F G
        (ChunkWriter.dynLoop E memStore (E.chunks rd) (c.offset - c.length))
        (fun c1 wd1 => some (none, { c1 with length := 0 }, wd1)) c wd
        (dynLoop_paired E hlow F G (E.chunks rd) (c.offset - c.length) c wd)
        (fun cm wm _ e2 c2 wd2 h2 => by
          cases h2
          exact ⟨⟨le_refl _, rfl, rfl, rfl, StoreFrame.refl _ _ _, rfl, le_refl _⟩,
            fun _ c3 log3 hT => ⟨{ c3 with length := 0 }, [], by rw [List.append_nil],
              hT.resetLength, NoPut.nil⟩⟩)
      obtain ⟨hK, hB⟩ := hq e c1 wd1 h
      refine ⟨hK, fun hA c2 log2 hT => ?_⟩
      obtain ⟨c3, evs, h3, hT3, hN⟩ := hB hA c2 log2 hT
      refine ⟨c3, evs, ?_, hT3, hN⟩
      show (ChunkWriter.dynLoop E memStore (E.chunks rd) (c2.offset - c2.length) c2
        ⟨G, log2⟩).andThen _ = _
      rw [hT.offset, hT.length]
      exact h3
    refine Paired.congr ?_ ?_ hP
    · unfold ChunkWriter.doDynamicUpload
      rw [hs]
    · intro c2 log2 hT
      unfold ChunkWriter.doDynamicUpload
      rw [slice_twin hT, hs]

theorem dispatchUpload_paired (E : Env) (hlow : E.ToLower MetaKey = MetaKey) (F : Bytes)
    (G : MemStore) (c : ChunkWriter) (wd : World MemStore) (hW : Whole F c) :
    Paired F G (ChunkWriter.dispatchUpload E memStore) c wd := by
  by_cases hf : c.isFixed = true
  · refine Paired.congr ?_ ?_ (doFixedUpload_paired E hlow F G c wd hW hf)
    · unfold ChunkWriter.dispatchUpload
      rw [if_pos hf]
    · intro c2 log2 hT
      unfold ChunkWriter.dispatchUpload
      rw [if_pos (by rw [hT.isFixed]; exact hf)]
  · refine Paired.congr ?_ ?_ (doDynamicUpload_paired E hlow F G c wd)
    · unfold ChunkWriter.dispatchUpload
      rw [if_neg hf]
    · intro c2 log2 hT
      unfold ChunkWriter.dispatchUpload
      rw [if_neg (by rw [hT.isFixed]; exact hf)]

theorem uploadOrFail_paired (E : Env) (hlow : E.ToLower MetaKey = MetaKey) (F : Bytes)
    (G : MemStore) (c : ChunkWriter) (wd : World MemStore) (hW : Whole F c) :
    Paired F G (ChunkWriter.uploadOrFail E memStore) c wd := by
  intro e c1 wd1 h
  unfold ChunkWriter.uploadOrFail at h
  cases hd : c.dispatchUpload E memStore wd with
  | none => rw [hd] at h; cases h
  | some v =>
    obtain ⟨e0, cm, wm⟩ := v
    rw [hd] at h
    obtain ⟨hK, hB⟩ := dispatchUpload_paired E hlow F G c wd hW e0 cm wm hd
    cases e0 with
    | some e1 =>
      cases h
      refine ⟨⟨hK.index, hK.key, hK.isFixed, hK.buflen, hK.frame, hK.compress, hK.metas⟩, fun hA c2 log2 hT => ?_⟩
      obtain ⟨c3, evs, h3, hT3, hN⟩ := hB hA c2 log2 hT
      refine ⟨{ c3 with isError := true }, evs, ?_, hT3.setError, hN⟩
      unfold ChunkWriter.uploadOrFail
      rw [h3]
    | none =>
      cases h
      refine ⟨hK, fun hA c2 log2 hT => ?_⟩
      obtain ⟨c3, evs, h3, hT3, hN⟩ := hB hA c2 log2 hT
      refine ⟨c3, evs, ?_, hT3, hN⟩
      unfold ChunkWriter.uploadOrFail
      rw [h3]

/-! ## Second pass over a file: the job path -/

theorem doFixedUpload_length {β : Type} {E : Env} {S : ObjectStorage β} {c c1 : ChunkWriter}
    {wd wd1 : World β} (h : c.doFixedUpload E S wd = some (none, c1, wd1)) : c1.length = 0 := by
  unfold ChunkWriter.doFixedUpload at h
  cases hp : c.prepare c.chunkBuf with
  | none => rw [hp] at h; cases h
  | some r =>
    rw [hp] at h
    cases r with
    | error e1 => cases h
    | ok bc =>
      obtain ⟨body, cs⟩ := bc
      simp only at h
      cases hput : ChunkWriter.putChunk E S c wd body with
      | mk e2 wd2 =>
        rw [hput] at h
        cases e2 with
        | some e3 => cases h
        | none =>
          simp only at h
          cases hc : c.commit c.offset cs with
          | none => rw [hc] at h; cases h
          | some c2 =>
            rw [hc] at h
            cases h
            rfl

theorem uploadOrFail_fixed_length {β : Type} {E : Env} {S : ObjectStorage β}
    {c c1 : ChunkWriter} {wd wd1 : World β} (hf : c.isFixed = true)
    (h : c.uploadOrFail E S wd = some (none, c1, wd1)) : c1.length = 0 := by
  have hd := uploadOrFail_ok h
  unfold ChunkWriter.dispatchUpload at hd
  rw [if_pos hf] at hd
  exact doFixedUpload_length hd

theorem copyInto_inv {dst src d : Bytes} {lo hi : Int} (h : dst.copyInto lo hi src = some d) :
    0 ≤ lo ∧ lo ≤ hi ∧ hi ≤ (dst.len : Int) ∧ d.len = dst.len ∧
      ∀ i, d.get i = if lo.toNat ≤ i ∧ i < lo.toNat + min (hi - lo).toNat src.len
        then src.get (i - lo.toNat) else dst.get i := by
  unfold Bytes.copyInto at h
  by_cases hb : 0 ≤ lo ∧ lo ≤ hi ∧ hi ≤ (dst.len : Int)
  · rw [dif_pos hb] at h
    cases h
    exact ⟨hb.1, hb.2.1, hb.2.2, rfl, fun i => rfl⟩
  · rw [dif_neg hb] at h
    cases h

theorem copyInto_twin {F : Bytes} {c c2 : ChunkWriter} (hT : Twin F c c2) {lo hi : Int}
    {src b1 : Bytes} (h : c.chunkBuf.copyInto lo hi src = some b1) :
    ∃ b2, c2.chunkBuf.copyInto lo hi src = some b2 ∧ b2.len = b1.len ∧
      b1.len = c.chunkBuf.len ∧
      (∀ i, b2.get i = b1.get i ∨ b2.get i = F.get i) ∧
      (lo = c.length → hi - lo ≤ (src.len : Int) →
        ∀ i : Nat, (i : Int) < hi → b2.get i = b1.get i) := by
  obtain ⟨h0, h1, h2, hl, hg⟩ := copyInto_inv h
  obtain ⟨b2, hb2, hl2, hg2⟩ := copyInto_get c2.chunkBuf lo hi src h0 h1
    (by rw [hT.buflen]; exact h2)
  refine ⟨b2, hb2, by rw [hl2, hl, hT.buflen], hl, ?_, ?_⟩
  · intro i
    rw [hg i, hg2 i]
    by_cases hc : lo.toNat ≤ i ∧ i < lo.toNat + min (hi - lo).toNat src.len
    · rw [if_pos hc, if_pos hc]
      exact Or.inl rfl
    · rw [if_neg hc, if_neg hc]
      exact hT.any i
  · intro hlo hsrc i hilt
    rw [hg i, hg2 i]
    by_cases hc : lo.toNat ≤ i ∧ i < lo.toNat + min (hi - lo).toNat src.len
    · rw [if_pos hc, if_pos hc]
    · rw [if_neg hc, if_neg hc]
      exact hT.low i (by omega)

theorem Twin.copied {F : Bytes} {c c2 : ChunkWriter} (hT : Twin F c c2) {b1 b2 : Bytes}
    {hi : Int} (hl : b2.len = b1.len)
    (hany : ∀ i, b2.get i = b1.get i ∨ b2.get i = F.get i)
    (hlow : ∀ i : Nat, (i : Int) < hi → b2.get i = b1.get i)
    {o1 o2 L1 L2 : Int} (ho : o2 = o1) (hL : L2 = L1) (hL1 : L1 = hi) :
    Twin F { c with chunkBuf := b1, offset := o1, length := L1 }
      { c2 with chunkBuf := b2, offset := o2, length := L2 } :=
  ⟨hT.key, hT.index, hT.compress, hT.isError, hT.isFixed, ho, hL, hT.extras, hl,
    fun i hi' => hlow i (by
      have : (i : Int) < L1 := hi'
      omega),
    hany, hT.metas⟩

theorem Twin.jobs {F : Bytes} {c c2 : ChunkWriter} (hT : Twin F c c2) (j1 j2 : List Bytes) :
    Twin F { c with jobs := j1 } { c2 with jobs := j2 } :=
  ⟨hT.key, hT.index, hT.compress, hT.isError, hT.isFixed, hT.offset, hT.length, hT.extras,
    hT.buflen, hT.low, hT.any, hT.metas⟩

theorem copyStep_paired (F : Bytes) (G : MemStore) (src : Bytes) (extra : Int)
    (c : ChunkWriter) (wd : World MemStore) (hsrc : extra ≤ (src.len : Int)) :
    Paired F G (fun c1 wd1 =>
      match c1.chunkBuf.copyInto c1.length (c1.length + extra) src with
      | none => none
      | some b1 =>
        some (none,
          { c1 with chunkBuf := b1, offset := c1.offset + extra, length := c1.length + extra },
          wd1)) c wd := by
  intro e c1 wd1 h
  simp only at h
  cases hci : c.chunkBuf.copyInto c.length (c.length + extra) src with
  | none => rw [hci] at h; cases h
  | some b1 =>
    rw [hci] at h
    cases h
    obtain ⟨_, _, _, hl, _⟩ := copyInto_inv hci
    refine ⟨⟨le_refl _, rfl, rfl, hl, StoreFrame.refl _ _ _, rfl, le_refl _⟩, fun _ c2 log2 hT => ?_⟩
    obtain ⟨b2, hb2, hl2, _, hany, hlow⟩ := copyInto_twin hT hci
    refine ⟨{ c2 with chunkBuf := b2, offset := c2.offset + extra,
                      length := c2.length + extra }, [], ?_,
      hT.copied hl2 hany (hlow rfl (by omega)) (by rw [hT.offset]) (by rw [hT.length]) rfl,
      NoPut.nil⟩
    simp only
    rw [hT.length, hb2, List.append_nil]

theorem pure_paired (F : Bytes) (G : MemStore) (c : ChunkWriter) (wd : World MemStore) :
    Paired F G (fun c1 wd1 => some (none, c1, wd1)) c wd := by
  intro e c1 wd1 h
  cases h
  exact ⟨Kept.same _ _, fun _ c2 log2 hT => ⟨c2, [], by rw [List.append_nil], hT, NoPut.nil⟩⟩

theorem doFixedJob_fit {β : Type} (E : Env) (S : ObjectStorage β) (c : ChunkWriter)
    (wd : World β) (buf : Bytes) (K : Prop) [Decidable K]
    (hK : K ↔ c.length + (buf.len : Int) = ChunkCacheFixedSize)
    (hb : (buf.len : Int) + c.length ≤ ChunkCacheFixedSize) :
    c.doFixedJob E S wd buf =
      Step.andThen
        (match c.chunkBuf.copyInto c.length (c.length + (buf.len : Int)) buf with
          | none => none
          | some b1 =>
            some (none,
              { c with chunkBuf := b1, offset := c.offset + (buf.len : Int)
                       length := c.length + (buf.len : Int) }, wd))
        (fun c1 wd1 => if K then ChunkWriter.uploadOrFail E S c1 wd1 else some (none, c1, wd1)) := by
  unfold ChunkWriter.doFixedJob
  rw [if_pos hb]
  cases hci : c.chunkBuf.copyInto c.length (c.length + (buf.len : Int)) buf with
  | none => rfl
  | some b1 =>
    simp only [andThen_ok]
    by_cases hk : K
    · rw [if_pos hk, if_pos (hK.mp hk)]
    · rw [if_neg hk, if_neg (fun h => hk (hK.mpr h))]

theorem doFixedJob_straddle {β : Type} (E : Env) (S : ObjectStorage β) (c : ChunkWriter)
    (wd : World β) (buf : Bytes) (R : Int) (front back : Bytes)
    (hR : R = ChunkCacheFixedSize - c.length)
    (hb : ¬ (buf.len : Int) + c.length ≤ ChunkCacheFixedSize)
    (hfr : buf.slice 0 R = some front) (hbk : buf.slice R buf.len = some back) :
    c.doFixedJob E S wd buf =
      Step.andThen
        (match c.chunkBuf.copyInto c.length (c.length + R) front with
          | none => none
          | some b1 =>
            some (none,
              { c with chunkBuf := b1, offset := c.offset + R, length := c.length + R }, wd))
        (fun c1 wd1 =>
          (ChunkWriter.uploadOrFail E S c1 wd1).andThen
            (fun c3 wd3 =>
              match c3.chunkBuf.copyInto c3.length ((buf.len : Int) - R) back with
              | none => none
              | some b2 =>
                some (none,
                  { c3 with chunkBuf := b2, length := c3.length + ((buf.len : Int) - R)
                            offset := c3.offset + ((buf.len : Int) - R) }, wd3))) := by
  subst hR
  unfold ChunkWriter.doFixedJob
  rw [if_neg hb, hfr, hbk]
  simp only
  have he : c.length + (ChunkCacheFixedSize - c.length) = ChunkCacheFixedSize := by ring
  rw [he]
  cases hci : c.chunkBuf.copyInto c.length ChunkCacheFixedSize front with
  | none => rfl
  | some b1 => rfl

theorem doFixedJob_paired (E : Env) (hlow : E.ToLower MetaKey = MetaKey) (F : Bytes)
    (G : MemStore) (buf : Bytes) (c : ChunkWriter) (wd : World MemStore)
    (hf : c.isFixed = true) (hcap : (c.chunkBuf.len : Int) = ChunkCacheFixedSize) :
    Paired F G (fun c wd => ChunkWriter.doFixedJob E memStore c wd buf) c wd := by
  by_cases hb : (buf.len : Int) + c.length ≤ ChunkCacheFixedSize
  · -- the buffer fits into the open chunk
    have hP : Paired F G (fun c0 wd0 =>
        Step.andThen
          (match c0.chunkBuf.copyInto c0.length (c0.length + (buf.len : Int)) buf with
            | none => none
            | some b1 =>
              some (none,
                { c0 with chunkBuf := b1, offset := c0.offset + (buf.len : Int)
                          length := c0.length + (buf.len : Int) }, wd0))
          (fun c1 wd1 =>
            if c.length + (buf.len : Int) = ChunkCacheFixedSize then
              ChunkWriter.uploadOrFail E memStore c1 wd1
            else some (none, c1, wd1))) c wd := by
      refine paired_andThen (copyStep_paired F G buf (buf.len : Int) c wd (le_refl _)) ?_
      intro cm wm hcm
      by_cases hfull : c.length + (buf.len : Int) = ChunkCacheFixedSize
      · simp only [if_pos hfull]
        apply uploadOrFail_paired E hlow F G cm wm
        intro _
        left
        simp only at hcm
        cases hci : c.chunkBuf.copyInto c.length (c.length + (buf.len : Int)) buf with
        | none => rw [hci] at hcm; cases hcm
        | some b1 =>
          rw [hci] at hcm
          cases hcm
          obtain ⟨_, _, _, hl, _⟩ := copyInto_inv hci
          show (b1.len : Int) ≤ c.length + (buf.len : Int)
          rw [hl, hcap, hfull]
      · simp only [if_neg hfull]
        exact pure_paired F G cm wm
    refine Paired.congr ?_ ?_ hP
    · exact doFixedJob_fit E memStore c wd buf _ Iff.rfl hb
    · intro c2 log2 hT
      exact doFixedJob_fit E memStore c2 _ buf _ (by rw [hT.length])
        (by rw [hT.length]; exact hb)
  · -- the buffer straddles the end of the open chunk
    cases hfr : buf.slice 0 (ChunkCacheFixedSize - c.length) with
    | none =>
      intro e c1 wd1 h
      have h' : ChunkWriter.doFixedJob E memStore c wd buf = some (e, c1, wd1) := h
      unfold ChunkWriter.doFixedJob at h'
      rw [if_neg hb, hfr] at h'
      cases h'
    | some front =>
      cases hbk : buf.slice (ChunkCacheFixedSize - c.length) buf.len with
      | none =>
        intro e c1 wd1 h
        have h' : ChunkWriter.doFixedJob E memStore c wd buf = some (e, c1, wd1) := h
        unfold ChunkWriter.doFixedJob at h'
        rw [if_neg hb, hfr, hbk] at h'
        cases h'
      | some back =>
        obtain ⟨_, _, _, hfl⟩ := slice_len hfr
        obtain ⟨_, _, _, hbl⟩ := slice_len hbk
        have hP : Paired F G (fun c0 wd0 =>
            Step.andThen
              (match c0.chunkBuf.copyInto c0.length
                  (c0.length + (ChunkCacheFixedSize - c.length)) front with
                | none => none
                | some b1 =>
                  some (none,
                    { c0 with chunkBuf := b1, offset := c0.offset + (ChunkCacheFixedSize - c.length)
                              length := c0.length + (ChunkCacheFixedSize - c.length) }, wd0))
              (fun c1 wd1 =>
                (ChunkWriter.uploadOrFail E memStore c1 wd1).andThen
                  (fun c3 wd3 =>
                    match c3.chunkBuf.copyInto c3.length
                        ((buf.len : Int) - (ChunkCacheFixedSize - c.length)) back with
                    | none => none
                    | some b2 =>
                      some (none,
                        { c3 with chunkBuf := b2
                                  length := c3.length +
                                    ((buf.len : Int) - (ChunkCacheFixedSize - c.length))
                                  offset := c3.offset +
                                    ((buf.len : Int) - (ChunkCacheFixedSize - c.length)) },
                        wd3)))) c wd := by
          refine paired_andThen
            (copyStep_paired F G front (ChunkCacheFixedSize - c.length) c wd (by omega)) ?_
          intro cm wm hcm
          have hcmf : cm.isFixed = true ∧ (cm.chunkBuf.len : Int) ≤ cm.length := by
            simp only at hcm
            cases hci : c.chunkBuf.copyInto c.length
                (c.length + (ChunkCacheFixedSize - c.length)) front with
            | none => rw [hci] at hcm; cases hcm
            | some b1 =>
              rw [hci] at hcm
              cases hcm
              obtain ⟨_, _, _, hl, _⟩ := copyInto_inv hci
              refine ⟨hf, ?_⟩
              show (b1.len : Int) ≤ c.length + (ChunkCacheFixedSize - c.length)
              rw [hl, hcap]
              omega
          refine paired_andThen (uploadOrFail_paired E hlow F G cm wm (fun _ => Or.inl hcmf.2)) ?_
          intro c3 w3 hup
          have hz : c3.length = 0 := uploadOrFail_fixed_length hcmf.1 hup
          refine Paired.congr ?_ ?_ (copyStep_paired F G back
            ((buf.len : Int) - (ChunkCacheFixedSize - c.length)) c3 w3 (by omega))
          · simp only [hz, zero_add]
            first
              | done
              | (cases c3.chunkBuf.copyInto 0 ((buf.len : Int) - (ChunkCacheFixedSize - c.length)) back <;> rfl)
          · intro c4 log4 hT4
            have hz4 : c4.length = 0 := by rw [hT4.length]; exact hz
            simp only [hz4, zero_add]
            first
              | done
              | (cases c4.chunkBuf.copyInto 0 ((buf.len : Int) - (ChunkCacheFixedSize - c.length)) back <;> rfl)
        refine Paired.congr ?_ ?_ hP
        · exact doFixedJob_straddle E memStore c wd buf _ front back rfl hb hfr hbk
        · intro c2 log2 hT
          exact doFixedJob_straddle E memStore c2 _ buf _ front back (by rw [hT.length])
            (by rw [hT.length]; exact hb) hfr hbk

theorem uploadMark_paired (E : Env) (hlow : E.ToLower MetaKey = MetaKey) (F : Bytes)
    (G : MemStore) (c : ChunkWriter) (wd : World MemStore) (hW : Whole F c) :
    Paired F G (fun c wd =>
      match ChunkWriter.dispatchUpload E memStore c wd with
      | none => none
      | some (some e, c1, wd1) => some (some e, { c1 with isError := true }, wd1)
      | some (none, c1, wd1) => some (none, c1, wd1)) c wd := by
  intro e c1 wd1 h
  simp only at h
  cases hd : c.dispatchUpload E memStore wd with
  | none => rw [hd] at h; cases h
  | some v =>
    obtain ⟨e0, cm, wm⟩ := v
    rw [hd] at h
    obtain ⟨hK, hB⟩ := dispatchUpload_paired E hlow F G c wd hW e0 cm wm hd
    cases e0 with
    | some e1 =>
      cases h
      refine ⟨⟨hK.index, hK.key, hK.isFixed, hK.buflen, hK.frame, hK.compress, hK.metas⟩, fun hA c2 log2 hT => ?_⟩
      obtain ⟨c3, evs, h3, hT3, hN⟩ := hB hA c2 log2 hT
      refine ⟨{ c3 with isError := true }, evs, ?_, hT3.setError, hN⟩
      simp only
      rw [h3]
    | none =>
      cases h
      refine ⟨hK, fun hA c2 log2 hT => ?_⟩
      obtain ⟨c3, evs, h3, hT3, hN⟩ := hB hA c2 log2 hT
      refine ⟨c3, evs, ?_, hT3, hN⟩
      simp only
      rw [h3]

theorem doDynamicJob_paired (E : Env) (hlow : E.ToLower MetaKey = MetaKey) (F : Bytes)
    (G : MemStore) (buf : Bytes) (c : ChunkWriter) (wd : World MemStore)
    (hf : c.isFixed = false) :
    Paired F G (fun c wd => ChunkWriter.doDynamicJob E memStore c wd buf) c wd := by
  have hW : Whole F c := fun h => by rw [hf] at h; cases h
  have hP1 : Paired F G (fun c wd =>
      if (buf.len : Int) + c.length > ChunkCacheDynamicSize then
        match ChunkWriter.dispatchUpload E memStore c wd with
        | none => none
        | some (some e, c1, wd1) => some (some e, { c1 with isError := true }, wd1)
        | some (none, c1, wd1) => some (none, c1, wd1)
      else some (none, c, wd)) c wd := by
    by_cases hb : (buf.len : Int) + c.length > ChunkCacheDynamicSize
    · refine Paired.congr ?_ ?_ (uploadMark_paired E hlow F G c wd hW)
      · simp only [if_pos hb]
      · intro c2 log2 hT
        have hb2 : (buf.len : Int) + c2.length > ChunkCacheDynamicSize := by
          rw [hT.length]; exact hb
        simp only [if_pos hb2]
    · refine Paired.congr ?_ ?_ (pure_paired F G c wd)
      · simp only [if_neg hb]
      · intro c2 log2 hT
        have hb2 : ¬ (buf.len : Int) + c2.length > ChunkCacheDynamicSize := by
          rw [hT.length]; exact hb
        simp only [if_neg hb2]
  have hP := paired_andThen hP1
    (fun cm wm _ => copyStep_paired F G buf (buf.len : Int) cm wm (le_refl _))
  have heq : ∀ (c0 : ChunkWriter) (w0 : World MemStore),
      ChunkWriter.doDynamicJob E memStore c0 w0 buf =
        Step.andThen
          (if (buf.len : Int) + c0.length > ChunkCacheDynamicSize then
            match ChunkWriter.dispatchUpload E memStore c0 w0 with
            | none => none
            | some (some e, c1, wd1) => some (some e, { c1 with isError := true }, wd1)
            | some (none, c1, wd1) => some (none, c1, wd1)
          else some (none, c0, w0))
          (fun c1 wd1 =>
            match c1.chunkBuf.copyInto c1.length (c1.length + (buf.len : Int)) buf with
            | none => none
            | some b1 =>
              some (none,
                { c1 with chunkBuf := b1, offset := c1.offset + (buf.len : Int)
                          length := c1.length + (buf.len : Int) }, wd1)) := by
    intro c0 w0
    unfold ChunkWriter.doDynamicJob
    congr 1
    · by_cases hb : (buf.len : Int) + c0.length > ChunkCacheDynamicSize
      · rw [if_pos hb, if_pos hb]
        cases ChunkWriter.dispatchUpload E memStore c0 w0 with
        | none => rfl
        | some v =>
          obtain ⟨e0, c1, w1⟩ := v
          cases e0 <;> rfl
      · rw [if_neg hb, if_neg hb]
  exact Paired.congr (heq c wd) (fun c2 log2 _ => heq c2 _) hP

theorem dispatchJob_paired (E : Env) (hlow : E.ToLower MetaKey = MetaKey) (F : Bytes)
    (G : MemStore) (buf : Bytes) (c : ChunkWriter) (wd : World MemStore)
    (hcap : c.isFixed = true → (c.chunkBuf.len : Int) = ChunkCacheFixedSize) :
    Paired F G (fun c wd => ChunkWriter.dispatchJob E memStore c wd buf) c wd := by
  intro e c1 wd1 h
  have h' : ChunkWriter.dispatchJob E memStore c wd buf = some (e, c1, wd1) := h
  unfold ChunkWriter.dispatchJob at h'
  by_cases hf : c.isFixed = true
  · rw [if_pos hf] at h'
    obtain ⟨hK, hB⟩ := doFixedJob_paired E hlow F G buf { c with jobs := c.jobs ++ [buf] } wd
      hf (hcap hf) e c1 wd1 h'
    refine ⟨⟨hK.index, hK.key, hK.isFixed, hK.buflen, hK.frame, hK.compress, hK.metas⟩, fun hA c2 log2 hT => ?_⟩
    obtain ⟨c3, evs, h3, hT3, hN⟩ := hB hA { c2 with jobs := c2.jobs ++ [buf] } log2
      (hT.jobs _ _)
    refine ⟨c3, evs, ?_, hT3, hN⟩
    show ChunkWriter.dispatchJob E memStore c2 _ buf = _
    unfold ChunkWriter.dispatchJob
    rw [if_pos (by rw [hT.isFixed]; exact hf)]
    exact h3
  · rw [if_neg hf] at h'
    have hf' : c.isFixed = false := by
      cases hx : c.isFixed with
      | true => exact absurd hx hf
      | false => rfl
    obtain ⟨hK, hB⟩ := doDynamicJob_paired E hlow F G buf { c with jobs := c.jobs ++ [buf] } wd
      hf' e c1 wd1 h'
    refine ⟨⟨hK.index, hK.key, hK.isFixed, hK.buflen, hK.frame, hK.compress, hK.metas⟩, fun hA c2 log2 hT => ?_⟩
    obtain ⟨c3, evs, h3, hT3, hN⟩ := hB hA { c2 with jobs := c2.jobs ++ [buf] } log2
      (hT.jobs _ _)
    refine ⟨c3, evs, ?_, hT3, hN⟩
    show ChunkWriter.dispatchJob E memStore c2 _ buf = _
    unfold ChunkWriter.dispatchJob
    rw [if_neg (by rw [hT.isFixed]; exact hf)]
    exact h3

theorem Twin.setExtras {F : Bytes} {c c2 : ChunkWriter} (hT : Twin F c c2)
    (ex : List ExtraCache) : Twin F { c with extras := ex } { c2 with extras := ex } :=
  ⟨hT.key, hT.index, hT.compress, hT.isError, hT.isFixed, hT.offset, hT.length, rfl,
    hT.buflen, hT.low, hT.any, hT.metas⟩

theorem Paired.withExtras {F : Bytes} {G : MemStore}
    {f : ChunkWriter → World MemStore → Step ChunkWriter MemStore} {c : ChunkWriter}
    {wd : World MemStore} (ex : List ExtraCache)
    (h : Paired F G f { c with extras := ex } wd) :
    Paired F G (fun c1 wd1 => f { c1 with extras := ex } wd1) c wd := by
  intro e c1 wd1 hr
  obtain ⟨hK, hB⟩ := h e c1 wd1 hr
  refine ⟨⟨hK.index, hK.key, hK.isFixed, hK.buflen, hK.frame, hK.compress, hK.metas⟩, fun hA c2 log2 hT => ?_⟩
  exact hB hA { c2 with extras := ex } log2 (hT.setExtras ex)

theorem drainExtras_paired (E : Env) (hlow : E.ToLower MetaKey = MetaKey) (F : Bytes)
    (G : MemStore) :
    ∀ (fuel : Nat) (c : ChunkWriter) (wd : World MemStore),
      (c.isFixed = true → (c.chunkBuf.len : Int) = ChunkCacheFixedSize) →
      Paired F G (ChunkWriter.drainExtras E memStore fuel) c wd := by
  intro fuel
  induction fuel with
  | zero =>
    intro c wd _
    exact Paired.congr rfl (fun _ _ _ => rfl) (pure_paired F G c wd)
  | succ fuel ih =>
    intro c wd hcap
    cases htf : takeFirst ExtraCache.off c.offset c.extras with
    | none =>
      refine Paired.congr ?_ ?_ (pure_paired F G c wd)
      · simp only [ChunkWriter.drainExtras, htf]
      · intro c2 log2 hT
        simp only [ChunkWriter.drainExtras, hT.offset, hT.extras, htf]
    | some v =>
      obtain ⟨ec, rest⟩ := v
      have hP := @paired_andThen F G
        (fun c wd => ChunkWriter.dispatchJob E memStore c wd ec.buffer)
        (fun c1 wd1 => ChunkWriter.drainExtras E memStore fuel { c1 with extras := rest } wd1)
        c wd (dispatchJob_paired E hlow F G ec.buffer c wd hcap)
        (fun cm wm hcm => by
          obtain ⟨hK, _⟩ := dispatchJob_paired E hlow F G ec.buffer c wd hcap none cm wm hcm
          exact Paired.withExtras rest (ih { cm with extras := rest } wm (fun hfx => by
            have h1 : (cm.chunkBuf.len : Int) = (c.chunkBuf.len : Int) := by rw [hK.buflen]
            have h2 : c.isFixed = true := by rw [← hK.isFixed]; exact hfx
            show (cm.chunkBuf.len : Int) = _
            rw [h1]
            exact hcap h2)))
      refine Paired.congr ?_ ?_ hP
      · simp only [ChunkWriter.drainExtras, htf]
      · intro c2 log2 hT
        simp only [ChunkWriter.drainExtras, hT.offset, hT.extras, htf]

/-! ## Second pass over a file: `WriteAt` -/

theorem Kept.cap {c c1 : ChunkWriter} {wd wd1 : World MemStore} (hK : Kept c wd c1 wd1)
    (hcap : c.isFixed = true → (c.chunkBuf.len : Int) = ChunkCacheFixedSize) :
    c1.isFixed = true → (c1.chunkBuf.len : Int) = ChunkCacheFixedSize := by
  intro h
  rw [hK.buflen]
  exact hcap (by rw [← hK.isFixed]; exact h)

theorem WriteAt_paired (E : Env) (hlow : E.ToLower MetaKey = MetaKey) (F : Bytes)
    (G : MemStore) (p : Bytes) (off : Int) (c : ChunkWriter) (wd : World MemStore)
    (hcap : c.isFixed = true → (c.chunkBuf.len : Int) = ChunkCacheFixedSize)
    (r : Int × Error) (c1 : ChunkWriter) (wd1 : World MemStore)
    (h : c.WriteAt E memStore wd p off = some (r, c1, wd1)) :
    Kept c wd c1 wd1 ∧
    (Agree G c.key c.index c1.index wd1.be → ∀ c2 log2, Twin F c c2 →
      ∃ c3 evs, c2.WriteAt E memStore ⟨G, log2⟩ p off = some (r, c3, ⟨G, log2 ++ evs⟩) ∧
        Twin F c1 c3 ∧ NoPut evs) := by
  unfold ChunkWriter.WriteAt at h
  by_cases he : c.isError = true
  · rw [if_pos he] at h
    cases h
    refine ⟨Kept.same _ _, fun _ c2 log2 hT => ⟨c2, [], ?_, hT, NoPut.nil⟩⟩
    unfold ChunkWriter.WriteAt
    rw [if_pos (by rw [hT.isError]; exact he), List.append_nil]
  rw [if_neg he] at h
  by_cases ho : off = c.offset
  · rw [if_pos ho] at h
    cases hd : c.dispatchJob E memStore wd p with
    | none => rw [hd] at h; cases h
    | some v =>
      obtain ⟨err, cm, wm⟩ := v
      rw [hd] at h
      obtain ⟨hK, hB⟩ := dispatchJob_paired E hlow F G p c wd hcap err cm wm hd
      cases h
      refine ⟨hK, fun hA c2 log2 hT => ?_⟩
      obtain ⟨c3, evs, h3, hT3, hN⟩ := hB hA c2 log2 hT
      refine ⟨c3, evs, ?_, hT3, hN⟩
      have h3' : c2.dispatchJob E memStore ⟨G, log2⟩ p = some (err, c3, ⟨G, log2 ++ evs⟩) := h3
      unfold ChunkWriter.WriteAt
      rw [if_neg (by rw [hT.isError]; exact he), if_pos (by rw [hT.offset]; exact ho), h3']
  · rw [if_neg ho] at h
    cases hd : ChunkWriter.drainExtras E memStore (c.extras.length + 1)
        { c with extras := c.extras ++ [⟨off, Bytes.copy (Bytes.make p.len) p⟩] } wd with
    | none => rw [hd] at h; cases h
    | some v =>
      obtain ⟨err, cm, wm⟩ := v
      rw [hd] at h
      obtain ⟨hK, hB⟩ := drainExtras_paired E hlow F G (c.extras.length + 1)
        { c with extras := c.extras ++ [⟨off, Bytes.copy (Bytes.make p.len) p⟩] } wd hcap
        err cm wm hd
      have hK' : Kept c wd cm wm :=
        ⟨hK.index, hK.key, hK.isFixed, hK.buflen, hK.frame, hK.compress, hK.metas⟩
      have hpass : ∀ c2 log2, Twin F c c2 → Agree G c.key c.index cm.index wm.be →
          ∃ c3 evs, ChunkWriter.drainExtras E memStore (c2.extras.length + 1)
              { c2 with extras := c2.extras ++ [⟨off, Bytes.copy (Bytes.make p.len) p⟩] }
              ⟨G, log2⟩ = some (err, c3, ⟨G, log2 ++ evs⟩) ∧ Twin F cm c3 ∧ NoPut evs := by
        intro c2 log2 hT hA
        have := hB hA { c2 with extras := c.extras ++ [⟨off, Bytes.copy (Bytes.make p.len) p⟩] }
          log2 (hT.setExtras _)
        rw [hT.extras]
        exact this
      cases err with
      | some e1 =>
        cases h
        refine ⟨hK', fun hA c2 log2 hT => ?_⟩
        obtain ⟨c3, evs, h3, hT3, hN⟩ := hpass c2 log2 hT hA
        refine ⟨c3, evs, ?_, hT3, hN⟩
        unfold ChunkWriter.WriteAt
        rw [if_neg (by rw [hT.isError]; exact he), if_neg (by rw [hT.offset]; exact ho), h3]
      | none =>
        cases h
        refine ⟨hK', fun hA c2 log2 hT => ?_⟩
        obtain ⟨c3, evs, h3, hT3, hN⟩ := hpass c2 log2 hT hA
        refine ⟨c3, evs, ?_, hT3, hN⟩
        unfold ChunkWriter.WriteAt
        rw [if_neg (by rw [hT.isError]; exact he), if_neg (by rw [hT.offset]; exact ho), h3]

theorem writeAll_paired (E : Env) (hlow : E.ToLower MetaKey = MetaKey) (F : Bytes)
    (G : MemStore) :
    ∀ (ws : List (Int × Bytes)) (c : ChunkWriter) (wd : World MemStore)
      (rs : List (Int × Error)) (c1 : ChunkWriter) (wd1 : World MemStore),
      (c.isFixed = true → (c.chunkBuf.len : Int) = ChunkCacheFixedSize) →
      ChunkWriter.writeAll E memStore ws c wd = some (rs, c1, wd1) →
      Kept c wd c1 wd1 ∧
      (Agree G c.key c.index c1.index wd1.be → ∀ c2 log2, Twin F c c2 →
        ∃ c3 evs, ChunkWriter.writeAll E memStore ws c2 ⟨G, log2⟩ =
            some (rs, c3, ⟨G, log2 ++ evs⟩) ∧
          Twin F c1 c3 ∧ NoPut evs) := by
  intro ws
  induction ws with
  | nil =>
    intro c wd rs c1 wd1 _ h
    simp only [ChunkWriter.writeAll] at h
    cases h
    refine ⟨Kept.same _ _, fun _ c2 log2 hT => ⟨c2, [], ?_, hT, NoPut.nil⟩⟩
    simp only [ChunkWriter.writeAll, List.append_nil]
  | cons x rest ih =>
    intro c wd rs c1 wd1 hcap h
    obtain ⟨off, p⟩ := x
    simp only [ChunkWriter.writeAll] at h
    cases hw : c.WriteAt E memStore wd p off with
    | none => rw [hw] at h; cases h
    | some v =>
      obtain ⟨r, cm, wm⟩ := v
      rw [hw] at h
      simp only at h
      cases hr : ChunkWriter.writeAll E memStore rest cm wm with
      | none => rw [hr] at h; cases h
      | some v2 =>
        obtain ⟨rs2, c2', wd2'⟩ := v2
        rw [hr] at h
        cases h
        obtain ⟨hK1, hB1⟩ := WriteAt_paired E hlow F G p off c wd hcap r cm wm hw
        obtain ⟨hK2, hB2⟩ := ih cm wm rs2 c1 wd1 (hK1.cap hcap) hr
        refine ⟨hK1.seq hK2, fun hA c2 log2 hT => ?_⟩
        have hfr : StoreFrame c.key cm.index wm.be wd1.be := by
          have := hK2.frame
          rw [hK1.key] at this
          exact this
        obtain ⟨c3, evs1, h3, hT3, hN1⟩ := hB1 (hA.left hK2.index hfr) c2 log2 hT
        obtain ⟨c4, evs2, h4, hT4, hN2⟩ :=
          hB2 (by rw [hK1.key]; exact hA.right hK1.index) c3 (log2 ++ evs1) hT3
        refine ⟨c4, evs1 ++ evs2, ?_, hT4, hN1.append hN2⟩
        simp only [ChunkWriter.writeAll]
        rw [h3]
        simp only
        rw [h4, List.append_assoc]

/-! ## Second pass over a file: `Flush` and the whole pass -/

theorem lastUpload_buf {β : Type} {E : Env} {S : ObjectStorage β} {c c1 : ChunkWriter}
    {wd wd1 : World β} {e : Error} (h : c.lastUpload E S wd = some (e, c1, wd1)) :
    c1.chunkBuf = c.chunkBuf := by
  unfold ChunkWriter.lastUpload at h
  by_cases hl : c.length > 0
  · rw [if_pos hl] at h
    cases hd : c.dispatchUpload E S wd with
    | none => rw [hd] at h; cases h
    | some v =>
      obtain ⟨e0, cm, wm⟩ := v
      rw [hd] at h
      have := (dispatchUpload_frame hd).2.2.2.2.2.1
      cases e0 <;> (cases h; exact this)
  · rw [if_neg hl] at h
    cases h
    rfl

theorem lastUpload_paired (E : Env) (hlow : E.ToLower MetaKey = MetaKey) (F : Bytes)
    (G : MemStore) (c : ChunkWriter) (wd : World MemStore) (hW : Whole F c) :
    Paired F G (ChunkWriter.lastUpload E memStore) c wd := by
  intro e c1 wd1 h
  unfold ChunkWriter.lastUpload at h
  by_cases hl : c.length > 0
  · rw [if_pos hl] at h
    cases hd : c.dispatchUpload E memStore wd with
    | none => rw [hd] at h; cases h
    | some v =>
      obtain ⟨e0, cm, wm⟩ := v
      rw [hd] at h
      obtain ⟨hK, hB⟩ := dispatchUpload_paired E hlow F G c wd hW e0 cm wm hd
      cases e0 with
      | some e1 =>
        cases h
        refine ⟨hK, fun hA c2 log2 hT => ?_⟩
        obtain ⟨c3, evs, h3, hT3, hN⟩ := hB hA c2 log2 hT
        refine ⟨c3, evs, ?_, hT3, hN⟩
        unfold ChunkWriter.lastUpload
        rw [if_pos (by rw [hT.length]; exact hl), h3]
      | none =>
        cases h
        refine ⟨hK, fun hA c2 log2 hT => ?_⟩
        obtain ⟨c3, evs, h3, hT3, hN⟩ := hB hA c2 log2 hT
        refine ⟨c3, evs, ?_, hT3, hN⟩
        unfold ChunkWriter.lastUpload
        rw [if_pos (by rw [hT.length]; exact hl), h3]
  · rw [if_neg hl] at h
    cases h
    refine ⟨Kept.same _ _, fun _ c2 log2 hT => ⟨c2, [], ?_, hT, NoPut.nil⟩⟩
    unfold ChunkWriter.lastUpload
    rw [if_neg (by rw [hT.length]; exact hl), List.append_nil]

theorem NoPut.onlyMeta {evs : List Event} (h : NoPut evs) (key : String) :
    OnlyMetaPuts key evs := by
  intro ev hev k md b hc
  have := h ev hev
  rw [hc] at this
  cases this

theorem OnlyMetaPuts.concat {key : String} {a b : List Event} (ha : OnlyMetaPuts key a)
    (hb : OnlyMetaPuts key b) : OnlyMetaPuts key (a ++ b) :=
  fun ev h => by
    rcases List.mem_append.mp h with h | h
    · exact ha ev h
    · exact hb ev h

theorem Flush_paired (E : Env) (hlow : E.ToLower MetaKey = MetaKey) (c : ChunkWriter)
    (wd : World MemStore) (e : Error) (c1 : ChunkWriter) (wd1 : World MemStore)
    (hcap : c.isFixed = true → (c.chunkBuf.len : Int) = ChunkCacheFixedSize)
    (h : c.Flush E memStore wd = some (e, c1, wd1)) :
    Kept c wd c1 wd1 ∧
    (∀ G c2 log2, Agree G c.key c.index c1.index wd1.be → Twin c1.chunkBuf c c2 →
      ∃ c3 wd3 evs, c2.Flush E memStore ⟨G, log2⟩ = some (e, c3, wd3) ∧
        wd3.log = log2 ++ evs ∧ OnlyMetaPuts c.key evs) := by
  unfold ChunkWriter.Flush at h
  by_cases he : c.isError = true
  · rw [if_pos he] at h
    cases h
    refine ⟨Kept.same _ _, fun G c2 log2 _ hT => ⟨c2, ⟨G, log2⟩, [], ?_, by simp,
      NoPut.nil.onlyMeta _⟩⟩
    unfold ChunkWriter.Flush
    rw [if_pos (by rw [hT.isError]; exact he)]
  rw [if_neg he] at h
  by_cases hearly : c.length = 0 ∧ c.extras.length = 0
  · rw [if_pos hearly] at h
    cases h
    refine ⟨Kept.same _ _, fun G c2 log2 _ hT => ⟨c2, ⟨G, log2⟩, [], ?_, by simp,
      NoPut.nil.onlyMeta _⟩⟩
    unfold ChunkWriter.Flush
    rw [if_neg (by rw [hT.isError]; exact he),
      if_pos (by rw [hT.length, hT.extras]; exact hearly)]
  rw [if_neg hearly] at h
  -- the first two stages as one paired step
  have hP : ∀ G, Paired c1.chunkBuf G
      (fun c wd => (ChunkWriter.drainExtras E memStore c.extras.length c wd).andThen
        (ChunkWriter.lastUpload E memStore)) c wd := by
    intro G
    have hq := @paired_andThen c1.chunkBuf G
      (ChunkWriter.drainExtras E memStore c.extras.length)
      (ChunkWriter.lastUpload E memStore) c wd
      (drainExtras_paired E hlow c1.chunkBuf G c.extras.length c wd hcap)
      (fun cm wm hcm => by
        apply lastUpload_paired E hlow
        intro _
        right
        rw [hcm, andThen_ok] at h
        rcases andThen_some h with ⟨e1, h1, _⟩ | ⟨s1, w1, h1, h2⟩
        · exact (lastUpload_buf h1).symm
        · have hb := lastUpload_buf h1
          unfold ChunkWriter.putManifest at h2
          cases h2
          exact hb.symm)
    intro e0 c0 w0 h0
    obtain ⟨hK, hB⟩ := hq e0 c0 w0 h0
    refine ⟨hK, fun hA c2 log2 hT => ?_⟩
    obtain ⟨c3, evs, h3, hT3, hN⟩ := hB hA c2 log2 hT
    refine ⟨c3, evs, ?_, hT3, hN⟩
    show (ChunkWriter.drainExtras E memStore c2.extras.length c2 ⟨G, log2⟩).andThen _ = _
    rw [hT.extras]
    exact h3
  rcases andThen_some h with ⟨e1, h1, he1⟩ | ⟨s1, w1, h1, h2⟩
  · subst he1
    obtain ⟨hK, _⟩ := hP wd.be (some e1) c1 wd1 h1
    refine ⟨hK, fun G c2 log2 hA hT => ?_⟩
    obtain ⟨_, hB⟩ := hP G (some e1) c1 wd1 h1
    obtain ⟨c3, evs, h3, _, hN⟩ := hB hA c2 log2 hT
    refine ⟨c3, ⟨G, log2 ++ evs⟩, evs, ?_, rfl, hN.onlyMeta _⟩
    unfold ChunkWriter.Flush
    rw [if_neg (by rw [hT.isError]; exact he),
      if_neg (by rw [hT.length, hT.extras]; exact hearly)]
    have h3' : (ChunkWriter.drainExtras E memStore c2.extras.length c2 ⟨G, log2⟩).andThen
        (ChunkWriter.lastUpload E memStore) = some (some e1, c3, ⟨G, log2 ++ evs⟩) := h3
    rw [h3']
    rfl
  · obtain ⟨hK, _⟩ := hP wd.be none s1 w1 h1
    unfold ChunkWriter.putManifest at h2
    have hc1 : c1 = s1 := by cases h2; rfl
    subst hc1
    have hw1 : wd1 = (w1.Put memStore (c1.key ++ "/.meta") [("aa", "bb")]
        (E.Marshal c1.ChunkMetas)).2 := by cases h2; rfl
    have hee : e = none := by cases h2; rfl
    have hfr : StoreFrame c.key c1.index w1.be wd1.be := by
      intro k hk _
      rw [hw1]
      show (if k = c1.key ++ "/.meta" then _ else w1.be.objects k) = _
      rw [if_neg (by rw [hK.key]; exact hk)]
    refine ⟨⟨hK.index, hK.key, hK.isFixed, hK.buflen,
      StoreFrame.trans hK.index hK.frame hfr, hK.compress, hK.metas⟩,
      fun G c2 log2 hA hT => ?_⟩
    obtain ⟨_, hB⟩ := hP G none c1 w1 h1
    obtain ⟨c3, evs, h3, hT3, hN⟩ := hB (hA.left (le_refl _) hfr) c2 log2 hT
    refine ⟨c3, ((⟨G, log2 ++ evs⟩ : World MemStore).Put memStore (c3.key ++ "/.meta")
        [("aa", "bb")] (E.Marshal c3.ChunkMetas)).2,
      evs ++ [⟨Call.Put (c3.key ++ "/.meta") [("aa", "bb")]
        (E.Marshal c3.ChunkMetas), false⟩], ?_, ?_, ?_⟩
    · unfold ChunkWriter.Flush
      rw [if_neg (by rw [hT.isError]; exact he),
        if_neg (by rw [hT.length, hT.extras]; exact hearly)]
      have h3' : (ChunkWriter.drainExtras E memStore c2.extras.length c2 ⟨G, log2⟩).andThen
          (ChunkWriter.lastUpload E memStore) = some (none, c3, ⟨G, log2 ++ evs⟩) := h3
      rw [h3', andThen_ok, hee]
      rfl
    · show (log2 ++ evs) ++ _ = _
      rw [List.append_assoc]
      rfl
    · refine (hN.onlyMeta _).concat ?_
      intro ev hev k md b hc
      rw [List.mem_singleton.mp hev] at hc
      cases hc
      rw [hT3.key, hK.key]

theorem second_pass (E : Env) (hlow : E.ToLower MetaKey = MetaKey) (key : String)
    (cmp : Option Codec) (isFixed : Bool) (st : MemStore) (log : List Event)
    (ws : List (Int × Bytes)) (rs : List (Int × Error)) (e : Error) (c1 : ChunkWriter)
    (wd1 : World MemStore)
    (hrun : ChunkWriter.run E memStore ws (NewChunkWriter key cmp isFixed) ⟨st, log⟩ =
      some ((rs, e), c1, wd1)) :
    ∃ c3 wd3 evs, ChunkWriter.run E memStore ws c1.Release wd1 = some ((rs, e), c3, wd3) ∧
      wd3.log = wd1.log ++ evs ∧ OnlyMetaPuts key evs := by
  unfold ChunkWriter.run at hrun
  cases hw : ChunkWriter.writeAll E memStore ws (NewChunkWriter key cmp isFixed) ⟨st, log⟩ with
  | none => rw [hw] at hrun; cases hrun
  | some v =>
    obtain ⟨rs0, cw, ww⟩ := v
    rw [hw] at hrun
    simp only at hrun
    cases hf : cw.Flush E memStore ww with
    | none => rw [hf] at hrun; cases hrun
    | some v2 =>
      obtain ⟨e0, c1', wd1'⟩ := v2
      rw [hf] at hrun
      cases hrun
      have hcap0 : (NewChunkWriter key cmp isFixed).isFixed = true →
          ((NewChunkWriter key cmp isFixed).chunkBuf.len : Int) = ChunkCacheFixedSize := by
        intro h
        have h' : isFixed = true := h
        subst h'
        exact (by decide : ((Bytes.make ChunkCacheFixedSize.toNat).len : Int) =
          ChunkCacheFixedSize)
      obtain ⟨hKW, hBW⟩ := writeAll_paired E hlow c1.chunkBuf wd1.be ws
        (NewChunkWriter key cmp isFixed) ⟨st, log⟩ rs cw ww hcap0 hw
      obtain ⟨hKF, hBF⟩ := Flush_paired E hlow cw ww e c1 wd1 (hKW.cap hcap0) hf
      have hT : Twin c1.chunkBuf (NewChunkWriter key cmp isFixed) c1.Release :=
        ⟨hKF.key.trans hKW.key, rfl, hKF.compress.trans hKW.compress, rfl,
          hKF.isFixed.trans hKW.isFixed, rfl, rfl, rfl, hKF.buflen.trans hKW.buflen,
          fun i hi => by
            have : (i : Int) < 0 := hi
            omega,
          fun i => Or.inr rfl,
          by
            have h1 := hKW.metas
            have h2 := hKF.metas
            have h0 : (NewChunkWriter key cmp isFixed).ChunkMetas.length = 1 := rfl
            show 0 < c1.ChunkMetas.length
            omega⟩
      have hfr : StoreFrame key cw.index ww.be wd1.be := by
        have := hKF.frame
        rw [hKW.key] at this
        exact this
      have hA1 : Agree wd1.be (NewChunkWriter key cmp isFixed).key
          (NewChunkWriter key cmp isFixed).index cw.index ww.be :=
        fun j _ hj => hfr.at hj
      obtain ⟨c3, evs1, h3, hT3, hN1⟩ := hBW hA1 c1.Release wd1.log hT
      obtain ⟨c4, wd4, evs2, h4, hl4, hO⟩ := hBF wd1.be c3 (wd1.log ++ evs1)
        (fun _ _ _ => rfl) hT3
      refine ⟨c4, wd4, evs1 ++ evs2, ?_, by rw [hl4, List.append_assoc], ?_⟩
      · unfold ChunkWriter.run
        have h3' : ChunkWriter.writeAll E memStore ws c1.Release wd1 =
            some (rs, c3, ⟨wd1.be, wd1.log ++ evs1⟩) := h3
        rw [h3']
        simp only
        rw [h4]
      · refine (hN1.onlyMeta key).concat ?_
        have : cw.key = key := hKW.key
        rw [this] at hO
        exact hO

/-- C6. Dedup on rewrite, over the in-memory store (`Put` records body and
metadata under the key, `Head` returns that metadata), in fixed and in dynamic
mode, with or without compression, for a lower-casing function that leaves
`chunkid` as it is: a fresh chunk writer makes any sequence of `WriteAt` calls
followed by `Flush`; the handle is released and the same calls are made
again.  The second pass returns the same results as the first, and every `Put`
it issues is the `Put` of the manifest `<file_key>/.meta`: it issues no `Put`
to any chunk key `<file_key>/<index>`. -/
theorem dedup_on_rewrite (E : Env) (hlow : E.ToLower MetaKey = MetaKey) (key : String)
    (cmp : Option Codec) (isFixed : Bool) (st : MemStore) (log : List Event)
    (ws : List (Int × Bytes)) (rs : List (Int × Error)) (e : Error) (c1 : ChunkWriter)
    (wd1 : World MemStore)
    (hrun : ChunkWriter.run E memStore ws (NewChunkWriter key cmp isFixed) ⟨st, log⟩ =
      some ((rs, e), c1, wd1)) :
    ∃ c3 wd3 evs, ChunkWriter.run E memStore ws c1.Release wd1 = some ((rs, e), c3, wd3) ∧
      wd3.log = wd1.log ++ evs ∧ OnlyMetaPuts key evs ∧
      ∀ ev ∈ evs, ∀ (i : Nat) md b,
        ev.call ≠ Call.Put (key ++ "/" ++ Itoa (i : Int)) md b := by
  obtain ⟨c3, wd3, evs, h1, h2, h3⟩ := second_pass E hlow key cmp isFixed st log ws rs e c1 wd1 hrun
  refine ⟨c3, wd3, evs, h1, h2, h3, ?_⟩
  intro ev hev i md b hc
  exact chunkKey_ne_meta key i (h3 ev hev _ md b hc)

theorem toLower_metaKey : exampleEnv.ToLower MetaKey = MetaKey := by
  show String.toLower "chunkid" = "chunkid"
  unfold String.toLower
  rw [String.map_eq]
  decide

set_option maxRecDepth 100000 in
/-- Witness for C6: a file of 8 MiB + 1 byte in fixed mode, the last byte
written first, written twice through the same handle. -/
theorem dedup_on_rewrite_witness :
    ∃ c1 wd1,
      ChunkWriter.run exampleEnv memStore
          [(8388608, Bytes.fill 1 2), (0, Bytes.fill 8388608 1)]
          (NewChunkWriter "f" none true) ⟨MemStore.empty, []⟩ =
        some (([(1, none), (8388608, none)], none), c1, wd1) ∧
      ∃ c3 wd3 evs,
        ChunkWriter.run exampleEnv memStore
            [(8388608, Bytes.fill 1 2), (0, Bytes.fill 8388608 1)] c1.Release wd1 =
          some (([(1, none), (8388608, none)], none), c3, wd3) ∧
        wd3.log = wd1.log ++ evs ∧ OnlyMetaPuts "f" evs ∧
        ∀ ev ∈ evs, ∀ (i : Nat) md b,
          ev.call ≠ Call.Put ("f" ++ "/" ++ Itoa (i : Int)) md b := by
  obtain ⟨c1, wd1, h⟩ : ∃ c1 wd1,
      ChunkWriter.run exampleEnv memStore
          [(8388608, Bytes.fill 1 2), (0, Bytes.fill 8388608 1)]
          (NewChunkWriter "f" none true) ⟨MemStore.empty, []⟩ =
        some (([(1, none), (8388608, none)], none), c1, wd1) := ⟨_, _, rfl⟩
  exact ⟨c1, wd1, h, dedup_on_rewrite exampleEnv toLower_metaKey "f" none true MemStore.empty []
    _ _ _ c1 wd1 h⟩

/-! ## Behaviour at failing inputs -/

/-- C21, at a failing input: a fresh fixed-mode chunk writer gets the deferred
write of the bytes `[4, 5]` at offset 3 and then the in-order write of the
bytes `[1, 2, 3]` at offset 0.  Both calls succeed; after the second one the
writer's offset is 3 and the holding list still holds the entry with
`off = 3`: the in-order path of `WriteAt` returns without the drain loop. -/
theorem inorder_write_skips_drain :
    ∃ c1 wd1 c2 wd2,
      (NewChunkWriter "f" none true).WriteAt exampleEnv memStore ⟨MemStore.empty, []⟩
          (Bytes.ofList [4, 5]) 3 = some ((2, none), c1, wd1) ∧
      c1.WriteAt exampleEnv memStore wd1 (Bytes.ofList [1, 2, 3]) 0 =
        some ((3, none), c2, wd2) ∧
      c2.offset = 3 ∧ c2.extras.map ExtraCache.off = [3] :=
  ⟨_, _, _, _, rfl, rfl, rfl, rfl⟩

set_option maxRecDepth 100000 in
/-- C23, at a failing input: a file of three bytes is written by a fixed-mode
chunk writer without compression and flushed; a fresh chunk reader reads one
byte at offset 0, which loads the manifest, and then gets a request of 8 MiB
at offset 1 (inside the file, extending past its end).  The second `ReadAt`
panics: it slices the slot buffer of 8388608 bytes with `[1 : 8388609]`. -/
theorem chunk_read_past_end_panics :
    ∃ c2 wd2 p1 r1 wd3,
      ChunkWriter.run exampleEnv memStore [(0, Bytes.ofList [1, 2, 3])]
          (NewChunkWriter "f" none true) ⟨MemStore.empty, []⟩ =
        some (([(3, none)], none), c2, wd2) ∧
      c2.ChunkMetas = [⟨0, 0, 3, 8388608⟩, ⟨1, 3, 0, 0⟩] ∧
      (NewChunkReader "f" none true).ReadAt exampleEnv memStore wd2 (Bytes.make 1) 0 =
        some ((1, none), p1, r1, wd3) ∧
      r1.ChunkMetas = c2.ChunkMetas ∧ r1.c.buf.len = 8388608 ∧
      r1.ReadAt exampleEnv memStore wd3 (Bytes.make 8388608) 1 = none :=
  ⟨_, _, _, _, _, rfl, rfl, rfl, rfl, rfl, rfl⟩

set_option maxRecDepth 100000 in
/-- C24, at a failing input: an object of 64 MiB + 10 bytes; a fresh normal
reader reads one byte at offset 0 and one byte at offset 64 MiB, after which
its window is `[67108864, 67108874)` and ends at the end of the object.  A
request of 64 MiB at offset 11, which starts before the window and extends
past the end of the object, panics: `ReadAt` slices the window buffer from
the negative index `11 - 67108864`. -/
theorem normal_read_before_window_panics :
    ∃ p1 r1 wd1 p2 r2 wd2,
      (NewReader "f").ReadAt memStore ⟨MemStore.single "f" (Bytes.fill 67108874 7), []⟩
          (Bytes.make 1) 0 = some ((1, none), p1, r1, wd1) ∧
      r1.ReadAt memStore wd1 (Bytes.make 1) 67108864 = some ((1, none), p2, r2, wd2) ∧
      r2.cache.start = 67108864 ∧ r2.cache.offset = 67108874 ∧ r2.cache.size = 67108874 ∧
      r2.ReadAt memStore wd2 (Bytes.make 67108864) 11 = none :=
  ⟨_, _, _, _, _, _, rfl, rfl, rfl, rfl, rfl, rfl⟩

set_option maxRecDepth 100000 in
/-- C25, at a failing input: a fixed-mode chunk writer writes the bytes
`[1, 2, 3]` at offset 0 and is flushed and released.  The released handle has
`index = 0` and a manifest of two records, whose record at `index` is the
closed record `[0, 3)`, not an open sentinel.  The same write and flush
through the released handle leave a manifest of three records, where a
fresh writer leaves two. -/
theorem release_keeps_manifest :
    ∃ c2 wd2 c3 wd3,
      ChunkWriter.run lowerEnv memStore [(0, Bytes.ofList [1, 2, 3])]
          (NewChunkWriter "f" none true) ⟨MemStore.empty, []⟩ =
        some (([(3, none)], none), c2, wd2) ∧
      c2.ChunkMetas = [⟨0, 0, 3, 8388608⟩, ⟨1, 3, 0, 0⟩] ∧
      c2.Release.index = 0 ∧ c2.Release.ChunkMetas.length = 2 ∧
      c2.Release.ChunkMetas.get? c2.Release.index = some ⟨0, 0, 3, 8388608⟩ ∧
      ChunkWriter.run lowerEnv memStore [(0, Bytes.ofList [1, 2, 3])] c2.Release wd2 =
        some (([(3, none)], none), c3, wd3) ∧
      c3.ChunkMetas = [⟨0, 0, 3, 8388608⟩, ⟨1, 3, 0, 0⟩, ⟨1, 3, 0, 0⟩] :=
  ⟨_, _, _, _, rfl, rfl, rfl, rfl, rfl, rfl, rfl⟩

/-! ## Fixed mode: what one job does to the offset, the length and the index -/

theorem putChunk_shape {β : Type} (E : Env) (S : ObjectStorage β) (c : ChunkWriter)
    (wd : World β) (body : Bytes) :
    ∃ evs, (c.putChunk E S wd body).2.log = wd.log ++ evs ∧
      (evs.filter (fun ev => ev.call.isHead)).length = 1 ∧
      (evs.filter (fun ev => ev.call.isPut)).length ≤ 1 := by
  obtain ⟨_, hwd⟩ := checkDuplicate_iff E S c wd (E.Sum256 body)
  unfold ChunkWriter.putChunk
  by_cases hd : (ChunkWriter.checkDuplicate E S c wd (E.Sum256 body)).1 = true
  · rw [if_pos hd, hwd]
    exact ⟨[⟨Call.Head c.uploadKey, Except.failed (S.Head wd.be c.uploadKey).1⟩], rfl, rfl,
      by simp [List.filter, Call.isPut]⟩
  · rw [if_neg hd, hwd]
    unfold World.Put
    refine ⟨[⟨Call.Head c.uploadKey, Except.failed (S.Head wd.be c.uploadKey).1⟩,
      ⟨Call.Put c.uploadKey [(MetaKey, (E.Sum256 body).String)] body,
        (S.Put (S.Head wd.be c.uploadKey).2 c.uploadKey
          [(MetaKey, (E.Sum256 body).String)] body).1.isSome⟩],
      by simp only [List.append_assoc, List.cons_append, List.nil_append], rfl, ?_⟩
    simp [List.filter, Call.isPut]

theorem doFixedUpload_one {β : Type} {E : Env} {S : ObjectStorage β} {c c1 : ChunkWriter}
    {wd wd1 : World β} (h : c.doFixedUpload E S wd = some (none, c1, wd1)) :
    c1.index = c.index + 1 ∧ c1.length = 0 ∧ c1.offset = c.offset ∧
      c1.ChunkMetas.length = c.ChunkMetas.length + 1 ∧
      ∃ evs, wd1.log = wd.log ++ evs ∧
        (evs.filter (fun ev => ev.call.isHead)).length = 1 ∧
        (evs.filter (fun ev => ev.call.isPut)).length ≤ 1 := by
  unfold ChunkWriter.doFixedUpload at h
  cases hp : c.prepare c.chunkBuf with
  | none => rw [hp] at h; cases h
  | some r =>
    rw [hp] at h
    cases r with
    | error e1 => cases h
    | ok bc =>
      obtain ⟨body, cs⟩ := bc
      simp only at h
      obtain ⟨evs, he1, he2, he3⟩ := putChunk_shape E S c wd body
      cases hput : ChunkWriter.putChunk E S c wd body with
      | mk e2 wd2 =>
        rw [hput] at h he1
        cases e2 with
        | some e3 => cases h
        | none =>
          simp only at h
          cases hc : c.commit c.offset cs with
          | none => rw [hc] at h; cases h
          | some c2 =>
            rw [hc] at h
            cases h
            unfold ChunkWriter.commit at hc
            cases hm : c.ChunkMetas.get? c.index with
            | none => rw [hm] at hc; cases hc
            | some m =>
              rw [hm] at hc
              cases hc
              refine ⟨rfl, rfl, rfl, ?_, evs, he1, he2, he3⟩
              show (List.set _ _ _ ++ [_]).length = _
              rw [List.length_append, List.length_set, List.length_singleton]

theorem uploadOrFail_one {β : Type} {E : Env} {S : ObjectStorage β} {c c1 : ChunkWriter}
    {wd wd1 : World β} (hf : c.isFixed = true)
    (h : c.uploadOrFail E S wd = some (none, c1, wd1)) :
    c1.index = c.index + 1 ∧ c1.length = 0 ∧ c1.offset = c.offset ∧
      c1.ChunkMetas.length = c.ChunkMetas.length + 1 ∧
      ∃ evs, wd1.log = wd.log ++ evs ∧
        (evs.filter (fun ev => ev.call.isHead)).length = 1 ∧
        (evs.filter (fun ev => ev.call.isPut)).length ≤ 1 := by
  have hd := uploadOrFail_ok h
  unfold ChunkWriter.dispatchUpload at hd
  rw [if_pos hf] at hd
  exact doFixedUpload_one hd

theorem fixed_job_steps {β : Type} (E : Env) (S : ObjectStorage β) (c : ChunkWriter)
    (wd : World β) (buf : Bytes) (c1 : ChunkWriter) (wd1 : World β)
    (hf : c.isFixed = true) (h0 : 0 ≤ c.length) (hlt : c.length < ChunkCacheFixedSize)
    (hb : (buf.len : Int) ≤ ChunkCacheFixedSize)
    (h : c.doFixedJob E S wd buf = some (none, c1, wd1)) :
    c1.offset = c.offset + (buf.len : Int) ∧
    c1.length = (c.length + (buf.len : Int)) % ChunkCacheFixedSize ∧
    (c.length + (buf.len : Int) ≥ ChunkCacheFixedSize →
      c1.index = c.index + 1 ∧ c1.ChunkMetas.length = c.ChunkMetas.length + 1 ∧
      ∃ evs, wd1.log = wd.log ++ evs ∧
        (evs.filter (fun ev => ev.call.isHead)).length = 1 ∧
        (evs.filter (fun ev => ev.call.isPut)).length ≤ 1) ∧
    (c.length + (buf.len : Int) < ChunkCacheFixedSize →
      c1.index = c.index ∧ c1.ChunkMetas = c.ChunkMetas ∧ wd1 = wd) := by
  have hcap := fixedCap_eq
  by_cases hfit : (buf.len : Int) + c.length ≤ ChunkCacheFixedSize
  · rw [doFixedJob_fit E S c wd buf _ Iff.rfl hfit] at h
    cases hci : c.chunkBuf.copyInto c.length (c.length + (buf.len : Int)) buf with
    | none => rw [hci] at h; cases h
    | some b1 =>
      rw [hci, andThen_ok] at h
      by_cases hfull : c.length + (buf.len : Int) = ChunkCacheFixedSize
      · rw [if_pos hfull] at h
        obtain ⟨g1, g2, g3, g4, g5⟩ := uploadOrFail_one (by exact hf) h
        refine ⟨g3, ?_, fun _ => ⟨g1, g4, g5⟩, fun hlt2 => by omega⟩
        rw [g2, hfull, hcap]
        rfl
      · rw [if_neg hfull] at h
        cases h
        refine ⟨rfl, ?_, fun hge => by omega, fun _ => ⟨rfl, rfl, rfl⟩⟩
        show c.length + (buf.len : Int) = _
        rw [hcap] at hfit hfull ⊢
        omega
  · cases hfr : buf.slice 0 (ChunkCacheFixedSize - c.length) with
    | none =>
      unfold ChunkWriter.doFixedJob at h
      rw [if_neg hfit, hfr] at h
      cases h
    | some front =>
      cases hbk : buf.slice (ChunkCacheFixedSize - c.length) buf.len with
      | none =>
        unfold ChunkWriter.doFixedJob at h
        rw [if_neg hfit, hfr, hbk] at h
        cases h
      | some back =>
        rw [doFixedJob_straddle E S c wd buf _ front back rfl hfit hfr hbk] at h
        cases hci : c.chunkBuf.copyInto c.length
            (c.length + (ChunkCacheFixedSize - c.length)) front with
        | none => rw [hci] at h; cases h
        | some b1 =>
          rw [hci, andThen_ok] at h
          rcases andThen_some h with ⟨e1, _, he1⟩ | ⟨cu, wu, hu, h2⟩
          · cases he1
          · obtain ⟨g1, g2, g3, g4, g5⟩ := uploadOrFail_one (by exact hf) hu
            cases hc2 : cu.chunkBuf.copyInto cu.length
                ((buf.len : Int) - (ChunkCacheFixedSize - c.length)) back with
            | none => rw [hc2] at h2; cases h2
            | some b2 =>
              rw [hc2] at h2
              cases h2
              refine ⟨?_, ?_, fun _ => ⟨g1, g4, g5⟩, fun hlt2 => by omega⟩
              · show cu.offset + ((buf.len : Int) - (ChunkCacheFixedSize - c.length)) = _
                rw [g3]
                show c.offset + (ChunkCacheFixedSize - c.length) + _ = _
                ring
              · show cu.length + ((buf.len : Int) - (ChunkCacheFixedSize - c.length)) = _
                rw [g2]
                rw [hcap] at hfit hlt hb ⊢
                omega

/-- C22. Offset advance in fixed mode, over any backend: for a fixed-mode
writer state with `0 <= length < FIXED_CAP` and a buffer with `len(buf) <=
FIXED_CAP`, a `doFixedJob(buf)` that returns no error has increased `offset`
by exactly `len(buf)` and left `length = (old length + len(buf)) mod
FIXED_CAP`.  When `old length + len(buf) >= FIXED_CAP` it has emitted exactly
one chunk: the index and the number of manifest records have grown by one,
and the backend has seen exactly one dedup probe (`Head`) and at most one
`Put`.  Otherwise it has emitted none: index and manifest are unchanged and no
backend call was made. -/
theorem fixed_job_offset_advance {β : Type} (E : Env) (S : ObjectStorage β) (c : ChunkWriter)
    (wd : World β) (buf : Bytes) (c1 : ChunkWriter) (wd1 : World β)
    (hf : c.isFixed = true) (h0 : 0 ≤ c.length) (hlt : c.length < ChunkCacheFixedSize)
    (hb : (buf.len : Int) ≤ ChunkCacheFixedSize)
    (h : c.doFixedJob E S wd buf = some (none, c1, wd1)) :
    c1.offset = c.offset + (buf.len : Int) ∧
    c1.length = (c.length + (buf.len : Int)) % ChunkCacheFixedSize ∧
    (c.length + (buf.len : Int) ≥ ChunkCacheFixedSize →
      c1.index = c.index + 1 ∧ c1.ChunkMetas.length = c.ChunkMetas.length + 1 ∧
      ∃ evs, wd1.log = wd.log ++ evs ∧
        (evs.filter (fun ev => ev.call.isHead)).length = 1 ∧
        (evs.filter (fun ev => ev.call.isPut)).length ≤ 1) ∧
    (c.length + (buf.len : Int) < ChunkCacheFixedSize →
      c1.index = c.index ∧ c1.ChunkMetas = c.ChunkMetas ∧ wd1 = wd) :=
  fixed_job_steps E S c wd buf c1 wd1 hf h0 hlt hb h

set_option maxRecDepth 100000 in
/-- Witness for C22: three bytes are buffered and a buffer of 8 MiB arrives,
which straddles the chunk boundary. -/
theorem fixed_job_offset_advance_witness :
    ∃ c1 wd1,
      ChunkWriter.doFixedJob exampleEnv memStore
          { NewChunkWriter "f" none true with length := 3, offset := 3 }
          ⟨MemStore.empty, []⟩ (Bytes.fill 8388608 1) = some (none, c1, wd1) ∧
      c1.offset = 3 + 8388608 ∧ c1.length = 3 ∧ c1.index = 1 := by
  obtain ⟨c1, wd1, h⟩ : ∃ c1 wd1,
      ChunkWriter.doFixedJob exampleEnv memStore
          { NewChunkWriter "f" none true with length := 3, offset := 3 }
          ⟨MemStore.empty, []⟩ (Bytes.fill 8388608 1) = some (none, c1, wd1) := ⟨_, _, rfl⟩
  obtain ⟨h1, h2, h3, _⟩ := fixed_job_offset_advance exampleEnv memStore
    { NewChunkWriter "f" none true with length := 3, offset := 3 }
    ⟨MemStore.empty, []⟩ (Bytes.fill 8388608 1) c1 wd1 rfl (by decide) (by decide) (by decide) h
  exact ⟨c1, wd1, h, h1, h2.trans (by decide), (h3 (by decide)).1⟩

end Muyifs
